import Mathlib

/-! # Forrest–Tomlin update and triangular solves of `HFactor` (src/ft.cpp)

A shallow embedding of `HFactor::ftranL`, `btranL`, `ftranU`, `btranU`,
`ftranFT`, `btranFT` and `updateFT`, and of the part of the simplex driver
`HEkk` (src/src/simplex/HEkk.cpp) that sets the basis, gets the factor,
counts the updates, draws the random permutations, assigns the moves and the
values of the nonbasic variables, chooses the PRICE technique and bails out.

Conventions of the embedding.

* A `std::vector<int>` is a `List Int`, a `std::vector<double>` a `List ℚ`
  (exact arithmetic: rounding is not modelled).  C++ `int` is `Int`; no
  claim here depends on 32-bit wrap-around, which is not modelled.
* Indexing is by `Int`, through `getI` and `setI`.  C++ leaves an access
  outside the vector undefined; here such a read gives `0` and such a write
  is dropped.  Statements that need an access to be in range say so.
* `for` loops are `loopUp` (ascending) and `loopDown` (descending) over the
  number of iterations.
* The constants `HIGHS_CONST_TINY`, `HIGHS_CONST_ZERO`, the `hyper*`
  thresholds and `UPDATE_METHOD_FT` are declared outside the files at hand,
  they are the fields of `Consts`; those of the driver are the fields of
  `EkkConsts`, `PriceConsts` and `MoveConsts`, and the functions it calls
  outside the files are the fields of `EkkEnv`; `highs_isInfinity`,
  `HIGHS_CONST_INF` and the generator `HighsRandom` are parameters.
-/

namespace HFactorFT

/-! ## Vectors indexed by `Int` -/

/-- Read `l[i]`; `0` outside the vector. -/
def getI {α : Type} [Zero α] (l : List α) (i : Int) : α :=
  if 0 ≤ i then l.getD i.toNat 0 else 0

/-- Write `l[i] = v`; dropped outside the vector. -/
def setI {α : Type} (l : List α) (i : Int) (v : α) : List α :=
  if 0 ≤ i then l.set i.toNat v else l

/-- The size of a vector as an `int`. -/
def sizeI {α : Type} (l : List α) : Int := (l.length : Int)

/-- The call `v.resize(n)` of `std::vector`: truncate, or pad with zeros. -/
def resizeI {α : Type} [Zero α] (l : List α) (n : Int) : List α :=
  if n.toNat ≤ l.length then l.take n.toNat
  else l ++ List.replicate (n.toNat - l.length) 0

/-- Ascending loop: `f 0`, then `f 1`, ..., then `f (n-1)`. -/
def loopUp {σ : Type} (f : Nat → σ → σ) : Nat → σ → σ
  | 0, s => s
  | n + 1, s => f n (loopUp f n s)

/-- Descending loop: `f (n-1)`, then `f (n-2)`, ..., then `f 0`. -/
def loopDown {σ : Type} (f : Nat → σ → σ) : Nat → σ → σ
  | 0, s => s
  | n + 1, s => loopDown f n (f n s)

/-- The loop `for (int k = lo; k < hi; k++) body(k)`, for a body that does not
change `lo` and `hi`. -/
def forRange {σ : Type} (lo hi : Int) (body : Int → σ → σ) (s : σ) : σ :=
  loopUp (fun j t => body (lo + (j : Int)) t) (hi - lo).toNat s

/-! ## Data -/

/-- Constants declared outside the files at hand. -/
structure Consts where
  tiny : ℚ
  zero : ℚ
  hyperCANCEL : ℚ
  hyperFTRANU : ℚ
  hyperBTRANL : ℚ
  hyperBTRANU : ℚ
  UPDATE_METHOD_FT : Int

/-- The sparse vector buffer `HVector`. -/
structure HVector where
  count : Int
  index : List Int
  array : List ℚ
  packCount : Int
  packIndex : List Int
  packValue : List ℚ
  syntheticTick : ℚ
deriving DecidableEq, Repr

/-- The members of `HFactor` that src/ft.cpp reads and writes.
`current_density` and `historical_density` are the free names read by the
density tests of `btranL`, `ftranU` and `btranU`. -/
structure HFactor where
  numRow : Int
  updateMethod : Int
  current_density : ℚ
  historical_density : ℚ
  LpivotIndex : List Int
  Lstart : List Int
  Lindex : List Int
  Lvalue : List ℚ
  LRstart : List Int
  LRindex : List Int
  LRvalue : List ℚ
  UpivotLookup : List Int
  UpivotIndex : List Int
  UpivotValue : List ℚ
  Ustart : List Int
  Ulastp : List Int
  Uindex : List Int
  Uvalue : List ℚ
  URstart : List Int
  URlastp : List Int
  URspace : List Int
  URindex : List Int
  URvalue : List ℚ
  PFpivotIndex : List Int
  PFstart : List Int
  PFindex : List Int
  PFvalue : List ℚ
  UtotalX : Int
deriving DecidableEq, Repr

/-! ## `HFactor::updateFT` (src/ft.cpp 282-397) -/

/-- The search `for (; iFind <= iLast; iFind++) if (idx[iFind] == iRow) break;`
with `fuel = iLast + 1 - iFind` iterations left; the result is the final
`iFind` (`iLast + 1` when nothing is found). -/
def findPos (idx : List Int) (iRow : Int) : Nat → Int → Int
  | 0, iFind => iFind
  | fuel + 1, iFind =>
    if getI idx iFind = iRow then iFind else findPos idx iRow fuel (iFind + 1)

/-- Body of the loop "Delete pivotal row from U" (lines 293-301) at `k`. -/
def deleteRowStep (iRow : Int) (k : Int) (st : HFactor) : HFactor :=
  let iLogic := getI st.UpivotLookup (getI st.URindex k)
  let iFind0 := getI st.Ustart iLogic
  let iLast := getI st.Ulastp iLogic - 1
  let Ulastp1 := setI st.Ulastp iLogic iLast
  let iFind := findPos st.Uindex iRow (iLast + 1 - iFind0).toNat iFind0
  let Uindex1 := setI st.Uindex iFind (getI st.Uindex iLast)
  let Uvalue1 := setI st.Uvalue iFind (getI st.Uvalue iLast)
  { st with Ulastp := Ulastp1, Uindex := Uindex1, Uvalue := Uvalue1 }

/-- Body of the loop "Delete pivotal column from UR" (lines 306-315) at `k`. -/
def deleteColStep (iRow : Int) (k : Int) (st : HFactor) : HFactor :=
  let iLogic := getI st.UpivotLookup (getI st.Uindex k)
  let iFind0 := getI st.URstart iLogic
  let iLast := getI st.URlastp iLogic - 1
  let URlastp1 := setI st.URlastp iLogic iLast
  let iFind := findPos st.URindex iRow (iLast + 1 - iFind0).toNat iFind0
  let URspace1 := setI st.URspace iLogic (getI st.URspace iLogic + 1)
  let URindex1 := setI st.URindex iFind (getI st.URindex iLast)
  let URvalue1 := setI st.URvalue iFind (getI st.URvalue iLast)
  { st with URlastp := URlastp1, URspace := URspace1,
            URindex := URindex1, URvalue := URvalue1 }

/-- Body of the loop "Store column to U" (lines 320-324) at `i`, on the pair
`(Uindex, Uvalue)`. -/
def pushColStep (aq : HVector) (iRow : Int) (i : Int)
    (u : List Int × List ℚ) : List Int × List ℚ :=
  if getI aq.packIndex i ≠ iRow then
    (u.1 ++ [getI aq.packIndex i], u.2 ++ [getI aq.packValue i])
  else u

/-- The conversion `int new_space = row_count * 1.1 + 5`: the double
`row_count * 1.1 + 5` truncated toward zero. -/
def newSpace (row_count : Int) : Int := Int.tdiv (11 * row_count + 50) 10

/-- The call `copy(&v[iFrom], &v[iEnd], &v[iTo])`: element by element, in
ascending order. -/
def copyRange {α : Type} [Zero α] (v : List α) (iFrom iEnd iTo : Int) : List α :=
  loopUp (fun j w => setI w (iTo + (j : Int)) (getI w (iFrom + (j : Int))))
    (iEnd - iFrom).toNat v

/-- The branch "Move row to the end if necessary" (lines 336-358). -/
def relocateRow (iLogic : Int) (st : HFactor) : HFactor :=
  let row_start := getI st.URstart iLogic
  let row_count := getI st.URlastp iLogic - row_start
  let new_start := sizeI st.URindex
  let new_space := newSpace row_count
  let URindex1 := resizeI st.URindex (new_start + new_space)
  let URvalue1 := resizeI st.URvalue (new_start + new_space)
  let iFrom := row_start
  let iEnd := row_start + row_count
  let iTo := new_start
  let URindex2 := copyRange URindex1 iFrom iEnd iTo
  let URvalue2 := copyRange URvalue1 iFrom iEnd iTo
  { st with URindex := URindex2, URvalue := URvalue2,
            URstart := setI st.URstart iLogic new_start,
            URlastp := setI st.URlastp iLogic (new_start + row_count),
            URspace := setI st.URspace iLogic (new_space - row_count) }

/-- Body of the loop "Store column as UR elements" (lines 331-365) at `k`. -/
def insertRowStep (iRow : Int) (k : Int) (st : HFactor) : HFactor :=
  let iLogic := getI st.UpivotLookup (getI st.Uindex k)
  let st1 := if getI st.URspace iLogic = 0 then relocateRow iLogic st else st
  let URspace1 := setI st1.URspace iLogic (getI st1.URspace iLogic - 1)
  let iPut := getI st1.URlastp iLogic
  let URlastp1 := setI st1.URlastp iLogic (iPut + 1)
  { st1 with URspace := URspace1, URlastp := URlastp1,
             URindex := setI st1.URindex iPut iRow,
             URvalue := setI st1.URvalue iPut (getI st1.Uvalue k) }

/-- Body of the loop "Store row_ep as R matrix" (lines 378-383) at `i`, on the
pair `(PFindex, PFvalue)`. -/
def pushEtaStep (ep : HVector) (iRow : Int) (pivot : ℚ) (i : Int)
    (u : List Int × List ℚ) : List Int × List ℚ :=
  if getI ep.packIndex i ≠ iRow then
    (u.1 ++ [getI ep.packIndex i], u.2 ++ [-(getI ep.packValue i) * pivot])
  else u

/-- Lines 285-289: store the pivot and tombstone its slot. -/
def updateFT_mark (iRow : Int) (st : HFactor) : HFactor :=
  { st with UpivotIndex := setI st.UpivotIndex (getI st.UpivotLookup iRow) (-1) }

/-- Lines 291-302: delete the pivotal row from U. -/
def updateFT_deleteRow (iRow : Int) (st : HFactor) : HFactor :=
  let pLogic := getI st.UpivotLookup iRow
  forRange (getI st.URstart pLogic) (getI st.URlastp pLogic) (deleteRowStep iRow) st

/-- Lines 304-316: delete the pivotal column from UR. -/
def updateFT_deleteCol (iRow : Int) (st : HFactor) : HFactor :=
  let pLogic := getI st.UpivotLookup iRow
  forRange (getI st.Ustart pLogic) (getI st.Ulastp pLogic) (deleteColStep iRow) st

/-- Lines 318-328: store the column to U. -/
def updateFT_storeCol (aq : HVector) (iRow : Int) (st : HFactor) : HFactor :=
  let Ustart1 := st.Ustart ++ [sizeI st.Uindex]
  let u := forRange 0 aq.packCount (pushColStep aq iRow) (st.Uindex, st.Uvalue)
  let Ulastp1 := st.Ulastp ++ [sizeI u.1]
  let UstartX := getI Ustart1 (sizeI Ustart1 - 1)
  let UendX := getI Ulastp1 (sizeI Ulastp1 - 1)
  { st with Ustart := Ustart1, Uindex := u.1, Uvalue := u.2, Ulastp := Ulastp1,
            UtotalX := st.UtotalX + (UendX - UstartX + 1) }

/-- Lines 330-365: store the column as UR elements. -/
def updateFT_storeRows (iRow : Int) (st : HFactor) : HFactor :=
  let UstartX := getI st.Ustart (sizeI st.Ustart - 1)
  let UendX := getI st.Ulastp (sizeI st.Ulastp - 1)
  forRange UstartX UendX (insertRowStep iRow) st

/-- Lines 367-375: store the UR pointers of the new slot and register the
pivot; `pivot` and `alpha` are the values read on entry. -/
def updateFT_register (iRow : Int) (pivot alpha : ℚ) (st : HFactor) : HFactor :=
  let pLogic := getI st.UpivotLookup iRow
  let URstart1 := st.URstart ++ [getI st.URstart pLogic]
  let URlastp1 := st.URlastp ++ [getI URstart1 pLogic]
  let URspace1 := st.URspace ++
    [getI st.URspace pLogic + getI URlastp1 pLogic - getI URstart1 pLogic]
  { st with URstart := URstart1, URlastp := URlastp1, URspace := URspace1,
            UpivotLookup := setI st.UpivotLookup iRow (sizeI st.UpivotIndex),
            UpivotIndex := st.UpivotIndex ++ [iRow],
            UpivotValue := st.UpivotValue ++ [pivot * alpha] }

/-- Lines 377-388: store row_ep as R matrix, and its pivot. -/
def updateFT_storeEta (ep : HVector) (iRow : Int) (pivot : ℚ) (st : HFactor) : HFactor :=
  let u := forRange 0 ep.packCount (pushEtaStep ep iRow pivot) (st.PFindex, st.PFvalue)
  { st with PFindex := u.1, PFvalue := u.2,
            UtotalX := st.UtotalX + (sizeI u.1 - getI st.PFstart (sizeI st.PFstart - 1)),
            PFpivotIndex := st.PFpivotIndex ++ [iRow],
            PFstart := st.PFstart ++ [sizeI u.1] }

/-- Lines 390-392: update the total count; `pLogic` is the slot read on entry. -/
def updateFT_total (pLogic : Int) (st : HFactor) : HFactor :=
  let t1 := st.UtotalX - (getI st.Ulastp pLogic - getI st.Ustart pLogic)
  { st with UtotalX := t1 - (getI st.URlastp pLogic - getI st.URstart pLogic) }

/-- The function `HFactor::updateFT(aq, ep, iRow)`. -/
def updateFT (aq ep : HVector) (iRow : Int) (st : HFactor) : HFactor :=
  let pLogic := getI st.UpivotLookup iRow
  let pivot := getI st.UpivotValue pLogic
  let alpha := getI aq.array iRow
  let s1 := updateFT_mark iRow st
  let s2 := updateFT_deleteRow iRow s1
  let s3 := updateFT_deleteCol iRow s2
  let s4 := updateFT_storeCol aq iRow s3
  let s5 := updateFT_storeRows iRow s4
  let s6 := updateFT_register iRow pivot alpha s5
  let s7 := updateFT_storeEta ep iRow pivot s6
  updateFT_total pLogic s7

/-! ## `HVector::tight` and `HVector::pack` -/

/-- Body of the loop of `tight` at `i`; `v.count` is the running total. -/
def tightStep (tol : ℚ) (i : Int) (v : HVector) : HVector :=
  let my_index := getI v.index i
  let value := getI v.array my_index
  if |value| > tol then
    { v with index := setI v.index v.count my_index, count := v.count + 1 }
  else
    { v with array := setI v.array my_index 0 }

/-- Modelled from the spec: `HVector::tight`, whose source is not among the
files.  Section 4.1: "removes from `index` and zeros in `array` every entry with
magnitude ≤ tol"; the entries kept stay in their order. -/
def tight (tol : ℚ) (v : HVector) : HVector :=
  forRange 0 v.count (tightStep tol) { v with count := 0 }

/-- Body of the loop of `pack` at `i`. -/
def packStep (i : Int) (v : HVector) : HVector :=
  { v with packIndex := setI v.packIndex i (getI v.index i),
           packValue := setI v.packValue i (getI v.array (getI v.index i)) }

/-- Modelled from the spec: `HVector::pack`, whose source is not among the
files.  Section 4.1: "sets `pack_count = count` and copies
`(index[i], array[index[i]])` into `pack_*`". -/
def pack (v : HVector) : HVector :=
  forRange 0 v.count packStep { v with packCount := v.count }

/-! ## The triangular solves (src/ft.cpp 22-199) -/

/-- The local variables of a solve loop: `RHS_syntheticTick`, `RHScount`, and
the aliases `RHSindex`, `RHSarray`. -/
structure Work where
  tick : ℚ
  count : Int
  index : List Int
  array : List ℚ
deriving DecidableEq, Repr

/-- The loop `for (k = start; k < end; k++) RHSarray[idx[k]] -= x * val[k]`. -/
def scatterSub (idx : List Int) (val : List ℚ) (start end_ : Int) (x : ℚ)
    (a : List ℚ) : List ℚ :=
  forRange start end_
    (fun k b => setI b (getI idx k) (getI b (getI idx k) - x * getI val k)) a

/-- Body of the loop of `ftranL` (lines 36-45) at `i`. -/
def ftranL_step (c : Consts) (st : HFactor) (i : Int) (w : Work) : Work :=
  let pivotRow := getI st.LpivotIndex i
  let pivotX := getI w.array pivotRow
  if |pivotX| > c.tiny then
    { w with index := setI w.index w.count pivotRow, count := w.count + 1,
             array := scatterSub st.Lindex st.Lvalue (getI st.Lstart i)
                        (getI st.Lstart (i + 1)) pivotX w.array }
  else
    { w with array := setI w.array pivotRow 0 }

/-- The function `HFactor::ftranL`. -/
def ftranL (c : Consts) (st : HFactor) (rhs : HVector) : HVector :=
  let w := forRange 0 st.numRow (ftranL_step c st) ⟨0, 0, rhs.index, rhs.array⟩
  { rhs with index := w.index, array := w.array, count := w.count }

/-- Body of the loop of `btranL` (lines 66-76) at `i`. -/
def btranL_step (c : Consts) (st : HFactor) (i : Int) (w : Work) : Work :=
  let pivotRow := getI st.LpivotIndex i
  let pivotX := getI w.array pivotRow
  if |pivotX| > c.tiny then
    { w with index := setI w.index w.count pivotRow, count := w.count + 1,
             array := scatterSub st.LRindex st.LRvalue (getI st.LRstart i)
                        (getI st.LRstart (i + 1)) pivotX
                        (setI w.array pivotRow pivotX) }
  else
    { w with array := setI w.array pivotRow 0 }

/-- The function `HFactor::btranL`. -/
def btranL (c : Consts) (st : HFactor) (rhs : HVector) : HVector :=
  if st.current_density > c.hyperCANCEL ∨ st.historical_density > c.hyperBTRANL then
    let w := loopDown (fun j => btranL_step c st (j : Int)) st.numRow.toNat
      ⟨0, 0, rhs.index, rhs.array⟩
    { rhs with index := w.index, array := w.array, count := w.count }
  else rhs

/-- The value `value1` of `ftranFT` (lines 220-225) for the eta `i` and the
array `a`: `a[iRow]` minus the products over the entries of the eta. -/
def ftranFT_value1 (st : HFactor) (i : Int) (a : List ℚ) : ℚ :=
  forRange (getI st.PFstart i) (getI st.PFstart (i + 1))
    (fun k acc => acc - getI a (getI st.PFindex k) * getI st.PFvalue k)
    (getI a (getI st.PFpivotIndex i))

/-- Body of the loop of `ftranFT` (lines 219-231) at `i`; `v.count` is
`RHScount`. -/
def ftranFT_step (c : Consts) (st : HFactor) (i : Int) (v : HVector) : HVector :=
  let iRow := getI st.PFpivotIndex i
  let value0 := getI v.array iRow
  let value1 := ftranFT_value1 st i v.array
  if value0 ≠ 0 ∨ value1 ≠ 0 then
    let v1 := if value0 = 0 then
        { v with index := setI v.index v.count iRow, count := v.count + 1 }
      else v
    { v1 with array := setI v1.array iRow (if |value1| < c.tiny then c.zero else value1) }
  else v

/-- The function `HFactor::ftranFT`. -/
def ftranFT (c : Consts) (st : HFactor) (vector : HVector) : HVector :=
  let PFpivotCount := sizeI st.PFpivotIndex
  let v1 := forRange 0 PFpivotCount (ftranFT_step c st) vector
  let last := getI st.PFstart PFpivotCount
  let tick1 := v1.syntheticTick + ((PFpivotCount * 20 + last * 5 : Int) : ℚ)
  let tick2 := if Int.tdiv last (PFpivotCount + 1) < 5
    then tick1 + ((last * 5 : Int) : ℚ) else tick1
  { v1 with syntheticTick := tick2 }

/-- Body of the inner loop of `btranFT` (lines 266-271) at `k`. -/
def btranFT_inner (c : Consts) (st : HFactor) (pivotX : ℚ) (k : Int) (w : Work) : Work :=
  let iRow := getI st.PFindex k
  let value0 := getI w.array iRow
  let value1 := value0 - pivotX * getI st.PFvalue k
  let w1 := if value0 = 0 then
      { w with index := setI w.index w.count iRow, count := w.count + 1 }
    else w
  { w1 with array := setI w1.array iRow (if |value1| < c.tiny then c.zero else value1) }

/-- Body of the outer loop of `btranFT` (lines 259-273) at `i`. -/
def btranFT_step (c : Consts) (st : HFactor) (i : Int) (w : Work) : Work :=
  let pivotRow := getI st.PFpivotIndex i
  let pivotX := getI w.array pivotRow
  if pivotX ≠ 0 then
    let start := getI st.PFstart i
    let end_ := getI st.PFstart (i + 1)
    forRange start end_ (btranFT_inner c st pivotX)
      { w with tick := w.tick + ((end_ - start : Int) : ℚ) }
  else w

/-- The function `HFactor::btranFT`. -/
def btranFT (c : Consts) (st : HFactor) (vector : HVector) : HVector :=
  let PFpivotCount := sizeI st.PFpivotIndex
  let w := loopDown (fun j => btranFT_step c st (j : Int)) PFpivotCount.toNat
    ⟨0, vector.count, vector.index, vector.array⟩
  { vector with index := w.index, array := w.array, count := w.count,
                syntheticTick := vector.syntheticTick + (w.tick * 15 + ((PFpivotCount * 10 : Int) : ℚ)) }

/-- Body of the loop of `ftranU` (lines 114-132) at `iLogic`. -/
def ftranU_step (c : Consts) (st : HFactor) (iLogic : Int) (w : Work) : Work :=
  if getI st.UpivotIndex iLogic = -1 then w
  else
    let pivotRow := getI st.UpivotIndex iLogic
    let pivotX := getI w.array pivotRow
    if |pivotX| > c.tiny then
      let pivotX := pivotX / getI st.UpivotValue iLogic
      let start := getI st.Ustart iLogic
      let end_ := getI st.Ulastp iLogic
      { tick := if iLogic ≥ st.numRow then w.tick + ((end_ - start : Int) : ℚ) else w.tick,
        count := w.count + 1,
        index := setI w.index w.count pivotRow,
        array := scatterSub st.Uindex st.Uvalue start end_ pivotX
                   (setI w.array pivotRow pivotX) }
    else
      { w with array := setI w.array pivotRow 0 }

/-- The regular part of `ftranU` (lines 93-138). -/
def ftranU_regular (c : Consts) (st : HFactor) (rhs : HVector) : HVector :=
  let current_density := (rhs.count : ℚ) / (st.numRow : ℚ)
  if current_density > c.hyperCANCEL ∨ st.historical_density > c.hyperFTRANU then
    let UpivotCount := sizeI st.UpivotIndex
    let w := loopDown (fun j => ftranU_step c st (j : Int)) UpivotCount.toNat
      ⟨0, 0, rhs.index, rhs.array⟩
    { rhs with index := w.index, array := w.array, count := w.count,
               syntheticTick := rhs.syntheticTick +
                 (w.tick * 15 + (((UpivotCount - st.numRow) * 10 : Int) : ℚ)) }
  else rhs

/-- The update part of `ftranU` (lines 84-91). -/
def ftranU_update (c : Consts) (st : HFactor) (rhs : HVector) : HVector :=
  if st.updateMethod = c.UPDATE_METHOD_FT then pack (tight c.tiny (ftranFT c st rhs))
  else rhs

/-- The function `HFactor::ftranU`. -/
def ftranU (c : Consts) (st : HFactor) (rhs : HVector) : HVector :=
  ftranU_regular c st (ftranU_update c st rhs)

/-- Body of the loop of `btranU` (lines 162-180) at `iLogic`. -/
def btranU_step (c : Consts) (st : HFactor) (iLogic : Int) (w : Work) : Work :=
  if getI st.UpivotIndex iLogic = -1 then w
  else
    let pivotRow := getI st.UpivotIndex iLogic
    let pivotX := getI w.array pivotRow
    if |pivotX| > c.tiny then
      let pivotX := pivotX / getI st.UpivotValue iLogic
      let start := getI st.URstart iLogic
      let end_ := getI st.URlastp iLogic
      { tick := if iLogic ≥ st.numRow then w.tick + ((end_ - start : Int) : ℚ) else w.tick,
        count := w.count + 1,
        index := setI w.index w.count pivotRow,
        array := scatterSub st.URindex st.URvalue start end_ pivotX
                   (setI w.array pivotRow pivotX) }
    else
      { w with array := setI w.array pivotRow 0 }

/-- The regular part of `btranU` (lines 144-186). -/
def btranU_regular (c : Consts) (st : HFactor) (rhs : HVector) : HVector :=
  if st.current_density > c.hyperCANCEL ∨ st.historical_density > c.hyperBTRANU then
    let UpivotCount := sizeI st.UpivotIndex
    let w := forRange 0 UpivotCount (btranU_step c st) ⟨0, 0, rhs.index, rhs.array⟩
    { rhs with index := w.index, array := w.array, count := w.count,
               syntheticTick := rhs.syntheticTick +
                 (w.tick * 15 + (((UpivotCount - st.numRow) * 10 : Int) : ℚ)) }
  else rhs

/-- The update part of `btranU` (lines 188-197); the timer calls have no effect
on the vector. -/
def btranU_update (c : Consts) (st : HFactor) (rhs : HVector) : HVector :=
  if st.updateMethod = c.UPDATE_METHOD_FT then
    tight c.tiny (btranFT c st (pack (tight c.tiny rhs)))
  else rhs

/-- The function `HFactor::btranU`. -/
def btranU (c : Consts) (st : HFactor) (rhs : HVector) : HVector :=
  btranU_update c st (btranU_regular c st rhs)

/-- The function `HFactor::ftran`. -/
def ftran (c : Consts) (st : HFactor) (vector : HVector) : HVector :=
  ftranU c st (ftranL c st vector)

/-- The function `HFactor::btran`. -/
def btran (c : Consts) (st : HFactor) (vector : HVector) : HVector :=
  btranL c st (btranU c st vector)

/-! ## Groups of members -/

/-- The eta file: `PFpivotIndex`, `PFstart`, `PFindex`, `PFvalue`. -/
def pfPart (st : HFactor) : List Int × List Int × List Int × List ℚ :=
  (st.PFpivotIndex, st.PFstart, st.PFindex, st.PFvalue)

/-- The L factor: its pivots, its column copy and its row copy. -/
def lPart (st : HFactor) :
    List Int × List Int × List Int × List ℚ × List Int × List Int × List ℚ :=
  (st.LpivotIndex, st.Lstart, st.Lindex, st.Lvalue, st.LRstart, st.LRindex, st.LRvalue)

/-- The pivot tables of U: `UpivotLookup`, `UpivotIndex`, `UpivotValue`. -/
def pivPart (st : HFactor) : List Int × List Int × List ℚ :=
  (st.UpivotLookup, st.UpivotIndex, st.UpivotValue)

/-- The column copy of U: `Ustart`, `Ulastp`, `Uindex`, `Uvalue`. -/
def ucPart (st : HFactor) : List Int × List Int × List Int × List ℚ :=
  (st.Ustart, st.Ulastp, st.Uindex, st.Uvalue)

/-- The row copy of U: `URstart`, `URlastp`, `URspace`, `URindex`, `URvalue`. -/
def urPart (st : HFactor) : List Int × List Int × List Int × List Int × List ℚ :=
  (st.URstart, st.URlastp, st.URspace, st.URindex, st.URvalue)

/-- The scalar members: `numRow`, `updateMethod` and the two densities. -/
def cfgPart (st : HFactor) : Int × Int × ℚ × ℚ :=
  (st.numRow, st.updateMethod, st.current_density, st.historical_density)

/-- The state of `updateFT` on entry to the loop "Store column as UR elements",
with the pivot slot, the pivot value and alpha read on entry. -/
def updateFT_upToStoreCol (aq : HVector) (iRow : Int) (st : HFactor) : HFactor :=
  updateFT_storeCol aq iRow
    (updateFT_deleteCol iRow (updateFT_deleteRow iRow (updateFT_mark iRow st)))

/-! ## The shape of the eta file -/

/-- The shape of the eta file (section 8, property 6): `PFstart` is
non-decreasing, starts with `0`, has one element more than `PFpivotIndex`, and
its last element is the length of `PFindex`. -/
def PFshape (st : HFactor) : Prop :=
  st.PFstart.Sorted (· ≤ ·) ∧ getI st.PFstart 0 = 0 ∧
  sizeI st.PFstart = sizeI st.PFpivotIndex + 1 ∧
  getI st.PFstart (sizeI st.PFstart - 1) = sizeI st.PFindex

instance (st : HFactor) : Decidable (PFshape st) := by
  unfold PFshape; infer_instance

/-- The entries `(packIndex[i], packValue[i])`, `i < n`, of the packed form of
`v` whose index differs from `iRow`, in pack order. -/
def packEntries (v : HVector) (iRow : Int) (n : Nat) : List (Int × ℚ) :=
  ((List.range n).filter (fun (i : Nat) => getI v.packIndex (i : Int) ≠ iRow)).map
    (fun (i : Nat) => (getI v.packIndex (i : Int), getI v.packValue (i : Int)))

/-! ## The pivot-lookup invariant -/

/-- The pivot-lookup invariant (section 3): every variable `v` that has a live
pivot in U, that is, is held by a slot of `UpivotIndex` and is not the tombstone
`-1`, has `UpivotLookup[v]` a slot and `UpivotIndex[UpivotLookup[v]] == v`. -/
def LookupInv (st : HFactor) : Prop :=
  ∀ v ∈ st.UpivotIndex, v ≠ -1 →
    0 ≤ getI st.UpivotLookup v ∧ getI st.UpivotLookup v < sizeI st.UpivotIndex ∧
    getI st.UpivotIndex (getI st.UpivotLookup v) = v

instance (st : HFactor) : Decidable (LookupInv st) := by
  unfold LookupInv; infer_instance

/-! ## A store of two rows, used to evaluate the functions -/

/-- Constants: `HIGHS_CONST_TINY = 1e-14`, `HIGHS_CONST_ZERO = 1e-50`. -/
def exConsts : Consts :=
  { tiny := 1 / 10 ^ 14, zero := 1 / 10 ^ 50, hyperCANCEL := 1 / 20,
    hyperFTRANU := 1 / 10, hyperBTRANL := 1 / 10, hyperBTRANU := 3 / 20,
    UPDATE_METHOD_FT := 2 }

/-- The factors of `B = [[3, 5], [6, 17]]`: `L = [[1, 0], [2, 1]]` and
`U = [[3, 5], [0, 7]]`, with no eta, on the dense path. -/
def exStore : HFactor :=
  { numRow := 2, updateMethod := 2, current_density := 1, historical_density := 1,
    LpivotIndex := [0, 1], Lstart := [0, 1, 1], Lindex := [1], Lvalue := [2],
    LRstart := [0, 0, 1], LRindex := [0], LRvalue := [2],
    UpivotLookup := [0, 1], UpivotIndex := [0, 1], UpivotValue := [3, 7],
    Ustart := [0, 0], Ulastp := [0, 1], Uindex := [0], Uvalue := [5],
    URstart := [0, 1], URlastp := [1, 1], URspace := [0, 0], URindex := [1], URvalue := [5],
    PFpivotIndex := [], PFstart := [0], PFindex := [], PFvalue := [], UtotalX := 3 }

/-- The entering column `(1, 1)` as a right-hand side. -/
def exCol : HVector :=
  { count := 2, index := [0, 1], array := [1, 1], packCount := 0,
    packIndex := [0, 0], packValue := [0, 0], syntheticTick := 0 }

/-- The unit vector of row `r` (`r` is 0 or 1) as a right-hand side. -/
def exUnit (r : Int) : HVector :=
  { count := 1, index := [r, 0], array := [if r = 0 then 1 else 0, if r = 1 then 1 else 0],
    packCount := 0, packIndex := [0, 0], packValue := [0, 0], syntheticTick := 0 }

/-- What `ftran` leaves of `exCol` on `exStore`: the array `B⁻¹ (1, 1)` and the
packed form saved inside `ftranU`. -/
def exAq : HVector :=
  { count := 2, index := [1, 0], array := [4 / 7, -1 / 7], packCount := 2,
    packIndex := [0, 1], packValue := [1, -1], syntheticTick := 0 }

/-- What `btran` leaves of `exUnit 0` on `exStore`. -/
def exEp0 : HVector :=
  { count := 2, index := [1, 0], array := [17 / 21, -5 / 21], packCount := 2,
    packIndex := [0, 1], packValue := [1 / 3, -5 / 21], syntheticTick := 0 }

/-! ## Triangular elimination on dense vectors seen as functions -/

/-- One elimination step with pivot row `p`, pivot value `d` and off-diagonal
entries `e`: `x = a[p] / d`, `a[p] = x`, `a[r] -= x * e[r]`. -/
def elimStep (p : Int) (d : ℚ) (e : Int → ℚ) (a : Int → ℚ) : Int → ℚ :=
  fun r => if r = p then a p / d else a r - a p / d * e r

/-- The steps `0 .. n-1` in this order; the steps that are not live are skipped. -/
def elimRun (live : Nat → Bool) (p : Nat → Int) (d : Nat → ℚ) (e : Nat → Int → ℚ) :
    Nat → (Int → ℚ) → (Int → ℚ) :=
  loopUp (fun t a => if live t then elimStep (p t) (d t) (e t) a else a)

/-- Row `r` of the product of the matrix whose live column `t` has `d t` at row
`p t` and `e t` elsewhere, with the vector that has `x (p t)` for column `t`. -/
def elimMul (live : Nat → Bool) (p : Nat → Int) (d : Nat → ℚ) (e : Nat → Int → ℚ)
    (n : Nat) (x : Int → ℚ) (r : Int) : ℚ :=
  ∑ t ∈ Finset.range n,
    if live t then ((if r = p t then d t else 0) + e t r) * x (p t) else 0

/-! ## The matrices behind the stores -/

/-- The value stored for row `r` in the range `[lo, hi)` of an index/value
pair of vectors: the sum of `val[k]` over the `k` with `idx[k] == r`. -/
def colEntry (idx : List Int) (val : List ℚ) (lo hi : Int) (r : Int) : ℚ :=
  ∑ j ∈ Finset.range (hi - lo).toNat,
    if getI idx (lo + (j : Int)) = r then getI val (lo + (j : Int)) else 0

/-- The rows `0 .. m-1`. -/
def rowsUpTo (m : Int) : List Int := (List.range m.toNat).map (fun (i : Nat) => (i : Int))

/-- L is unit lower triangular in pivot order: `LpivotIndex` is a permutation of
the rows and every index stored in column `i` is the pivot row of a later
column. -/
def LTriangular (st : HFactor) : Prop :=
  st.LpivotIndex.Perm (rowsUpTo st.numRow) ∧
  ∀ i : Nat, i < st.numRow.toNat →
    ∀ j : Nat, j < (getI st.Lstart ((i : Int) + 1) - getI st.Lstart (i : Int)).toNat →
      ∃ l : Nat, l < st.numRow.toNat ∧ (i < l ∧
        getI st.LpivotIndex (l : Int) = getI st.Lindex (getI st.Lstart (i : Int) + (j : Int)))

instance (st : HFactor) : Decidable (LTriangular st) := by
  unfold LTriangular; infer_instance

/-- The state of the loop of `ftranL` after its first `k` iterations. -/
def ftranL_after (c : Consts) (st : HFactor) (rhs : HVector) (k : Nat) : Work :=
  forRange 0 (k : Int) (ftranL_step c st) ⟨0, 0, rhs.index, rhs.array⟩

/-- No pivot value visited by `ftranL` has magnitude in `(0, tiny]`. -/
def ftranL_noClamp (c : Consts) (st : HFactor) (rhs : HVector) : Prop :=
  ∀ i : Nat, i < st.numRow.toNat →
    getI (ftranL_after c st rhs i).array (getI st.LpivotIndex (i : Int)) = 0 ∨
    c.tiny < |getI (ftranL_after c st rhs i).array (getI st.LpivotIndex (i : Int))|

instance (c : Consts) (st : HFactor) (rhs : HVector) : Decidable (ftranL_noClamp c st rhs) := by
  unfold ftranL_noClamp; infer_instance

/-- Slot `i` of `UpivotIndex` is live: it is not the tombstone `-1`. -/
def liveSlot (st : HFactor) (i : Nat) : Bool := getI st.UpivotIndex (i : Int) ≠ -1

/-- Entry `(r, i)` of U: the column of the live slot `i` has `UpivotValue[i]` at
its pivot row `UpivotIndex[i]` and the entries stored in `Ustart[i] .. Ulastp[i]`. -/
def Ucoef (st : HFactor) (i : Nat) (r : Int) : ℚ :=
  (if r = getI st.UpivotIndex (i : Int) then getI st.UpivotValue (i : Int) else 0) +
    colEntry st.Uindex st.Uvalue (getI st.Ustart (i : Int)) (getI st.Ulastp (i : Int)) r

/-- Row `r` of `U·x`, the sum over the live slots, where the entry of `x` for the
column of slot `i` is `x[UpivotIndex[i]]`. -/
def Umul (st : HFactor) (x : List ℚ) (r : Int) : ℚ :=
  ∑ i ∈ Finset.range st.UpivotIndex.length,
    if liveSlot st i then Ucoef st i r * getI x (getI st.UpivotIndex (i : Int)) else 0

/-- The live slots hold every row `0 .. numRow-1` exactly once. -/
def LivePivots (st : HFactor) : Prop :=
  (st.UpivotIndex.filter (fun v => v ≠ -1)).Perm (rowsUpTo st.numRow)

instance (st : HFactor) : Decidable (LivePivots st) := by
  unfold LivePivots; infer_instance

/-- U is upper triangular in slot order: the live slots hold every row once,
every index stored in the column of a live slot `i` is the pivot row of a live
slot `l < i`, and the pivot values of the live slots are nonzero. -/
def UTriangular (st : HFactor) : Prop :=
  LivePivots st ∧
  (∀ i : Nat, i < st.UpivotIndex.length → liveSlot st i = true →
    ∀ j : Nat, j < (getI st.Ulastp (i : Int) - getI st.Ustart (i : Int)).toNat →
      ∃ l : Nat, l < i ∧ (liveSlot st l = true ∧
        getI st.UpivotIndex (l : Int) = getI st.Uindex (getI st.Ustart (i : Int) + (j : Int)))) ∧
  (∀ i : Nat, i < st.UpivotIndex.length → liveSlot st i = true →
    getI st.UpivotValue (i : Int) ≠ 0)

instance (st : HFactor) : Decidable (UTriangular st) := by
  unfold UTriangular; infer_instance

/-- The state of the loop of `ftranU` after its first `k` iterations, which
visit the slots `n-1, n-2, ..., n-k` for `n` the number of slots. -/
def ftranU_after (c : Consts) (st : HFactor) (rhs : HVector) (k : Nat) : Work :=
  loopUp (fun t w => ftranU_step c st ((st.UpivotIndex.length - 1 - t : Nat) : Int) w) k
    ⟨0, 0, rhs.index, rhs.array⟩

/-- No pivot value visited by the loop of `ftranU`, run on `rhs`, has magnitude
in `(0, tiny]`. -/
def ftranU_noClamp (c : Consts) (st : HFactor) (rhs : HVector) : Prop :=
  ∀ k : Nat, k < st.UpivotIndex.length →
    liveSlot st (st.UpivotIndex.length - 1 - k) = true →
    getI (ftranU_after c st rhs k).array
        (getI st.UpivotIndex ((st.UpivotIndex.length - 1 - k : Nat) : Int)) = 0 ∨
    c.tiny < |getI (ftranU_after c st rhs k).array
        (getI st.UpivotIndex ((st.UpivotIndex.length - 1 - k : Nat) : Int))|

instance (c : Consts) (st : HFactor) (rhs : HVector) : Decidable (ftranU_noClamp c st rhs) := by
  unfold ftranU_noClamp; infer_instance

/-- The density test of `ftranU` (line 95) selects the dense loop for `rhs`, the
vector that enters the regular part. -/
def ftranU_dense (c : Consts) (st : HFactor) (rhs : HVector) : Prop :=
  (rhs.count : ℚ) / (st.numRow : ℚ) > c.hyperCANCEL ∨ st.historical_density > c.hyperFTRANU

instance (c : Consts) (st : HFactor) (rhs : HVector) : Decidable (ftranU_dense c st rhs) := by
  unfold ftranU_dense; infer_instance

/-- No entry listed in `index[0 .. count)` has magnitude in `(0, tol]`: `tight`
has nothing but zeros to remove. -/
def tightIdle (tol : ℚ) (v : HVector) : Prop :=
  ∀ i : Nat, i < v.count.toNat →
    getI v.array (getI v.index (i : Int)) = 0 ∨ tol < |getI v.array (getI v.index (i : Int))|

instance (tol : ℚ) (v : HVector) : Decidable (tightIdle tol v) := by
  unfold tightIdle; infer_instance

/-- A right-hand side with one entry, of magnitude `1e-15`, below the tiny
threshold. -/
def exTinyRhs : HVector :=
  { count := 1, index := [0, 0], array := [1 / 10 ^ 15, 0], packCount := 0,
    packIndex := [0, 0], packValue := [0, 0], syntheticTick := 0 }

/-- The two-row store with both densities below every threshold. -/
def exStoreSparse : HFactor :=
  { exStore with current_density := 0, historical_density := 0 }

/-! ## The common shape of the solve loops -/

/-- What a step of a solve loop does to `(RHScount, RHSindex, RHSarray)`, for a
slot that is live or not, with pivot row `p`, pivot value `d` and the entries
`lo .. hi` of `idx`/`val`. -/
def stepCore (tiny : ℚ) (idx : List Int) (val : List ℚ) (live : Bool) (p : Int) (d : ℚ)
    (lo hi : Int) (s : Int × List Int × List ℚ) : Int × List Int × List ℚ :=
  if live then
    if |getI s.2.2 p| > tiny then
      (s.1 + 1, setI s.2.1 s.1 p,
        scatterSub idx val lo hi (getI s.2.2 p / d) (setI s.2.2 p (getI s.2.2 p / d)))
    else (s.1, s.2.1, setI s.2.2 p 0)
  else s

/-- The steps `0 .. n-1` of a solve loop, in this order. -/
def runCore (tiny : ℚ) (idx : List Int) (val : List ℚ) (live : Nat → Bool) (p : Nat → Int)
    (d : Nat → ℚ) (lo hi : Nat → Int) :
    Nat → Int × List Int × List ℚ → Int × List Int × List ℚ :=
  loopUp (fun t s => stepCore tiny idx val (live t) (p t) (d t) (lo t) (hi t) s)

/-- The triple `(RHScount, RHSindex, RHSarray)` of the local variables. -/
def Work.core (w : Work) : Int × List Int × List ℚ := (w.count, w.index, w.array)

/-- The index of a sparse vector is exact on the rows `0 .. m-1`: the positions
`index[0 .. count)` are distinct rows, their values are not zero, and every row
with a value that is not zero is among them. -/
def IndexExact (m : Int) (count : Int) (index : List Int) (array : List ℚ) : Prop :=
  0 ≤ count ∧
  (∀ i : Nat, i < count.toNat →
    0 ≤ getI index (i : Int) ∧ getI index (i : Int) < m ∧
    getI array (getI index (i : Int)) ≠ 0) ∧
  (∀ i : Nat, i < count.toNat → ∀ j : Nat, j < count.toNat →
    getI index (i : Int) = getI index (j : Int) → i = j) ∧
  (∀ r : Nat, r < m.toNat → getI array (r : Int) ≠ 0 →
    ∃ i : Nat, i < count.toNat ∧ getI index (i : Int) = (r : Int))

instance (m : Int) (count : Int) (index : List Int) (array : List ℚ) :
    Decidable (IndexExact m count index array) := by
  unfold IndexExact; infer_instance

/-- The state of the loop of `ftranFT` after its first `k` iterations. -/
def ftranFT_after (c : Consts) (st : HFactor) (v : HVector) (k : Nat) : HVector :=
  forRange 0 (k : Int) (ftranFT_step c st) v

/-- No value written by `ftranFT`, run on `v`, is clamped: whenever an eta
writes its pivot row, the new value has magnitude at least `tiny`. -/
def ftranFT_noClamp (c : Consts) (st : HFactor) (v : HVector) : Prop :=
  ∀ i : Nat, i < st.PFpivotIndex.length →
    (getI (ftranFT_after c st v i).array (getI st.PFpivotIndex (i : Int)) = 0 ∧
      ftranFT_value1 st (i : Int) (ftranFT_after c st v i).array = 0) ∨
    c.tiny ≤ |ftranFT_value1 st (i : Int) (ftranFT_after c st v i).array|

instance (c : Consts) (st : HFactor) (v : HVector) : Decidable (ftranFT_noClamp c st v) := by
  unfold ftranFT_noClamp; infer_instance

/-- Entry `(i, r)` of the row copy of U: the row of the live slot `i` has
`UpivotValue[i]` at the column labelled by its own pivot row and the entries
stored in `URstart[i] .. URlastp[i]`, labelled by the pivot rows of their columns. -/
def URcoef (st : HFactor) (i : Nat) (r : Int) : ℚ :=
  (if r = getI st.UpivotIndex (i : Int) then getI st.UpivotValue (i : Int) else 0) +
    colEntry st.URindex st.URvalue (getI st.URstart (i : Int)) (getI st.URlastp (i : Int)) r

/-- Entry `r` of `Uᵀ·y` computed from the row copy: the sum over the live slots
`i` of the entry of row `i` in the column labelled `r`, times `y[UpivotIndex[i]]`. -/
def URmul (st : HFactor) (y : List ℚ) (r : Int) : ℚ :=
  ∑ i ∈ Finset.range st.UpivotIndex.length,
    if liveSlot st i then URcoef st i r * getI y (getI st.UpivotIndex (i : Int)) else 0

/-- The row copy of U is upper triangular in slot order: every label stored in
the row of a live slot `i` is the pivot row of a live slot `l > i`. -/
def URTriangular (st : HFactor) : Prop :=
  ∀ i : Nat, i < st.UpivotIndex.length → liveSlot st i = true →
    ∀ j : Nat, j < (getI st.URlastp (i : Int) - getI st.URstart (i : Int)).toNat →
      ∃ l : Nat, l < st.UpivotIndex.length ∧ (i < l ∧ liveSlot st l = true ∧
        getI st.UpivotIndex (l : Int) = getI st.URindex (getI st.URstart (i : Int) + (j : Int)))

instance (st : HFactor) : Decidable (URTriangular st) := by
  unfold URTriangular; infer_instance

/-- The column copy and the row copy of U hold the same value at every
position: for live slots `i` and `l`, what the row of `i` stores under the label
of column `l` is what the column of `l` stores at the pivot row of `i`. -/
def AgreeValues (st : HFactor) : Prop :=
  ∀ i : Nat, i < st.UpivotIndex.length → liveSlot st i = true →
    ∀ l : Nat, l < st.UpivotIndex.length → liveSlot st l = true →
      colEntry st.URindex st.URvalue (getI st.URstart (i : Int)) (getI st.URlastp (i : Int))
          (getI st.UpivotIndex (l : Int)) =
        colEntry st.Uindex st.Uvalue (getI st.Ustart (l : Int)) (getI st.Ulastp (l : Int))
          (getI st.UpivotIndex (i : Int))

instance (st : HFactor) : Decidable (AgreeValues st) := by
  unfold AgreeValues; infer_instance

/-- The state of the loop of `btranU` after its first `k` iterations. -/
def btranU_after (c : Consts) (st : HFactor) (rhs : HVector) (k : Nat) : Work :=
  forRange 0 (k : Int) (btranU_step c st) ⟨0, 0, rhs.index, rhs.array⟩

/-- No pivot value visited by the loop of `btranU` has magnitude in `(0, tiny]`. -/
def btranU_noClamp (c : Consts) (st : HFactor) (rhs : HVector) : Prop :=
  ∀ i : Nat, i < st.UpivotIndex.length → liveSlot st i = true →
    getI (btranU_after c st rhs i).array (getI st.UpivotIndex (i : Int)) = 0 ∨
    c.tiny < |getI (btranU_after c st rhs i).array (getI st.UpivotIndex (i : Int))|

instance (c : Consts) (st : HFactor) (rhs : HVector) : Decidable (btranU_noClamp c st rhs) := by
  unfold btranU_noClamp; infer_instance

/-- The density test of `btranU` (line 146) selects the dense loop. -/
def btranU_dense (c : Consts) (st : HFactor) : Prop :=
  st.current_density > c.hyperCANCEL ∨ st.historical_density > c.hyperBTRANU

instance (c : Consts) (st : HFactor) : Decidable (btranU_dense c st) := by
  unfold btranU_dense; infer_instance

/-! ## The hypotheses of the correctness of the update -/

/-- The packed form of `v` is exact for the array `s` on the rows `0 .. m-1`:
`packIndex[0 .. packCount)` lists once each row where `s` is not zero, and
`packValue` holds the values of `s` there. -/
def PackExact (m : Int) (v : HVector) (s : List ℚ) : Prop :=
  IndexExact m v.packCount v.packIndex s ∧
  ∀ i : Nat, i < v.packCount.toNat →
    getI v.packValue (i : Int) = getI s (getI v.packIndex (i : Int))

/-- The buffers of a vector have room for the rows `0 .. m-1`. -/
def VecFits (m : Int) (v : HVector) : Prop :=
  m ≤ sizeI v.array ∧ m ≤ sizeI v.index ∧ m ≤ sizeI v.packIndex ∧ m ≤ sizeI v.packValue

instance (m : Int) (v : HVector) : Decidable (VecFits m v) := by
  unfold VecFits; infer_instance

/-- The array of `v` is the unit vector of row `r` on the rows `0 .. m-1`. -/
def IsUnitVec (m r : Int) (v : HVector) : Prop :=
  ∀ j : Nat, j < m.toNat → getI v.array (j : Int) = if (j : Int) = r then 1 else 0

instance (m r : Int) (v : HVector) : Decidable (IsUnitVec m r v) := by
  unfold IsUnitVec; infer_instance

/-- The invariants of a factor store (section 3) that the update relies on: L
and U are triangular in pivot order, the row copy of U mirrors the column copy,
the pivot lookup is right, the eta file is well shaped with pivot rows among the
rows, and the parallel vectors have equal lengths. -/
def StoreWF (st : HFactor) : Prop :=
  LTriangular st ∧ UTriangular st ∧ URTriangular st ∧ AgreeValues st ∧ LookupInv st ∧
  PFshape st ∧
  (∀ i : Nat, i < st.PFpivotIndex.length →
    0 ≤ getI st.PFpivotIndex (i : Int) ∧ getI st.PFpivotIndex (i : Int) < st.numRow) ∧
  sizeI st.PFvalue = sizeI st.PFindex ∧ sizeI st.Uvalue = sizeI st.Uindex ∧
  sizeI st.Ustart = sizeI st.UpivotIndex ∧ sizeI st.Ulastp = sizeI st.UpivotIndex ∧
  sizeI st.UpivotValue = sizeI st.UpivotIndex ∧ st.numRow ≤ sizeI st.UpivotLookup

instance (st : HFactor) : Decidable (StoreWF st) := by
  unfold StoreWF; infer_instance

/-- Exact arithmetic on the dense path: the update method is FT, the dense loops
of `ftranU` and `btranU` are selected, and no tiny-value clamp fires while `ftran`
runs on the column `a` and `btranU` on the unit vector `e`, nor on the new pivot
`pivot * alpha`. -/
def FTExact (c : Consts) (st : HFactor) (a e : HVector) (r : Int) : Prop :=
  0 < c.tiny ∧ st.updateMethod = c.UPDATE_METHOD_FT ∧
  ftranL_noClamp c st a ∧
  ftranFT_noClamp c st (ftranL c st a) ∧
  tightIdle c.tiny (ftranFT c st (ftranL c st a)) ∧
  ftranU_dense c st (ftranU_update c st (ftranL c st a)) ∧
  ftranU_noClamp c st (ftranU_update c st (ftranL c st a)) ∧
  btranU_dense c st ∧
  btranU_noClamp c st e ∧
  tightIdle c.tiny (btranU_regular c st e) ∧
  c.tiny < |getI st.UpivotValue (getI st.UpivotLookup r) * getI (ftran c st a).array r|

instance (c : Consts) (st : HFactor) (a e : HVector) (r : Int) :
    Decidable (FTExact c st a e r) := by
  unfold FTExact; infer_instance

/-! ## Entries stored in a range of an index/value pair of vectors -/

/-- The entry `(x, v)` is stored in the range `[lo, hi)` of `idx`/`val`. -/
def InSeg (idx : List Int) (val : List ℚ) (lo hi : Int) (x : Int) (v : ℚ) : Prop :=
  ∃ t : Nat, t < (hi - lo).toNat ∧ getI idx (lo + (t : Int)) = x ∧ getI val (lo + (t : Int)) = v

/-- The indices stored in the range `[lo, hi)` of `idx` are distinct. -/
def SegNodup (idx : List Int) (lo hi : Int) : Prop :=
  ∀ t : Nat, t < (hi - lo).toNat → ∀ u : Nat, u < (hi - lo).toNat →
    getI idx (lo + (t : Int)) = getI idx (lo + (u : Int)) → t = u

instance (idx : List Int) (lo hi : Int) : Decidable (SegNodup idx lo hi) := by
  unfold SegNodup; infer_instance

/-- What the deletion of lines 295-301 (and 308-315) does to `(lastp, idx, val)`
for the range of slot `seg`: find the entry labelled `target`, overwrite it with
the last entry, shorten the range by one. -/
def segDelete (start : List Int) (target : Int) (seg : Int)
    (S : List Int × List Int × List ℚ) : List Int × List Int × List ℚ :=
  (setI S.1 seg (getI S.1 seg - 1),
   setI S.2.1
     (findPos S.2.1 target (getI S.1 seg - 1 + 1 - getI start seg).toNat (getI start seg))
     (getI S.2.1 (getI S.1 seg - 1)),
   setI S.2.2
     (findPos S.2.1 target (getI S.1 seg - 1 + 1 - getI start seg).toNat (getI start seg))
     (getI S.2.2 (getI S.1 seg - 1)))


instance (idx : List Int) (val : List ℚ) (lo hi : Int) (x : Int) (v : ℚ) :
    Decidable (InSeg idx val lo hi x v) := by
  unfold InSeg; infer_instance

/-! ## Agreement of the two copies of U -/

/-- Agreement at the position (row of slot `i`, column of slot `l`): every entry
of the row of `i` stored under the label of column `l` (the pivot row of `l`) is
an entry of the column of `l` at the pivot row of `i` with the same value, and
conversely. -/
def AgreeAt (st : HFactor) (i l : Nat) : Prop :=
  (∀ t : Nat, t < (getI st.URlastp (i : Int) - getI st.URstart (i : Int)).toNat →
    getI st.URindex (getI st.URstart (i : Int) + (t : Int)) = getI st.UpivotIndex (l : Int) →
    InSeg st.Uindex st.Uvalue (getI st.Ustart (l : Int)) (getI st.Ulastp (l : Int))
      (getI st.UpivotIndex (i : Int))
      (getI st.URvalue (getI st.URstart (i : Int) + (t : Int)))) ∧
  (∀ u : Nat, u < (getI st.Ulastp (l : Int) - getI st.Ustart (l : Int)).toNat →
    getI st.Uindex (getI st.Ustart (l : Int) + (u : Int)) = getI st.UpivotIndex (i : Int) →
    InSeg st.URindex st.URvalue (getI st.URstart (i : Int)) (getI st.URlastp (i : Int))
      (getI st.UpivotIndex (l : Int))
      (getI st.Uvalue (getI st.Ustart (l : Int) + (u : Int))))

instance (st : HFactor) (i l : Nat) : Decidable (AgreeAt st i l) := by
  unfold AgreeAt; infer_instance

/-- UR ↔ U agreement (section 3): for live slots `i` and `l`, position
(row of `i`, column of `l`) appears in the column copy exactly when it appears
in the row copy, with equal values. -/
def UAgree (st : HFactor) : Prop :=
  ∀ i : Nat, i < st.UpivotIndex.length → liveSlot st i = true →
    ∀ l : Nat, l < st.UpivotIndex.length → liveSlot st l = true → AgreeAt st i l

instance (st : HFactor) : Decidable (UAgree st) := by
  unfold UAgree; infer_instance

/-- The column range `[Ustart, Ulastp)` and the reserved row range
`[URstart, URlastp + URspace)` of slot `i` lie inside the vectors, and neither
the column nor the row holds an index twice. -/
def SlotRanges (st : HFactor) (i : Nat) : Prop :=
  (0 ≤ getI st.Ustart (i : Int) ∧ getI st.Ustart (i : Int) ≤ getI st.Ulastp (i : Int) ∧
   getI st.Ulastp (i : Int) ≤ sizeI st.Uindex) ∧
  (0 ≤ getI st.URstart (i : Int) ∧ getI st.URstart (i : Int) ≤ getI st.URlastp (i : Int) ∧
   0 ≤ getI st.URspace (i : Int) ∧
   getI st.URlastp (i : Int) + getI st.URspace (i : Int) ≤ sizeI st.URindex) ∧
  SegNodup st.Uindex (getI st.Ustart (i : Int)) (getI st.Ulastp (i : Int)) ∧
  SegNodup st.URindex (getI st.URstart (i : Int)) (getI st.URlastp (i : Int))

instance (st : HFactor) (i : Nat) : Decidable (SlotRanges st i) := by
  unfold SlotRanges; infer_instance

/-- The column ranges of the slots `i` and `l` do not overlap, nor do their
reserved row ranges. -/
def SlotsApart (st : HFactor) (i l : Nat) : Prop :=
  (getI st.Ulastp (i : Int) ≤ getI st.Ustart (l : Int) ∨
   getI st.Ulastp (l : Int) ≤ getI st.Ustart (i : Int)) ∧
  (getI st.URlastp (i : Int) + getI st.URspace (i : Int) ≤ getI st.URstart (l : Int) ∨
   getI st.URlastp (l : Int) + getI st.URspace (l : Int) ≤ getI st.URstart (i : Int))

instance (st : HFactor) (i l : Nat) : Decidable (SlotsApart st i l) := by
  unfold SlotsApart; infer_instance

/-- Every index stored in the column of slot `i`, and every label stored in its
row, is the pivot row of another live slot. -/
def SlotNames (st : HFactor) (i : Nat) : Prop :=
  (∀ t : Nat, t < (getI st.Ulastp (i : Int) - getI st.Ustart (i : Int)).toNat →
    ∃ l : Nat, l < st.UpivotIndex.length ∧ (l ≠ i ∧ liveSlot st l = true ∧
      getI st.UpivotIndex (l : Int) = getI st.Uindex (getI st.Ustart (i : Int) + (t : Int)))) ∧
  (∀ t : Nat, t < (getI st.URlastp (i : Int) - getI st.URstart (i : Int)).toNat →
    ∃ l : Nat, l < st.UpivotIndex.length ∧ (l ≠ i ∧ liveSlot st l = true ∧
      getI st.UpivotIndex (l : Int) = getI st.URindex (getI st.URstart (i : Int) + (t : Int))))

instance (st : HFactor) (i : Nat) : Decidable (SlotNames st i) := by
  unfold SlotNames; infer_instance

/-- The pointer vectors of U have one element per slot and the index and value
vectors are parallel. -/
def USizes (st : HFactor) : Prop :=
  sizeI st.Ustart = sizeI st.UpivotIndex ∧ sizeI st.Ulastp = sizeI st.UpivotIndex ∧
  sizeI st.URstart = sizeI st.UpivotIndex ∧ sizeI st.URlastp = sizeI st.UpivotIndex ∧
  sizeI st.URspace = sizeI st.UpivotIndex ∧
  sizeI st.Uvalue = sizeI st.Uindex ∧ sizeI st.URvalue = sizeI st.URindex

instance (st : HFactor) : Decidable (USizes st) := by
  unfold USizes; infer_instance

/-- The pivot row of slot `i` is a position of `UpivotLookup`, which holds `i`
there. -/
def SlotLookup (st : HFactor) (i : Nat) : Prop :=
  0 ≤ getI st.UpivotIndex (i : Int) ∧
  getI st.UpivotIndex (i : Int) < sizeI st.UpivotLookup ∧
  getI st.UpivotLookup (getI st.UpivotIndex (i : Int)) = (i : Int)

instance (st : HFactor) (i : Nat) : Decidable (SlotLookup st i) := by
  unfold SlotLookup; infer_instance

/-- Every live slot has its lookup, its ranges and its stored indices right. -/
def LiveSlotsFit (st : HFactor) : Prop :=
  ∀ i : Nat, i < st.UpivotIndex.length → liveSlot st i = true →
    SlotLookup st i ∧ SlotRanges st i ∧ SlotNames st i

instance (st : HFactor) : Decidable (LiveSlotsFit st) := by
  unfold LiveSlotsFit; infer_instance

/-- The ranges of two different live slots do not overlap. -/
def LiveSlotsApart (st : HFactor) : Prop :=
  ∀ i : Nat, i < st.UpivotIndex.length → liveSlot st i = true →
    ∀ l : Nat, l < st.UpivotIndex.length → liveSlot st l = true → i ≠ l → SlotsApart st i l

instance (st : HFactor) : Decidable (LiveSlotsApart st) := by
  unfold LiveSlotsApart; infer_instance

/-- The layout of the two copies of U that the update relies on: the vectors
have matching sizes; the lookup of the pivot row of a live slot is that slot;
the ranges of a live slot lie inside the vectors and hold no index twice; the
ranges of two live slots do not overlap; every stored index is the pivot row of
another live slot. -/
def ULayout (st : HFactor) : Prop :=
  USizes st ∧ LiveSlotsFit st ∧ LiveSlotsApart st

instance (st : HFactor) : Decidable (ULayout st) := by
  unfold ULayout; infer_instance

/-- Every index of the packed form of `aq` is `iRow` or the pivot row of a live
slot. -/
def PackNames (st : HFactor) (aq : HVector) (iRow : Int) : Prop :=
  ∀ t : Nat, t < aq.packCount.toNat →
    getI aq.packIndex (t : Int) = iRow ∨
    ∃ l : Nat, l < st.UpivotIndex.length ∧ (liveSlot st l = true ∧
      getI st.UpivotIndex (l : Int) = getI aq.packIndex (t : Int))

instance (st : HFactor) (aq : HVector) (iRow : Int) : Decidable (PackNames st aq iRow) := by
  unfold PackNames; infer_instance

/-- The arguments of `updateFT` fit the store: the leaving row `iRow` is the
pivot row of the slot its lookup names, and the packed form of `aq` names rows
with a live pivot. -/
def ColFits (st : HFactor) (aq : HVector) (iRow : Int) : Prop :=
  (0 ≤ iRow ∧ iRow < sizeI st.UpivotLookup ∧
   0 ≤ getI st.UpivotLookup iRow ∧ getI st.UpivotLookup iRow < sizeI st.UpivotIndex ∧
   getI st.UpivotIndex (getI st.UpivotLookup iRow) = iRow) ∧
  PackNames st aq iRow

instance (st : HFactor) (aq : HVector) (iRow : Int) : Decidable (ColFits st aq iRow) := by
  unfold ColFits; infer_instance

/-- Slot `l` is a live slot of `st`. -/
def LiveAt (st : HFactor) (l : Int) : Prop :=
  0 ≤ l ∧ l < sizeI st.UpivotIndex ∧ getI st.UpivotIndex l ≠ -1

/-- The column of slot `l` stores `v` at row `x`. -/
def InCol (st : HFactor) (l : Int) (x : Int) (v : ℚ) : Prop :=
  InSeg st.Uindex st.Uvalue (getI st.Ustart l) (getI st.Ulastp l) x v

/-- The row of slot `i` stores `v` under the label `x`. -/
def InRow (st : HFactor) (i : Int) (x : Int) (v : ℚ) : Prop :=
  InSeg st.URindex st.URvalue (getI st.URstart i) (getI st.URlastp i) x v

/-- The rows of the slots in `T` are laid out apart inside the row copy: each
reserved range `[URstart, URlastp + URspace)` lies inside `URindex`, and no two of
them overlap. -/
def RowsFit (T : Int → Prop) (s : HFactor) : Prop :=
  sizeI s.URvalue = sizeI s.URindex ∧
  (∀ l, T l → 0 ≤ l ∧ l < sizeI s.URstart ∧ l < sizeI s.URlastp ∧ l < sizeI s.URspace ∧
    0 ≤ getI s.URstart l ∧ getI s.URstart l ≤ getI s.URlastp l ∧ 0 ≤ getI s.URspace l ∧
    getI s.URlastp l + getI s.URspace l ≤ sizeI s.URindex) ∧
  (∀ l l', T l → T l' → l ≠ l' →
    getI s.URlastp l + getI s.URspace l ≤ getI s.URstart l' ∨
    getI s.URlastp l' + getI s.URspace l' ≤ getI s.URstart l)

/-! ## The eta file and its pivot rows -/

/-- No eta holds its own pivot row: for every eta `i`, no index stored in
`PFindex[PFstart[i] .. PFstart[i+1])` is `PFpivotIndex[i]`. -/
def EtaNoPivot (st : HFactor) : Prop :=
  ∀ i : Nat, i < st.PFpivotIndex.length →
    ∀ t : Nat, t < (getI st.PFstart ((i : Int) + 1) - getI st.PFstart (i : Int)).toNat →
      getI st.PFindex (getI st.PFstart (i : Int) + (t : Int)) ≠ getI st.PFpivotIndex (i : Int)

instance (st : HFactor) : Decidable (EtaNoPivot st) := by
  unfold EtaNoPivot; infer_instance

/-! ## The reservation of a relocated row -/

/-- The reservation as section 5 (step 5) and scenario S5 word it:
`new_space = ⌈1.1·row_count⌉ + 5`. -/
def newSpace_spec (row_count : Int) : Int := ⌈(11 / 10 : ℚ) * (row_count : ℚ)⌉ + 5

/-- The factors of `B = [[1, 2, 0], [0, 1, 0], [0, 0, 1]]`: `L` is the identity
and `U = B`; the row of slot 0 holds one entry and has no space left. -/
def exStore3 : HFactor :=
  { numRow := 3, updateMethod := 2, current_density := 1, historical_density := 1,
    LpivotIndex := [0, 1, 2], Lstart := [0, 0, 0, 0], Lindex := [], Lvalue := [],
    LRstart := [0, 0, 0, 0], LRindex := [], LRvalue := [],
    UpivotLookup := [0, 1, 2], UpivotIndex := [0, 1, 2], UpivotValue := [1, 1, 1],
    Ustart := [0, 0, 1], Ulastp := [0, 1, 1], Uindex := [0], Uvalue := [2],
    URstart := [0, 1, 1], URlastp := [1, 1, 1], URspace := [0, 0, 0],
    URindex := [1], URvalue := [2],
    PFpivotIndex := [], PFstart := [0], PFindex := [], PFvalue := [], UtotalX := 4 }

/-- The entering column `(1, 0, 1)` as a right-hand side. -/
def exCol3 : HVector :=
  { count := 2, index := [0, 2, 0], array := [1, 0, 1], packCount := 0,
    packIndex := [0, 0, 0], packValue := [0, 0, 0], syntheticTick := 0 }

/-- The unit vector of row 2 as a right-hand side. -/
def exUnit3 : HVector :=
  { count := 1, index := [2, 0, 0], array := [0, 0, 1], packCount := 0,
    packIndex := [0, 0, 0], packValue := [0, 0, 0], syntheticTick := 0 }

/-! ## The ranges of the column copy and of the row copy -/

/-- The column-range invariant (section 3): `Ustart[i] ≤ Ulastp[i]` for every
slot, `Ulastp[i] ≤ Ustart[i+1]` for every slot but the last, and
`Ulastp ≤ len(Uindex)` for the last. -/
def ColChain (st : HFactor) : Prop :=
  (∀ i : Nat, i < st.Ustart.length → getI st.Ustart (i : Int) ≤ getI st.Ulastp (i : Int)) ∧
  (∀ i : Nat, i < st.Ustart.length → i + 1 < st.Ustart.length →
    getI st.Ulastp (i : Int) ≤ getI st.Ustart ((i : Int) + 1)) ∧
  (∀ i : Nat, i < st.Ustart.length → i + 1 = st.Ustart.length →
    getI st.Ulastp (i : Int) ≤ sizeI st.Uindex)

instance (st : HFactor) : Decidable (ColChain st) := by
  unfold ColChain; infer_instance

/-- The row-slack invariant as section 3 words it: for every slot `i`,
`URlastp[i] + URspace[i]` equals `URstart[i+1]`, or the end of the backing
storage `URindex`. -/
def RowAdjacent (st : HFactor) : Prop :=
  ∀ i : Nat, i < st.URstart.length →
    (i + 1 < st.URstart.length ∧
      getI st.URlastp (i : Int) + getI st.URspace (i : Int) = getI st.URstart ((i : Int) + 1)) ∨
    getI st.URlastp (i : Int) + getI st.URspace (i : Int) = sizeI st.URindex

instance (st : HFactor) : Decidable (RowAdjacent st) := by
  unfold RowAdjacent; infer_instance

/-- The reserved range `[URstart, URlastp + URspace)` of slot `i` lies inside
`URindex`, with the stored part `[URstart, URlastp)` and the space in this order. -/
def RowSlackAt (st : HFactor) (i : Nat) : Prop :=
  0 ≤ getI st.URstart (i : Int) ∧ getI st.URstart (i : Int) ≤ getI st.URlastp (i : Int) ∧
  0 ≤ getI st.URspace (i : Int) ∧
  getI st.URlastp (i : Int) + getI st.URspace (i : Int) ≤ sizeI st.URindex

instance (st : HFactor) (i : Nat) : Decidable (RowSlackAt st i) := by
  unfold RowSlackAt; infer_instance

/-- The reserved ranges of the slots `i` and `l` do not overlap. -/
def RowsApartAt (st : HFactor) (i l : Nat) : Prop :=
  getI st.URlastp (i : Int) + getI st.URspace (i : Int) ≤ getI st.URstart (l : Int) ∨
  getI st.URlastp (l : Int) + getI st.URspace (l : Int) ≤ getI st.URstart (i : Int)

instance (st : HFactor) (i l : Nat) : Decidable (RowsApartAt st i l) := by
  unfold RowsApartAt; infer_instance

/-- The reserved ranges of the live slots lie inside `URindex`. -/
def RowsInside (st : HFactor) : Prop :=
  ∀ i : Nat, i < st.UpivotIndex.length → liveSlot st i = true → RowSlackAt st i

instance (st : HFactor) : Decidable (RowsInside st) := by
  unfold RowsInside; infer_instance

/-- The reserved ranges of two different live slots do not overlap. -/
def RowsApart (st : HFactor) : Prop :=
  ∀ i : Nat, i < st.UpivotIndex.length → liveSlot st i = true →
    ∀ l : Nat, l < st.UpivotIndex.length → liveSlot st l = true → i ≠ l → RowsApartAt st i l

instance (st : HFactor) : Decidable (RowsApart st) := by
  unfold RowsApart; infer_instance

/-- The row-slack invariant as the code keeps it: the reserved ranges
`[URstart[i], URlastp[i] + URspace[i])` of the live slots lie inside `URindex`
and do not overlap. -/
def RowSlack (st : HFactor) : Prop := RowsInside st ∧ RowsApart st

instance (st : HFactor) : Decidable (RowSlack st) := by
  unfold RowSlack; infer_instance

/-! ## The entries that `UtotalX` counts -/

/-- The pivot `i` of `ftranL`, run on `rhs`, has at visit time a value of
magnitude above `tiny`. -/
def ftranL_kept (c : Consts) (st : HFactor) (rhs : HVector) (i : Nat) : Bool :=
  decide (|getI (ftranL_after c st rhs i).array (getI st.LpivotIndex (i : Int))| > c.tiny)

/-- The pivots among `0 .. k-1` that `ftranL` keeps, in visit order. -/
def ftranL_keptList (c : Consts) (st : HFactor) (rhs : HVector) (k : Nat) : List Nat :=
  (List.range k).filter (ftranL_kept c st rhs)

/-- The vector `(5, 7)`, with both rows listed. -/
def exEtaVec : HVector :=
  { count := 2, index := [0, 1], array := [5, 7], packCount := 0,
    packIndex := [0, 0], packValue := [0, 0], syntheticTick := 0 }

/-! ## The states of `btranFT` -/

/-- The state of the outer loop of `btranFT` after its first `k` iterations,
which visit the etas `p-1, p-2, ..., p-k` for `p` the number of etas. -/
def btranFT_after (c : Consts) (st : HFactor) (v : HVector) (k : Nat) : Work :=
  loopUp (fun t w => btranFT_step c st ((st.PFpivotIndex.length - 1 - t : Nat) : Int) w) k
    ⟨0, v.count, v.index, v.array⟩

/-- The value `value1` that the inner loop of `btranFT` computes at its
iteration `u` for the eta `i`, entered in the state `w`. -/
def btranFT_value1 (c : Consts) (st : HFactor) (w : Work) (i : Int) (u : Nat) : ℚ :=
  getI (loopUp (fun j s => btranFT_inner c st (getI w.array (getI st.PFpivotIndex i))
      (getI st.PFstart i + (j : Int)) s) u
    { w with tick := w.tick + ((getI st.PFstart (i + 1) - getI st.PFstart i : Int) : ℚ) }).array
    (getI st.PFindex (getI st.PFstart i + (u : Int))) -
  getI w.array (getI st.PFpivotIndex i) * getI st.PFvalue (getI st.PFstart i + (u : Int))

/-- No value written by the eta `i` of `btranFT`, entered in the state `w`, is
clamped: every `value1` has magnitude at least `tiny`. -/
def btranFT_noClampAt (c : Consts) (st : HFactor) (w : Work) (i : Int) : Prop :=
  getI w.array (getI st.PFpivotIndex i) ≠ 0 →
    ∀ u : Nat, u < (getI st.PFstart (i + 1) - getI st.PFstart i).toNat →
      c.tiny ≤ |btranFT_value1 c st w i u|

instance (c : Consts) (st : HFactor) (w : Work) (i : Int) :
    Decidable (btranFT_noClampAt c st w i) := by
  unfold btranFT_noClampAt; infer_instance

/-- No value written by `btranFT`, run on `v`, is clamped. -/
def btranFT_noClamp (c : Consts) (st : HFactor) (v : HVector) : Prop :=
  ∀ t : Nat, t < st.PFpivotIndex.length →
    btranFT_noClampAt c st (btranFT_after c st v t)
      ((st.PFpivotIndex.length - 1 - t : Nat) : Int)

instance (c : Consts) (st : HFactor) (v : HVector) : Decidable (btranFT_noClamp c st v) := by
  unfold btranFT_noClamp; infer_instance

/-- The rows named by the eta file are among `0 .. m-1`: the pivot row of every
eta and every index stored in its range. -/
def EtaRows (m : Int) (st : HFactor) : Prop :=
  ∀ i : Nat, i < st.PFpivotIndex.length →
    (0 ≤ getI st.PFpivotIndex (i : Int) ∧ getI st.PFpivotIndex (i : Int) < m) ∧
    ∀ t : Nat, t < (getI st.PFstart ((i : Int) + 1) - getI st.PFstart (i : Int)).toNat →
      0 ≤ getI st.PFindex (getI st.PFstart (i : Int) + (t : Int)) ∧
      getI st.PFindex (getI st.PFstart (i : Int) + (t : Int)) < m

instance (m : Int) (st : HFactor) : Decidable (EtaRows m st) := by
  unfold EtaRows; infer_instance

/-- The store `st` with other contents in the five per-slot members
`UpivotValue`, `Ustart`, `Ulastp`, `URstart`, `URlastp`. -/
def withSlots (st : HFactor) (pv : List ℚ) (us ul urs url : List Int) : HFactor :=
  { st with UpivotValue := pv, Ustart := us, Ulastp := ul, URstart := urs, URlastp := url }

/-- The stores `st` and `st2` differ at most in `UpivotValue[i]`, `Ustart[i]`,
`Ulastp[i]`, `URstart[i]` and `URlastp[i]` of slots `i` that are tombstones
(`UpivotIndex[i] == -1`): every other member is the same, and these five agree
at every slot that is not a tombstone. -/
def SameOffTombstones (st st2 : HFactor) : Prop :=
  withSlots st2 st.UpivotValue st.Ustart st.Ulastp st.URstart st.URlastp = st ∧
  ∀ i : Nat, i < st.UpivotIndex.length → getI st.UpivotIndex (i : Int) ≠ -1 →
    getI st2.UpivotValue (i : Int) = getI st.UpivotValue (i : Int) ∧
    getI st2.Ustart (i : Int) = getI st.Ustart (i : Int) ∧
    getI st2.Ulastp (i : Int) = getI st.Ulastp (i : Int) ∧
    getI st2.URstart (i : Int) = getI st.URstart (i : Int) ∧
    getI st2.URlastp (i : Int) = getI st.URlastp (i : Int)

instance (st st2 : HFactor) : Decidable (SameOffTombstones st st2) := by
  unfold SameOffTombstones; infer_instance

/-- The store after the first update, with other values in the five members of
its tombstoned slot 0. -/
def exStoreTomb : HFactor :=
  { updateFT exAq exEp0 0 exStore with
    UpivotValue := setI (updateFT exAq exEp0 0 exStore).UpivotValue 0 99,
    Ustart := setI (updateFT exAq exEp0 0 exStore).Ustart 0 1,
    Ulastp := setI (updateFT exAq exEp0 0 exStore).Ulastp 0 2,
    URstart := setI (updateFT exAq exEp0 0 exStore).URstart 0 0,
    URlastp := setI (updateFT exAq exEp0 0 exStore).URlastp 0 3 }

/-- Slot `i` is live and the value the loop of `ftranU`, run on `rhs`, finds at
its pivot row when it visits the slot has magnitude above `tiny`. -/
def ftranU_kept (c : Consts) (st : HFactor) (rhs : HVector) (i : Nat) : Bool :=
  liveSlot st i &&
    decide (c.tiny < |getI (ftranU_after c st rhs (st.UpivotIndex.length - 1 - i)).array
      (getI st.UpivotIndex (i : Int))|)

/-- The sum of the column lengths `Ulastp[i] - Ustart[i]` over the slots
`i ≥ numRow` that are live and whose pivot is kept by the loop of `ftranU`. -/
def ftranU_work (c : Consts) (st : HFactor) (rhs : HVector) : Int :=
  ∑ i ∈ Finset.range st.UpivotIndex.length,
    if st.numRow ≤ (i : Int) ∧ ftranU_kept c st rhs i = true
    then getI st.Ulastp (i : Int) - getI st.Ustart (i : Int) else 0

/-- The vector `(1, 1)` with both rows listed and the work counter at 3. -/
def exColTick : HVector :=
  { count := 2, index := [0, 1], array := [1, 1], packCount := 0,
    packIndex := [0, 0], packValue := [0, 0], syntheticTick := 3 }

/-- The slot `iLogic` that the iteration `k` of the loop "Delete pivotal row from
U" (line 294), run on `s`, edits. -/
def deleteRow_iLogic (k : Int) (s : HFactor) : Int := getI s.UpivotLookup (getI s.URindex k)

/-- The position `iFind` at which the search of lines 295-298 ends. -/
def deleteRow_iFind (iRow k : Int) (s : HFactor) : Int :=
  findPos s.Uindex iRow
    (getI s.Ulastp (deleteRow_iLogic k s) - 1 + 1 - getI s.Ustart (deleteRow_iLogic k s)).toNat
    (getI s.Ustart (deleteRow_iLogic k s))

/-- The slot `iLogic` that the iteration `k` of the loop "Delete pivotal column
from UR" (line 307), run on `s`, edits. -/
def deleteCol_iLogic (k : Int) (s : HFactor) : Int := getI s.UpivotLookup (getI s.Uindex k)

/-- The position `iFind` at which the search of lines 308-311 ends. -/
def deleteCol_iFind (iRow k : Int) (s : HFactor) : Int :=
  findPos s.URindex iRow
    (getI s.URlastp (deleteCol_iLogic k s) - 1 + 1 - getI s.URstart (deleteCol_iLogic k s)).toNat
    (getI s.URstart (deleteCol_iLogic k s))

/-- The state of the loop of lines 291-302, entered in the state `s`, after its
first `t` iterations. -/
def deleteRow_after (iRow : Int) (s : HFactor) (t : Nat) : HFactor :=
  loopUp (fun j u => deleteRowStep iRow (getI s.URstart (getI s.UpivotLookup iRow) + (j : Int)) u)
    t s

/-- The state of the loop of lines 304-316, entered in the state `s`, after its
first `t` iterations. -/
def deleteCol_after (iRow : Int) (s : HFactor) (t : Nat) : HFactor :=
  loopUp (fun j u => deleteColStep iRow (getI s.Ustart (getI s.UpivotLookup iRow) + (j : Int)) u)
    t s

/-- The iteration `k` of the loop "Delete pivotal row from U", run on `s`, is
exact: the search ends inside the live range of the column it edits, on the
entry labelled `iRow`; the column loses that entry and keeps every other one;
its `Ulastp` goes down by one and no other `Ulastp` changes; no position of
`Uindex`, `Uvalue` outside the live range is written. -/
def RowStepExact (iRow k : Int) (s : HFactor) : Prop :=
  (getI s.Ustart (deleteRow_iLogic k s) ≤ deleteRow_iFind iRow k s ∧
    deleteRow_iFind iRow k s < getI s.Ulastp (deleteRow_iLogic k s) ∧
    getI s.Uindex (deleteRow_iFind iRow k s) = iRow) ∧
  (getI (deleteRowStep iRow k s).Ulastp (deleteRow_iLogic k s) =
      getI s.Ulastp (deleteRow_iLogic k s) - 1 ∧
    ∀ l : Int, l ≠ deleteRow_iLogic k s →
      getI (deleteRowStep iRow k s).Ulastp l = getI s.Ulastp l) ∧
  (∀ (x : Int) (v : ℚ), InCol (deleteRowStep iRow k s) (deleteRow_iLogic k s) x v ↔
    (InCol s (deleteRow_iLogic k s) x v ∧ x ≠ iRow)) ∧
  (∀ a : Int, a < getI s.Ustart (deleteRow_iLogic k s) ∨
      getI s.Ulastp (deleteRow_iLogic k s) ≤ a →
    getI (deleteRowStep iRow k s).Uindex a = getI s.Uindex a ∧
    getI (deleteRowStep iRow k s).Uvalue a = getI s.Uvalue a)

/-- The iteration `k` of the loop "Delete pivotal column from UR", run on `s`,
is exact: the search ends inside the live range of the row it edits, on the
entry labelled `iRow`; the row loses that entry and keeps every other one; its
`URlastp` goes down by one and its `URspace` up by one, and no other `URlastp`,
`URspace` changes; no position of `URindex`, `URvalue` outside the live range is
written. -/
def ColStepExact (iRow k : Int) (s : HFactor) : Prop :=
  (getI s.URstart (deleteCol_iLogic k s) ≤ deleteCol_iFind iRow k s ∧
    deleteCol_iFind iRow k s < getI s.URlastp (deleteCol_iLogic k s) ∧
    getI s.URindex (deleteCol_iFind iRow k s) = iRow) ∧
  (getI (deleteColStep iRow k s).URlastp (deleteCol_iLogic k s) =
      getI s.URlastp (deleteCol_iLogic k s) - 1 ∧
    getI (deleteColStep iRow k s).URspace (deleteCol_iLogic k s) =
      getI s.URspace (deleteCol_iLogic k s) + 1 ∧
    ∀ l : Int, l ≠ deleteCol_iLogic k s →
      getI (deleteColStep iRow k s).URlastp l = getI s.URlastp l ∧
      getI (deleteColStep iRow k s).URspace l = getI s.URspace l) ∧
  (∀ (x : Int) (v : ℚ), InRow (deleteColStep iRow k s) (deleteCol_iLogic k s) x v ↔
    (InRow s (deleteCol_iLogic k s) x v ∧ x ≠ iRow)) ∧
  (∀ a : Int, a < getI s.URstart (deleteCol_iLogic k s) ∨
      getI s.URlastp (deleteCol_iLogic k s) ≤ a →
    getI (deleteColStep iRow k s).URindex a = getI s.URindex a ∧
    getI (deleteColStep iRow k s).URvalue a = getI s.URvalue a)

/-- The factor `U = [[1, 2, 3], [0, 1, 4], [0, 0, 1]]` with `L = I` and no eta: the
column copy holds `(0, 2)` for slot 1 and `(0, 3), (1, 4)` for slot 2, the row
copy `(1, 2), (2, 3)` for slot 0 and `(2, 4)` for slot 1. -/
def exStoreFull : HFactor :=
  { numRow := 3, updateMethod := 2, current_density := 1, historical_density := 1,
    LpivotIndex := [0, 1, 2], Lstart := [0, 0, 0, 0], Lindex := [], Lvalue := [],
    LRstart := [0, 0, 0, 0], LRindex := [], LRvalue := [],
    UpivotLookup := [0, 1, 2], UpivotIndex := [0, 1, 2], UpivotValue := [1, 1, 1],
    Ustart := [0, 0, 1], Ulastp := [0, 1, 3], Uindex := [0, 0, 1], Uvalue := [2, 3, 4],
    URstart := [0, 2, 3], URlastp := [2, 3, 3], URspace := [0, 0, 0],
    URindex := [1, 2, 2], URvalue := [2, 3, 4],
    PFpivotIndex := [], PFstart := [0], PFindex := [], PFvalue := [], UtotalX := 9 }

/-! ## The simplex driver (src/src/simplex/HEkk.cpp) -/

/-- The type `HighsStatus`, declared in `lp_data/HighsStatus.h`, outside the files
at hand: `HEkk.cpp` names `OK` and `Error`; `Warning` is the value between. -/
inductive HighsStatus where
  | OK
  | Warning
  | Error
deriving DecidableEq, Repr

/-- The values of `HighsModelStatus` that `HEkk.cpp` names. -/
inductive HighsModelStatus where
  | NOTSET
  | OPTIMAL
  | REACHED_TIME_LIMIT
  | REACHED_ITERATION_LIMIT
  | REACHED_DUAL_OBJECTIVE_VALUE_UPPER_BOUND
deriving DecidableEq, Repr

/-- Constants of the driver declared outside the files at hand. -/
structure EkkConsts where
  NONBASIC_FLAG_TRUE : Int
  NONBASIC_FLAG_FALSE : Int
  INVERT_HINT_UPDATE_LIMIT_REACHED : Int
deriving DecidableEq, Repr

/-- The members of `HEkk` that the functions below read or write: the sizes of
`simplex_lp_`, the option `simplex_update_limit`, the flags of
`simplex_lp_status_`, the vectors of `simplex_basis_`, and the members of
`simplex_info_` that `updatePivots`, `updateFactor` and `initialise` touch. -/
structure HEkk where
  numCol_ : Int
  numRow_ : Int
  simplex_update_limit : Int
  has_basis : Bool
  has_factor_arrays : Bool
  has_invert : Bool
  has_fresh_invert : Bool
  has_fresh_rebuild : Bool
  valid : Bool
  nonbasicFlag_ : List Int
  nonbasicMove_ : List Int
  basicIndex_ : List Int
  update_count : Int
  update_limit : Int
  num_basic_logicals : Int
  num_primal_infeasibilities : Int
  num_dual_infeasibilities : Int
  workLower_ : List ℚ
  workUpper_ : List ℚ
  workValue_ : List ℚ
  workDual_ : List ℚ
  baseLower_ : List ℚ
  baseUpper_ : List ℚ
  updated_dual_objective_value : ℚ
  scaled_model_status_ : HighsModelStatus
  valid_backtracking_basis_ : Bool
deriving DecidableEq, Repr

/-- What the driver calls outside the files at hand, with nothing assumed of it:
`build` is `factor_.build`, which returns the rank deficiency; `move` gives the
value that `setNonbasicMove` derives from the bounds of a nonbasic variable;
`work` stands for the calls of lines 113-122 of `initialise`, which set up the
matrix and the work arrays and compute the infeasibilities; `primal_solve` is
`HEkkPrimal::solve`. -/
structure EkkEnv where
  build : HEkk → Int × HEkk
  move : Int → Int
  work : HEkk → HEkk
  primal_solve : HEkk → HighsStatus × HEkk

/-- The function `HEkk::setSimplexOptions` (lines 136-149), on the members kept
here. -/
def HEkk.setSimplexOptions (s : HEkk) : HEkk :=
  { s with update_limit := s.simplex_update_limit }

/-- The function `HEkk::setBasis` (lines 213-230): the basis of the logicals. -/
def HEkk.setBasis (c : EkkConsts) (s : HEkk) : HEkk :=
  let num_col := s.numCol_
  let num_row := s.numRow_
  let num_tot := num_col + num_row
  let flag0 := resizeI s.nonbasicFlag_ num_tot
  let move0 := resizeI s.nonbasicMove_ num_tot
  let basic0 := resizeI s.basicIndex_ num_row
  let flag1 := forRange 0 num_col (fun iCol f => setI f iCol c.NONBASIC_FLAG_TRUE) flag0
  let fb := forRange 0 num_row
    (fun iRow (p : List Int × List Int) =>
      (setI p.1 (num_col + iRow) c.NONBASIC_FLAG_FALSE, setI p.2 iRow (num_col + iRow)))
    (flag1, basic0)
  { s with nonbasicFlag_ := fb.1, nonbasicMove_ := move0, basicIndex_ := fb.2,
           num_basic_logicals := num_row, has_basis := true }

/-- The function `HEkk::computeFactor` (lines 324-412): the build, then the flags
and the update count. The debug check of line 393 reads the factor only. -/
def HEkk.computeFactor (env : EkkEnv) (s : HEkk) : Int × HEkk :=
  let rank_deficiency := (env.build s).1
  let s1 := (env.build s).2
  let s2 := if rank_deficiency ≠ 0 then
      { s1 with has_invert := false, has_fresh_invert := false }
    else
      { s1 with has_invert := true, has_fresh_invert := true }
  (rank_deficiency, { s2 with update_count := 0 })

/-- Lines 233-243 of `HEkk::getFactor`: the factor arrays are set up once. -/
def HEkk.withFactorArrays (s : HEkk) : HEkk :=
  if s.has_factor_arrays = false then { s with has_factor_arrays := true } else s

/-- The function `HEkk::getFactor` (lines 232-269). -/
def HEkk.getFactor (env : EkkEnv) (s : HEkk) : Int × HEkk :=
  let s1 := s.withFactorArrays
  if s1.has_invert = false then
    let rank_deficiency := (s1.computeFactor env).1
    let s2 := (s1.computeFactor env).2
    if rank_deficiency ≠ 0 then (rank_deficiency, s2) else (0, s2)
  else (0, s1)

/-- The function `HEkk::setNonbasicMove` (lines 427-498): 0 for a basic variable,
the value derived from the bounds for a nonbasic one. -/
def HEkk.setNonbasicMove (env : EkkEnv) (s : HEkk) : HEkk :=
  let numTot := s.numCol_ + s.numRow_
  let move0 := resizeI s.nonbasicMove_ numTot
  let move1 := forRange 0 numTot
    (fun iVar m => if getI s.nonbasicFlag_ iVar = 0 then setI m iVar 0
      else setI m iVar (env.move iVar)) move0
  { s with nonbasicMove_ := move1 }

/-- The state in which `initialiseSimplexLpBasisAndFactor` reaches the test of
line 244: the options are copied and the basis is set (the random vectors and
the analysis of lines 38-39 are not among the members kept here). -/
def HEkk.basisSet (c : EkkConsts) (s : HEkk) : HEkk :=
  (s.setSimplexOptions.setBasis c).withFactorArrays

/-- The function `HEkk::initialiseSimplexLpBasisAndFactor` (lines 36-46). -/
def HEkk.initialiseSimplexLpBasisAndFactor (c : EkkConsts) (env : EkkEnv) (s : HEkk) :
    HighsStatus × HEkk :=
  let s1 := s.setSimplexOptions
  let s2 := s1.setBasis c
  let rank_deficiency := (s2.getFactor env).1
  let s3 := (s2.getFactor env).2
  if rank_deficiency ≠ 0 then (HighsStatus.Error, s3)
  else (HighsStatus.OK, { (s3.setNonbasicMove env) with has_basis := true })

/-- The function `HEkk::initialise` (lines 110-134). -/
def HEkk.initialise (c : EkkConsts) (env : EkkEnv) (s : HEkk) : HighsStatus × HEkk :=
  if (s.initialiseSimplexLpBasisAndFactor c env).1 = HighsStatus.Error then
    (HighsStatus.Error, (s.initialiseSimplexLpBasisAndFactor c env).2)
  else
    let s1 := env.work (s.initialiseSimplexLpBasisAndFactor c env).2
    let s2 := { s1 with valid := true }
    let primal_feasible := s2.num_primal_infeasibilities = 0
    let dual_feasible := s2.num_dual_infeasibilities = 0
    let s3 := { s2 with scaled_model_status_ := HighsModelStatus.NOTSET }
    let s4 := if primal_feasible ∧ dual_feasible then
        { s3 with scaled_model_status_ := HighsModelStatus.OPTIMAL }
      else s3
    (HighsStatus.OK, s4)

/-- The function `HEkk::solve` (lines 48-76); the log messages are left out. -/
def HEkk.solve (c : EkkConsts) (env : EkkEnv) (s : HEkk) : HighsStatus × HEkk :=
  if (s.initialise c env).1 = HighsStatus.Error then
    (HighsStatus.Error, (s.initialise c env).2)
  else if (s.initialise c env).2.scaled_model_status_ = HighsModelStatus.OPTIMAL then
    (HighsStatus.OK, (s.initialise c env).2)
  else env.primal_solve (s.initialise c env).2

/-- The function `HEkk::updateFactor` (lines 928-937). `reported` is the value
that `*hint` holds when `factor_.update` returns. -/
def HEkk.updateFactor (c : EkkConsts) (reported : Int) (s : HEkk) : Int × HEkk :=
  let s1 := { s with has_invert := true }
  (if s1.update_count ≥ s1.update_limit then c.INVERT_HINT_UPDATE_LIMIT_REACHED else reported,
   s1)

/-- The function `HEkk::updatePivots` (lines 939-980). -/
def HEkk.updatePivots (columnIn rowOut sourceOut : Int) (s : HEkk) : HEkk :=
  let columnOut := getI s.basicIndex_ rowOut
  let basicIndex1 := setI s.basicIndex_ rowOut columnIn
  let flag1 := setI s.nonbasicFlag_ columnIn 0
  let move1 := setI s.nonbasicMove_ columnIn 0
  let baseLower1 := setI s.baseLower_ rowOut (getI s.workLower_ columnIn)
  let baseUpper1 := setI s.baseUpper_ rowOut (getI s.workUpper_ columnIn)
  let flag2 := setI flag1 columnOut 1
  let workValue1 :=
    if getI s.workLower_ columnOut = getI s.workUpper_ columnOut then
      setI s.workValue_ columnOut (getI s.workLower_ columnOut)
    else if sourceOut = -1 then
      setI s.workValue_ columnOut (getI s.workLower_ columnOut)
    else
      setI s.workValue_ columnOut (getI s.workUpper_ columnOut)
  let move2 :=
    if getI s.workLower_ columnOut = getI s.workUpper_ columnOut then
      setI move1 columnOut 0
    else if sourceOut = -1 then
      setI move1 columnOut 1
    else
      setI move1 columnOut (-1)
  let nwValue := getI workValue1 columnOut
  let vrDual := getI s.workDual_ columnOut
  let dl_dual_objective_value := nwValue * vrDual
  let logicals1 := if columnOut < s.numCol_ then s.num_basic_logicals - 1
    else s.num_basic_logicals
  let logicals2 := if columnIn < s.numCol_ then logicals1 + 1 else logicals1
  { s with basicIndex_ := basicIndex1, nonbasicFlag_ := flag2, nonbasicMove_ := move2,
           baseLower_ := baseLower1, baseUpper_ := baseUpper1, workValue_ := workValue1,
           updated_dual_objective_value :=
             s.updated_dual_objective_value + dl_dual_objective_value,
           update_count := s.update_count + 1,
           num_basic_logicals := logicals2,
           has_invert := false, has_fresh_invert := false, has_fresh_rebuild := false }

/-- A call of the driver between two refactorizations: `updatePivots`, or
`updateFactor` with what the factor update reported. -/
inductive EkkOp where
  | pivots (columnIn rowOut sourceOut : Int)
  | factor (reported : Int)
deriving DecidableEq, Repr

/-- One call. -/
def HEkk.step (c : EkkConsts) (s : HEkk) : EkkOp → HEkk
  | EkkOp.pivots columnIn rowOut sourceOut => s.updatePivots columnIn rowOut sourceOut
  | EkkOp.factor reported => (s.updateFactor c reported).2

/-- A sequence of calls, the head first. -/
def HEkk.run (c : EkkConsts) (s : HEkk) (ops : List EkkOp) : HEkk :=
  ops.foldl (HEkk.step c) s

/-- The number of calls of `updatePivots` in a sequence. -/
def pivotCount (ops : List EkkOp) : Int :=
  ((ops.filter (fun op => match op with
    | EkkOp.pivots _ _ _ => true
    | EkkOp.factor _ => false)).length : Int)

/-- The number of rows `iRow` with `basicIndex_[iRow] ≥ numCol_`: the number of
basic logicals. -/
def HEkk.basicLogicals (s : HEkk) : Int :=
  ∑ iRow ∈ Finset.range s.numRow_.toNat,
    if s.numCol_ ≤ getI s.basicIndex_ (iRow : Int) then 1 else 0

/-- The call names a row of the basis, if it is an `updatePivots`. -/
def EkkOp.rowInBasis (numRow : Int) : EkkOp → Bool
  | EkkOp.pivots _ rowOut _ => decide (0 ≤ rowOut ∧ rowOut < numRow)
  | EkkOp.factor _ => true

/-- Every `updatePivots` of the sequence names a row of the basis. -/
def rowsInBasis (numRow : Int) (ops : List EkkOp) : Bool :=
  ops.all (EkkOp.rowInBasis numRow)

/-- Example constants: `NONBASIC_FLAG_TRUE = 1`, `NONBASIC_FLAG_FALSE = 0`,
`INVERT_HINT_UPDATE_LIMIT_REACHED = 2`. -/
def exEkkConsts : EkkConsts :=
  { NONBASIC_FLAG_TRUE := 1, NONBASIC_FLAG_FALSE := 0, INVERT_HINT_UPDATE_LIMIT_REACHED := 2 }

/-- An LP with one column and one row, before `setBasis`; the work arrays have
the sizes `allocateWorkAndBaseArrays` gives them and the update limit is 2. -/
def exEkk : HEkk :=
  { numCol_ := 1, numRow_ := 1, simplex_update_limit := 2,
    has_basis := false, has_factor_arrays := false, has_invert := false,
    has_fresh_invert := false, has_fresh_rebuild := false, valid := false,
    nonbasicFlag_ := [], nonbasicMove_ := [], basicIndex_ := [],
    update_count := 0, update_limit := 2, num_basic_logicals := 0,
    num_primal_infeasibilities := 0, num_dual_infeasibilities := 0,
    workLower_ := [0, 0], workUpper_ := [1, 1], workValue_ := [0, 0], workDual_ := [0, 0],
    baseLower_ := [0], baseUpper_ := [1], updated_dual_objective_value := 0,
    scaled_model_status_ := HighsModelStatus.NOTSET, valid_backtracking_basis_ := true }

/-- An environment whose build reports the rank deficiency `rd` and changes
nothing. -/
def exEnv (rd : Int) : EkkEnv :=
  { build := fun s => (rd, s), move := fun _ => 0, work := fun s => s,
    primal_solve := fun s => (HighsStatus.OK, s) }

/-- Constants of the PRICE strategies, declared outside the files at hand. -/
structure PriceConsts where
  SIMPLEX_PRICE_STRATEGY_COL : Int
  SIMPLEX_PRICE_STRATEGY_ROW_SWITCH : Int
  SIMPLEX_PRICE_STRATEGY_ROW_SWITCH_COL_SWITCH : Int
deriving DecidableEq, Repr

/-- The function `HEkk::choosePriceTechnique` (lines 730-744): the values it
leaves in `use_col_price` and in `use_row_price_w_switch`. -/
def choosePriceTechnique (k : PriceConsts) (price_strategy : Int) (row_ep_density : ℚ) :
    Bool × Bool :=
  let density_for_column_price_switch : ℚ := 3 / 4
  let use_col_price : Bool :=
    decide (price_strategy = k.SIMPLEX_PRICE_STRATEGY_COL) ||
    (decide (price_strategy = k.SIMPLEX_PRICE_STRATEGY_ROW_SWITCH_COL_SWITCH) &&
      decide (row_ep_density > density_for_column_price_switch))
  let use_row_price_w_switch : Bool :=
    decide (price_strategy = k.SIMPLEX_PRICE_STRATEGY_ROW_SWITCH) ||
    decide (price_strategy = k.SIMPLEX_PRICE_STRATEGY_ROW_SWITCH_COL_SWITCH)
  (use_col_price, use_row_price_w_switch)

/-- Example constants of the PRICE strategies: `COL = 0`, `ROW = 1`,
`ROW_SWITCH = 2`, `ROW_SWITCH_COL_SWITCH = 3`. -/
def exPriceConsts : PriceConsts :=
  { SIMPLEX_PRICE_STRATEGY_COL := 0, SIMPLEX_PRICE_STRATEGY_ROW_SWITCH := 2,
    SIMPLEX_PRICE_STRATEGY_ROW_SWITCH_COL_SWITCH := 3 }

/-- The members of `HEkk` that `bailoutReturn` and `bailoutOnTimeIterations` read
or write, with the options `time_limit` and `simplex_iteration_limit`. -/
structure EkkBailout where
  solve_bailout_ : Bool
  scaled_model_status_ : HighsModelStatus
  iteration_count_ : Int
  time_limit : ℚ
  simplex_iteration_limit : Int
deriving DecidableEq, Repr

/-- The condition of the assertion of lines 1179-1182 and 1191-1194. -/
def EkkBailout.statusIsLimit (b : EkkBailout) : Bool :=
  decide (b.scaled_model_status_ = HighsModelStatus.REACHED_TIME_LIMIT) ||
  decide (b.scaled_model_status_ = HighsModelStatus.REACHED_ITERATION_LIMIT) ||
  decide (b.scaled_model_status_ = HighsModelStatus.REACHED_DUAL_OBJECTIVE_VALUE_UPPER_BOUND)

/-- The function `HEkk::bailoutReturn` (lines 1175-1185); `none` is a failed
assertion. -/
def EkkBailout.bailoutReturn (b : EkkBailout) : Option (Bool × EkkBailout) :=
  if b.solve_bailout_ = true then
    if b.statusIsLimit = true then some (b.solve_bailout_, b) else none
  else some (b.solve_bailout_, b)

/-- The function `HEkk::bailoutOnTimeIterations` (lines 1187-1203); `clock` is
what `timer_.readRunHighsClock()` returns, and `none` is a failed assertion. -/
def EkkBailout.bailoutOnTimeIterations (clock : ℚ) (b : EkkBailout) :
    Option (Bool × EkkBailout) :=
  if b.solve_bailout_ = true then
    if b.statusIsLimit = true then some (b.solve_bailout_, b) else none
  else if clock > b.time_limit then
    some (true, { b with solve_bailout_ := true,
                         scaled_model_status_ := HighsModelStatus.REACHED_TIME_LIMIT })
  else if b.iteration_count_ ≥ b.simplex_iteration_limit then
    some (true, { b with solve_bailout_ := true,
                         scaled_model_status_ := HighsModelStatus.REACHED_ITERATION_LIMIT })
  else some (b.solve_bailout_, b)

/-- The invariant of the bailout flag: a bailout has one of the three limit
statuses. -/
def EkkBailout.Justified (b : EkkBailout) : Prop :=
  b.solve_bailout_ = true → b.statusIsLimit = true

instance (b : EkkBailout) : Decidable b.Justified := by
  unfold EkkBailout.Justified; infer_instance

/-- A run with no bailout, 7 iterations done, a time limit of 10 and an
iteration limit of 7. -/
def exBailout : EkkBailout :=
  { solve_bailout_ := false, scaled_model_status_ := HighsModelStatus.NOTSET,
    iteration_count_ := 7, time_limit := 10, simplex_iteration_limit := 7 }

/-- The same run after a bailout on the time limit. -/
def exBailoutSet : EkkBailout :=
  { solve_bailout_ := true, scaled_model_status_ := HighsModelStatus.REACHED_TIME_LIMIT,
    iteration_count_ := 7, time_limit := 10, simplex_iteration_limit := 7 }
/-- The bookkeeping of the basis: `basicIndex_` holds `numRow_` variables, all
among `0 .. numCol_ + numRow_ - 1` and pairwise distinct, and `nonbasicFlag_[v]`
is 0 exactly for the variables `v` that `basicIndex_` lists. -/
def BasisInv (s : HEkk) : Prop :=
  sizeI s.basicIndex_ = s.numRow_ ∧ sizeI s.nonbasicFlag_ = s.numCol_ + s.numRow_ ∧
  (∀ i : Nat, i < s.numRow_.toNat → 0 ≤ getI s.basicIndex_ (i : Int) ∧
    getI s.basicIndex_ (i : Int) < s.numCol_ + s.numRow_) ∧
  (∀ i : Nat, i < s.numRow_.toNat → ∀ j : Nat, j < s.numRow_.toNat →
    getI s.basicIndex_ (i : Int) = getI s.basicIndex_ (j : Int) → i = j) ∧
  (∀ v : Nat, v < (s.numCol_ + s.numRow_).toNat →
    (getI s.nonbasicFlag_ (v : Int) = 0 ↔
      ∃ i : Nat, i < s.numRow_.toNat ∧ getI s.basicIndex_ (i : Int) = (v : Int)))

instance (s : HEkk) : Decidable (BasisInv s) := by
  unfold BasisInv; infer_instance

/-- The state of `updateFT` after the first `t` iterations of the loop "Store
column as UR elements" (lines 331-365). -/
def updateFT_storeRows_upTo (aq : HVector) (iRow : Int) (st : HFactor) (t : Nat) : HFactor :=
  let s4 := updateFT_upToStoreCol aq iRow st
  let UstartX := getI s4.Ustart (sizeI s4.Ustart - 1)
  loopUp (fun j q => insertRowStep iRow (UstartX + (j : Int)) q) t s4

/-- The number of iterations of the loop "Store column as UR elements":
`UendX - UstartX`. -/
def updateFT_storeRows_count (aq : HVector) (iRow : Int) (st : HFactor) : Nat :=
  let s4 := updateFT_upToStoreCol aq iRow st
  (getI s4.Ulastp (sizeI s4.Ulastp - 1) - getI s4.Ustart (sizeI s4.Ustart - 1)).toNat

/-- The slot whose row the iteration `t` of the loop "Store column as UR
elements" extends: `iLogic = UpivotLookup[Uindex[UstartX + t]]`. -/
def updateFT_storeRows_slot (aq : HVector) (iRow : Int) (st : HFactor) (t : Nat) : Int :=
  let s4 := updateFT_upToStoreCol aq iRow st
  let s := updateFT_storeRows_upTo aq iRow st t
  getI s.UpivotLookup (getI s.Uindex (getI s4.Ustart (sizeI s4.Ustart - 1) + (t : Int)))

/-! ## The random vectors of `HEkk::initialiseSimplexLpRandomVectors` -/

/-- The generator `HighsRandom`, declared outside the files at hand, with
nothing assumed of it: `integer k` and `fraction k` are what `random.integer()`
and `random.fraction()` return when `k` values have been drawn since the last
call of `random.initialise()`. -/
structure HighsRandom where
  integer : Nat → Int
  fraction : Nat → ℚ

/-- The members of `simplex_info_` that `initialiseSimplexLpRandomVectors`
writes. -/
structure RandomVectors where
  numColPermutation_ : List Int
  numTotPermutation_ : List Int
  numTotRandomValue_ : List ℚ
deriving DecidableEq, Repr

/-- The call `std::swap(v[i], v[j])`. -/
def swapI (v : List Int) (i j : Int) : List Int :=
  setI (setI v i (getI v j)) j (getI v i)

/-- The two loops that fill a permutation vector (lines 184-188 and 199-203) on
the resized vector: `v[i] = i` for `i < n`, then for `i = n-1, ..., 1` the swap
of `v[i]` with `v[random.integer() % (i + 1)]`; the generator has just been
initialised. -/
def shufflePermutation (random : HighsRandom) (n : Int) (v : List Int) : List Int :=
  let v1 := forRange 0 n (fun i w => setI w i i) v
  loopUp (fun t w =>
    let i := n - 1 - (t : Int)
    let j := Int.tmod (random.integer t) (i + 1)
    swapI w i j) (n - 1).toNat v1

/-- The function `HEkk::initialiseSimplexLpRandomVectors` (lines 172-211). -/
def initialiseSimplexLpRandomVectors (random : HighsRandom) (numCol_ numRow_ : Int)
    (info : RandomVectors) : RandomVectors :=
  let numCol := numCol_
  let numTot := numCol_ + numRow_
  if numTot = 0 then info
  else
    let info1 :=
      if numCol ≠ 0 then
        { info with numColPermutation_ :=
            shufflePermutation random numCol (resizeI info.numColPermutation_ numCol) }
      else info
    let perm := shufflePermutation random numTot (resizeI info1.numTotPermutation_ numTot)
    let value0 := resizeI info1.numTotRandomValue_ numTot
    let value1 := forRange 0 numTot
      (fun i w => setI w i (random.fraction ((numTot - 1).toNat + i.toNat))) value0
    { info1 with numTotPermutation_ := perm, numTotRandomValue_ := value1 }

/-- The vector `v` is a permutation of `0..n-1`: it has `n` entries and each
index appears exactly once. -/
def IsPermutation (v : List Int) (n : Int) : Prop :=
  sizeI v = n ∧ ∀ i : Nat, i < n.toNat → List.count (i : Int) v = 1

instance (v : List Int) (n : Int) : Decidable (IsPermutation v n) := by
  unfold IsPermutation; infer_instance

/-- The entries at the positions `0..n-1` of `v` are indices `0..n-1`, no two of
them equal. -/
def PermInv (n : Int) (v : List Int) : Prop :=
  sizeI v = n ∧ (∀ k : Int, 0 ≤ k → k < n → 0 ≤ getI v k ∧ getI v k < n) ∧
  ∀ k k' : Int, 0 ≤ k → k < n → 0 ≤ k' → k' < n → getI v k = getI v k' → k = k'

/-- A generator that returns `3, 4, 5, ...` as integers. -/
def exRandom : HighsRandom :=
  { integer := fun k => (k : Int) + 3, fraction := fun _ => 1 / 2 }

/-- No random vector has been set up. -/
def exRandomVectors : RandomVectors :=
  { numColPermutation_ := [], numTotPermutation_ := [], numTotRandomValue_ := [] }

/-! ## The moves and the values of the nonbasic variables -/

/-- Constants of the moves, declared outside the files at hand. -/
structure MoveConsts where
  NONBASIC_MOVE_UP : Int
  NONBASIC_MOVE_DN : Int
  NONBASIC_MOVE_ZE : Int
deriving DecidableEq, Repr

/-- The bounds of `simplex_lp_`. -/
structure LpBounds where
  colLower_ : List ℚ
  colUpper_ : List ℚ
  rowLower_ : List ℚ
  rowUpper_ : List ℚ
deriving DecidableEq, Repr

/-- Lines 446-453 of `setNonbasicMove`: the bounds `(lower, upper)` of the
variable `iVar`, those of a row being `(-rowUpper_, -rowLower_)`. -/
def HEkk.lpBounds (lp : LpBounds) (s : HEkk) (iVar : Int) : ℚ × ℚ :=
  if iVar < s.numCol_ then (getI lp.colLower_ iVar, getI lp.colUpper_ iVar)
  else
    let iRow := iVar - s.numCol_
    (-(getI lp.rowUpper_ iRow), -(getI lp.rowLower_ iRow))

/-- Lines 454-494 of `setNonbasicMove`: the value of `move` at the assertion of
line 495, for a nonbasic variable with the bounds `lower` and `upper` and the
work value `value`. The function `highs_isInfinity` is declared outside the
files at hand and is a parameter. -/
def nonbasicMoveOf (k : MoveConsts) (highs_isInfinity : ℚ → Bool) (lower upper value : ℚ) :
    Int :=
  let have_solution := false
  let illegal_move_value : Int := -99
  let move := illegal_move_value
  if lower = upper then k.NONBASIC_MOVE_ZE
  else if highs_isInfinity (-lower) = false then
    if highs_isInfinity upper = false then
      let move1 :=
        if have_solution = true then
          let midpoint := (1 / 2 : ℚ) * (lower + upper)
          if value < midpoint then k.NONBASIC_MOVE_UP else k.NONBASIC_MOVE_DN
        else move
      if move1 = illegal_move_value then
        if |lower| < |upper| then k.NONBASIC_MOVE_UP else k.NONBASIC_MOVE_DN
      else move1
    else k.NONBASIC_MOVE_UP
  else if highs_isInfinity upper = false then k.NONBASIC_MOVE_DN
  else k.NONBASIC_MOVE_ZE

/-- The environment in which `move` is what lines 446-494 derive from the
bounds of the LP. -/
def EkkEnv.withBounds (env : EkkEnv) (k : MoveConsts) (highs_isInfinity : ℚ → Bool)
    (lp : LpBounds) (s : HEkk) : EkkEnv :=
  let move := fun iVar => nonbasicMoveOf k highs_isInfinity (s.lpBounds lp iVar).1
    (s.lpBounds lp iVar).2 (getI s.workValue_ iVar)
  { env with move := move }

/-- The function `HEkk::setNonbasicMove` (lines 427-498) with the bounds of the
LP and the assertion of line 495: `none` when the assertion fails. -/
def HEkk.setNonbasicMove_asserted (k : MoveConsts) (highs_isInfinity : ℚ → Bool)
    (lp : LpBounds) (s : HEkk) : Option HEkk :=
  let illegal_move_value : Int := -99
  let numTot := s.numCol_ + s.numRow_
  let move0 := resizeI s.nonbasicMove_ numTot
  let move1 := forRange 0 numTot
    (fun iVar (m : Option (List Int)) => m.bind (fun mv =>
      if getI s.nonbasicFlag_ iVar = 0 then some (setI mv iVar 0)
      else
        let move := nonbasicMoveOf k highs_isInfinity (s.lpBounds lp iVar).1
          (s.lpBounds lp iVar).2 (getI s.workValue_ iVar)
        if move ≠ illegal_move_value then some (setI mv iVar move) else none))
    (some move0)
  move1.map (fun mv => { s with nonbasicMove_ := mv })

/-- The function `HEkk::allocateWorkAndBaseArrays` (lines 500-519), on the
members kept here. -/
def HEkk.allocateWorkAndBaseArrays (s : HEkk) : HEkk :=
  let numTot := s.numCol_ + s.numRow_
  { s with workDual_ := resizeI s.workDual_ numTot,
           workLower_ := resizeI s.workLower_ numTot,
           workUpper_ := resizeI s.workUpper_ numTot,
           workValue_ := resizeI s.workValue_ numTot,
           baseLower_ := resizeI s.baseLower_ s.numRow_,
           baseUpper_ := resizeI s.baseUpper_ s.numRow_ }

/-- The function `HEkk::initialisePhase2ColBound` (lines 521-528), on the pair
`(workLower_, workUpper_)`; `workRange_`, which no function here reads, is left
out. -/
def HEkk.initialisePhase2ColBound (lp : LpBounds) (s : HEkk) : HEkk :=
  let w := forRange 0 s.numCol_
    (fun iCol (w : List ℚ × List ℚ) =>
      (setI w.1 iCol (getI lp.colLower_ iCol), setI w.2 iCol (getI lp.colUpper_ iCol)))
    (s.workLower_, s.workUpper_)
  { s with workLower_ := w.1, workUpper_ := w.2 }

/-- The function `HEkk::initialisePhase2RowBound` (lines 530-538), on the pair
`(workLower_, workUpper_)`. -/
def HEkk.initialisePhase2RowBound (lp : LpBounds) (s : HEkk) : HEkk :=
  let w := forRange 0 s.numRow_
    (fun row (w : List ℚ × List ℚ) =>
      let var := s.numCol_ + row
      (setI w.1 var (-(getI lp.rowUpper_ row)), setI w.2 var (-(getI lp.rowLower_ row))))
    (s.workLower_, s.workUpper_)
  { s with workLower_ := w.1, workUpper_ := w.2 }

/-- Body of the loop of lines 555-578 of `initialiseBound` at `i`, on the pair
`(workLower_, workUpper_)`; `inf` is `HIGHS_CONST_INF`. -/
def initialiseBound_step (inf : ℚ) (numCol_ : Int) (i : Int) (w : List ℚ × List ℚ) :
    List ℚ × List ℚ :=
  if getI w.1 i = -inf ∧ getI w.2 i = inf then
    if i ≥ numCol_ then w
    else (setI w.1 i (-1000), setI w.2 i 1000)
  else if getI w.1 i = -inf then (setI w.1 i (-1), setI w.2 i 0)
  else if getI w.2 i = inf then (setI w.1 i 0, setI w.2 i 1)
  else (setI w.1 i 0, setI w.2 i 0)

/-- The function `HEkk::initialiseBound` (lines 540-579); `inf` is the constant
`HIGHS_CONST_INF`, declared outside the files at hand. -/
def HEkk.initialiseBound (inf : ℚ) (lp : LpBounds) (phase : Int) (s : HEkk) : HEkk :=
  let s1 := (s.initialisePhase2ColBound lp).initialisePhase2RowBound lp
  if phase = 2 then s1
  else
    let numTot := s1.numCol_ + s1.numRow_
    let w := forRange 0 numTot (initialiseBound_step inf s1.numCol_)
      (s1.workLower_, s1.workUpper_)
    { s1 with workLower_ := w.1, workUpper_ := w.2 }

/-- The function `HEkk::initialiseNonbasicWorkValue` (lines 707-728): `none`
when the assertion of line 723 fails. -/
def HEkk.initialiseNonbasicWorkValue (k : MoveConsts) (s : HEkk) : Option HEkk :=
  let numTot := s.numCol_ + s.numRow_
  let value1 := forRange 0 numTot
    (fun iVar (w : Option (List ℚ)) => w.bind (fun wv =>
      if getI s.nonbasicFlag_ iVar = 0 then some wv
      else
        let lower := getI s.workLower_ iVar
        let upper := getI s.workUpper_ iVar
        if lower = upper then some (setI wv iVar lower)
        else if getI s.nonbasicMove_ iVar = k.NONBASIC_MOVE_UP then some (setI wv iVar lower)
        else if getI s.nonbasicMove_ iVar = k.NONBASIC_MOVE_DN then some (setI wv iVar upper)
        else if getI s.nonbasicMove_ iVar = k.NONBASIC_MOVE_ZE then some (setI wv iVar 0)
        else none))
    (some s.workValue_)
  value1.map (fun wv => { s with workValue_ := wv })

/-- The moves `UP = 1`, `DN = -1`, `ZE = 0`. -/
def exMoveConsts : MoveConsts :=
  { NONBASIC_MOVE_UP := 1, NONBASIC_MOVE_DN := -1, NONBASIC_MOVE_ZE := 0 }

/-- A test for infinity: at least `10^20`. -/
def exIsInfinity (x : ℚ) : Bool := decide ((100000000000000000000 : ℚ) ≤ x)

/-- The bounds of an LP with four columns, boxed `[-1, 2]`, lower `[3, inf)`,
upper `(-inf, 5]` and free, and one row `[4, 4]`. -/
def exLpBounds : LpBounds :=
  { colLower_ := [-1, 3, -100000000000000000000, -100000000000000000000],
    colUpper_ := [2, 100000000000000000000, 5, 100000000000000000000],
    rowLower_ := [4], rowUpper_ := [4] }

/-- The driver's state for that LP, all five variables nonbasic, before the
work arrays are allocated. -/
def exEkkMoves : HEkk :=
  { exEkk with numCol_ := 4, numRow_ := 1, nonbasicFlag_ := [1, 1, 1, 1, 1],
               workLower_ := [], workUpper_ := [], workValue_ := [], workDual_ := [] }

/-! # Theorems -/

/-! ## Basic facts on `getI`, `setI` and the loops -/

theorem getI_natCast {α : Type} [Zero α] (l : List α) (n : Nat) :
    getI l (n : Int) = l.getD n 0 := by
  simp [getI]

theorem getI_neg {α : Type} [Zero α] (l : List α) {i : Int} (h : i < 0) :
    getI l i = 0 := by
  simp [getI, not_le.mpr h]

theorem getI_ge {α : Type} [Zero α] (l : List α) {i : Int} (h : sizeI l ≤ i) :
    getI l i = 0 := by
  unfold getI sizeI at *
  split
  · rw [List.getD_eq_getElem?_getD, List.getElem?_eq_none (by omega)]; rfl
  · rfl

theorem length_setI {α : Type} (l : List α) (i : Int) (v : α) :
    (setI l i v).length = l.length := by
  unfold setI; split <;> simp

theorem sizeI_setI {α : Type} (l : List α) (i : Int) (v : α) :
    sizeI (setI l i v) = sizeI l := by
  simp [sizeI, length_setI]

theorem getI_setI {α : Type} [Zero α] (l : List α) (i j : Int) (v : α) :
    getI (setI l i v) j = if i = j ∧ 0 ≤ i ∧ i < sizeI l then v else getI l j := by
  unfold getI setI sizeI
  by_cases hi : 0 ≤ i <;> by_cases hj : 0 ≤ j
  · simp only [hi, hj, if_true, List.getD_eq_getElem?_getD, List.getElem?_set]
    by_cases hij : i = j
    · subst hij
      by_cases hlt : i < (l.length : Int)
      · have : i.toNat < l.length := by omega
        simp [this, hlt]
      · have : ¬ i.toNat < l.length := by omega
        have h2 : l[i.toNat]? = none := List.getElem?_eq_none (by omega)
        simp [this, hlt, h2]
    · have : i.toNat ≠ j.toNat := by omega
      simp [this, hij]
  · have : i ≠ j := by omega
    simp [hi, hj, this]
  · have : i ≠ j := by omega
    simp [hi, hj, this]
  · simp [hi, hj]

theorem getI_setI_ne {α : Type} [Zero α] (l : List α) {i j : Int} (v : α) (h : i ≠ j) :
    getI (setI l i v) j = getI l j := by
  rw [getI_setI]; simp [h]

theorem getI_setI_eq {α : Type} [Zero α] (l : List α) {i : Int} (v : α)
    (h0 : 0 ≤ i) (h1 : i < sizeI l) : getI (setI l i v) i = v := by
  rw [getI_setI]; simp [h0, h1]

theorem sizeI_append {α : Type} (l r : List α) : sizeI (l ++ r) = sizeI l + sizeI r := by
  simp [sizeI]

theorem sizeI_nonneg {α : Type} (l : List α) : 0 ≤ sizeI l := by
  simp [sizeI]

theorem getI_append_left {α : Type} [Zero α] (l r : List α) {i : Int} (h : i < sizeI l) :
    getI (l ++ r) i = getI l i := by
  unfold getI sizeI at *
  split
  · rw [List.getD_eq_getElem?_getD, List.getD_eq_getElem?_getD,
      List.getElem?_append_left (by omega)]
  · rfl

theorem getI_append_right {α : Type} [Zero α] (l r : List α) {i : Int} (h : sizeI l ≤ i) :
    getI (l ++ r) i = getI r (i - sizeI l) := by
  unfold getI sizeI at *
  have h0 : 0 ≤ i := by omega
  have h1 : 0 ≤ i - (l.length : Int) := by omega
  simp only [h0, h1, if_true]
  rw [List.getD_eq_getElem?_getD, List.getD_eq_getElem?_getD,
    List.getElem?_append_right (by omega)]
  congr 2
  omega

theorem getI_snoc {α : Type} [Zero α] (l : List α) (x : α) :
    getI (l ++ [x]) (sizeI l) = x := by
  rw [getI_append_right _ _ (le_refl _)]
  simp [getI]

theorem getI_eq_getElem {α : Type} [Zero α] (l : List α) (n : Nat) (h : n < l.length) :
    getI l (n : Int) = l[n] := by
  rw [getI_natCast, List.getD_eq_getElem?_getD, List.getElem?_eq_getElem h]; rfl

theorem loopUp_inv {σ : Type} (P : σ → Prop) (f : Nat → σ → σ)
    (hf : ∀ k s, P s → P (f k s)) (n : Nat) (s : σ) (h : P s) : P (loopUp f n s) := by
  induction n with
  | zero => exact h
  | succ n ih => exact hf n _ ih

theorem loopDown_inv {σ : Type} (P : σ → Prop) (f : Nat → σ → σ)
    (hf : ∀ k s, P s → P (f k s)) (n : Nat) (s : σ) (h : P s) : P (loopDown f n s) := by
  induction n generalizing s with
  | zero => exact h
  | succ n ih => exact ih _ (hf n s h)

theorem forRange_inv {σ : Type} (P : σ → Prop) (lo hi : Int) (body : Int → σ → σ)
    (hf : ∀ k s, P s → P (body k s)) (s : σ) (h : P s) : P (forRange lo hi body s) :=
  loopUp_inv P _ (fun _ t ht => hf _ t ht) _ s h



theorem forRange_proj {σ β : Type} (p : σ → β) (lo hi : Int) (body : Int → σ → σ)
    (hf : ∀ k s, p (body k s) = p s) (s : σ) : p (forRange lo hi body s) = p s :=
  forRange_inv (fun t => p t = p s) lo hi body (fun k t ht => (hf k t).trans ht) s rfl

/-! ## Which members each stage of `updateFT` leaves alone -/

theorem relocateRow_frame (iLogic : Int) (st : HFactor) :
    pfPart (relocateRow iLogic st) = pfPart st ∧ lPart (relocateRow iLogic st) = lPart st ∧
    pivPart (relocateRow iLogic st) = pivPart st ∧ ucPart (relocateRow iLogic st) = ucPart st ∧
    cfgPart (relocateRow iLogic st) = cfgPart st ∧
    (relocateRow iLogic st).UtotalX = st.UtotalX :=
  ⟨rfl, rfl, rfl, rfl, rfl, rfl⟩

theorem insertRowStep_frame (iRow k : Int) (st : HFactor) :
    pfPart (insertRowStep iRow k st) = pfPart st ∧ lPart (insertRowStep iRow k st) = lPart st ∧
    pivPart (insertRowStep iRow k st) = pivPart st ∧
    ucPart (insertRowStep iRow k st) = ucPart st ∧
    cfgPart (insertRowStep iRow k st) = cfgPart st ∧
    (insertRowStep iRow k st).UtotalX = st.UtotalX := by
  unfold insertRowStep
  dsimp only
  split <;> exact ⟨rfl, rfl, rfl, rfl, rfl, rfl⟩

theorem updateFT_mark_frame (iRow : Int) (st : HFactor) :
    pfPart (updateFT_mark iRow st) = pfPart st ∧ lPart (updateFT_mark iRow st) = lPart st ∧
    ucPart (updateFT_mark iRow st) = ucPart st ∧ urPart (updateFT_mark iRow st) = urPart st ∧
    cfgPart (updateFT_mark iRow st) = cfgPart st ∧
    (updateFT_mark iRow st).UpivotLookup = st.UpivotLookup ∧
    (updateFT_mark iRow st).UpivotValue = st.UpivotValue ∧
    (updateFT_mark iRow st).UtotalX = st.UtotalX :=
  ⟨rfl, rfl, rfl, rfl, rfl, rfl, rfl, rfl⟩

theorem updateFT_deleteRow_frame (iRow : Int) (st : HFactor) :
    pfPart (updateFT_deleteRow iRow st) = pfPart st ∧
    lPart (updateFT_deleteRow iRow st) = lPart st ∧
    pivPart (updateFT_deleteRow iRow st) = pivPart st ∧
    urPart (updateFT_deleteRow iRow st) = urPart st ∧
    cfgPart (updateFT_deleteRow iRow st) = cfgPart st ∧
    (updateFT_deleteRow iRow st).Ustart = st.Ustart ∧
    (updateFT_deleteRow iRow st).UtotalX = st.UtotalX :=
  ⟨forRange_proj pfPart _ _ (deleteRowStep iRow) (fun _ _ => rfl) _,
   forRange_proj lPart _ _ (deleteRowStep iRow) (fun _ _ => rfl) _,
   forRange_proj pivPart _ _ (deleteRowStep iRow) (fun _ _ => rfl) _,
   forRange_proj urPart _ _ (deleteRowStep iRow) (fun _ _ => rfl) _,
   forRange_proj cfgPart _ _ (deleteRowStep iRow) (fun _ _ => rfl) _,
   forRange_proj (fun s : HFactor => s.Ustart) _ _ (deleteRowStep iRow) (fun _ _ => rfl) _,
   forRange_proj (fun s : HFactor => s.UtotalX) _ _ (deleteRowStep iRow) (fun _ _ => rfl) _⟩

theorem updateFT_deleteCol_frame (iRow : Int) (st : HFactor) :
    pfPart (updateFT_deleteCol iRow st) = pfPart st ∧
    lPart (updateFT_deleteCol iRow st) = lPart st ∧
    pivPart (updateFT_deleteCol iRow st) = pivPart st ∧
    ucPart (updateFT_deleteCol iRow st) = ucPart st ∧
    cfgPart (updateFT_deleteCol iRow st) = cfgPart st ∧
    (updateFT_deleteCol iRow st).URstart = st.URstart ∧
    (updateFT_deleteCol iRow st).UtotalX = st.UtotalX :=
  ⟨forRange_proj pfPart _ _ (deleteColStep iRow) (fun _ _ => rfl) _,
   forRange_proj lPart _ _ (deleteColStep iRow) (fun _ _ => rfl) _,
   forRange_proj pivPart _ _ (deleteColStep iRow) (fun _ _ => rfl) _,
   forRange_proj ucPart _ _ (deleteColStep iRow) (fun _ _ => rfl) _,
   forRange_proj cfgPart _ _ (deleteColStep iRow) (fun _ _ => rfl) _,
   forRange_proj (fun s : HFactor => s.URstart) _ _ (deleteColStep iRow) (fun _ _ => rfl) _,
   forRange_proj (fun s : HFactor => s.UtotalX) _ _ (deleteColStep iRow) (fun _ _ => rfl) _⟩

theorem updateFT_storeCol_frame (aq : HVector) (iRow : Int) (st : HFactor) :
    pfPart (updateFT_storeCol aq iRow st) = pfPart st ∧
    lPart (updateFT_storeCol aq iRow st) = lPart st ∧
    pivPart (updateFT_storeCol aq iRow st) = pivPart st ∧
    urPart (updateFT_storeCol aq iRow st) = urPart st ∧
    cfgPart (updateFT_storeCol aq iRow st) = cfgPart st :=
  ⟨rfl, rfl, rfl, rfl, rfl⟩

theorem updateFT_storeRows_frame (iRow : Int) (st : HFactor) :
    pfPart (updateFT_storeRows iRow st) = pfPart st ∧
    lPart (updateFT_storeRows iRow st) = lPart st ∧
    pivPart (updateFT_storeRows iRow st) = pivPart st ∧
    ucPart (updateFT_storeRows iRow st) = ucPart st ∧
    cfgPart (updateFT_storeRows iRow st) = cfgPart st ∧
    (updateFT_storeRows iRow st).UtotalX = st.UtotalX :=
  ⟨forRange_proj pfPart _ _ (insertRowStep iRow) (fun k s => (insertRowStep_frame iRow k s).1) _,
   forRange_proj lPart _ _ (insertRowStep iRow) (fun k s => (insertRowStep_frame iRow k s).2.1) _,
   forRange_proj pivPart _ _ (insertRowStep iRow) (fun k s => (insertRowStep_frame iRow k s).2.2.1) _,
   forRange_proj ucPart _ _ (insertRowStep iRow) (fun k s => (insertRowStep_frame iRow k s).2.2.2.1) _,
   forRange_proj cfgPart _ _ (insertRowStep iRow) (fun k s => (insertRowStep_frame iRow k s).2.2.2.2.1) _,
   forRange_proj (fun s : HFactor => s.UtotalX) _ _ (insertRowStep iRow)
     (fun k s => (insertRowStep_frame iRow k s).2.2.2.2.2) _⟩

/-- The state before "Store UR pointers" has the eta file, the L factor, the
scalars and `UpivotLookup`, `UpivotValue` of the entry state, and `UpivotIndex`
with the slot of the leaving row tombstoned. -/
theorem updateFT_storeRows_pre (aq : HVector) (iRow : Int) (st : HFactor) :
    pfPart (updateFT_storeRows iRow (updateFT_upToStoreCol aq iRow st)) = pfPart st ∧
    lPart (updateFT_storeRows iRow (updateFT_upToStoreCol aq iRow st)) = lPart st ∧
    cfgPart (updateFT_storeRows iRow (updateFT_upToStoreCol aq iRow st)) = cfgPart st ∧
    (updateFT_storeRows iRow (updateFT_upToStoreCol aq iRow st)).UpivotLookup =
      st.UpivotLookup ∧
    (updateFT_storeRows iRow (updateFT_upToStoreCol aq iRow st)).UpivotValue =
      st.UpivotValue ∧
    (updateFT_storeRows iRow (updateFT_upToStoreCol aq iRow st)).UpivotIndex =
      setI st.UpivotIndex (getI st.UpivotLookup iRow) (-1) := by
  have h1 := updateFT_mark_frame iRow st
  have h2 := updateFT_deleteRow_frame iRow (updateFT_mark iRow st)
  have h3 := updateFT_deleteCol_frame iRow (updateFT_deleteRow iRow (updateFT_mark iRow st))
  have h4 := updateFT_storeCol_frame aq iRow
    (updateFT_deleteCol iRow (updateFT_deleteRow iRow (updateFT_mark iRow st)))
  have h5 := updateFT_storeRows_frame iRow (updateFT_upToStoreCol aq iRow st)
  have hpiv : pivPart (updateFT_storeRows iRow (updateFT_upToStoreCol aq iRow st)) =
      pivPart (updateFT_mark iRow st) :=
    h5.2.2.1.trans (h4.2.2.1.trans (h3.2.2.1.trans h2.2.2.1))
  refine ⟨h5.1.trans (h4.1.trans (h3.1.trans (h2.1.trans h1.1))),
    h5.2.1.trans (h4.2.1.trans (h3.2.1.trans (h2.2.1.trans h1.2.1))),
    h5.2.2.2.2.1.trans (h4.2.2.2.2.trans (h3.2.2.2.2.1.trans (h2.2.2.2.2.1.trans h1.2.2.2.2.1))),
    ?_, ?_, ?_⟩
  · exact (congrArg (fun p => p.1) hpiv).trans h1.2.2.2.2.2.1
  · exact (congrArg (fun p => p.2.2) hpiv).trans h1.2.2.2.2.2.2.1
  · exact congrArg (fun p => p.2.1) hpiv

theorem updateFT_eq (aq ep : HVector) (iRow : Int) (st : HFactor) :
    updateFT aq ep iRow st =
      updateFT_total (getI st.UpivotLookup iRow)
        (updateFT_storeEta ep iRow (getI st.UpivotValue (getI st.UpivotLookup iRow))
          (updateFT_register iRow (getI st.UpivotValue (getI st.UpivotLookup iRow))
            (getI aq.array iRow)
            (updateFT_storeRows iRow (updateFT_upToStoreCol aq iRow st)))) := rfl



theorem packEntries_succ (v : HVector) (iRow : Int) (n : Nat) :
    packEntries v iRow (n + 1) =
      packEntries v iRow n ++
        (if getI v.packIndex (n : Int) ≠ iRow
          then [(getI v.packIndex (n : Int), getI v.packValue (n : Int))] else []) := by
  unfold packEntries
  rw [List.range_succ, List.filter_append, List.map_append]
  by_cases h : getI v.packIndex (n : Int) = iRow <;> simp [h]

theorem forRange_zero {σ : Type} (hi : Int) (body : Int → σ → σ) (s : σ) :
    forRange 0 hi body s = loopUp (fun j t => body (j : Int) t) hi.toNat s := by
  simp [forRange]

theorem loopUp_pushColStep (aq : HVector) (iRow : Int) (n : Nat) (u : List Int × List ℚ) :
    loopUp (fun j t => pushColStep aq iRow (j : Int) t) n u =
      (u.1 ++ (packEntries aq iRow n).map Prod.fst,
       u.2 ++ (packEntries aq iRow n).map Prod.snd) := by
  induction n with
  | zero => simp [loopUp, packEntries]
  | succ n ih =>
    rw [loopUp, ih, packEntries_succ, pushColStep]
    by_cases h : getI aq.packIndex (n : Int) = iRow <;> simp [h]

theorem loopUp_pushEtaStep (ep : HVector) (iRow : Int) (pivot : ℚ) (n : Nat)
    (u : List Int × List ℚ) :
    loopUp (fun j t => pushEtaStep ep iRow pivot (j : Int) t) n u =
      (u.1 ++ (packEntries ep iRow n).map Prod.fst,
       u.2 ++ (packEntries ep iRow n).map (fun e => -e.2 * pivot)) := by
  induction n with
  | zero => simp [loopUp, packEntries]
  | succ n ih =>
    rw [loopUp, ih, packEntries_succ, pushEtaStep]
    by_cases h : getI ep.packIndex (n : Int) = iRow <;> simp [h]

/-- The eta file after `updateFT`: one eta appended. -/
theorem updateFT_pf (aq ep : HVector) (iRow : Int) (st : HFactor) :
    let new := packEntries ep iRow ep.packCount.toNat
    let pivot := getI st.UpivotValue (getI st.UpivotLookup iRow)
    (updateFT aq ep iRow st).PFpivotIndex = st.PFpivotIndex ++ [iRow] ∧
    (updateFT aq ep iRow st).PFindex = st.PFindex ++ new.map Prod.fst ∧
    (updateFT aq ep iRow st).PFvalue = st.PFvalue ++ new.map (fun e => -e.2 * pivot) ∧
    (updateFT aq ep iRow st).PFstart =
      st.PFstart ++ [sizeI (st.PFindex ++ new.map Prod.fst)] := by
  intro new pivot
  have h := (updateFT_storeRows_pre aq iRow st).1
  simp only [pfPart, Prod.mk.injEq] at h
  obtain ⟨h1, h2, h3, h4⟩ := h
  rw [updateFT_eq]
  simp only [updateFT_total, updateFT_storeEta, updateFT_register, forRange_zero,
    loopUp_pushEtaStep]
  rw [h1, h2, h3, h4]
  exact ⟨rfl, rfl, rfl, rfl⟩

/-- The pivot tables after `updateFT`. -/
theorem updateFT_piv (aq ep : HVector) (iRow : Int) (st : HFactor) :
    let pLogic := getI st.UpivotLookup iRow
    (updateFT aq ep iRow st).UpivotIndex = setI st.UpivotIndex pLogic (-1) ++ [iRow] ∧
    (updateFT aq ep iRow st).UpivotValue =
      st.UpivotValue ++ [getI st.UpivotValue pLogic * getI aq.array iRow] ∧
    (updateFT aq ep iRow st).UpivotLookup =
      setI st.UpivotLookup iRow (sizeI (setI st.UpivotIndex pLogic (-1))) := by
  intro pLogic
  obtain ⟨-, -, -, h1, h2, h3⟩ := updateFT_storeRows_pre aq iRow st
  rw [updateFT_eq]
  simp only [updateFT_total, updateFT_storeEta, updateFT_register]
  rw [h1, h2, h3]
  exact ⟨rfl, rfl, rfl⟩

/-- The L factor and the scalar members after `updateFT`. -/
theorem updateFT_l (aq ep : HVector) (iRow : Int) (st : HFactor) :
    lPart (updateFT aq ep iRow st) = lPart st ∧
    cfgPart (updateFT aq ep iRow st) = cfgPart st := by
  obtain ⟨-, h1, h2, -⟩ := updateFT_storeRows_pre aq iRow st
  rw [updateFT_eq]
  refine ⟨Eq.trans ?_ h1, Eq.trans ?_ h2⟩
  · simp only [lPart, updateFT_total, updateFT_storeEta, updateFT_register]
  · simp only [cfgPart, updateFT_total, updateFT_storeEta, updateFT_register]



theorem sorted_le_last (l : List Int) (h : l.Sorted (· ≤ ·)) (a : Int) (ha : a ∈ l) :
    a ≤ getI l (sizeI l - 1) := by
  obtain ⟨n, hn, rfl⟩ := List.getElem_of_mem ha
  have hlen : sizeI l - 1 = ((l.length - 1 : Nat) : Int) := by
    unfold sizeI; omega
  rw [hlen, getI_eq_getElem l (l.length - 1) (by omega)]
  exact h.rel_get_of_le (a := ⟨n, hn⟩) (b := ⟨l.length - 1, by omega⟩)
    (by simp only [Fin.mk_le_mk]; omega)

/-! ## Claims on the eta file and the pivot tables -/

/-- C8: `updateFT` preserves the shape of the eta file: if on entry `PFstart` is
non-decreasing, `PFstart[0] = 0`, `PFstart` has length `len(PFpivotIndex) + 1`
and its last element is `len(PFindex)`, the four facts hold again on return. -/
theorem C8_updateFT_preserves_PFshape (aq ep : HVector) (iRow : Int) (st : HFactor)
    (h : PFshape st) : PFshape (updateFT aq ep iRow st) := by
  obtain ⟨hs, h0, hlen, hlast⟩ := h
  obtain ⟨e1, e2, -, e4⟩ := updateFT_pf aq ep iRow st
  unfold PFshape
  rw [e1, e2, e4]
  have hpos : 0 < sizeI st.PFstart := by
    have := sizeI_nonneg st.PFpivotIndex; omega
  refine ⟨?_, ?_, ?_, ?_⟩
  · rw [List.Sorted, List.pairwise_append]
    refine ⟨hs, List.pairwise_singleton _ _, ?_⟩
    intro a ha b hb
    rw [List.mem_singleton] at hb
    subst hb
    have := sorted_le_last _ hs a ha
    rw [hlast] at this
    rw [sizeI_append]
    have := sizeI_nonneg (List.map Prod.fst (packEntries ep iRow ep.packCount.toNat))
    omega
  · rw [getI_append_left _ _ hpos]; exact h0
  · simp only [sizeI, List.length_append, List.length_singleton, Nat.cast_add,
      Nat.cast_one] at *
    omega
  · have : sizeI (st.PFstart ++ [sizeI (st.PFindex ++
        List.map Prod.fst (packEntries ep iRow ep.packCount.toNat))]) - 1 = sizeI st.PFstart := by
      simp only [sizeI, List.length_append, List.length_singleton, Nat.cast_add,
        Nat.cast_one]
      omega
    rw [this, getI_snoc]

/-- C9: `updateFT` is append-only on the eta file and leaves L alone:
`PFpivotIndex` grows by exactly one element (the leaving row), `PFstart`,
`PFindex` and `PFvalue` keep every element they had and only grow at the end,
and `LpivotIndex`, `Lstart`, `Lindex`, `Lvalue`, `LRstart`, `LRindex`, `LRvalue`
are unchanged. -/
theorem C9_updateFT_append_only (aq ep : HVector) (iRow : Int) (st : HFactor) :
    (updateFT aq ep iRow st).PFpivotIndex = st.PFpivotIndex ++ [iRow] ∧
    (∃ t, (updateFT aq ep iRow st).PFstart = st.PFstart ++ [t]) ∧
    (∃ l, (updateFT aq ep iRow st).PFindex = st.PFindex ++ l) ∧
    (∃ l, (updateFT aq ep iRow st).PFvalue = st.PFvalue ++ l) ∧
    (updateFT aq ep iRow st).LpivotIndex = st.LpivotIndex ∧
    (updateFT aq ep iRow st).Lstart = st.Lstart ∧
    (updateFT aq ep iRow st).Lindex = st.Lindex ∧
    (updateFT aq ep iRow st).Lvalue = st.Lvalue ∧
    (updateFT aq ep iRow st).LRstart = st.LRstart ∧
    (updateFT aq ep iRow st).LRindex = st.LRindex ∧
    (updateFT aq ep iRow st).LRvalue = st.LRvalue := by
  obtain ⟨e1, e2, e3, e4⟩ := updateFT_pf aq ep iRow st
  have hl := (updateFT_l aq ep iRow st).1
  simp only [lPart, Prod.mk.injEq] at hl
  obtain ⟨l1, l2, l3, l4, l5, l6, l7⟩ := hl
  exact ⟨e1, ⟨_, e4⟩, ⟨_, e2⟩, ⟨_, e3⟩, l1, l2, l3, l4, l5, l6, l7⟩

/-- C10: registration of the new pivot.  With `pLogic = UpivotLookup[rowOut]`
read on entry, a slot of `UpivotIndex`, and `rowOut` a position of
`UpivotLookup`: after `updateFT`, `UpivotIndex[pLogic] == -1`; `UpivotIndex` has
one more element, `rowOut`; `UpivotValue` has one more element,
`UpivotValue[pLogic] * aq.array[rowOut]` (values on entry); `UpivotLookup[rowOut]`
is the index of the new last slot; every other entry of the three vectors is
unchanged. -/
theorem C10_updateFT_registers_pivot (aq ep : HVector) (rowOut : Int) (st : HFactor)
    (hp0 : 0 ≤ getI st.UpivotLookup rowOut)
    (hp1 : getI st.UpivotLookup rowOut < sizeI st.UpivotIndex)
    (hr0 : 0 ≤ rowOut) (hr1 : rowOut < sizeI st.UpivotLookup) :
    getI (updateFT aq ep rowOut st).UpivotIndex (getI st.UpivotLookup rowOut) = -1 ∧
    sizeI (updateFT aq ep rowOut st).UpivotIndex = sizeI st.UpivotIndex + 1 ∧
    getI (updateFT aq ep rowOut st).UpivotIndex (sizeI st.UpivotIndex) = rowOut ∧
    sizeI (updateFT aq ep rowOut st).UpivotValue = sizeI st.UpivotValue + 1 ∧
    getI (updateFT aq ep rowOut st).UpivotValue (sizeI st.UpivotValue) =
      getI st.UpivotValue (getI st.UpivotLookup rowOut) * getI aq.array rowOut ∧
    getI (updateFT aq ep rowOut st).UpivotLookup rowOut =
      sizeI (updateFT aq ep rowOut st).UpivotIndex - 1 ∧
    sizeI (updateFT aq ep rowOut st).UpivotLookup = sizeI st.UpivotLookup ∧
    (∀ i, i < sizeI st.UpivotIndex → i ≠ getI st.UpivotLookup rowOut →
      getI (updateFT aq ep rowOut st).UpivotIndex i = getI st.UpivotIndex i) ∧
    (∀ i, i < sizeI st.UpivotValue →
      getI (updateFT aq ep rowOut st).UpivotValue i = getI st.UpivotValue i) ∧
    (∀ v, v ≠ rowOut →
      getI (updateFT aq ep rowOut st).UpivotLookup v = getI st.UpivotLookup v) := by
  obtain ⟨e1, e2, e3⟩ := updateFT_piv aq ep rowOut st
  rw [e1, e2, e3]
  have hsz : sizeI (setI st.UpivotIndex (getI st.UpivotLookup rowOut) (-1)) =
      sizeI st.UpivotIndex := sizeI_setI _ _ _
  refine ⟨?_, ?_, ?_, ?_, ?_, ?_, ?_, ?_, ?_, ?_⟩
  · rw [getI_append_left _ _ (by rw [hsz]; exact hp1), getI_setI_eq _ _ hp0 hp1]
  · rw [sizeI_append, hsz]; rfl
  · rw [← hsz, getI_snoc]
  · rw [sizeI_append]; rfl
  · rw [getI_snoc]
  · rw [getI_setI_eq _ _ hr0 hr1, sizeI_append, hsz]
    show sizeI st.UpivotIndex = sizeI st.UpivotIndex + 1 - 1
    omega
  · exact sizeI_setI _ _ _
  · intro i hi hne
    rw [getI_append_left _ _ (by rw [hsz]; exact hi), getI_setI_ne _ _ (Ne.symm hne)]
  · intro i hi
    rw [getI_append_left _ _ hi]
  · intro v hv
    rw [getI_setI_ne _ _ (Ne.symm hv)]



/-- Witness of C8 on the two-row store. -/
theorem C8_witness :
    PFshape exStore ∧ PFshape (updateFT exAq exEp0 0 exStore) :=
  ⟨by decide, C8_updateFT_preserves_PFshape exAq exEp0 0 exStore (by decide)⟩

/-- Witness of C10 on the two-row store, leaving row 0. -/
theorem C10_witness :
    getI (updateFT exAq exEp0 0 exStore).UpivotIndex 0 = -1 ∧
    getI (updateFT exAq exEp0 0 exStore).UpivotIndex 2 = 0 ∧
    getI (updateFT exAq exEp0 0 exStore).UpivotValue 2 = 3 * (4 / 7) ∧
    getI (updateFT exAq exEp0 0 exStore).UpivotLookup 0 = 2 := by
  have h := C10_updateFT_registers_pivot exAq exEp0 0 exStore
    (by decide) (by decide) (by decide) (by decide)
  exact ⟨h.1, h.2.2.1, h.2.2.2.2.1, by decide⟩



theorem mem_setI {α : Type} (l : List α) (i : Int) (v x : α) (h : x ∈ setI l i v) :
    x = v ∨ x ∈ l := by
  unfold setI at h
  split at h
  · rcases List.mem_or_eq_of_mem_set h with h1 | h1
    · exact Or.inr h1
    · exact Or.inl h1
  · exact Or.inr h

/-- C7: `updateFT` preserves the pivot-lookup invariant.  If on entry
`UpivotIndex[UpivotLookup[v]] == v` for every variable `v` that has a live pivot
in U, and `rowOut` is such a variable and a position of `UpivotLookup`, then the
same holds on return, with `rowOut` mapped to the newly appended slot, which
holds `rowOut`. -/
theorem C7_updateFT_preserves_lookup (aq ep : HVector) (rowOut : Int) (st : HFactor)
    (hinv : LookupInv st)
    (hr0 : 0 ≤ rowOut) (hr1 : rowOut < sizeI st.UpivotLookup)
    (hlive : rowOut ∈ st.UpivotIndex) :
    LookupInv (updateFT aq ep rowOut st) ∧
    getI (updateFT aq ep rowOut st).UpivotLookup rowOut =
      sizeI (updateFT aq ep rowOut st).UpivotIndex - 1 ∧
    getI (updateFT aq ep rowOut st).UpivotIndex
      (getI (updateFT aq ep rowOut st).UpivotLookup rowOut) = rowOut := by
  obtain ⟨e1, -, e3⟩ := updateFT_piv aq ep rowOut st
  have hsz : sizeI (setI st.UpivotIndex (getI st.UpivotLookup rowOut) (-1)) =
      sizeI st.UpivotIndex := sizeI_setI _ _ _
  have hnew : getI (updateFT aq ep rowOut st).UpivotLookup rowOut = sizeI st.UpivotIndex := by
    rw [e3, getI_setI_eq _ _ hr0 hr1, hsz]
  have hlast : getI (updateFT aq ep rowOut st).UpivotIndex (sizeI st.UpivotIndex) = rowOut := by
    rw [e1, ← hsz, getI_snoc]
  have hsize : sizeI (updateFT aq ep rowOut st).UpivotIndex = sizeI st.UpivotIndex + 1 := by
    rw [e1, sizeI_append, hsz]; rfl
  obtain ⟨hp0, hp1, hp2⟩ := hinv rowOut hlive (by omega)
  refine ⟨?_, by rw [hnew, hsize]; omega, by rw [hnew, hlast]⟩
  intro v hv hv1
  by_cases hvr : v = rowOut
  · subst hvr
    rw [hnew, hlast, hsize]
    exact ⟨sizeI_nonneg _, by omega, rfl⟩
  · have hv' : v ∈ st.UpivotIndex := by
      rw [e1, List.mem_append, List.mem_singleton] at hv
      rcases hv with hv | hv
      · rcases mem_setI _ _ _ _ hv with h | h
        · exact absurd h hv1
        · exact h
      · exact absurd hv hvr
    obtain ⟨hq0, hq1, hq2⟩ := hinv v hv' hv1
    have hlk : getI (updateFT aq ep rowOut st).UpivotLookup v = getI st.UpivotLookup v := by
      rw [e3, getI_setI_ne _ _ (Ne.symm hvr)]
    have hne : getI st.UpivotLookup rowOut ≠ getI st.UpivotLookup v := by
      intro h
      rw [h, hq2] at hp2
      exact hvr hp2
    rw [hlk, hsize]
    refine ⟨hq0, by omega, ?_⟩
    rw [e1, getI_append_left _ _ (by rw [hsz]; exact hq1), getI_setI_ne _ _ hne, hq2]

/-- Witness of C7 on the two-row store, leaving row 0. -/
theorem C7_witness :
    LookupInv exStore ∧ LookupInv (updateFT exAq exEp0 0 exStore) ∧
    getI (updateFT exAq exEp0 0 exStore).UpivotLookup 0 = 2 :=
  ⟨by decide,
   (C7_updateFT_preserves_lookup exAq exEp0 0 exStore (by decide) (by decide) (by decide)
     (by decide)).1,
   by decide⟩



/-! ## Correctness of the elimination -/

theorem elimRun_succ (live : Nat → Bool) (p : Nat → Int) (d : Nat → ℚ) (e : Nat → Int → ℚ)
    (n : Nat) (a : Int → ℚ) :
    elimRun live p d e (n + 1) a =
      if live n then elimStep (p n) (d n) (e n) (elimRun live p d e n a)
      else elimRun live p d e n a := rfl

/-- The elimination solves the system, when pivots are nonzero, live pivot rows
are distinct, and the entries of a step vanish on the pivot rows of the steps
up to it. -/
theorem elimRun_solves (live : Nat → Bool) (p : Nat → Int) (d : Nat → ℚ)
    (e : Nat → Int → ℚ) (n : Nat) (a : Int → ℚ)
    (hd : ∀ t, t < n → live t = true → d t ≠ 0)
    (hinj : ∀ t u, t < n → u < n → live t = true → live u = true → p t = p u → t = u)
    (htri : ∀ t u, u ≤ t → t < n → live t = true → live u = true → e t (p u) = 0)
    (r : Int) :
    elimMul live p d e n (elimRun live p d e n a) r +
      (if ∃ t, t < n ∧ (live t = true ∧ p t = r) then 0 else elimRun live p d e n a r) = a r := by
  induction n with
  | zero => simp [elimMul, elimRun, loopUp]
  | succ n ih =>
    have ih' := ih (fun t ht => hd t (by omega))
      (fun t u ht hu => hinj t u (by omega) (by omega))
      (fun t u hut ht => htri t u hut (by omega))
    rw [elimRun_succ]
    by_cases hl : live n = true
    · rw [if_pos hl]
      set A := elimRun live p d e n a with hA
      have hdn : d n ≠ 0 := hd n (by omega) hl
      -- the earlier pivot rows are not touched by step n
      have hkeep : ∀ t, t < n → live t = true →
          elimStep (p n) (d n) (e n) A (p t) = A (p t) := by
        intro t ht hlt
        have hne : p t ≠ p n := fun h => by
          have := hinj t n (by omega) (by omega) hlt hl h; omega
        have h0 : e n (p t) = 0 := htri n t (by omega) (by omega) hl hlt
        simp [elimStep, hne, h0]
      have hself : e n (p n) = 0 := htri n n (le_refl _) (by omega) hl hl
      have hsum : elimMul live p d e (n + 1) (elimStep (p n) (d n) (e n) A) r =
          elimMul live p d e n A r +
            ((if r = p n then d n else 0) + e n r) * (A (p n) / d n) := by
        unfold elimMul
        rw [Finset.sum_range_succ, if_pos hl]
        congr 1
        · apply Finset.sum_congr rfl
          intro t ht
          rw [Finset.mem_range] at ht
          by_cases hlt : live t = true
          · rw [if_pos hlt, if_pos hlt, hkeep t ht hlt]
          · rw [if_neg hlt, if_neg hlt]
        · simp [elimStep]
      rw [hsum]
      by_cases hrn : r = p n
      · -- the pivot row of step n
        have hnot : ¬ ∃ t, t < n ∧ (live t = true ∧ p t = r) := by
          rintro ⟨t, ht, hlt, hpt⟩
          have := hinj t n (by omega) (by omega) hlt hl (hpt.trans hrn); omega
        have hex : ∃ t, t < n + 1 ∧ (live t = true ∧ p t = r) := ⟨n, by omega, hl, hrn.symm⟩
        rw [if_neg hnot] at ih'
        rw [if_pos hex, ← ih']
        subst hrn
        rw [if_pos rfl, hself]
        field_simp
      · by_cases hex : ∃ t, t < n ∧ (live t = true ∧ p t = r)
        · -- an earlier pivot row
          have hex' : ∃ t, t < n + 1 ∧ (live t = true ∧ p t = r) := by
            obtain ⟨t, ht, h⟩ := hex; exact ⟨t, by omega, h⟩
          obtain ⟨t, ht, hlt, hpt⟩ := hex
          have h0 : e n r = 0 := by
            rw [← hpt]; exact htri n t (by omega) (by omega) hl hlt
          rw [if_pos ⟨t, ht, hlt, hpt⟩] at ih'
          rw [if_pos hex', ← ih', if_neg hrn, h0]
          ring
        · -- not a pivot row so far
          have hex' : ¬ ∃ t, t < n + 1 ∧ (live t = true ∧ p t = r) := by
            rintro ⟨t, ht, hlt, hpt⟩
            rcases Nat.lt_succ_iff_lt_or_eq.mp ht with h | h
            · exact hex ⟨t, h, hlt, hpt⟩
            · subst h; exact hrn hpt.symm
          rw [if_neg hex] at ih'
          rw [if_neg hex', ← ih', if_neg hrn]
          simp only [elimStep, if_neg hrn]
          ring
    · rw [if_neg hl]
      have hsum : elimMul live p d e (n + 1) (elimRun live p d e n a) r =
          elimMul live p d e n (elimRun live p d e n a) r := by
        unfold elimMul
        rw [Finset.sum_range_succ, if_neg hl, add_zero]
      have hiff : (∃ t, t < n + 1 ∧ (live t = true ∧ p t = r)) ↔
          ∃ t, t < n ∧ (live t = true ∧ p t = r) := by
        constructor
        · rintro ⟨t, ht, hlt, hpt⟩
          rcases Nat.lt_succ_iff_lt_or_eq.mp ht with h | h
          · exact ⟨t, h, hlt, hpt⟩
          · subst h; exact absurd hlt hl
        · rintro ⟨t, ht, h⟩; exact ⟨t, by omega, h⟩
      rw [hsum, ← ih']
      by_cases hex : ∃ t, t < n ∧ (live t = true ∧ p t = r)
      · rw [if_pos hex, if_pos (hiff.mpr hex)]
      · rw [if_neg hex, if_neg (fun h => hex (hiff.mp h))]



/-! ## The scatter loop and the solve step -/

theorem sizeI_scatterSub (idx : List Int) (val : List ℚ) (lo hi : Int) (x : ℚ) (a : List ℚ) :
    sizeI (scatterSub idx val lo hi x a) = sizeI a :=
  forRange_inv (fun b => sizeI b = sizeI a) lo hi _
    (fun _ _ hb => (sizeI_setI _ _ _).trans hb) a rfl

theorem getI_loop_scatter (idx : List Int) (val : List ℚ) (lo : Int) (x : ℚ) (a : List ℚ)
    (n : Nat)
    (hin : ∀ j : Nat, j < n → 0 ≤ getI idx (lo + (j : Int)) ∧ getI idx (lo + (j : Int)) < sizeI a)
    (r : Int) :
    sizeI (loopUp (fun j b => setI b (getI idx (lo + (j : Int)))
        (getI b (getI idx (lo + (j : Int))) - x * getI val (lo + (j : Int)))) n a) = sizeI a ∧
    getI (loopUp (fun j b => setI b (getI idx (lo + (j : Int)))
        (getI b (getI idx (lo + (j : Int))) - x * getI val (lo + (j : Int)))) n a) r =
      getI a r - x * ∑ j ∈ Finset.range n,
        if getI idx (lo + (j : Int)) = r then getI val (lo + (j : Int)) else 0 := by
  induction n with
  | zero => simp [loopUp]
  | succ n ih =>
    obtain ⟨ihs, ihv⟩ := ih (fun j hj => hin j (by omega))
    obtain ⟨h0, h1⟩ := hin n (by omega)
    rw [loopUp]
    refine ⟨(sizeI_setI _ _ _).trans ihs, ?_⟩
    rw [getI_setI, Finset.sum_range_succ, ihs]
    by_cases h : getI idx (lo + (n : Int)) = r
    · rw [if_pos ⟨h, h0, h1⟩, if_pos h, h, ihv]; ring
    · rw [if_neg (fun hh => h hh.1), if_neg h, ihv, add_zero]

theorem getI_scatterSub (idx : List Int) (val : List ℚ) (lo hi : Int) (x : ℚ) (a : List ℚ)
    (hin : ∀ j : Nat, j < (hi - lo).toNat →
      0 ≤ getI idx (lo + (j : Int)) ∧ getI idx (lo + (j : Int)) < sizeI a)
    (r : Int) :
    getI (scatterSub idx val lo hi x a) r = getI a r - x * colEntry idx val lo hi r :=
  (getI_loop_scatter idx val lo x a _ hin r).2

/-- The array written by one step of a solve loop, as a function of the row,
when the pivot value is zero or above the tiny threshold. -/
theorem getI_solveStep (tiny : ℚ) (idx : List Int) (val : List ℚ) (lo hi : Int) (p : Int)
    (d : ℚ) (a : List ℚ)
    (hp : 0 ≤ p ∧ p < sizeI a)
    (hin : ∀ j : Nat, j < (hi - lo).toNat →
      0 ≤ getI idx (lo + (j : Int)) ∧ getI idx (lo + (j : Int)) < sizeI a)
    (hself : colEntry idx val lo hi p = 0)
    (hclamp : getI a p = 0 ∨ tiny < |getI a p|) :
    getI (if |getI a p| > tiny
        then scatterSub idx val lo hi (getI a p / d) (setI a p (getI a p / d))
        else setI a p 0) =
      elimStep p d (colEntry idx val lo hi) (getI a) := by
  funext r
  unfold elimStep
  by_cases hbig : |getI a p| > tiny
  · rw [if_pos hbig, getI_scatterSub _ _ _ _ _ _ (by rw [sizeI_setI]; exact hin), getI_setI]
    by_cases hr : r = p
    · subst hr
      rw [if_pos ⟨rfl, hp.1, hp.2⟩, if_pos rfl, hself, mul_zero, sub_zero]
    · rw [if_neg (fun h => hr h.1.symm), if_neg hr]
  · rw [if_neg hbig]
    have h0 : getI a p = 0 := by
      rcases hclamp with h | h
      · exact h
      · exact absurd h hbig
    rw [getI_setI]
    by_cases hr : r = p
    · subst hr
      rw [if_pos ⟨rfl, hp.1, hp.2⟩, if_pos rfl, h0, zero_div]
    · rw [if_neg (fun h => hr h.1.symm), if_neg hr, h0, zero_div, zero_mul, sub_zero]




theorem ext_getI {α : Type} [Zero α] (a b : List α) (hs : sizeI a = sizeI b)
    (h : ∀ i : Int, getI a i = getI b i) : a = b := by
  unfold sizeI at hs
  apply List.ext_getElem (by omega)
  intro n h1 h2
  rw [← getI_eq_getElem a n h1, ← getI_eq_getElem b n h2]
  exact h n

theorem setI_getI_self {α : Type} [Zero α] (a : List α) (p : Int) :
    setI a p (getI a p) = a := by
  apply ext_getI _ _ (sizeI_setI _ _ _)
  intro i
  rw [getI_setI]
  split
  · rename_i h; rw [h.1]
  · rfl

/-! ## Lists that are permutations of the rows -/

theorem mem_rowsUpTo (m r : Int) : r ∈ rowsUpTo m ↔ 0 ≤ r ∧ r < m := by
  unfold rowsUpTo
  rw [List.mem_map]
  constructor
  · rintro ⟨i, hi, rfl⟩
    rw [List.mem_range] at hi
    omega
  · rintro ⟨h0, h1⟩
    exact ⟨r.toNat, by rw [List.mem_range]; omega, by omega⟩

theorem nodup_rowsUpTo (m : Int) : (rowsUpTo m).Nodup := by
  unfold rowsUpTo
  exact (List.nodup_range _).map (fun a b h => by simpa using h)

theorem length_rowsUpTo (m : Int) : (rowsUpTo m).length = m.toNat := by
  simp [rowsUpTo]

theorem getI_mem {α : Type} [Zero α] (l : List α) (t : Nat) (h : t < l.length) :
    getI l (t : Int) ∈ l := by
  rw [getI_eq_getElem l t h]; exact List.getElem_mem h

theorem getI_inj_of_nodup {α : Type} [Zero α] (l : List α) (hn : l.Nodup) (t u : Nat)
    (ht : t < l.length) (hu : u < l.length) (h : getI l (t : Int) = getI l (u : Int)) :
    t = u := by
  rw [getI_eq_getElem l t ht, getI_eq_getElem l u hu] at h
  exact (List.Nodup.getElem_inj_iff hn).mp h

theorem exists_getI_of_mem {α : Type} [Zero α] (l : List α) (x : α) (h : x ∈ l) :
    ∃ t : Nat, t < l.length ∧ getI l (t : Int) = x := by
  obtain ⟨n, hn, rfl⟩ := List.getElem_of_mem h
  exact ⟨n, hn, getI_eq_getElem l n hn⟩



/-! ## `ftranL` solves the L system -/

theorem forRange_natCast_succ {σ : Type} (k : Nat) (body : Int → σ → σ) (s : σ) :
    forRange 0 ((k + 1 : Nat) : Int) body s = body (k : Int) (forRange 0 (k : Int) body s) := by
  rw [forRange_zero, forRange_zero]
  simp only [Int.toNat_ofNat]
  rfl

theorem forRange_toNat {σ : Type} (hi : Int) (body : Int → σ → σ) (s : σ) :
    forRange 0 hi body s = forRange 0 ((hi.toNat : Nat) : Int) body s := by
  rw [forRange_zero, forRange_zero, Int.toNat_ofNat]

theorem ftranL_step_array (c : Consts) (st : HFactor) (i : Int) (w : Work) :
    (ftranL_step c st i w).array =
      if |getI w.array (getI st.LpivotIndex i)| > c.tiny
      then scatterSub st.Lindex st.Lvalue (getI st.Lstart i) (getI st.Lstart (i + 1))
        (getI w.array (getI st.LpivotIndex i) / 1)
        (setI w.array (getI st.LpivotIndex i) (getI w.array (getI st.LpivotIndex i) / 1))
      else setI w.array (getI st.LpivotIndex i) 0 := by
  unfold ftranL_step
  simp only [div_one, setI_getI_self]
  split <;> rfl

theorem LTriangular_facts (st : HFactor) (h : LTriangular st) :
    (∀ t : Nat, t < st.numRow.toNat →
      0 ≤ getI st.LpivotIndex (t : Int) ∧ getI st.LpivotIndex (t : Int) < st.numRow) ∧
    (∀ t u : Nat, t < st.numRow.toNat → u < st.numRow.toNat →
      getI st.LpivotIndex (t : Int) = getI st.LpivotIndex (u : Int) → t = u) ∧
    (∀ r : Int, 0 ≤ r → r < st.numRow →
      ∃ t : Nat, t < st.numRow.toNat ∧ getI st.LpivotIndex (t : Int) = r) ∧
    (∀ t u : Nat, u ≤ t → t < st.numRow.toNat →
      colEntry st.Lindex st.Lvalue (getI st.Lstart (t : Int)) (getI st.Lstart ((t : Int) + 1))
        (getI st.LpivotIndex (u : Int)) = 0) := by
  obtain ⟨hperm, htri⟩ := h
  have hlen : st.LpivotIndex.length = st.numRow.toNat := by
    rw [hperm.length_eq, length_rowsUpTo]
  have hnd : st.LpivotIndex.Nodup := hperm.nodup_iff.mpr (nodup_rowsUpTo _)
  have hinj : ∀ t u : Nat, t < st.numRow.toNat → u < st.numRow.toNat →
      getI st.LpivotIndex (t : Int) = getI st.LpivotIndex (u : Int) → t = u :=
    fun t u ht hu => getI_inj_of_nodup _ hnd t u (by omega) (by omega)
  refine ⟨?_, hinj, ?_, ?_⟩
  · intro t ht
    exact (mem_rowsUpTo _ _).mp (hperm.mem_iff.mp (getI_mem _ t (by omega)))
  · intro r h0 h1
    obtain ⟨t, ht, he⟩ := exists_getI_of_mem _ r (hperm.mem_iff.mpr ((mem_rowsUpTo _ _).mpr ⟨h0, h1⟩))
    exact ⟨t, by omega, he⟩
  · intro t u hut ht
    unfold colEntry
    apply Finset.sum_eq_zero
    intro j hj
    rw [Finset.mem_range] at hj
    obtain ⟨l, hlm, hl, he⟩ := htri t ht j hj
    rw [if_neg]
    intro heq
    have := hinj l u hlm (by omega) (he.trans heq)
    omega

theorem loopUp_shift {σ : Type} (g : Nat → σ → σ) (n : Nat) (s : σ) :
    loopUp g (n + 1) s = loopUp (fun t => g (t + 1)) n (g 0 s) := by
  induction n with
  | zero => rfl
  | succ n ih =>
    show g (n + 1) (loopUp g (n + 1) s) = g (n + 1) (loopUp (fun t => g (t + 1)) n (g 0 s))
    rw [ih]

theorem loopUp_congr {σ : Type} (f g : Nat → σ → σ) (n : Nat) (s : σ)
    (h : ∀ t, t < n → f t = g t) : loopUp f n s = loopUp g n s := by
  induction n with
  | zero => rfl
  | succ n ih =>
    show f n (loopUp f n s) = g n (loopUp g n s)
    rw [ih (fun t ht => h t (by omega)), h n (by omega)]

theorem loopDown_eq_loopUp {σ : Type} (f : Nat → σ → σ) (n : Nat) (s : σ) :
    loopDown f n s = loopUp (fun t => f (n - 1 - t)) n s := by
  induction n generalizing s with
  | zero => rfl
  | succ n ih =>
    rw [loopUp_shift]
    show loopDown f n (f n s) = _
    rw [ih]
    apply loopUp_congr
    intro t ht
    have he : n + 1 - 1 - (t + 1) = n - 1 - t := by omega
    show f (n - 1 - t) = f (n + 1 - 1 - (t + 1))
    rw [he]

/-! ## The live slots -/

theorem LivePivots_facts (st : HFactor) (h : LivePivots st) :
    (∀ i : Nat, i < st.UpivotIndex.length → liveSlot st i = true →
      0 ≤ getI st.UpivotIndex (i : Int) ∧ getI st.UpivotIndex (i : Int) < st.numRow) ∧
    (∀ i j : Nat, i < st.UpivotIndex.length → j < st.UpivotIndex.length →
      liveSlot st i = true → liveSlot st j = true →
      getI st.UpivotIndex (i : Int) = getI st.UpivotIndex (j : Int) → i = j) ∧
    (∀ r : Int, 0 ≤ r → r < st.numRow →
      ∃ i : Nat, i < st.UpivotIndex.length ∧ (liveSlot st i = true ∧
        getI st.UpivotIndex (i : Int) = r)) := by
  unfold LivePivots at h
  have hmem : ∀ v, v ∈ st.UpivotIndex → v ≠ -1 → 0 ≤ v ∧ v < st.numRow := by
    intro v hv hv1
    apply (mem_rowsUpTo _ _).mp
    apply h.mem_iff.mp
    rw [List.mem_filter]
    exact ⟨hv, by simpa using hv1⟩
  have hnd : (st.UpivotIndex.filter (fun v => v ≠ -1)).Nodup :=
    h.nodup_iff.mpr (nodup_rowsUpTo _)
  rw [List.Nodup, List.pairwise_filter, List.pairwise_iff_getElem] at hnd
  have hlt : ∀ i j : Nat, i < j → (hj : j < st.UpivotIndex.length) →
      liveSlot st i = true → liveSlot st j = true →
      getI st.UpivotIndex (i : Int) ≠ getI st.UpivotIndex (j : Int) := by
    intro i j hij hj hli hlj
    have hi : i < st.UpivotIndex.length := by omega
    have := hnd i j hi hj hij
    unfold liveSlot at hli hlj
    rw [getI_eq_getElem _ i hi] at hli ⊢
    rw [getI_eq_getElem _ j hj] at hlj ⊢
    exact this (by simpa using hli) (by simpa using hlj)
  refine ⟨?_, ?_, ?_⟩
  · intro i hi hl
    unfold liveSlot at hl
    exact hmem _ (getI_mem _ i hi) (by simpa using hl)
  · intro i j hi hj hli hlj he
    rcases Nat.lt_trichotomy i j with hij | hij | hij
    · exact absurd he (hlt i j hij hj hli hlj)
    · exact hij
    · exact absurd he.symm (hlt j i hij hi hlj hli)
  · intro r h0 h1
    have hr : r ∈ st.UpivotIndex.filter (fun v => v ≠ -1) :=
      h.mem_iff.mpr ((mem_rowsUpTo _ _).mpr ⟨h0, h1⟩)
    rw [List.mem_filter] at hr
    obtain ⟨i, hi, he⟩ := exists_getI_of_mem _ r hr.1
    refine ⟨i, hi, ?_, he⟩
    unfold liveSlot
    rw [he]
    exact hr.2



/-! ## The loop of `ftranU` solves the U system -/

theorem ftranU_step_array (c : Consts) (st : HFactor) (i : Int) (w : Work) :
    (ftranU_step c st i w).array =
      if getI st.UpivotIndex i = -1 then w.array
      else if |getI w.array (getI st.UpivotIndex i)| > c.tiny
      then scatterSub st.Uindex st.Uvalue (getI st.Ustart i) (getI st.Ulastp i)
        (getI w.array (getI st.UpivotIndex i) / getI st.UpivotValue i)
        (setI w.array (getI st.UpivotIndex i)
          (getI w.array (getI st.UpivotIndex i) / getI st.UpivotValue i))
      else setI w.array (getI st.UpivotIndex i) 0 := by
  unfold ftranU_step
  split
  · rfl
  · dsimp only
    split <;> rfl

theorem ftranU_regular_array (c : Consts) (st : HFactor) (rhs : HVector)
    (hdense : ftranU_dense c st rhs) :
    (ftranU_regular c st rhs).array =
      (ftranU_after c st rhs st.UpivotIndex.length).array := by
  unfold ftranU_regular
  dsimp only
  unfold ftranU_dense at hdense
  rw [if_pos hdense]
  show Work.array (loopDown (fun j => ftranU_step c st (j : Int))
    (sizeI st.UpivotIndex).toNat ⟨0, 0, rhs.index, rhs.array⟩) = _
  rw [loopDown_eq_loopUp]
  rfl

theorem UTriangular_zero (st : HFactor) (h : UTriangular st) (i l : Nat)
    (hi : i < st.UpivotIndex.length) (hli : liveSlot st i = true)
    (hl : l < st.UpivotIndex.length) (hll : liveSlot st l = true) (hil : i ≤ l) :
    colEntry st.Uindex st.Uvalue (getI st.Ustart (i : Int)) (getI st.Ulastp (i : Int))
      (getI st.UpivotIndex (l : Int)) = 0 := by
  obtain ⟨hlive, htri, -⟩ := h
  obtain ⟨-, hinj, -⟩ := LivePivots_facts st hlive
  unfold colEntry
  apply Finset.sum_eq_zero
  intro j hj
  rw [Finset.mem_range] at hj
  obtain ⟨m, hm, hlm, he⟩ := htri i hi hli j hj
  rw [if_neg]
  intro heq
  have := hinj m l (by omega) hl hlm hll (he.trans heq)
  omega

theorem ftranU_after_array (c : Consts) (st : HFactor) (rhs : HVector)
    (hU : UTriangular st) (hlen : st.numRow ≤ sizeI rhs.array)
    (hclamp : ftranU_noClamp c st rhs) (k : Nat) (hk : k ≤ st.UpivotIndex.length) :
    sizeI (ftranU_after c st rhs k).array = sizeI rhs.array ∧
    getI (ftranU_after c st rhs k).array =
      elimRun (fun t => liveSlot st (st.UpivotIndex.length - 1 - t))
        (fun t => getI st.UpivotIndex ((st.UpivotIndex.length - 1 - t : Nat) : Int))
        (fun t => getI st.UpivotValue ((st.UpivotIndex.length - 1 - t : Nat) : Int))
        (fun t => colEntry st.Uindex st.Uvalue
          (getI st.Ustart ((st.UpivotIndex.length - 1 - t : Nat) : Int))
          (getI st.Ulastp ((st.UpivotIndex.length - 1 - t : Nat) : Int))) k (getI rhs.array) := by
  obtain ⟨hrange, -, -⟩ := LivePivots_facts st hU.1
  induction k with
  | zero => exact ⟨rfl, rfl⟩
  | succ k ih =>
    obtain ⟨ihs, ihv⟩ := ih (by omega)
    have hk' : st.UpivotIndex.length - 1 - k < st.UpivotIndex.length := by omega
    have hstep : ftranU_after c st rhs (k + 1) =
        ftranU_step c st ((st.UpivotIndex.length - 1 - k : Nat) : Int)
          (ftranU_after c st rhs k) := rfl
    rw [hstep, ftranU_step_array, elimRun_succ, ← ihv]
    by_cases hl : liveSlot st (st.UpivotIndex.length - 1 - k) = true
    · have hne : getI st.UpivotIndex ((st.UpivotIndex.length - 1 - k : Nat) : Int) ≠ -1 := by
        unfold liveSlot at hl; simpa using hl
      rw [if_neg hne, if_pos hl]
      have hin : ∀ j : Nat,
          j < (getI st.Ulastp ((st.UpivotIndex.length - 1 - k : Nat) : Int) -
            getI st.Ustart ((st.UpivotIndex.length - 1 - k : Nat) : Int)).toNat →
          0 ≤ getI st.Uindex
            (getI st.Ustart ((st.UpivotIndex.length - 1 - k : Nat) : Int) + (j : Int)) ∧
          getI st.Uindex
            (getI st.Ustart ((st.UpivotIndex.length - 1 - k : Nat) : Int) + (j : Int)) <
            sizeI (ftranU_after c st rhs k).array := by
        intro j hj
        obtain ⟨l, hlk, hll, he⟩ := hU.2.1 _ hk' hl j hj
        rw [← he, ihs]
        have := hrange l (by omega) hll
        omega
      refine ⟨?_, ?_⟩
      · split
        · rw [sizeI_scatterSub, sizeI_setI, ihs]
        · rw [sizeI_setI, ihs]
      · exact getI_solveStep c.tiny _ _ _ _ _ _ _
          (by have := hrange _ hk' hl; rw [ihs]; omega) hin
          (UTriangular_zero st hU _ _ hk' hl hk' hl (le_refl _))
          (hclamp k (by omega) hl)
    · have heq : getI st.UpivotIndex ((st.UpivotIndex.length - 1 - k : Nat) : Int) = -1 := by
        unfold liveSlot at hl; simpa using hl
      rw [if_pos heq, if_neg hl]
      exact ⟨ihs, rfl⟩

/-- The dense loop of `ftranU` solves `U·x = rhs`. -/
theorem ftranU_regular_solves (c : Consts) (st : HFactor) (rhs : HVector)
    (hU : UTriangular st) (hlen : st.numRow ≤ sizeI rhs.array)
    (hdense : ftranU_dense c st rhs) (hclamp : ftranU_noClamp c st rhs) :
    ∀ r : Int, 0 ≤ r → r < st.numRow →
      Umul st (ftranU_regular c st rhs).array r = getI rhs.array r := by
  intro r h0 h1
  obtain ⟨-, hinj, hsurj⟩ := LivePivots_facts st hU.1
  have hrun := (ftranU_after_array c st rhs hU hlen hclamp _ (le_refl _)).2
  have hsolve := elimRun_solves (fun t => liveSlot st (st.UpivotIndex.length - 1 - t))
    (fun t => getI st.UpivotIndex ((st.UpivotIndex.length - 1 - t : Nat) : Int))
    (fun t => getI st.UpivotValue ((st.UpivotIndex.length - 1 - t : Nat) : Int))
    (fun t => colEntry st.Uindex st.Uvalue
      (getI st.Ustart ((st.UpivotIndex.length - 1 - t : Nat) : Int))
      (getI st.Ulastp ((st.UpivotIndex.length - 1 - t : Nat) : Int)))
    st.UpivotIndex.length (getI rhs.array)
    (fun t ht hl => hU.2.2 _ (by omega) hl)
    (fun t u ht hu hlt hlu he => by
      have := hinj _ _ (by omega) (by omega) hlt hlu he
      omega)
    (fun t u hut ht hlt hlu =>
      UTriangular_zero st hU _ _ (by omega) hlt (by omega) hlu (by omega)) r
  obtain ⟨i, hi, hli, hpi⟩ := hsurj r h0 h1
  have hex : ∃ t, t < st.UpivotIndex.length ∧
      (liveSlot st (st.UpivotIndex.length - 1 - t) = true ∧
        getI st.UpivotIndex ((st.UpivotIndex.length - 1 - t : Nat) : Int) = r) := by
    refine ⟨st.UpivotIndex.length - 1 - i, by omega, ?_⟩
    have : st.UpivotIndex.length - 1 - (st.UpivotIndex.length - 1 - i) = i := by omega
    rw [this]
    exact ⟨hli, hpi⟩
  rw [if_pos hex, add_zero, ← hrun, ← ftranU_regular_array c st rhs hdense] at hsolve
  rw [← hsolve]
  unfold Umul elimMul Ucoef
  exact (Finset.sum_range_reflect (fun i =>
    if liveSlot st i = true then
      ((if r = getI st.UpivotIndex (i : Int) then getI st.UpivotValue (i : Int) else 0) +
        colEntry st.Uindex st.Uvalue (getI st.Ustart (i : Int)) (getI st.Ulastp (i : Int)) r) *
        getI (ftranU_regular c st rhs).array (getI st.UpivotIndex (i : Int))
    else 0) st.UpivotIndex.length).symm



/-! ## The update part of `ftranU` without etas -/

theorem pack_frame (v : HVector) :
    (pack v).array = v.array ∧ (pack v).index = v.index ∧ (pack v).count = v.count :=
  ⟨forRange_proj (fun s : HVector => s.array) _ _ packStep (fun _ _ => rfl) _,
   forRange_proj (fun s : HVector => s.index) _ _ packStep (fun _ _ => rfl) _,
   forRange_proj (fun s : HVector => s.count) _ _ packStep (fun _ _ => rfl) _⟩

/-- C5 fails on the code: the two-row store with both densities `0`, below every
threshold, and the same store with both densities `1` give different results
for the same right-hand side `e_1`.  With low densities `btranL` and the loop of
`btranU` return the right-hand side untouched, since the density test has no
`else` branch; with high densities they return the solutions `(-2, 1)` of
`Lᵀ·x = e_1` and `(0, 1/7)` of `Uᵀ·x = e_1`. -/
theorem C5_solves_depend_on_density :
    (btranL exConsts exStoreSparse (exUnit 1)).array = [0, 1] ∧
    (btranL exConsts exStore (exUnit 1)).array = [-2, 1] ∧
    (btranU_regular exConsts exStoreSparse (exUnit 1)).array = [0, 1] ∧
    (btranU_regular exConsts exStore (exUnit 1)).array = [0, 1 / 7] ∧
    (btranU exConsts exStoreSparse (exUnit 1)).array ≠
      (btranU exConsts exStore (exUnit 1)).array := by
  decide!



/-! ## The index written by a solve loop -/

theorem elimStep_keep (p : Int) (d : ℚ) (e : Int → ℚ) (a : Int → ℚ) (q : Int)
    (hq : q ≠ p) (he : e q = 0) : elimStep p d e a q = a q := by
  simp [elimStep, hq, he]

theorem elimStep_self (p : Int) (d : ℚ) (e : Int → ℚ) (a : Int → ℚ) :
    elimStep p d e a p = a p / d := by
  simp [elimStep]

theorem runCore_succ (tiny : ℚ) (idx : List Int) (val : List ℚ) (live : Nat → Bool)
    (p : Nat → Int) (d : Nat → ℚ) (lo hi : Nat → Int) (k : Nat)
    (s : Int × List Int × List ℚ) :
    runCore tiny idx val live p d lo hi (k + 1) s =
      stepCore tiny idx val (live k) (p k) (d k) (lo k) (hi k)
        (runCore tiny idx val live p d lo hi k s) := rfl

/-- Distinct rows of `0 .. M-1`, all different from a row `q` of `0 .. M-1`, are
fewer than `M`. -/
theorem listed_count_lt (M cnt : Int) (ind : List Int) (q : Int) (hq0 : 0 ≤ q) (hq1 : q < M)
    (hl : ∀ i : Nat, i < cnt.toNat →
      0 ≤ getI ind (i : Int) ∧ getI ind (i : Int) < M ∧ getI ind (i : Int) ≠ q)
    (hj : ∀ i : Nat, i < cnt.toNat → ∀ j : Nat, j < cnt.toNat →
      getI ind (i : Int) = getI ind (j : Int) → i = j) : cnt < M := by
  have hcard := Finset.card_le_card_of_injOn (s := Finset.range cnt.toNat)
    (t := (Finset.range M.toNat).erase q.toNat) (fun i => (getI ind (i : Int)).toNat)
    (by
      intro i hi
      have hi' : i < cnt.toNat := by simpa using hi
      obtain ⟨h0, h1, hne⟩ := hl i hi'
      simp only [Finset.mem_erase, Finset.mem_range]
      constructor
      · omega
      · omega)
    (by
      intro i hi j hj' hij
      have hi' : i < cnt.toNat := by simpa using hi
      have hj'' : j < cnt.toNat := by simpa using hj'
      obtain ⟨hi0, -, -⟩ := hl i hi'
      obtain ⟨hj0, -, -⟩ := hl j hj''
      apply hj i hi' j hj''
      simp only at hij
      omega)
  rw [Finset.card_range, Finset.card_erase_of_mem (by rw [Finset.mem_range]; omega),
    Finset.card_range] at hcard
  omega

/-- The invariant of a solve loop after `k` steps. -/
theorem runCore_spec (tiny : ℚ) (idx : List Int) (val : List ℚ) (live : Nat → Bool)
    (p : Nat → Int) (d : Nat → ℚ) (lo hi : Nat → Int) (n : Nat)
    (i0 : List Int) (a0 : List ℚ)
    (htiny : 0 ≤ tiny)
    (hd : ∀ t, t < n → live t = true → d t ≠ 0)
    (hinj : ∀ t u, t < n → u < n → live t = true → live u = true → p t = p u → t = u)
    (htri : ∀ t u, u ≤ t → t < n → live t = true → live u = true →
      colEntry idx val (lo t) (hi t) (p u) = 0)
    (M : Int) (hMa : M ≤ sizeI a0) (hMi : M ≤ sizeI i0)
    (hrange : ∀ t, t < n → live t = true → 0 ≤ p t ∧ p t < M)
    (hin : ∀ t, t < n → live t = true → ∀ j : Nat, j < (hi t - lo t).toNat →
      0 ≤ getI idx (lo t + (j : Int)) ∧ getI idx (lo t + (j : Int)) < sizeI a0)
    (hclamp : ∀ t, t < n → live t = true →
      getI (runCore tiny idx val live p d lo hi t (0, i0, a0)).2.2 (p t) = 0 ∨
      tiny < |getI (runCore tiny idx val live p d lo hi t (0, i0, a0)).2.2 (p t)|)
    (k : Nat) (hk : k ≤ n) :
    sizeI (runCore tiny idx val live p d lo hi k (0, i0, a0)).2.2 = sizeI a0 ∧
    sizeI (runCore tiny idx val live p d lo hi k (0, i0, a0)).2.1 = sizeI i0 ∧
    getI (runCore tiny idx val live p d lo hi k (0, i0, a0)).2.2 =
      elimRun live p d (fun t => colEntry idx val (lo t) (hi t)) k (getI a0) ∧
    0 ≤ (runCore tiny idx val live p d lo hi k (0, i0, a0)).1 ∧
    (∀ i : Nat, i < (runCore tiny idx val live p d lo hi k (0, i0, a0)).1.toNat →
      ∃ t, t < k ∧ live t = true ∧
        getI (runCore tiny idx val live p d lo hi k (0, i0, a0)).2.1 (i : Int) = p t ∧
        getI (runCore tiny idx val live p d lo hi k (0, i0, a0)).2.2 (p t) ≠ 0) ∧
    (∀ i : Nat, i < (runCore tiny idx val live p d lo hi k (0, i0, a0)).1.toNat →
      ∀ j : Nat, j < (runCore tiny idx val live p d lo hi k (0, i0, a0)).1.toNat →
      getI (runCore tiny idx val live p d lo hi k (0, i0, a0)).2.1 (i : Int) =
        getI (runCore tiny idx val live p d lo hi k (0, i0, a0)).2.1 (j : Int) → i = j) ∧
    (∀ t, t < k → live t = true →
      getI (runCore tiny idx val live p d lo hi k (0, i0, a0)).2.2 (p t) ≠ 0 →
      ∃ i : Nat, i < (runCore tiny idx val live p d lo hi k (0, i0, a0)).1.toNat ∧
        getI (runCore tiny idx val live p d lo hi k (0, i0, a0)).2.1 (i : Int) = p t) := by
  induction k with
  | zero =>
    refine ⟨rfl, rfl, rfl, le_refl _, ?_, ?_, ?_⟩
    · intro i hi; exact absurd hi (by simp [runCore, loopUp])
    · intro i hi; exact absurd hi (by simp [runCore, loopUp])
    · intro t ht; omega
  | succ k ih =>
    obtain ⟨ihsa, ihsi, ihv, ihc0, ihl, ihj, ihe⟩ := ih (by omega)
    have hk' : k < n := by omega
    have hcl := hclamp k hk'
    rw [runCore_succ]
    generalize runCore tiny idx val live p d lo hi k (0, i0, a0) = s at *
    obtain ⟨cnt, ind, arr⟩ := s
    simp only at ihsa ihsi ihv ihc0 ihl ihj ihe hcl
    unfold stepCore
    by_cases hl : live k = true
    · rw [if_pos hl, elimRun_succ, if_pos hl, ← ihv]
      have hpk : 0 ≤ p k ∧ p k < sizeI a0 := by have := hrange k hk' hl; omega
      have hself : colEntry idx val (lo k) (hi k) (p k) = 0 := htri k k (le_refl _) hk' hl hl
      have harr := getI_solveStep tiny idx val (lo k) (hi k) (p k) (d k) arr
        (by rw [ihsa]; exact hpk) (by rw [ihsa]; exact hin k hk' hl) hself (hcl hl)
      have hkeep : ∀ t, t < k → live t = true →
          elimStep (p k) (d k) (colEntry idx val (lo k) (hi k)) (getI arr) (p t) =
            getI arr (p t) := by
        intro t ht hlt
        apply elimStep_keep
        · intro h
          have := hinj t k (by omega) hk' hlt hl h
          omega
        · exact htri k t (by omega) hk' hl hlt
      by_cases hbig : |getI arr (p k)| > tiny
      · rw [if_pos hbig] at harr ⊢
        simp only
        have hx : getI arr (p k) ≠ 0 := by
          intro h0; rw [h0, abs_zero] at hbig; exact absurd hbig (not_lt.mpr htiny)
        have hlisted : ∀ i : Nat, i < cnt.toNat → getI ind (i : Int) ≠ p k := by
          intro i hi h
          obtain ⟨t, ht, hlt, he, -⟩ := ihl i hi
          have := hinj t k (by omega) hk' hlt hl (he.symm.trans h)
          omega
        have hcntM : cnt < M := by
          apply listed_count_lt M cnt ind (p k) (hrange k hk' hl).1 (hrange k hk' hl).2 _ ihj
          intro i hi
          obtain ⟨t, ht, hlt, he, -⟩ := ihl i hi
          have := hrange t (by omega) hlt
          exact ⟨by rw [he]; exact this.1, by rw [he]; exact this.2, hlisted i hi⟩
        have hcnt : cnt.toNat < ind.length := by
          unfold sizeI at hMi ihsi; omega
        refine ⟨by rw [sizeI_scatterSub, sizeI_setI, ihsa], by rw [sizeI_setI, ihsi], harr,
          by omega, ?_, ?_, ?_⟩
        · intro i hi
          rw [harr]
          by_cases hic : (i : Int) = cnt
          · refine ⟨k, by omega, hl, ?_, ?_⟩
            · rw [getI_setI, if_pos ⟨hic.symm, ihc0, by unfold sizeI; omega⟩]
            · rw [elimStep_self]
              exact div_ne_zero hx (hd k hk' hl)
          · obtain ⟨t, ht, hlt, he, hne⟩ := ihl i (by omega)
            refine ⟨t, by omega, hlt, ?_, ?_⟩
            · rw [getI_setI_ne _ _ (fun h => hic h.symm)]; exact he
            · rw [hkeep t ht hlt]; exact hne
        · intro i hi j hj hij
          by_cases hic : (i : Int) = cnt <;> by_cases hjc : (j : Int) = cnt
          · omega
          · exfalso
            rw [getI_setI, if_pos ⟨hic.symm, ihc0, by unfold sizeI; omega⟩,
              getI_setI_ne _ _ (fun h => hjc h.symm)] at hij
            exact hlisted j (by omega) hij.symm
          · exfalso
            rw [getI_setI_ne _ _ (fun h => hic h.symm), getI_setI,
              if_pos ⟨hjc.symm, ihc0, by unfold sizeI; omega⟩] at hij
            exact hlisted i (by omega) hij
          · rw [getI_setI_ne _ _ (fun h => hic h.symm),
              getI_setI_ne _ _ (fun h => hjc h.symm)] at hij
            exact ihj i (by omega) j (by omega) hij
        · intro t ht hlt hne
          rcases Nat.lt_succ_iff_lt_or_eq.mp ht with h | h
          · rw [harr, hkeep t h hlt] at hne
            obtain ⟨i, hi, he⟩ := ihe t h hlt hne
            refine ⟨i, by omega, ?_⟩
            rw [getI_setI_ne _ _ (by omega)]; exact he
          · subst h
            refine ⟨cnt.toNat, by omega, ?_⟩
            rw [getI_setI, if_pos ⟨by omega, ihc0, by unfold sizeI; omega⟩]
      · rw [if_neg hbig] at harr ⊢
        simp only
        have hx : getI arr (p k) = 0 := by
          rcases hcl hl with h | h
          · exact h
          · exact absurd h hbig
        refine ⟨by rw [sizeI_setI, ihsa], ihsi, harr, ihc0, ?_, ihj, ?_⟩
        · intro i hi
          obtain ⟨t, ht, hlt, he, hne⟩ := ihl i hi
          refine ⟨t, by omega, hlt, he, ?_⟩
          rw [harr, hkeep t ht hlt]; exact hne
        · intro t ht hlt hne
          rcases Nat.lt_succ_iff_lt_or_eq.mp ht with h | h
          · rw [harr, hkeep t h hlt] at hne
            exact ihe t h hlt hne
          · subst h
            rw [harr, elimStep_self, hx, zero_div] at hne
            exact absurd rfl hne
    · rw [if_neg hl, elimRun_succ, if_neg hl]
      refine ⟨ihsa, ihsi, ihv, ihc0, ?_, ihj, ?_⟩
      · intro i hi
        obtain ⟨t, ht, h⟩ := ihl i hi
        exact ⟨t, by omega, h⟩
      · intro t ht hlt hne
        rcases Nat.lt_succ_iff_lt_or_eq.mp ht with h | h
        · exact ihe t h hlt hne
        · subst h; exact absurd hlt hl



/-! ## Exact indices: counting, writing one entry -/

theorem IndexExact_count_lt (m cnt : Int) (ind : List Int) (arr : List ℚ)
    (h : IndexExact m cnt ind arr) (q : Int) (hq0 : 0 ≤ q) (hq1 : q < m)
    (hz : getI arr q = 0) : cnt < m := by
  obtain ⟨hc, hl, hj, -⟩ := h
  have hcard := Finset.card_le_card_of_injOn (s := Finset.range cnt.toNat)
    (t := (Finset.range m.toNat).erase q.toNat) (fun i => (getI ind (i : Int)).toNat)
    (by
      intro i hi
      have hi' : i < cnt.toNat := by simpa using hi
      obtain ⟨h0, h1, hne⟩ := hl i hi'
      have hneq : getI ind (i : Int) ≠ q := fun hh => hne (hh ▸ hz)
      simp only [Finset.mem_erase, Finset.mem_range]
      constructor
      · omega
      · omega)
    (by
      intro i hi j hj' hij
      have hi' : i < cnt.toNat := by simpa using hi
      have hj'' : j < cnt.toNat := by simpa using hj'
      obtain ⟨hi0, -, -⟩ := hl i hi'
      obtain ⟨hj0, -, -⟩ := hl j hj''
      apply hj i hi' j hj''
      simp only at hij
      omega)
  rw [Finset.card_range, Finset.card_erase_of_mem (by rw [Finset.mem_range]; omega),
    Finset.card_range] at hcard
  omega

theorem IndexExact_count_le (m cnt : Int) (ind : List Int) (arr : List ℚ)
    (h : IndexExact m cnt ind arr) (hm : 0 ≤ m) : cnt ≤ m := by
  obtain ⟨hc, hl, hj, -⟩ := h
  have hcard := Finset.card_le_card_of_injOn (s := Finset.range cnt.toNat)
    (t := Finset.range m.toNat) (fun i => (getI ind (i : Int)).toNat)
    (by
      intro i hi
      have hi' : i < cnt.toNat := by simpa using hi
      obtain ⟨h0, h1, -⟩ := hl i hi'
      simp only [Finset.mem_range]
      omega)
    (by
      intro i hi j hj' hij
      have hi' : i < cnt.toNat := by simpa using hi
      have hj'' : j < cnt.toNat := by simpa using hj'
      obtain ⟨hi0, -, -⟩ := hl i hi'
      obtain ⟨hj0, -, -⟩ := hl j hj''
      apply hj i hi' j hj''
      simp only at hij
      omega)
  rw [Finset.card_range, Finset.card_range] at hcard
  omega

/-- Writing a value that is not zero at a row keeps the index exact, when the
row is appended to the index if its value was zero. -/
theorem IndexExact_write (m cnt : Int) (ind : List Int) (arr : List ℚ)
    (h : IndexExact m cnt ind arr) (q : Int) (hq0 : 0 ≤ q) (hq1 : q < m)
    (hqa : q < sizeI arr) (hcap : m ≤ sizeI ind) (w : ℚ) (hw : w ≠ 0) :
    (getI arr q = 0 → IndexExact m (cnt + 1) (setI ind cnt q) (setI arr q w)) ∧
    (getI arr q ≠ 0 → IndexExact m cnt ind (setI arr q w)) := by
  have hval : ∀ x : Int, getI (setI arr q w) x = if x = q then w else getI arr x := by
    intro x
    rw [getI_setI]
    by_cases hx : x = q
    · rw [if_pos ⟨hx.symm, hq0, hqa⟩, if_pos hx]
    · rw [if_neg (fun hh => hx hh.1.symm), if_neg hx]
  constructor
  · intro hz
    have hlt := IndexExact_count_lt m cnt ind arr h q hq0 hq1 hz
    obtain ⟨hc, hl, hj, he⟩ := h
    have hnl : ∀ i : Nat, i < cnt.toNat → getI ind (i : Int) ≠ q :=
      fun i hi hh => (hl i hi).2.2 (hh ▸ hz)
    have hnew : getI (setI ind cnt q) cnt = q := getI_setI_eq _ _ hc (by omega)
    have hold : ∀ i : Nat, i < cnt.toNat → getI (setI ind cnt q) (i : Int) = getI ind (i : Int) :=
      fun i hi => getI_setI_ne _ _ (by omega)
    have hcn : ((cnt.toNat : Nat) : Int) = cnt := by omega
    refine ⟨by omega, ?_, ?_, ?_⟩
    · intro i hi
      by_cases hic : i < cnt.toNat
      · rw [hold i hic, hval, if_neg (hnl i hic)]
        exact hl i hic
      · have hi' : (i : Int) = cnt := by omega
        rw [hi', hnew, hval, if_pos rfl]
        exact ⟨hq0, hq1, hw⟩
    · intro i hi j hj' hij
      by_cases hic : i < cnt.toNat <;> by_cases hjc : j < cnt.toNat
      · rw [hold i hic, hold j hjc] at hij
        exact hj i hic j hjc hij
      · have hj2 : (j : Int) = cnt := by omega
        rw [hold i hic, hj2, hnew] at hij
        exact absurd hij (hnl i hic)
      · have hi2 : (i : Int) = cnt := by omega
        rw [hold j hjc, hi2, hnew] at hij
        exact absurd hij.symm (hnl j hjc)
      · omega
    · intro r hr hne
      rw [hval] at hne
      by_cases hrq : (r : Int) = q
      · exact ⟨cnt.toNat, by omega, by rw [hcn, hnew, hrq]⟩
      · rw [if_neg hrq] at hne
        obtain ⟨i, hi, hie⟩ := he r hr hne
        exact ⟨i, by omega, by rw [hold i hi, hie]⟩
  · intro hnz
    obtain ⟨hc, hl, hj, he⟩ := h
    refine ⟨hc, ?_, hj, ?_⟩
    · intro i hi
      obtain ⟨h0, h1, h2⟩ := hl i hi
      refine ⟨h0, h1, ?_⟩
      rw [hval]
      split
      · exact hw
      · exact h2
    · intro r hr hne
      rw [hval] at hne
      by_cases hrq : (r : Int) = q
      · exact he r hr (by rw [hrq]; exact hnz)
      · rw [if_neg hrq] at hne
        exact he r hr hne



/-! ## `ftranFT` keeps the index exact -/

/-- The members of a vector that the solves leave alone. -/
theorem ftranFT_step_pack (c : Consts) (st : HFactor) (i : Int) (v : HVector) :
    (ftranFT_step c st i v).packCount = v.packCount ∧
    (ftranFT_step c st i v).packIndex = v.packIndex ∧
    (ftranFT_step c st i v).packValue = v.packValue := by
  unfold ftranFT_step
  dsimp only
  split
  · split <;> exact ⟨rfl, rfl, rfl⟩
  · exact ⟨rfl, rfl, rfl⟩

theorem ftranFT_step_array (c : Consts) (st : HFactor) (i : Int) (v : HVector)
    (hnc : (getI v.array (getI st.PFpivotIndex i) = 0 ∧ ftranFT_value1 st i v.array = 0) ∨
      c.tiny ≤ |ftranFT_value1 st i v.array|) :
    (ftranFT_step c st i v).array =
      setI v.array (getI st.PFpivotIndex i) (ftranFT_value1 st i v.array) := by
  unfold ftranFT_step
  dsimp only
  by_cases hw : getI v.array (getI st.PFpivotIndex i) ≠ 0 ∨ ftranFT_value1 st i v.array ≠ 0
  · rw [if_pos hw]
    have hbig : ¬ |ftranFT_value1 st i v.array| < c.tiny := by
      rcases hnc with h | h
      · rcases hw with h1 | h1
        · exact absurd h.1 h1
        · exact absurd h.2 h1
      · exact not_lt.mpr h
    rw [if_neg hbig]
    split <;> rfl
  · rw [if_neg hw]
    have h0 : getI v.array (getI st.PFpivotIndex i) = 0 := by
      by_contra h; exact hw (Or.inl h)
    have h1 : ftranFT_value1 st i v.array = 0 := by
      by_contra h; exact hw (Or.inr h)
    rw [h1, ← h0, setI_getI_self]

theorem ftranFT_step_exact (c : Consts) (st : HFactor) (i : Int) (v : HVector) (m : Int)
    (htiny : 0 < c.tiny)
    (hex : IndexExact m v.count v.index v.array)
    (hrow : 0 ≤ getI st.PFpivotIndex i ∧ getI st.PFpivotIndex i < m)
    (hsz : m ≤ sizeI v.array) (hcap : m ≤ sizeI v.index)
    (hnc : (getI v.array (getI st.PFpivotIndex i) = 0 ∧ ftranFT_value1 st i v.array = 0) ∨
      c.tiny ≤ |ftranFT_value1 st i v.array|) :
    IndexExact m (ftranFT_step c st i v).count (ftranFT_step c st i v).index
      (ftranFT_step c st i v).array ∧
    sizeI (ftranFT_step c st i v).array = sizeI v.array ∧
    sizeI (ftranFT_step c st i v).index = sizeI v.index := by
  have harr := ftranFT_step_array c st i v hnc
  by_cases hw : getI v.array (getI st.PFpivotIndex i) ≠ 0 ∨ ftranFT_value1 st i v.array ≠ 0
  · have hbig : ¬ |ftranFT_value1 st i v.array| < c.tiny := by
      rcases hnc with h | h
      · rcases hw with h1 | h1
        · exact absurd h.1 h1
        · exact absurd h.2 h1
      · exact not_lt.mpr h
    have hv1 : ftranFT_value1 st i v.array ≠ 0 := by
      intro h0
      rw [h0, abs_zero] at hbig
      exact hbig htiny
    obtain ⟨hA, hB⟩ := IndexExact_write m v.count v.index v.array hex _ hrow.1 hrow.2
      (by omega) hcap _ hv1
    have hci : (ftranFT_step c st i v).count =
          (if getI v.array (getI st.PFpivotIndex i) = 0 then v.count + 1 else v.count) ∧
        (ftranFT_step c st i v).index =
          (if getI v.array (getI st.PFpivotIndex i) = 0
            then setI v.index v.count (getI st.PFpivotIndex i) else v.index) := by
      unfold ftranFT_step
      dsimp only
      rw [if_pos hw]
      split <;> exact ⟨rfl, rfl⟩
    rw [harr, hci.1, hci.2]
    by_cases h0 : getI v.array (getI st.PFpivotIndex i) = 0
    · rw [if_pos h0, if_pos h0]
      exact ⟨hA h0, sizeI_setI _ _ _, sizeI_setI _ _ _⟩
    · rw [if_neg h0, if_neg h0]
      exact ⟨hB h0, sizeI_setI _ _ _, rfl⟩
  · have hsame : ftranFT_step c st i v = v := by
      unfold ftranFT_step
      dsimp only
      rw [if_neg hw]
    rw [hsame]
    exact ⟨hex, rfl, rfl⟩

theorem ftranFT_after_exact (c : Consts) (st : HFactor) (v : HVector) (m : Int)
    (htiny : 0 < c.tiny)
    (hex : IndexExact m v.count v.index v.array)
    (hrow : ∀ i : Nat, i < st.PFpivotIndex.length →
      0 ≤ getI st.PFpivotIndex (i : Int) ∧ getI st.PFpivotIndex (i : Int) < m)
    (hsz : m ≤ sizeI v.array) (hcap : m ≤ sizeI v.index)
    (hnc : ftranFT_noClamp c st v) (k : Nat) (hk : k ≤ st.PFpivotIndex.length) :
    IndexExact m (ftranFT_after c st v k).count (ftranFT_after c st v k).index
      (ftranFT_after c st v k).array ∧
    sizeI (ftranFT_after c st v k).array = sizeI v.array ∧
    sizeI (ftranFT_after c st v k).index = sizeI v.index ∧
    (ftranFT_after c st v k).packCount = v.packCount ∧
    (ftranFT_after c st v k).packIndex = v.packIndex ∧
    (ftranFT_after c st v k).packValue = v.packValue := by
  induction k with
  | zero => exact ⟨hex, rfl, rfl, rfl, rfl, rfl⟩
  | succ k ih =>
    obtain ⟨ihe, ihsa, ihsi, ihp1, ihp2, ihp3⟩ := ih (by omega)
    have hstep : ftranFT_after c st v (k + 1) =
        ftranFT_step c st (k : Int) (ftranFT_after c st v k) :=
      forRange_natCast_succ k _ _
    rw [hstep]
    obtain ⟨h1, h2, h3⟩ := ftranFT_step_exact c st (k : Int) (ftranFT_after c st v k) m htiny
      ihe (hrow k (by omega)) (by omega) (by omega) (hnc k (by omega))
    obtain ⟨p1, p2, p3⟩ := ftranFT_step_pack c st (k : Int) (ftranFT_after c st v k)
    exact ⟨h1, h2.trans ihsa, h3.trans ihsi, p1.trans ihp1, p2.trans ihp2, p3.trans ihp3⟩

theorem ftranFT_eq_after (c : Consts) (st : HFactor) (v : HVector) :
    (ftranFT c st v).array = (ftranFT_after c st v st.PFpivotIndex.length).array ∧
    (ftranFT c st v).index = (ftranFT_after c st v st.PFpivotIndex.length).index ∧
    (ftranFT c st v).count = (ftranFT_after c st v st.PFpivotIndex.length).count ∧
    (ftranFT c st v).packCount = (ftranFT_after c st v st.PFpivotIndex.length).packCount ∧
    (ftranFT c st v).packIndex = (ftranFT_after c st v st.PFpivotIndex.length).packIndex ∧
    (ftranFT c st v).packValue = (ftranFT_after c st v st.PFpivotIndex.length).packValue := by
  unfold ftranFT ftranFT_after
  dsimp only
  rw [forRange_toNat]
  exact ⟨rfl, rfl, rfl, rfl, rfl, rfl⟩



/-! ## `tight` and `pack` on an exact index -/

theorem tight_prefix_keep (tol : ℚ) (v : HVector)
    (h : ∀ i : Nat, i < v.count.toNat → tol < |getI v.array (getI v.index (i : Int))|)
    (k : Nat) (hk : k ≤ v.count.toNat) :
    forRange 0 (k : Int) (tightStep tol) { v with count := 0 } = { v with count := (k : Int) } := by
  induction k with
  | zero => rfl
  | succ k ih =>
    rw [forRange_natCast_succ, ih (by omega)]
    unfold tightStep
    dsimp only
    rw [if_pos (h k (by omega)), setI_getI_self]
    rfl

/-- On a vector whose listed entries all have magnitude above `tol`, `tight`
changes nothing. -/
theorem tight_eq_self (tol : ℚ) (v : HVector) (hc : 0 ≤ v.count)
    (h : ∀ i : Nat, i < v.count.toNat → tol < |getI v.array (getI v.index (i : Int))|) :
    tight tol v = v := by
  unfold tight
  rw [forRange_toNat, tight_prefix_keep tol v h _ (le_refl _)]
  have : ((v.count.toNat : Nat) : Int) = v.count := by omega
  rw [this]

theorem tight_eq_self_of_exact (tol : ℚ) (m : Int) (v : HVector)
    (hex : IndexExact m v.count v.index v.array) (hidle : tightIdle tol v) :
    tight tol v = v := by
  apply tight_eq_self tol v hex.1
  intro i hi
  rcases hidle i hi with h | h
  · exact absurd h (hex.2.1 i hi).2.2
  · exact h

theorem pack_prefix (v : HVector) (k : Nat)
    (h1 : (k : Int) ≤ sizeI v.packIndex) (h2 : (k : Int) ≤ sizeI v.packValue) :
    (forRange 0 (k : Int) packStep { v with packCount := v.count }).array = v.array ∧
    (forRange 0 (k : Int) packStep { v with packCount := v.count }).index = v.index ∧
    (forRange 0 (k : Int) packStep { v with packCount := v.count }).count = v.count ∧
    (forRange 0 (k : Int) packStep { v with packCount := v.count }).packCount = v.count ∧
    sizeI (forRange 0 (k : Int) packStep { v with packCount := v.count }).packIndex =
      sizeI v.packIndex ∧
    sizeI (forRange 0 (k : Int) packStep { v with packCount := v.count }).packValue =
      sizeI v.packValue ∧
    ∀ i : Nat, i < k →
      getI (forRange 0 (k : Int) packStep { v with packCount := v.count }).packIndex (i : Int) =
        getI v.index (i : Int) ∧
      getI (forRange 0 (k : Int) packStep { v with packCount := v.count }).packValue (i : Int) =
        getI v.array (getI v.index (i : Int)) := by
  induction k with
  | zero => exact ⟨rfl, rfl, rfl, rfl, rfl, rfl, fun i hi => absurd hi (by omega)⟩
  | succ k ih =>
    obtain ⟨ia, ii, ic, ip, is1, is2, ie⟩ := ih (by omega) (by omega)
    rw [forRange_natCast_succ]
    generalize forRange 0 (k : Int) packStep { v with packCount := v.count } = s at *
    unfold packStep
    dsimp only
    refine ⟨ia, ii, ic, ip, by rw [sizeI_setI, is1], by rw [sizeI_setI, is2], ?_⟩
    intro i hi
    rw [ia, ii]
    by_cases hik : i = k
    · subst hik
      rw [getI_setI_eq _ _ (by omega) (by omega), getI_setI_eq _ _ (by omega) (by omega)]
      exact ⟨rfl, rfl⟩
    · rw [getI_setI_ne _ _ (by omega), getI_setI_ne _ _ (by omega)]
      exact ie i (by omega)

/-- The packed form written by `pack`. -/
theorem pack_spec (v : HVector)
    (h1 : v.count ≤ sizeI v.packIndex) (h2 : v.count ≤ sizeI v.packValue) :
    (pack v).array = v.array ∧ (pack v).index = v.index ∧ (pack v).count = v.count ∧
    (pack v).packCount = v.count ∧
    ∀ i : Nat, i < v.count.toNat →
      getI (pack v).packIndex (i : Int) = getI v.index (i : Int) ∧
      getI (pack v).packValue (i : Int) = getI v.array (getI v.index (i : Int)) := by
  unfold pack
  rw [forRange_toNat]
  obtain ⟨a, b, c, d, -, -, e⟩ := pack_prefix v v.count.toNat
    (by have := sizeI_nonneg v.packIndex; omega) (by have := sizeI_nonneg v.packValue; omega)
  exact ⟨a, b, c, d, e⟩

/-! ## The index left by `ftranL` -/

theorem ftranL_step_core (c : Consts) (st : HFactor) (i : Int) (w : Work) :
    (ftranL_step c st i w).core =
      stepCore c.tiny st.Lindex st.Lvalue true (getI st.LpivotIndex i) 1 (getI st.Lstart i)
        (getI st.Lstart (i + 1)) w.core := by
  unfold ftranL_step stepCore Work.core
  simp only [div_one, setI_getI_self, if_true]
  split <;> rfl

theorem ftranL_after_core (c : Consts) (st : HFactor) (rhs : HVector) (k : Nat) :
    (ftranL_after c st rhs k).core =
      runCore c.tiny st.Lindex st.Lvalue (fun _ => true)
        (fun t => getI st.LpivotIndex (t : Int)) (fun _ => 1)
        (fun t => getI st.Lstart (t : Int)) (fun t => getI st.Lstart ((t : Int) + 1)) k
        (0, rhs.index, rhs.array) := by
  induction k with
  | zero => rfl
  | succ k ih =>
    have hstep : ftranL_after c st rhs (k + 1) =
        ftranL_step c st (k : Int) (ftranL_after c st rhs k) :=
      forRange_natCast_succ k _ _
    rw [hstep, ftranL_step_core, ih, runCore_succ]

theorem ftranL_eq_after (c : Consts) (st : HFactor) (rhs : HVector) :
    (ftranL c st rhs).array = (ftranL_after c st rhs st.numRow.toNat).array ∧
    (ftranL c st rhs).index = (ftranL_after c st rhs st.numRow.toNat).index ∧
    (ftranL c st rhs).count = (ftranL_after c st rhs st.numRow.toNat).count ∧
    (ftranL c st rhs).packCount = rhs.packCount ∧
    (ftranL c st rhs).packIndex = rhs.packIndex ∧
    (ftranL c st rhs).packValue = rhs.packValue := by
  unfold ftranL ftranL_after
  dsimp only
  rw [forRange_toNat]
  exact ⟨rfl, rfl, rfl, rfl, rfl, rfl⟩

/-- After `ftranL` the index is exact. -/
theorem ftranL_exact (c : Consts) (st : HFactor) (rhs : HVector)
    (htiny : 0 ≤ c.tiny) (htri : LTriangular st)
    (hlen : st.numRow ≤ sizeI rhs.array) (hcap : st.numRow ≤ sizeI rhs.index)
    (hclamp : ftranL_noClamp c st rhs) :
    IndexExact st.numRow (ftranL c st rhs).count (ftranL c st rhs).index
      (ftranL c st rhs).array ∧
    sizeI (ftranL c st rhs).array = sizeI rhs.array ∧
    sizeI (ftranL c st rhs).index = sizeI rhs.index := by
  obtain ⟨hrange, hinj, hsurj, hzero⟩ := LTriangular_facts st htri
  obtain ⟨ea, ei, ec, -⟩ := ftranL_eq_after c st rhs
  have hcore := ftranL_after_core c st rhs
  have hspec := runCore_spec c.tiny st.Lindex st.Lvalue (fun _ => true)
    (fun t => getI st.LpivotIndex (t : Int)) (fun _ => 1)
    (fun t => getI st.Lstart (t : Int)) (fun t => getI st.Lstart ((t : Int) + 1))
    st.numRow.toNat rhs.index rhs.array htiny
    (fun _ _ _ => one_ne_zero) (fun t u ht hu _ _ => hinj t u ht hu)
    (fun t u hut ht _ _ => hzero t u hut ht)
    st.numRow hlen hcap
    (fun t ht _ => hrange t ht)
    (fun t ht _ j hj => by
      obtain ⟨l, hlm, -, he⟩ := htri.2 t ht j hj
      dsimp only
      rw [← he]
      have := hrange l hlm
      omega)
    (fun t ht _ => by
      have := hclamp t ht
      have hc := hcore t
      unfold Work.core at hc
      rw [← hc]
      exact this)
    st.numRow.toNat (le_refl _)
  have hc := hcore st.numRow.toNat
  unfold Work.core at hc
  rw [← hc] at hspec
  simp only at hspec
  obtain ⟨s1, s2, -, c0, hl, hj, he⟩ := hspec
  rw [ea, ei, ec]
  refine ⟨⟨c0, ?_, hj, ?_⟩, s1, s2⟩
  · intro i hi
    obtain ⟨t, ht, -, e1, e2⟩ := hl i hi
    rw [e1]
    exact ⟨(hrange t ht).1, (hrange t ht).2, e2⟩
  · intro r hr hne
    obtain ⟨t, ht, hpt⟩ := hsurj (r : Int) (by omega) (by omega)
    rw [← hpt] at hne ⊢
    exact he t ht trivial hne



/-! ## The loop of `btranU` -/

theorem btranU_step_core (c : Consts) (st : HFactor) (i : Nat) (w : Work) :
    (btranU_step c st (i : Int) w).core =
      stepCore c.tiny st.URindex st.URvalue (liveSlot st i) (getI st.UpivotIndex (i : Int))
        (getI st.UpivotValue (i : Int)) (getI st.URstart (i : Int))
        (getI st.URlastp (i : Int)) w.core := by
  unfold btranU_step stepCore Work.core liveSlot
  by_cases h : getI st.UpivotIndex (i : Int) = -1
  · simp [h]
  · simp only [h, if_false, ne_eq, not_false_eq_true, decide_True, if_true]
    split <;> rfl

theorem btranU_after_core (c : Consts) (st : HFactor) (rhs : HVector) (k : Nat) :
    (btranU_after c st rhs k).core =
      runCore c.tiny st.URindex st.URvalue (liveSlot st)
        (fun t => getI st.UpivotIndex (t : Int)) (fun t => getI st.UpivotValue (t : Int))
        (fun t => getI st.URstart (t : Int)) (fun t => getI st.URlastp (t : Int)) k
        (0, rhs.index, rhs.array) := by
  induction k with
  | zero => rfl
  | succ k ih =>
    have hstep : btranU_after c st rhs (k + 1) =
        btranU_step c st (k : Int) (btranU_after c st rhs k) :=
      forRange_natCast_succ k _ _
    rw [hstep, btranU_step_core, ih, runCore_succ]

theorem btranU_regular_eq_after (c : Consts) (st : HFactor) (rhs : HVector)
    (hdense : btranU_dense c st) :
    (btranU_regular c st rhs).array = (btranU_after c st rhs st.UpivotIndex.length).array ∧
    (btranU_regular c st rhs).index = (btranU_after c st rhs st.UpivotIndex.length).index ∧
    (btranU_regular c st rhs).count = (btranU_after c st rhs st.UpivotIndex.length).count ∧
    (btranU_regular c st rhs).packCount = rhs.packCount ∧
    (btranU_regular c st rhs).packIndex = rhs.packIndex ∧
    (btranU_regular c st rhs).packValue = rhs.packValue := by
  unfold btranU_regular btranU_after
  unfold btranU_dense at hdense
  dsimp only
  rw [if_pos hdense, forRange_toNat]
  exact ⟨rfl, rfl, rfl, rfl, rfl, rfl⟩

theorem URTriangular_zero (st : HFactor) (hlive : LivePivots st) (h : URTriangular st)
    (i l : Nat) (hi : i < st.UpivotIndex.length) (hli : liveSlot st i = true)
    (hl : l < st.UpivotIndex.length) (hll : liveSlot st l = true) (hil : l ≤ i) :
    colEntry st.URindex st.URvalue (getI st.URstart (i : Int)) (getI st.URlastp (i : Int))
      (getI st.UpivotIndex (l : Int)) = 0 := by
  obtain ⟨-, hinj, -⟩ := LivePivots_facts st hlive
  unfold colEntry
  apply Finset.sum_eq_zero
  intro j hj
  rw [Finset.mem_range] at hj
  obtain ⟨m, hm, him, hlm, he⟩ := h i hi hli j hj
  rw [if_neg]
  intro heq
  have := hinj m l hm hl hlm hll (he.trans heq)
  omega

/-- The dense loop of `btranU` solves `Uᵀ·y = rhs` on the row copy and leaves an
exact index. -/
theorem btranU_regular_spec (c : Consts) (st : HFactor) (rhs : HVector)
    (htiny : 0 ≤ c.tiny) (hU : UTriangular st) (hUR : URTriangular st)
    (hlen : st.numRow ≤ sizeI rhs.array) (hcap : st.numRow ≤ sizeI rhs.index)
    (hdense : btranU_dense c st) (hclamp : btranU_noClamp c st rhs) :
    (∀ r : Int, 0 ≤ r → r < st.numRow →
      URmul st (btranU_regular c st rhs).array r = getI rhs.array r) ∧
    IndexExact st.numRow (btranU_regular c st rhs).count (btranU_regular c st rhs).index
      (btranU_regular c st rhs).array ∧
    sizeI (btranU_regular c st rhs).array = sizeI rhs.array ∧
    sizeI (btranU_regular c st rhs).index = sizeI rhs.index := by
  obtain ⟨hrange, hinj, hsurj⟩ := LivePivots_facts st hU.1
  obtain ⟨ea, ei, ec, -⟩ := btranU_regular_eq_after c st rhs hdense
  have hcore := btranU_after_core c st rhs
  have hd : ∀ t, t < st.UpivotIndex.length → liveSlot st t = true →
      getI st.UpivotValue (t : Int) ≠ 0 := hU.2.2
  have hinj' : ∀ t u, t < st.UpivotIndex.length → u < st.UpivotIndex.length →
      liveSlot st t = true → liveSlot st u = true →
      getI st.UpivotIndex (t : Int) = getI st.UpivotIndex (u : Int) → t = u := hinj
  have htri' : ∀ t u, u ≤ t → t < st.UpivotIndex.length → liveSlot st t = true →
      liveSlot st u = true →
      colEntry st.URindex st.URvalue (getI st.URstart (t : Int)) (getI st.URlastp (t : Int))
        (getI st.UpivotIndex (u : Int)) = 0 :=
    fun t u hut ht hlt hlu => URTriangular_zero st hU.1 hUR t u ht hlt (by omega) hlu hut
  have hspec := runCore_spec c.tiny st.URindex st.URvalue (liveSlot st)
    (fun t => getI st.UpivotIndex (t : Int)) (fun t => getI st.UpivotValue (t : Int))
    (fun t => getI st.URstart (t : Int)) (fun t => getI st.URlastp (t : Int))
    st.UpivotIndex.length rhs.index rhs.array htiny hd hinj' htri'
    st.numRow hlen hcap
    (fun t ht hl => hrange t ht hl)
    (fun t ht hl j hj => by
      obtain ⟨l, hlm, -, hll, he⟩ := hUR t ht hl j hj
      dsimp only
      rw [← he]
      have := hrange l hlm hll
      omega)
    (fun t ht hl => by
      have := hclamp t ht hl
      have hc := hcore t
      unfold Work.core at hc
      rw [← hc]
      exact this)
    st.UpivotIndex.length (le_refl _)
  have hc := hcore st.UpivotIndex.length
  unfold Work.core at hc
  rw [← hc] at hspec
  simp only at hspec
  obtain ⟨s1, s2, hrun, c0, hl, hj, he⟩ := hspec
  rw [ea, ei, ec]
  refine ⟨?_, ⟨c0, ?_, hj, ?_⟩, s1, s2⟩
  · intro r h0 h1
    have hsolve := elimRun_solves (liveSlot st)
      (fun t => getI st.UpivotIndex (t : Int)) (fun t => getI st.UpivotValue (t : Int))
      (fun t => colEntry st.URindex st.URvalue (getI st.URstart (t : Int))
        (getI st.URlastp (t : Int)))
      st.UpivotIndex.length (getI rhs.array) hd hinj' htri' r
    obtain ⟨i, hi, hli, hpi⟩ := hsurj r h0 h1
    rw [if_pos ⟨i, hi, hli, hpi⟩, add_zero, ← hrun] at hsolve
    rw [← hsolve]
    rfl
  · intro i hi
    obtain ⟨t, ht, hlt, e1, e2⟩ := hl i hi
    rw [e1]
    exact ⟨(hrange t ht hlt).1, (hrange t ht hlt).2, e2⟩
  · intro r hr hne
    obtain ⟨t, ht, hlt, hpt⟩ := hsurj (r : Int) (by omega) (by omega)
    rw [← hpt] at hne ⊢
    exact he t ht hlt hne



/-! ## Sums over rows, over an exact index, over the live slots -/

theorem loopDown_inv_lt {σ : Type} (P : σ → Prop) (f : Nat → σ → σ) (n : Nat)
    (hf : ∀ k, k < n → ∀ s, P s → P (f k s)) (s : σ) (h : P s) : P (loopDown f n s) := by
  induction n generalizing s with
  | zero => exact h
  | succ n ih => exact ih (fun k hk => hf k (by omega)) _ (hf n (by omega) s h)

theorem loopUp_congr_state {σ : Type} (f g : Nat → σ → σ) (n : Nat) (s : σ)
    (h : ∀ t, t < n → f t (loopUp f t s) = g t (loopUp f t s)) :
    loopUp f n s = loopUp g n s := by
  induction n with
  | zero => rfl
  | succ n ih =>
    have ih' := ih (fun t ht => h t (by omega))
    show f n (loopUp f n s) = g n (loopUp g n s)
    rw [h n (by omega), ih']

theorem forRange_congr {σ : Type} (lo hi : Int) (f g : Int → σ → σ) (s : σ)
    (h : ∀ k, lo ≤ k → k < hi → f k = g k) : forRange lo hi f s = forRange lo hi g s := by
  unfold forRange
  apply loopUp_congr
  intro t ht
  rw [h (lo + (t : Int)) (by omega) (by omega)]

/-- A sum over the positions of an exact index is the sum over all rows. -/
theorem sum_over_exact (m cnt : Int) (ind : List Int) (s : List ℚ)
    (h : IndexExact m cnt ind s) (g : Int → ℚ) :
    ∑ i ∈ Finset.range cnt.toNat, g (getI ind (i : Int)) * getI s (getI ind (i : Int)) =
      ∑ j ∈ Finset.range m.toNat, g (j : Int) * getI s (j : Int) := by
  obtain ⟨hc, hl, hj, he⟩ := h
  have himg : ∑ i ∈ Finset.range cnt.toNat, g (getI ind (i : Int)) * getI s (getI ind (i : Int)) =
      ∑ j ∈ (Finset.range cnt.toNat).image (fun i : Nat => (getI ind (i : Int)).toNat),
        g (j : Int) * getI s (j : Int) := by
    rw [Finset.sum_image]
    · apply Finset.sum_congr rfl
      intro i hi
      rw [Finset.mem_range] at hi
      have := (hl i hi).1
      have hcast : (((getI ind (i : Int)).toNat : Nat) : Int) = getI ind (i : Int) := by omega
      rw [hcast]
    · intro i hi j hj' hij
      have hi' : i < cnt.toNat := by simpa using hi
      have hj'' : j < cnt.toNat := by simpa using hj'
      have := (hl i hi').1
      have := (hl j hj'').1
      apply hj i hi' j hj''
      simp only at hij
      omega
  rw [himg]
  apply Finset.sum_subset
  · intro j hj'
    rw [Finset.mem_image] at hj'
    obtain ⟨i, hi, rfl⟩ := hj'
    rw [Finset.mem_range] at hi ⊢
    have := hl i hi
    omega
  · intro j hj1 hj2
    rw [Finset.mem_range] at hj1
    by_cases hz : getI s (j : Int) = 0
    · rw [hz, mul_zero]
    · exfalso
      obtain ⟨i, hi, hie⟩ := he j hj1 hz
      apply hj2
      rw [Finset.mem_image]
      exact ⟨i, by rw [Finset.mem_range]; exact hi, by rw [hie]; simp⟩

theorem sum_map_getI (l : List Int) (g : Int → ℚ) :
    (l.map g).sum = ∑ i ∈ Finset.range l.length, g (getI l (i : Int)) := by
  induction l with
  | nil => simp
  | cons x l ih =>
    rw [List.map_cons, List.sum_cons, List.length_cons, Finset.sum_range_succ', ih]
    rw [add_comm]
    congr 1

theorem sum_filter_map (l : List Int) (P : Int → Bool) (g : Int → ℚ) :
    ((l.filter P).map g).sum = (l.map (fun x => if P x then g x else 0)).sum := by
  induction l with
  | nil => simp
  | cons x l ih =>
    rw [List.filter_cons]
    by_cases h : P x = true
    · rw [if_pos h, List.map_cons, List.sum_cons, List.map_cons, List.sum_cons, ih, if_pos h]
    · rw [if_neg h, List.map_cons, List.sum_cons, ih, if_neg h, zero_add]

/-- A sum over all rows is the sum over the live slots of their pivot rows. -/
theorem sum_rows_eq_live (st : HFactor) (h : LivePivots st) (f : Int → ℚ) :
    ∑ j ∈ Finset.range st.numRow.toNat, f (j : Int) =
      ∑ i ∈ Finset.range st.UpivotIndex.length,
        if liveSlot st i then f (getI st.UpivotIndex (i : Int)) else 0 := by
  have h1 : ((st.UpivotIndex.filter (fun v => v ≠ -1)).map f).sum =
      ((rowsUpTo st.numRow).map f).sum := (h.map f).sum_eq
  have h2 : ((rowsUpTo st.numRow).map f).sum = ∑ j ∈ Finset.range st.numRow.toNat, f (j : Int) := by
    unfold rowsUpTo
    rw [List.map_map]
    induction st.numRow.toNat with
    | zero => simp
    | succ n ih =>
      rw [List.range_succ, List.map_append, List.sum_append, ih, Finset.sum_range_succ]
      simp
  rw [← h2, ← h1, sum_filter_map, sum_map_getI]
  apply Finset.sum_congr rfl
  intro i _
  unfold liveSlot
  rfl



/-! ## The row copy solves the transposed system of the column copy -/

theorem Ucoef_eq_URcoef (st : HFactor) (hlive : LivePivots st) (hag : AgreeValues st)
    (i l : Nat) (hi : i < st.UpivotIndex.length) (hli : liveSlot st i = true)
    (hl : l < st.UpivotIndex.length) (hll : liveSlot st l = true) :
    Ucoef st l (getI st.UpivotIndex (i : Int)) = URcoef st i (getI st.UpivotIndex (l : Int)) := by
  obtain ⟨-, hinj, -⟩ := LivePivots_facts st hlive
  unfold Ucoef URcoef
  rw [hag i hi hli l hl hll]
  congr 1
  by_cases h : getI st.UpivotIndex (i : Int) = getI st.UpivotIndex (l : Int)
  · have hil : i = l := hinj i l hi hl hli hll h
    subst hil
    rfl
  · rw [if_neg h, if_neg (fun hh => h hh.symm)]

/-- Column `l` of U times `y` is entry `UpivotIndex[l]` of the right-hand side,
when `y` solves the system of the row copy. -/
theorem transpose_of_URmul (st : HFactor) (hlive : LivePivots st) (hag : AgreeValues st)
    (y e : List ℚ)
    (hy : ∀ r : Int, 0 ≤ r → r < st.numRow → URmul st y r = getI e r)
    (l : Nat) (hl : l < st.UpivotIndex.length) (hll : liveSlot st l = true) :
    ∑ j ∈ Finset.range st.numRow.toNat, Ucoef st l (j : Int) * getI y (j : Int) =
      getI e (getI st.UpivotIndex (l : Int)) := by
  obtain ⟨hrange, -, -⟩ := LivePivots_facts st hlive
  rw [sum_rows_eq_live st hlive (fun j => Ucoef st l j * getI y j),
    ← hy _ (hrange l hl hll).1 (hrange l hl hll).2]
  unfold URmul
  apply Finset.sum_congr rfl
  intro i hi
  rw [Finset.mem_range] at hi
  by_cases hli : liveSlot st i = true
  · rw [if_pos hli, if_pos hli, Ucoef_eq_URcoef st hlive hag i l hi hli hl hll]
  · rw [if_neg hli, if_neg hli]

/-- The dot product of `y` with `s = U·x` is the dot product of `x` with
`e = Uᵀ·y`. -/
theorem dot_transpose (st : HFactor) (hlive : LivePivots st) (hag : AgreeValues st)
    (x s y e : List ℚ)
    (hx : ∀ r : Int, 0 ≤ r → r < st.numRow → Umul st x r = getI s r)
    (hy : ∀ r : Int, 0 ≤ r → r < st.numRow → URmul st y r = getI e r) :
    ∑ j ∈ Finset.range st.numRow.toNat, getI y (j : Int) * getI s (j : Int) =
      ∑ j ∈ Finset.range st.numRow.toNat, getI x (j : Int) * getI e (j : Int) := by
  have h1 : ∑ j ∈ Finset.range st.numRow.toNat, getI y (j : Int) * getI s (j : Int) =
      ∑ j ∈ Finset.range st.numRow.toNat, ∑ i ∈ Finset.range st.UpivotIndex.length,
        (if liveSlot st i then
          getI x (getI st.UpivotIndex (i : Int)) * (Ucoef st i (j : Int) * getI y (j : Int))
        else 0) := by
    apply Finset.sum_congr rfl
    intro j hj
    rw [Finset.mem_range] at hj
    rw [← hx (j : Int) (by omega) (by omega)]
    unfold Umul
    rw [Finset.mul_sum]
    apply Finset.sum_congr rfl
    intro i _
    split
    · ring
    · rw [mul_zero]
  rw [h1, Finset.sum_comm,
    sum_rows_eq_live st hlive (fun j => getI x j * getI e j)]
  apply Finset.sum_congr rfl
  intro i hi
  rw [Finset.mem_range] at hi
  by_cases hli : liveSlot st i = true
  · simp only [hli, if_true]
    rw [← Finset.mul_sum, transpose_of_URmul st hlive hag y e hy i hi hli]
  · simp only [hli]
    simp

/-- The solution of the transposed system with a unit right-hand side: zero at
the pivot rows of the slots before the slot of `r`, and the inverse of the pivot
at `r`. -/
theorem URmul_unit_pivot (st : HFactor) (hlive : LivePivots st) (hUR : URTriangular st)
    (hd : ∀ i : Nat, i < st.UpivotIndex.length → liveSlot st i = true →
      getI st.UpivotValue (i : Int) ≠ 0)
    (y e : List ℚ) (r : Int)
    (he : ∀ j : Int, 0 ≤ j → j < st.numRow → getI e j = if j = r then 1 else 0)
    (hy : ∀ j : Int, 0 ≤ j → j < st.numRow → URmul st y j = getI e j)
    (pl : Nat) (hpl : pl < st.UpivotIndex.length) (hlp : liveSlot st pl = true)
    (hpr : getI st.UpivotIndex (pl : Int) = r) :
    getI y r = 1 / getI st.UpivotValue (pl : Int) := by
  obtain ⟨hrange, hinj, -⟩ := LivePivots_facts st hlive
  have hrow : ∀ l : Nat, l < st.UpivotIndex.length → liveSlot st l = true →
      (∀ i : Nat, i < l → liveSlot st i = true → getI y (getI st.UpivotIndex (i : Int)) = 0) →
      getI st.UpivotValue (l : Int) * getI y (getI st.UpivotIndex (l : Int)) =
        getI e (getI st.UpivotIndex (l : Int)) := by
    intro l hl hll hzero
    rw [← hy _ (hrange l hl hll).1 (hrange l hl hll).2]
    unfold URmul
    rw [Finset.sum_eq_single l]
    · rw [if_pos hll]
      unfold URcoef
      rw [if_pos rfl, URTriangular_zero st hlive hUR l l hl hll hl hll (le_refl _), add_zero]
    · intro i hi hil
      rw [Finset.mem_range] at hi
      by_cases hli : liveSlot st i = true
      · rw [if_pos hli]
        rcases Nat.lt_or_gt_of_ne hil with h | h
        · rw [hzero i h hli, mul_zero]
        · unfold URcoef
          have hne : getI st.UpivotIndex (l : Int) ≠ getI st.UpivotIndex (i : Int) := by
            intro hh
            have := hinj l i hl hi hll hli hh
            omega
          rw [if_neg hne, URTriangular_zero st hlive hUR i l hi hli hl hll (by omega),
            add_zero, zero_mul]
      · rw [if_neg hli]
    · intro hh
      exact absurd (Finset.mem_range.mpr hl) hh
  have hz : ∀ l : Nat, l < pl → liveSlot st l = true →
      getI y (getI st.UpivotIndex (l : Int)) = 0 := by
    intro l
    induction l using Nat.strong_induction_on with
    | _ l ih =>
      intro hlt hll
      have h1 := hrow l (by omega) hll (fun i hi hli => ih i hi (by omega) hli)
      have hne : getI st.UpivotIndex (l : Int) ≠ r := by
        intro hh
        have := hinj l pl (by omega) hpl hll hlp (hh.trans hpr.symm)
        omega
      rw [he _ (hrange l (by omega) hll).1 (hrange l (by omega) hll).2, if_neg hne] at h1
      rcases mul_eq_zero.mp h1 with h | h
      · exact absurd h (hd l (by omega) hll)
      · exact h
  have h1 := hrow pl hpl hlp hz
  rw [hpr] at h1
  have hr := hrange pl hpl hlp
  rw [hpr] at hr
  rw [he r hr.1 hr.2, if_pos rfl] at h1
  have hd' := hd pl hpl hlp
  field_simp
  rw [mul_comm]
  exact h1



/-! ## What `ftran` and `btran` leave behind -/

theorem tightStep_pack (tol : ℚ) (i : Int) (v : HVector) :
    (tightStep tol i v).packCount = v.packCount ∧
    (tightStep tol i v).packIndex = v.packIndex ∧
    (tightStep tol i v).packValue = v.packValue := by
  unfold tightStep
  dsimp only
  split <;> exact ⟨rfl, rfl, rfl⟩

theorem tight_pack (tol : ℚ) (v : HVector) :
    (tight tol v).packCount = v.packCount ∧ (tight tol v).packIndex = v.packIndex ∧
    (tight tol v).packValue = v.packValue :=
  ⟨forRange_proj (fun s : HVector => s.packCount) _ _ (tightStep tol)
      (fun k s => (tightStep_pack tol k s).1) _,
   forRange_proj (fun s : HVector => s.packIndex) _ _ (tightStep tol)
      (fun k s => (tightStep_pack tol k s).2.1) _,
   forRange_proj (fun s : HVector => s.packValue) _ _ (tightStep tol)
      (fun k s => (tightStep_pack tol k s).2.2) _⟩

theorem btranFT_pack (c : Consts) (st : HFactor) (v : HVector) :
    (btranFT c st v).packCount = v.packCount ∧ (btranFT c st v).packIndex = v.packIndex ∧
    (btranFT c st v).packValue = v.packValue :=
  ⟨rfl, rfl, rfl⟩

theorem btranL_pack (c : Consts) (st : HFactor) (v : HVector) :
    (btranL c st v).packCount = v.packCount ∧ (btranL c st v).packIndex = v.packIndex ∧
    (btranL c st v).packValue = v.packValue := by
  unfold btranL
  split <;> exact ⟨rfl, rfl, rfl⟩

theorem ftranU_regular_pack (c : Consts) (st : HFactor) (v : HVector) :
    (ftranU_regular c st v).packCount = v.packCount ∧
    (ftranU_regular c st v).packIndex = v.packIndex ∧
    (ftranU_regular c st v).packValue = v.packValue := by
  unfold ftranU_regular
  dsimp only
  split <;> exact ⟨rfl, rfl, rfl⟩

theorem pack_exact (m : Int) (v : HVector)
    (hex : IndexExact m v.count v.index v.array)
    (h1 : v.count ≤ sizeI v.packIndex) (h2 : v.count ≤ sizeI v.packValue) :
    PackExact m (pack v) v.array := by
  obtain ⟨-, -, -, hc, hp⟩ := pack_spec v h1 h2
  obtain ⟨e0, e1, e2, e3⟩ := hex
  unfold PackExact IndexExact
  rw [hc]
  refine ⟨⟨e0, ?_, ?_, ?_⟩, fun i hi => by rw [(hp i hi).2, (hp i hi).1]⟩
  · intro i hi
    rw [(hp i hi).1]
    exact e1 i hi
  · intro i hi j hj hij
    rw [(hp i hi).1, (hp j hj).1] at hij
    exact e2 i hi j hj hij
  · intro r hr hne
    obtain ⟨i, hi, hie⟩ := e3 r hr hne
    exact ⟨i, hi, by rw [(hp i hi).1, hie]⟩

theorem PackExact_congr (m : Int) (v w : HVector) (s : List ℚ) (h : PackExact m v s)
    (h1 : w.packCount = v.packCount) (h2 : w.packIndex = v.packIndex)
    (h3 : w.packValue = v.packValue) : PackExact m w s := by
  unfold PackExact at *
  rw [h1, h2, h3]
  exact h

/-- What `ftran` leaves of the entering column: with `s` the array on entry to the
loop of `ftranU`, the array `x` solves `U·x = s` and the packed form is exact
for `s`. -/
theorem ftran_leaves (c : Consts) (st : HFactor) (a : HVector)
    (htiny : 0 < c.tiny) (hFT : st.updateMethod = c.UPDATE_METHOD_FT)
    (hL : LTriangular st) (hU : UTriangular st)
    (hrow : ∀ i : Nat, i < st.PFpivotIndex.length →
      0 ≤ getI st.PFpivotIndex (i : Int) ∧ getI st.PFpivotIndex (i : Int) < st.numRow)
    (hm : 0 ≤ st.numRow) (ha : VecFits st.numRow a)
    (h1 : ftranL_noClamp c st a)
    (h2 : ftranFT_noClamp c st (ftranL c st a))
    (h3 : tightIdle c.tiny (ftranFT c st (ftranL c st a)))
    (h4 : ftranU_dense c st (ftranU_update c st (ftranL c st a)))
    (h5 : ftranU_noClamp c st (ftranU_update c st (ftranL c st a))) :
    IndexExact st.numRow (ftranFT c st (ftranL c st a)).count
      (ftranFT c st (ftranL c st a)).index (ftranFT c st (ftranL c st a)).array ∧
    st.numRow ≤ sizeI (ftranFT c st (ftranL c st a)).array ∧
    st.numRow ≤ sizeI (ftranFT c st (ftranL c st a)).index ∧
    ftranU_update c st (ftranL c st a) = pack (ftranFT c st (ftranL c st a)) ∧
    PackExact st.numRow (ftran c st a) (ftranFT c st (ftranL c st a)).array ∧
    (∀ j : Int, 0 ≤ j → j < st.numRow →
      Umul st (ftran c st a).array j = getI (ftranFT c st (ftranL c st a)).array j) := by
  obtain ⟨ha1, ha2, ha3, ha4⟩ := ha
  obtain ⟨hx1, hs1, hs2⟩ := ftranL_exact c st a (le_of_lt htiny) hL ha1 ha2 h1
  obtain ⟨-, -, -, q1, q2, q3⟩ := ftranL_eq_after c st a
  obtain ⟨f1, f2, f3, f4, f5, f6⟩ := ftranFT_eq_after c st (ftranL c st a)
  obtain ⟨g1, g2, g3, g4, g5, g6⟩ := ftranFT_after_exact c st (ftranL c st a) st.numRow htiny
    hx1 hrow (by omega) (by omega) h2 _ (le_refl _)
  have hx2 : IndexExact st.numRow (ftranFT c st (ftranL c st a)).count
      (ftranFT c st (ftranL c st a)).index (ftranFT c st (ftranL c st a)).array := by
    rw [f1, f2, f3]; exact g1
  have hsa : st.numRow ≤ sizeI (ftranFT c st (ftranL c st a)).array := by
    rw [f1, g2]; omega
  have hsi : st.numRow ≤ sizeI (ftranFT c st (ftranL c st a)).index := by
    rw [f2, g3]; omega
  have hupd : ftranU_update c st (ftranL c st a) = pack (ftranFT c st (ftranL c st a)) := by
    unfold ftranU_update
    rw [if_pos hFT, tight_eq_self_of_exact c.tiny st.numRow _ hx2 h3]
  have hcnt := IndexExact_count_le _ _ _ _ hx2 hm
  have hpk := pack_exact st.numRow (ftranFT c st (ftranL c st a)) hx2
    (by rw [f5, g5, q2]; omega) (by rw [f6, g6, q3]; omega)
  have hparr := (pack_frame (ftranFT c st (ftranL c st a))).1
  refine ⟨hx2, hsa, hsi, hupd, ?_, ?_⟩
  · obtain ⟨r1, r2, r3⟩ := ftranU_regular_pack c st (ftranU_update c st (ftranL c st a))
    apply PackExact_congr _ _ _ _ hpk
    · show (ftranU_regular c st (ftranU_update c st (ftranL c st a))).packCount = _
      rw [r1, hupd]
    · show (ftranU_regular c st (ftranU_update c st (ftranL c st a))).packIndex = _
      rw [r2, hupd]
    · show (ftranU_regular c st (ftranU_update c st (ftranL c st a))).packValue = _
      rw [r3, hupd]
  · intro j h0 hj
    have := ftranU_regular_solves c st (ftranU_update c st (ftranL c st a)) hU
      (by rw [hupd, hparr]; exact hsa) h4 h5 j h0 hj
    rw [hupd, hparr] at this
    rw [← this]
    unfold ftran ftranU
    rw [hupd]

/-- What `btran` leaves of a right-hand side `e`: with `y` the array after the loop
of `btranU`, `y` solves the transposed system and the packed form is exact
for `y`. -/
theorem btran_leaves (c : Consts) (st : HFactor) (e : HVector)
    (htiny : 0 < c.tiny) (hFT : st.updateMethod = c.UPDATE_METHOD_FT)
    (hU : UTriangular st) (hUR : URTriangular st)
    (hm : 0 ≤ st.numRow) (he : VecFits st.numRow e)
    (h1 : btranU_dense c st) (h2 : btranU_noClamp c st e)
    (h3 : tightIdle c.tiny (btranU_regular c st e)) :
    (∀ r : Int, 0 ≤ r → r < st.numRow →
      URmul st (btranU_regular c st e).array r = getI e.array r) ∧
    PackExact st.numRow (btran c st e) (btranU_regular c st e).array := by
  obtain ⟨he1, he2, he3, he4⟩ := he
  obtain ⟨hy, hx, hs1, hs2⟩ := btranU_regular_spec c st e (le_of_lt htiny) hU hUR he1 he2 h1 h2
  obtain ⟨-, -, -, q1, q2, q3⟩ := btranU_regular_eq_after c st e h1
  have hcnt := IndexExact_count_le _ _ _ _ hx hm
  have hpk := pack_exact st.numRow (btranU_regular c st e) hx
    (by rw [q2]; omega) (by rw [q3]; omega)
  refine ⟨hy, ?_⟩
  apply PackExact_congr _ _ _ _ hpk
  · unfold btran btranU btranU_update
    rw [if_pos hFT, (btranL_pack _ _ _).1, (tight_pack _ _).1, (btranFT_pack _ _ _).1,
      tight_eq_self_of_exact c.tiny st.numRow _ hx h3]
  · unfold btran btranU btranU_update
    rw [if_pos hFT, (btranL_pack _ _ _).2.1, (tight_pack _ _).2.1, (btranFT_pack _ _ _).2.1,
      tight_eq_self_of_exact c.tiny st.numRow _ hx h3]
  · unfold btran btranU btranU_update
    rw [if_pos hFT, (btranL_pack _ _ _).2.2, (tight_pack _ _).2.2, (btranFT_pack _ _ _).2.2,
      tight_eq_self_of_exact c.tiny st.numRow _ hx h3]



/-! ## Sums over the entries appended by `updateFT` -/

theorem sum_map_range (n : Nat) (h : Nat → ℚ) :
    ((List.range n).map h).sum = ∑ i ∈ Finset.range n, h i := by
  induction n with
  | zero => simp
  | succ n ih =>
    rw [List.range_succ, List.map_append, List.sum_append, ih, Finset.sum_range_succ]
    simp

theorem sum_filter_map_nat (l : List Nat) (P : Nat → Bool) (g : Nat → ℚ) :
    ((l.filter P).map g).sum = (l.map (fun x => if P x then g x else 0)).sum := by
  induction l with
  | nil => simp
  | cons x l ih =>
    rw [List.filter_cons]
    by_cases h : P x = true
    · rw [if_pos h, List.map_cons, List.sum_cons, List.map_cons, List.sum_cons, ih, if_pos h]
    · rw [if_neg h, List.map_cons, List.sum_cons, ih, if_neg h, zero_add]

theorem sum_packEntries (v : HVector) (r : Int) (n : Nat) (K : Int → ℚ → ℚ) :
    ((packEntries v r n).map (fun e => K e.1 e.2)).sum =
      ∑ i ∈ Finset.range n,
        if getI v.packIndex (i : Int) ≠ r
        then K (getI v.packIndex (i : Int)) (getI v.packValue (i : Int)) else 0 := by
  unfold packEntries
  rw [List.map_map, sum_filter_map_nat, sum_map_range]
  apply Finset.sum_congr rfl
  intro i _
  by_cases h : getI v.packIndex (i : Int) = r <;> simp [h]

theorem sum_pairs (E : List (Int × ℚ)) (g : Int × ℚ → ℚ) (H : Int → ℚ → ℚ) :
    ∑ t ∈ Finset.range E.length,
        H (getI (E.map Prod.fst) (t : Int)) (getI (E.map g) (t : Int)) =
      (E.map (fun e => H e.1 (g e))).sum := by
  induction E with
  | nil => simp
  | cons x E ih =>
    simp only [List.map_cons, List.sum_cons, List.length_cons]
    rw [Finset.sum_range_succ', ← ih, add_comm]
    congr 1

theorem sum_appended (I : List Int) (V : List ℚ) (E : List (Int × ℚ)) (g : Int × ℚ → ℚ)
    (H : Int → ℚ → ℚ) (hs : sizeI I = sizeI V) :
    ∑ t ∈ Finset.range E.length,
        H (getI (I ++ E.map Prod.fst) (sizeI I + (t : Int)))
          (getI (V ++ E.map g) (sizeI I + (t : Int))) =
      (E.map (fun e => H e.1 (g e))).sum := by
  rw [← sum_pairs]
  apply Finset.sum_congr rfl
  intro t _
  rw [getI_append_right _ _ (by omega), getI_append_right _ _ (by omega)]
  congr 2
  · omega
  · omega

/-- The value stored at row `j` by a column appended from an exact packed form:
the value of `s` at `j`, and nothing at the leaving row. -/
theorem colEntry_appended (I : List Int) (V : List ℚ) (hs : sizeI I = sizeI V)
    (m : Int) (v : HVector) (s : List ℚ) (hp : PackExact m v s) (r : Int)
    (j : Int) (hj0 : 0 ≤ j) (hj1 : j < m) :
    colEntry (I ++ (packEntries v r v.packCount.toNat).map Prod.fst)
        (V ++ (packEntries v r v.packCount.toNat).map Prod.snd) (sizeI I)
        (sizeI (I ++ (packEntries v r v.packCount.toNat).map Prod.fst)) j =
      if j = r then 0 else getI s j := by
  unfold colEntry
  have hlen : (sizeI (I ++ (packEntries v r v.packCount.toNat).map Prod.fst) - sizeI I).toNat =
      (packEntries v r v.packCount.toNat).length := by
    rw [sizeI_append]; unfold sizeI; simp
  rw [hlen, sum_appended I V _ Prod.snd (fun q x => if q = j then x else 0) hs,
    sum_packEntries v r _ (fun q x => if q = j then x else 0)]
  have hterm : ∀ i ∈ Finset.range v.packCount.toNat,
      (if getI v.packIndex (i : Int) ≠ r
        then (if getI v.packIndex (i : Int) = j then getI v.packValue (i : Int) else 0) else 0) =
      (if getI v.packIndex (i : Int) ≠ r ∧ getI v.packIndex (i : Int) = j then 1 else 0) *
        getI s (getI v.packIndex (i : Int)) := by
    intro i hi
    rw [Finset.mem_range] at hi
    rw [hp.2 i hi]
    by_cases h1 : getI v.packIndex (i : Int) = r <;>
      by_cases h2 : getI v.packIndex (i : Int) = j <;> simp [h1, h2]
  rw [Finset.sum_congr rfl hterm,
    sum_over_exact m v.packCount v.packIndex s hp.1 (fun q => if q ≠ r ∧ q = j then 1 else 0),
    Finset.sum_eq_single j.toNat]
  · have hc : ((j.toNat : Nat) : Int) = j := by omega
    rw [hc]
    by_cases h : j = r <;> simp [h]
  · intro q _ hq
    have : (q : Int) ≠ j := by omega
    simp [this]
  · intro h
    exfalso
    apply h
    rw [Finset.mem_range]
    omega

theorem forRange_sub (lo hi : Int) (h : Int → ℚ) (x0 : ℚ) :
    forRange lo hi (fun k acc => acc - h k) x0 =
      x0 - ∑ t ∈ Finset.range (hi - lo).toNat, h (lo + (t : Int)) := by
  unfold forRange
  induction (hi - lo).toNat with
  | zero => simp [loopUp]
  | succ n ih =>
    rw [loopUp, ih, Finset.sum_range_succ]
    ring

/-- The value `value1` computed for an eta appended from an exact packed form of
`y`: the pivot row value plus `pivot` times the dot product with `y` off the
pivot row. -/
theorem value1_appended (I : List Int) (V : List ℚ) (hs : sizeI I = sizeI V)
    (m : Int) (v : HVector) (y : List ℚ) (hp : PackExact m v y) (r : Int) (pivot : ℚ)
    (arr : List ℚ) (x0 : ℚ) :
    forRange (sizeI I) (sizeI (I ++ (packEntries v r v.packCount.toNat).map Prod.fst))
        (fun k acc => acc -
          getI arr (getI (I ++ (packEntries v r v.packCount.toNat).map Prod.fst) k) *
          getI (V ++ (packEntries v r v.packCount.toNat).map (fun e => -e.2 * pivot)) k) x0 =
      x0 + pivot * ∑ q ∈ Finset.range m.toNat,
        (if (q : Int) = r then 0 else getI arr (q : Int)) * getI y (q : Int) := by
  rw [forRange_sub]
  have hlen : (sizeI (I ++ (packEntries v r v.packCount.toNat).map Prod.fst) - sizeI I).toNat =
      (packEntries v r v.packCount.toNat).length := by
    rw [sizeI_append]; unfold sizeI; simp
  rw [hlen, sum_appended I V _ (fun e => -e.2 * pivot) (fun q x => getI arr q * x) hs,
    sum_packEntries v r _ (fun q x => getI arr q * (-x * pivot))]
  have hterm : ∀ i ∈ Finset.range v.packCount.toNat,
      (if getI v.packIndex (i : Int) ≠ r
        then getI arr (getI v.packIndex (i : Int)) * (-getI v.packValue (i : Int) * pivot)
        else 0) =
      (-pivot * (if getI v.packIndex (i : Int) = r then 0
        else getI arr (getI v.packIndex (i : Int)))) *
        getI y (getI v.packIndex (i : Int)) := by
    intro i hi
    rw [Finset.mem_range] at hi
    rw [hp.2 i hi]
    by_cases h1 : getI v.packIndex (i : Int) = r
    · simp [h1]
    · simp only [h1, ne_eq, not_false_eq_true, if_true, if_false]
      ring
  rw [Finset.sum_congr rfl hterm,
    sum_over_exact m v.packCount v.packIndex y hp.1
      (fun q => -pivot * (if q = r then 0 else getI arr q)),
    sub_eq_add_neg, Finset.mul_sum, ← Finset.sum_neg_distrib]
  congr 1
  apply Finset.sum_congr rfl
  intro q _
  ring



/-! ## The column copy after `updateFT` -/

theorem deleteRowStep_sizes (iRow k : Int) (st : HFactor) :
    sizeI (deleteRowStep iRow k st).Uindex = sizeI st.Uindex ∧
    sizeI (deleteRowStep iRow k st).Uvalue = sizeI st.Uvalue ∧
    sizeI (deleteRowStep iRow k st).Ulastp = sizeI st.Ulastp :=
  ⟨sizeI_setI _ _ _, sizeI_setI _ _ _, sizeI_setI _ _ _⟩

theorem updateFT_deleteRow_sizes (iRow : Int) (st : HFactor) :
    sizeI (updateFT_deleteRow iRow st).Uindex = sizeI st.Uindex ∧
    sizeI (updateFT_deleteRow iRow st).Uvalue = sizeI st.Uvalue ∧
    sizeI (updateFT_deleteRow iRow st).Ulastp = sizeI st.Ulastp :=
  ⟨forRange_proj (fun s : HFactor => sizeI s.Uindex) _ _ (deleteRowStep iRow)
      (fun k s => (deleteRowStep_sizes iRow k s).1) _,
   forRange_proj (fun s : HFactor => sizeI s.Uvalue) _ _ (deleteRowStep iRow)
      (fun k s => (deleteRowStep_sizes iRow k s).2.1) _,
   forRange_proj (fun s : HFactor => sizeI s.Ulastp) _ _ (deleteRowStep iRow)
      (fun k s => (deleteRowStep_sizes iRow k s).2.2) _⟩

theorem updateFT_tail_uc (ep : HVector) (iRow pLogic : Int) (pivot alpha : ℚ) (s : HFactor) :
    ucPart (updateFT_total pLogic (updateFT_storeEta ep iRow pivot
      (updateFT_register iRow pivot alpha s))) = ucPart s := rfl

theorem updateFT_storeCol_uc (aq : HVector) (iRow : Int) (s : HFactor) :
    (updateFT_storeCol aq iRow s).Ustart = s.Ustart ++ [sizeI s.Uindex] ∧
    (updateFT_storeCol aq iRow s).Uindex =
      s.Uindex ++ (packEntries aq iRow aq.packCount.toNat).map Prod.fst ∧
    (updateFT_storeCol aq iRow s).Uvalue =
      s.Uvalue ++ (packEntries aq iRow aq.packCount.toNat).map Prod.snd ∧
    (updateFT_storeCol aq iRow s).Ulastp =
      s.Ulastp ++ [sizeI (s.Uindex ++ (packEntries aq iRow aq.packCount.toNat).map Prod.fst)] := by
  unfold updateFT_storeCol
  simp only [forRange_zero, loopUp_pushColStep, and_self]

/-- The column copy of U after `updateFT`: one column appended, holding the
entries of the packed form of `aq` off the leaving row. -/
theorem updateFT_uc (aq ep : HVector) (iRow : Int) (st : HFactor) :
    ∃ (U3 : List Int) (V3 : List ℚ) (L3 : List Int),
      sizeI U3 = sizeI st.Uindex ∧ sizeI V3 = sizeI st.Uvalue ∧ sizeI L3 = sizeI st.Ulastp ∧
      (updateFT aq ep iRow st).Ustart = st.Ustart ++ [sizeI U3] ∧
      (updateFT aq ep iRow st).Uindex =
        U3 ++ (packEntries aq iRow aq.packCount.toNat).map Prod.fst ∧
      (updateFT aq ep iRow st).Uvalue =
        V3 ++ (packEntries aq iRow aq.packCount.toNat).map Prod.snd ∧
      (updateFT aq ep iRow st).Ulastp =
        L3 ++ [sizeI (U3 ++ (packEntries aq iRow aq.packCount.toNat).map Prod.fst)] := by
  have h1 := (updateFT_mark_frame iRow st).2.2.1
  have h2 := updateFT_deleteRow_sizes iRow (updateFT_mark iRow st)
  have h2s := (updateFT_deleteRow_frame iRow (updateFT_mark iRow st)).2.2.2.2.2.1
  have h3 := (updateFT_deleteCol_frame iRow
    (updateFT_deleteRow iRow (updateFT_mark iRow st))).2.2.2.1
  have h4 := updateFT_storeCol_uc aq iRow
    (updateFT_deleteCol iRow (updateFT_deleteRow iRow (updateFT_mark iRow st)))
  have h5 := (updateFT_storeRows_frame iRow (updateFT_upToStoreCol aq iRow st)).2.2.2.1
  have h6 := updateFT_tail_uc ep iRow (getI st.UpivotLookup iRow)
    (getI st.UpivotValue (getI st.UpivotLookup iRow)) (getI aq.array iRow)
    (updateFT_storeRows iRow (updateFT_upToStoreCol aq iRow st))
  rw [← updateFT_eq, h5] at h6
  unfold updateFT_upToStoreCol at h6
  simp only [ucPart, Prod.mk.injEq] at h1 h3 h6
  obtain ⟨e1, e2, e3, e4⟩ := h6
  rw [h4.1] at e1
  rw [h4.2.2.2] at e2
  rw [h4.2.1] at e3
  rw [h4.2.2.1] at e4
  rw [h3.1, h3.2.2.1, h2s, h1.1] at e1
  rw [h3.2.1, h3.2.2.1] at e2
  rw [h3.2.2.1] at e3
  rw [h3.2.2.2] at e4
  exact ⟨(updateFT_deleteRow iRow (updateFT_mark iRow st)).Uindex,
    (updateFT_deleteRow iRow (updateFT_mark iRow st)).Uvalue,
    (updateFT_deleteRow iRow (updateFT_mark iRow st)).Ulastp,
    by rw [h2.1, h1.2.2.1], by rw [h2.2.1, h1.2.2.2], by rw [h2.2.2, h1.2.1], e1, e3, e4, e2⟩

/-! ## `ftranL` and the first etas do not see the update -/

theorem ftranL_congr (c : Consts) (st st' : HFactor) (v : HVector)
    (hl : lPart st' = lPart st) (hn : st'.numRow = st.numRow) :
    ftranL c st' v = ftranL c st v := by
  simp only [lPart, Prod.mk.injEq] at hl
  obtain ⟨l1, l2, l3, l4, -⟩ := hl
  have hstep : ftranL_step c st' = ftranL_step c st := by
    funext i w
    unfold ftranL_step
    rw [l1, l2, l3, l4]
  unfold ftranL
  rw [hstep, hn]



theorem PFshape_facts (st : HFactor) (h : PFshape st) :
    (∀ i : Nat, i ≤ st.PFpivotIndex.length →
      0 ≤ getI st.PFstart (i : Int) ∧ getI st.PFstart (i : Int) ≤ sizeI st.PFindex) ∧
    getI st.PFstart (st.PFpivotIndex.length : Int) = sizeI st.PFindex := by
  obtain ⟨hs, h0, hlen, hlast⟩ := h
  have hl : st.PFstart.length = st.PFpivotIndex.length + 1 := by
    unfold sizeI at hlen; omega
  have hlast' : getI st.PFstart (st.PFpivotIndex.length : Int) = sizeI st.PFindex := by
    rw [← hlast]; congr 1; unfold sizeI; omega
  refine ⟨?_, hlast'⟩
  intro i hi
  constructor
  · rw [← h0]
    have h1 := hs.rel_get_of_le (a := ⟨0, by omega⟩) (b := ⟨i, by omega⟩)
      (by simp only [Fin.mk_le_mk]; omega)
    rw [getI_eq_getElem st.PFstart i (by omega)]
    have h2 := getI_eq_getElem st.PFstart 0 (by omega)
    simp only [Nat.cast_zero] at h2
    rw [h2]
    exact h1
  · rw [← hlast]
    exact sorted_le_last _ hs _ (getI_mem _ i (by omega))

/-- An eta of the old file computes the same `value1` in the extended file. -/
theorem ftranFT_step_old (c : Consts) (st st' : HFactor) (r0 : Int) (hsh : PFshape st)
    (hv : sizeI st.PFvalue = sizeI st.PFindex)
    (e1 : st'.PFpivotIndex = st.PFpivotIndex ++ [r0])
    (e2 : ∃ l, st'.PFindex = st.PFindex ++ l) (e3 : ∃ l, st'.PFvalue = st.PFvalue ++ l)
    (e4 : ∃ t, st'.PFstart = st.PFstart ++ [t])
    (i : Nat) (hi : i < st.PFpivotIndex.length) (v : HVector) :
    ftranFT_step c st' (i : Int) v = ftranFT_step c st (i : Int) v := by
  obtain ⟨hb, -⟩ := PFshape_facts st hsh
  obtain ⟨l2, e2⟩ := e2
  obtain ⟨l3, e3⟩ := e3
  obtain ⟨t4, e4⟩ := e4
  have hlen : sizeI st.PFstart = sizeI st.PFpivotIndex + 1 := hsh.2.2.1
  have hp : getI st'.PFpivotIndex (i : Int) = getI st.PFpivotIndex (i : Int) := by
    rw [e1, getI_append_left _ _ (by unfold sizeI; omega)]
  have hs0 : getI st'.PFstart (i : Int) = getI st.PFstart (i : Int) := by
    rw [e4, getI_append_left _ _ (by unfold sizeI at *; omega)]
  have hs1 : getI st'.PFstart ((i : Int) + 1) = getI st.PFstart ((i : Int) + 1) := by
    rw [e4, getI_append_left _ _ (by unfold sizeI at *; omega)]
  have hval : ∀ arr : List ℚ,
      ftranFT_value1 st' (i : Int) arr = ftranFT_value1 st (i : Int) arr := by
    intro arr
    unfold ftranFT_value1
    rw [hp, hs0, hs1]
    apply forRange_congr
    intro k hk0 hk1
    have hub := (hb (i + 1) (by omega)).2
    have hlb := (hb i (by omega)).1
    push_cast at hub
    funext acc
    rw [e2, e3, getI_append_left _ _ (by omega), getI_append_left _ _ (by omega)]
  unfold ftranFT_step
  rw [hp, hval]

theorem ftranFT_after_old (c : Consts) (st st' : HFactor) (r0 : Int) (hsh : PFshape st)
    (hv : sizeI st.PFvalue = sizeI st.PFindex)
    (e1 : st'.PFpivotIndex = st.PFpivotIndex ++ [r0])
    (e2 : ∃ l, st'.PFindex = st.PFindex ++ l) (e3 : ∃ l, st'.PFvalue = st.PFvalue ++ l)
    (e4 : ∃ t, st'.PFstart = st.PFstart ++ [t])
    (v : HVector) (k : Nat) (hk : k ≤ st.PFpivotIndex.length) :
    ftranFT_after c st' v k = ftranFT_after c st v k := by
  induction k with
  | zero => rfl
  | succ k ih =>
    have h1 : ftranFT_after c st' v (k + 1) =
        ftranFT_step c st' (k : Int) (ftranFT_after c st' v k) := forRange_natCast_succ k _ _
    have h2 : ftranFT_after c st v (k + 1) =
        ftranFT_step c st (k : Int) (ftranFT_after c st v k) := forRange_natCast_succ k _ _
    rw [h1, h2, ih (by omega), ftranFT_step_old c st st' r0 hsh hv e1 e2 e3 e4 k (by omega)]



/-! ## The loop of `ftranU` on a right-hand side that is the last column -/

/-- When the last slot holds row `r` and the right-hand side is the column of
that slot, the dense loop of `ftranU` returns the unit vector of row `r`: the last
slot is visited first and clears the other rows, and every other live slot then
sees a zero. -/
theorem ftranU_regular_last_column (c : Consts) (T : HFactor) (rhs : HVector)
    (m r : Int) (X : List Int) (d : ℚ)
    (htiny : 0 ≤ c.tiny) (hr0 : 0 ≤ r) (hr1 : r < m) (hm : m ≤ sizeI rhs.array)
    (hX : T.UpivotIndex = X ++ [r])
    (hXrows : ∀ i : Nat, i < X.length →
      getI X (i : Int) = -1 ∨ (0 ≤ getI X (i : Int) ∧ getI X (i : Int) < m ∧ getI X (i : Int) ≠ r))
    (hd : getI T.UpivotValue (sizeI X) = d) (hd0 : c.tiny < |d|)
    (hin : ∀ t : Nat, t < (getI T.Ulastp (sizeI X) - getI T.Ustart (sizeI X)).toNat →
      0 ≤ getI T.Uindex (getI T.Ustart (sizeI X) + (t : Int)) ∧
      getI T.Uindex (getI T.Ustart (sizeI X) + (t : Int)) < m)
    (hcol : ∀ j : Int, 0 ≤ j → j < m →
      colEntry T.Uindex T.Uvalue (getI T.Ustart (sizeI X)) (getI T.Ulastp (sizeI X)) j =
        if j = r then 0 else getI rhs.array j)
    (hrr : getI rhs.array r = d)
    (hdense : ftranU_dense c T rhs) :
    ∀ j : Int, 0 ≤ j → j < m →
      getI (ftranU_regular c T rhs).array j = if j = r then 1 else 0 := by
  have hdne : d ≠ 0 := by
    intro h0; rw [h0, abs_zero] at hd0; exact absurd hd0 (not_lt.mpr htiny)
  have hlen : (sizeI T.UpivotIndex).toNat = X.length + 1 := by
    rw [hX]; unfold sizeI; simp
  -- the array after the first iteration
  have hfirst : (ftranU_step c T (sizeI X) ⟨0, 0, rhs.index, rhs.array⟩).array =
      scatterSub T.Uindex T.Uvalue (getI T.Ustart (sizeI X)) (getI T.Ulastp (sizeI X)) 1
        (setI rhs.array r 1) := by
    rw [ftranU_step_array]
    have h1 : getI T.UpivotIndex (sizeI X) = r := by rw [hX, getI_snoc]
    rw [h1, if_neg (by omega), hrr, if_pos hd0, hd, div_self hdne]
  have hE : ∀ j : Int, 0 ≤ j → j < m →
      getI (scatterSub T.Uindex T.Uvalue (getI T.Ustart (sizeI X)) (getI T.Ulastp (sizeI X)) 1
        (setI rhs.array r 1)) j = if j = r then 1 else 0 := by
    intro j hj0 hj1
    rw [getI_scatterSub _ _ _ _ _ _
      (fun t ht => by rw [sizeI_setI]; have := hin t ht; omega),
      hcol j hj0 hj1, getI_setI]
    by_cases hjr : j = r
    · rw [if_pos ⟨hjr.symm, hr0, by omega⟩, if_pos hjr, if_pos hjr]; ring
    · rw [if_neg (fun h => hjr h.1.symm), if_neg hjr, if_neg hjr]; ring
  -- the other iterations keep it
  have hkeep : ∀ i : Nat, i < X.length → ∀ w : Work,
      w.array = scatterSub T.Uindex T.Uvalue (getI T.Ustart (sizeI X))
        (getI T.Ulastp (sizeI X)) 1 (setI rhs.array r 1) →
      (ftranU_step c T (i : Int) w).array = scatterSub T.Uindex T.Uvalue
        (getI T.Ustart (sizeI X)) (getI T.Ulastp (sizeI X)) 1 (setI rhs.array r 1) := by
    intro i hi w hw
    rw [ftranU_step_array]
    have hXi : getI T.UpivotIndex (i : Int) = getI X (i : Int) := by
      rw [hX, getI_append_left _ _ (by unfold sizeI; omega)]
    rw [hXi]
    rcases hXrows i hi with h | ⟨h0, h1, h2⟩
    · rw [if_pos h]; exact hw
    · rw [if_neg (by omega)]
      have hz : getI w.array (getI X (i : Int)) = 0 := by
        rw [hw, hE _ h0 h1, if_neg h2]
      rw [hz, abs_zero, if_neg (not_lt.mpr htiny), ← hz, setI_getI_self, hw]
  intro j hj0 hj1
  unfold ftranU_dense at hdense
  unfold ftranU_regular
  dsimp only
  rw [if_pos hdense]
  show getI (Work.array (loopDown (fun j => ftranU_step c T (j : Int))
    (sizeI T.UpivotIndex).toNat ⟨0, 0, rhs.index, rhs.array⟩)) j = _
  rw [hlen]
  show getI (Work.array (loopDown (fun j => ftranU_step c T (j : Int)) X.length
    (ftranU_step c T ((X.length : Nat) : Int) ⟨0, 0, rhs.index, rhs.array⟩))) j = _
  have hfin := loopDown_inv_lt
    (fun w : Work => w.array = scatterSub T.Uindex T.Uvalue (getI T.Ustart (sizeI X))
      (getI T.Ulastp (sizeI X)) 1 (setI rhs.array r 1))
    (fun j => ftranU_step c T (j : Int)) X.length
    (fun i hi w hw => hkeep i hi w hw)
    (ftranU_step c T ((X.length : Nat) : Int) ⟨0, 0, rhs.index, rhs.array⟩) hfirst
  rw [hfin]
  exact hE j hj0 hj1



/-! ## The eta appended by `updateFT` -/

theorem mem_packEntries (v : HVector) (r : Int) (n : Nat) (x : Int × ℚ)
    (h : x ∈ packEntries v r n) :
    ∃ i : Nat, i < n ∧ x.1 = getI v.packIndex (i : Int) := by
  unfold packEntries at h
  rw [List.mem_map] at h
  obtain ⟨i, hi, rfl⟩ := h
  rw [List.mem_filter, List.mem_range] at hi
  exact ⟨i, hi.1, rfl⟩

/-- The entries of a column appended from an exact packed form are rows. -/
theorem appended_in_range (I : List Int) (m : Int) (v : HVector) (s : List ℚ)
    (hp : PackExact m v s) (r : Int) (t : Nat)
    (ht : t < (sizeI (I ++ (packEntries v r v.packCount.toNat).map Prod.fst) - sizeI I).toNat) :
    0 ≤ getI (I ++ (packEntries v r v.packCount.toNat).map Prod.fst) (sizeI I + (t : Int)) ∧
    getI (I ++ (packEntries v r v.packCount.toNat).map Prod.fst) (sizeI I + (t : Int)) < m := by
  have hlen : (sizeI (I ++ (packEntries v r v.packCount.toNat).map Prod.fst) - sizeI I).toNat =
      ((packEntries v r v.packCount.toNat).map Prod.fst).length := by
    rw [sizeI_append]; unfold sizeI; simp
  rw [hlen] at ht
  rw [getI_append_right _ _ (by omega)]
  have hsub : sizeI I + (t : Int) - sizeI I = (t : Int) := by omega
  rw [hsub]
  have hmem := getI_mem _ t ht
  rw [List.mem_map] at hmem
  obtain ⟨x, hx, hxe⟩ := hmem
  obtain ⟨i, hi, hie⟩ := mem_packEntries v r _ x hx
  rw [← hxe, hie]
  exact ⟨(hp.1.2.1 i hi).1, (hp.1.2.1 i hi).2.1⟩

/-- The value `value1` that the eta appended by `updateFT` computes on an array
`arr`. -/
theorem value1_new_eta (st : HFactor) (aq ep : HVector) (r : Int) (hsh : PFshape st)
    (hv : sizeI st.PFvalue = sizeI st.PFindex) (m : Int) (y : List ℚ)
    (hp : PackExact m ep y) (arr : List ℚ) :
    ftranFT_value1 (updateFT aq ep r st) (st.PFpivotIndex.length : Int) arr =
      getI arr r + getI st.UpivotValue (getI st.UpivotLookup r) *
        ∑ q ∈ Finset.range m.toNat,
          (if (q : Int) = r then 0 else getI arr (q : Int)) * getI y (q : Int) := by
  obtain ⟨e1, e2, e3, e4⟩ := updateFT_pf aq ep r st
  obtain ⟨-, hlast⟩ := PFshape_facts st hsh
  have hlen : sizeI st.PFstart = sizeI st.PFpivotIndex + 1 := hsh.2.2.1
  have hs0 : getI (updateFT aq ep r st).PFstart (st.PFpivotIndex.length : Int) =
      sizeI st.PFindex := by
    rw [e4, getI_append_left _ _ (by unfold sizeI at *; omega), hlast]
  have hs1 : getI (updateFT aq ep r st).PFstart ((st.PFpivotIndex.length : Int) + 1) =
      sizeI (st.PFindex ++ (packEntries ep r ep.packCount.toNat).map Prod.fst) := by
    have : (st.PFpivotIndex.length : Int) + 1 = sizeI st.PFstart := by
      unfold sizeI at *; omega
    rw [e4, this, getI_snoc]
  have hp0 : getI (updateFT aq ep r st).PFpivotIndex (st.PFpivotIndex.length : Int) = r := by
    rw [e1]; exact getI_snoc _ _
  unfold ftranFT_value1
  rw [hs0, hs1, hp0, e2, e3]
  exact value1_appended st.PFindex st.PFvalue hv.symm m ep y hp r _ arr _



/-! ## Correctness of the Forrest–Tomlin update -/

/-- The dot product with a unit vector. -/
theorem sum_mul_unit (m r : Int) (hr0 : 0 ≤ r) (hr1 : r < m) (x e : List ℚ)
    (he : ∀ j : Nat, j < m.toNat → getI e (j : Int) = if (j : Int) = r then 1 else 0) :
    ∑ j ∈ Finset.range m.toNat, getI x (j : Int) * getI e (j : Int) = getI x r := by
  rw [Finset.sum_eq_single r.toNat]
  · have hc : ((r.toNat : Nat) : Int) = r := by omega
    rw [he r.toNat (by omega), hc, if_pos rfl, mul_one]
  · intro j hj hne
    rw [Finset.mem_range] at hj
    rw [he j hj, if_neg (by omega), mul_zero]
  · intro h
    exact absurd (Finset.mem_range.mpr (by omega)) h

/-- The sum off the row `r` is the whole sum minus the term of `r`. -/
theorem sum_off_row (m r : Int) (hr0 : 0 ≤ r) (hr1 : r < m) (s y : List ℚ) :
    ∑ q ∈ Finset.range m.toNat, (if (q : Int) = r then 0 else getI s (q : Int)) * getI y (q : Int) =
      ∑ q ∈ Finset.range m.toNat, getI y (q : Int) * getI s (q : Int) - getI y r * getI s r := by
  have h1 : ∀ q ∈ Finset.range m.toNat,
      (if (q : Int) = r then 0 else getI s (q : Int)) * getI y (q : Int) =
        getI y (q : Int) * getI s (q : Int) -
          (if q = r.toNat then getI y r * getI s r else 0) := by
    intro q _
    by_cases h : (q : Int) = r
    · have : q = r.toNat := by omega
      rw [if_pos h, if_pos this, h]; ring
    · have : q ≠ r.toNat := by omega
      rw [if_neg h, if_neg this]; ring
  rw [Finset.sum_congr rfl h1, Finset.sum_sub_distrib, Finset.sum_ite_eq',
    if_pos (Finset.mem_range.mpr (by omega))]

theorem C1_new_pivot (c : Consts) (st : HFactor) (a e : HVector) (r : Int)
    (hwf : StoreWF st) (hr0 : 0 ≤ r) (hr1 : r < st.numRow)
    (ha : VecFits st.numRow a) (he : VecFits st.numRow e)
    (hunit : IsUnitVec st.numRow r e) (hex : FTExact c st a e r) :
    0 ≤ getI st.UpivotLookup r ∧ getI st.UpivotLookup r < sizeI st.UpivotIndex ∧
    getI st.UpivotIndex (getI st.UpivotLookup r) = r ∧
    getI st.UpivotValue (getI st.UpivotLookup r) ≠ 0 ∧
    (∀ arr : List ℚ, arr = (ftranFT c st (ftranL c st a)).array →
      ftranFT_value1 (updateFT (ftran c st a) (btran c st e) r st)
        (st.PFpivotIndex.length : Int) arr =
      getI st.UpivotValue (getI st.UpivotLookup r) * getI (ftran c st a).array r) := by
  obtain ⟨hL, hU, hUR, hag, hlk, hsh, hrow, hpv, huv, hus, hul, hupv, hlks⟩ := hwf
  obtain ⟨htiny, hFT, c1, c2, c3, c4, c5, c6, c7, c8, c9⟩ := hex
  have hm : 0 ≤ st.numRow := by omega
  obtain ⟨hx2, hsa, hsi, hupd, hpkq, hUx⟩ :=
    ftran_leaves c st a htiny hFT hL hU hrow hm ha c1 c2 c3 c4 c5
  obtain ⟨hURy, hpke⟩ := btran_leaves c st e htiny hFT hU hUR hm he c6 c7 c8
  obtain ⟨hrange, hinj, hsurj⟩ := LivePivots_facts st hU.1
  obtain ⟨i0, hi0, hli0, hpi0⟩ := hsurj r hr0 hr1
  have hmem : r ∈ st.UpivotIndex := by rw [← hpi0]; exact getI_mem _ i0 hi0
  obtain ⟨hp0, hp1, hp2⟩ := hlk r hmem (by omega)
  have hplc : (((getI st.UpivotLookup r).toNat : Nat) : Int) = getI st.UpivotLookup r := by
    omega
  have hpl1 : (getI st.UpivotLookup r).toNat < st.UpivotIndex.length := by
    unfold sizeI at hp1; omega
  have hlpl : liveSlot st (getI st.UpivotLookup r).toNat = true := by
    unfold liveSlot
    rw [hplc, hp2]
    simp only [ne_eq, decide_eq_true_eq]
    omega
  have hpiv : getI st.UpivotValue (getI st.UpivotLookup r) ≠ 0 := by
    have := hU.2.2 _ hpl1 hlpl
    rwa [hplc] at this
  have hunit' : ∀ j : Int, 0 ≤ j → j < st.numRow →
      getI e.array j = if j = r then 1 else 0 := by
    intro j hj0 hj1
    have := hunit j.toNat (by omega)
    have hc : ((j.toNat : Nat) : Int) = j := by omega
    rwa [hc] at this
  have hyr := URmul_unit_pivot st hU.1 hUR hU.2.2 (btranU_regular c st e).array e.array r
    hunit' hURy _ hpl1 hlpl (by rw [hplc]; exact hp2)
  rw [hplc] at hyr
  have hdot := dot_transpose st hU.1 hag (ftran c st a).array
    (ftranFT c st (ftranL c st a)).array (btranU_regular c st e).array e.array hUx hURy
  rw [sum_mul_unit st.numRow r hr0 hr1 _ _ hunit] at hdot
  refine ⟨hp0, hp1, hp2, hpiv, ?_⟩
  intro arr harr
  rw [value1_new_eta st _ _ r hsh hpv st.numRow _ hpke arr, harr,
    sum_off_row st.numRow r hr0 hr1, hdot, hyr]
  field_simp
  ring



/-- C1: correctness of the Forrest–Tomlin update, in exact arithmetic on the
dense path.  For a store that satisfies the invariants of section 3, `aq` what
`ftran` leaves of the entering column `a` and `ep` what `btran` leaves of the unit
vector of the leaving row `rowOut`, when no tiny-value clamp fires and the new
pivot `pivot * alpha` is above the tiny threshold: after `updateFT(aq, ep, rowOut)`,
`ftran` (`ftranL` then `ftranU`) of the column `a` returns the unit vector of
`rowOut`. -/
theorem C1_FT_correctness (c : Consts) (st : HFactor) (a e : HVector) (rowOut : Int)
    (hwf : StoreWF st) (hr0 : 0 ≤ rowOut) (hr1 : rowOut < st.numRow)
    (ha : VecFits st.numRow a) (he : VecFits st.numRow e)
    (hunit : IsUnitVec st.numRow rowOut e) (hex : FTExact c st a e rowOut) :
    ∀ j : Int, 0 ≤ j → j < st.numRow →
      getI (ftran c (updateFT (ftran c st a) (btran c st e) rowOut st) a).array j =
        if j = rowOut then 1 else 0 := by
  obtain ⟨hp0, hp1, hp2, hpiv, hval⟩ := C1_new_pivot c st a e rowOut hwf hr0 hr1 ha he hunit hex
  obtain ⟨hL, hU, hUR, hag, hlk, hsh, hrow, hpv, huv, hus, hul, hupv, hlks⟩ := hwf
  obtain ⟨htiny, hFT, c1, c2, c3, c4, c5, c6, c7, c8, c9⟩ := hex
  have hm : 0 ≤ st.numRow := by omega
  obtain ⟨hx2, hsa, hsi, hupd, hpkq, hUx⟩ :=
    ftran_leaves c st a htiny hFT hL hU hrow hm ha c1 c2 c3 c4 c5
  obtain ⟨hrange, hinj, hsurj⟩ := LivePivots_facts st hU.1
  -- the new store
  obtain ⟨pf1, pf2, pf3, pf4⟩ := updateFT_pf (ftran c st a) (btran c st e) rowOut st
  obtain ⟨pv1, pv2, pv3⟩ := updateFT_piv (ftran c st a) (btran c st e) rowOut st
  obtain ⟨hl', hcfg'⟩ := updateFT_l (ftran c st a) (btran c st e) rowOut st
  obtain ⟨U3, V3, L3, z1, z2, z3, u1, u2, u3, u4⟩ :=
    updateFT_uc (ftran c st a) (btran c st e) rowOut st
  simp only [cfgPart, Prod.mk.injEq] at hcfg'
  obtain ⟨hn', hm', -, hh'⟩ := hcfg'
  generalize hst' : updateFT (ftran c st a) (btran c st e) rowOut st = st' at *
  -- ftranL and the old etas
  have hLeq : ftranL c st' a = ftranL c st a := ftranL_congr c st st' a hl' hn'
  obtain ⟨f1, f2, f3, f4, f5, f6⟩ := ftranFT_eq_after c st (ftranL c st a)
  obtain ⟨g1, g2, g3, g4, g5, g6⟩ := ftranFT_eq_after c st' (ftranL c st a)
  have hlen' : st'.PFpivotIndex.length = st.PFpivotIndex.length + 1 := by
    rw [pf1]; simp
  have hold := ftranFT_after_old c st st' rowOut hsh hpv pf1 ⟨_, pf2⟩ ⟨_, pf3⟩ ⟨_, pf4⟩
    (ftranL c st a) st.PFpivotIndex.length (le_refl _)
  have hnew : ftranFT_after c st' (ftranL c st a) st'.PFpivotIndex.length =
      ftranFT_step c st' (st.PFpivotIndex.length : Int)
        (ftranFT_after c st (ftranL c st a) st.PFpivotIndex.length) := by
    rw [hlen', ← hold]
    exact forRange_natCast_succ _ _ _
  -- the state before the new eta
  generalize hw : ftranFT_after c st (ftranL c st a) st.PFpivotIndex.length = w at *
  rw [f1, f2, f3] at hx2
  rw [f1] at hsa hval
  rw [f2] at hsi
  have hv1 := hval w.array rfl
  have hrp : getI st'.PFpivotIndex (st.PFpivotIndex.length : Int) = rowOut := by
    rw [pf1]; exact getI_snoc _ _
  have hnc : (getI w.array (getI st'.PFpivotIndex (st.PFpivotIndex.length : Int)) = 0 ∧
      ftranFT_value1 st' (st.PFpivotIndex.length : Int) w.array = 0) ∨
      c.tiny ≤ |ftranFT_value1 st' (st.PFpivotIndex.length : Int) w.array| := by
    right; rw [hv1]; exact le_of_lt c9
  have harr' := ftranFT_step_array c st' (st.PFpivotIndex.length : Int) w hnc
  rw [hrp, hv1] at harr'
  obtain ⟨hx', hsa', hsi'⟩ := ftranFT_step_exact c st' (st.PFpivotIndex.length : Int) w
    st.numRow htiny hx2 (by rw [hrp]; exact ⟨hr0, hr1⟩) hsa hsi hnc
  obtain ⟨k1, k2, k3⟩ := ftranFT_step_pack c st' (st.PFpivotIndex.length : Int) w
  rw [← hnew] at harr' hx' hsa' hsi' k1 k2 k3
  rw [← g1] at harr' hsa'
  rw [← g1, ← g2, ← g3] at hx'
  rw [← g2] at hsi'
  -- tight does nothing
  have hbig : ∀ i : Nat, i < (ftranFT c st' (ftranL c st a)).count.toNat →
      c.tiny < |getI (ftranFT c st' (ftranL c st a)).array
        (getI (ftranFT c st' (ftranL c st a)).index (i : Int))| := by
    intro i hi
    obtain ⟨q0, q1, q2⟩ := hx'.2.1 i hi
    rw [harr'] at q2 ⊢
    rw [getI_setI] at q2 ⊢
    by_cases hq : rowOut = getI (ftranFT c st' (ftranL c st a)).index (i : Int)
    · rw [if_pos ⟨hq, hr0, by omega⟩]; exact c9
    · rw [if_neg (fun h => hq h.1)] at q2 ⊢
      have hqc : (((getI (ftranFT c st' (ftranL c st a)).index (i : Int)).toNat : Nat) : Int) =
          getI (ftranFT c st' (ftranL c st a)).index (i : Int) := by omega
      obtain ⟨i', hi', hie'⟩ := hx2.2.2.2
        (getI (ftranFT c st' (ftranL c st a)).index (i : Int)).toNat (by omega)
        (by rw [hqc]; exact q2)
      have hidle := c3 i' (by rw [f3]; exact hi')
      rw [f1, f2, hie', hqc] at hidle
      rcases hidle with h | h
      · exact absurd h q2
      · exact h
  have htight : tight c.tiny (ftranFT c st' (ftranL c st a)) = ftranFT c st' (ftranL c st a) :=
    tight_eq_self _ _ hx'.1 hbig
  have hupd' : ftranU_update c st' (ftranL c st a) = pack (ftranFT c st' (ftranL c st a)) := by
    unfold ftranU_update
    rw [if_pos (by rw [hm']; exact hFT), htight]
  obtain ⟨pa, -, pc⟩ := pack_frame (ftranFT c st' (ftranL c st a))
  -- dense
  have hcnt : w.count ≤ (ftranFT c st' (ftranL c st a)).count := by
    rw [g3, hnew]
    unfold ftranFT_step
    dsimp only
    split
    · split
      · show w.count ≤ w.count + 1
        omega
      · exact le_refl _
    · exact le_refl _
  have hdense : ftranU_dense c st' (pack (ftranFT c st' (ftranL c st a))) := by
    unfold ftranU_dense at c4 ⊢
    rw [hupd, (pack_frame _).2.2, f3] at c4
    rw [pc, hn', hh']
    rcases c4 with h | h
    · left
      have hmpos : (0 : ℚ) < (st.numRow : ℚ) := by exact_mod_cast (by omega : 0 < st.numRow)
      have hle : (w.count : ℚ) ≤ ((ftranFT c st' (ftranL c st a)).count : ℚ) := by
        exact_mod_cast hcnt
      exact lt_of_lt_of_le h (div_le_div_of_nonneg_right hle (le_of_lt hmpos))
    · right; exact h
  -- the loop of ftranU
  have hszX : sizeI (setI st.UpivotIndex (getI st.UpivotLookup rowOut) (-1)) =
      sizeI st.UpivotIndex := sizeI_setI _ _ _
  have hkU : getI st'.Ustart (sizeI st.UpivotIndex) = sizeI U3 := by
    rw [u1, ← hus, getI_snoc]
  have hkL : getI st'.Ulastp (sizeI st.UpivotIndex) =
      sizeI (U3 ++ List.map Prod.fst
        (packEntries (ftran c st a) rowOut (ftran c st a).packCount.toNat)) := by
    rw [u4, ← hul, ← z3, getI_snoc]
  intro j hj0 hj1
  unfold ftran ftranU
  rw [hLeq, hupd']
  rw [← hn'] at hj1
  refine ftranU_regular_last_column c st' (pack (ftranFT c st' (ftranL c st a))) st'.numRow
    rowOut (setI st.UpivotIndex (getI st.UpivotLookup rowOut) (-1))
    (getI st.UpivotValue (getI st.UpivotLookup rowOut) * getI (ftran c st a).array rowOut)
    (le_of_lt htiny) hr0 (by omega) (by rw [pa, hn', hsa']; exact hsa) pv1 ?_ ?_ c9 ?_ ?_ ?_ hdense
    j hj0 hj1
  · intro i hi
    have hi' : i < st.UpivotIndex.length := by unfold sizeI at hszX; omega
    rw [getI_setI]
    by_cases hpi : getI st.UpivotLookup rowOut = (i : Int)
    · left; rw [if_pos ⟨hpi, hp0, hp1⟩]
    · rw [if_neg (fun h => hpi h.1)]
      by_cases hli : getI st.UpivotIndex (i : Int) = -1
      · left; exact hli
      · right
        have hlive : liveSlot st i = true := by
          unfold liveSlot; simpa using hli
        have hrg := hrange i hi' hlive
        refine ⟨hrg.1, by rw [hn']; exact hrg.2, ?_⟩
        intro heq
        have hplc : (((getI st.UpivotLookup rowOut).toNat : Nat) : Int) =
            getI st.UpivotLookup rowOut := by omega
        have hlpl : liveSlot st (getI st.UpivotLookup rowOut).toNat = true := by
          unfold liveSlot
          rw [hplc, hp2]
          simp only [ne_eq, decide_eq_true_eq]
          omega
        have := hinj i (getI st.UpivotLookup rowOut).toNat hi'
          (by unfold sizeI at hp1; omega) hlive hlpl (by rw [hplc, hp2]; exact heq)
        omega
  · rw [hszX, pv2, ← hupv, getI_snoc]
  · intro t ht
    rw [hszX, hkU, hkL] at ht
    rw [hszX, hkU, u2, hn']
    exact appended_in_range U3 st.numRow (ftran c st a) _ hpkq rowOut t ht
  · intro j' hj0' hj1'
    rw [hszX, hkU, hkL, u2, u3, pa, harr']
    rw [hn'] at hj1'
    rw [colEntry_appended U3 V3 (by rw [z1, z2, huv]) st.numRow (ftran c st a) _ hpkq rowOut
      j' hj0' hj1']
    by_cases hjr : j' = rowOut
    · rw [if_pos hjr, if_pos hjr]
    · rw [if_neg hjr, if_neg hjr, getI_setI_ne _ _ (fun h => hjr h.symm), f1]
  · rw [pa, harr', getI_setI_eq _ _ hr0 (by omega)]



/-- Witness of C1 on the two-row store: the column `(1, 1)` enters, row 0
leaves, and `ftran` of the column on the updated store has `0` at row 1 and `1` at
row 0. -/
theorem C1_witness :
    StoreWF exStore ∧ VecFits exStore.numRow exCol ∧ VecFits exStore.numRow (exUnit 0) ∧
    IsUnitVec exStore.numRow 0 (exUnit 0) ∧ FTExact exConsts exStore exCol (exUnit 0) 0 ∧
    getI (ftran exConsts (updateFT (ftran exConsts exStore exCol)
      (btran exConsts exStore (exUnit 0)) 0 exStore) exCol).array 0 =
      (if (0 : Int) = 0 then 1 else 0) :=
  ⟨by decide!, by decide, by decide, by decide!, by decide!,
   C1_FT_correctness exConsts exStore exCol (exUnit 0) 0 (by decide!) (by decide) (by decide)
     (by decide) (by decide) (by decide!) (by decide!) 0 (by decide) (by decide)⟩



/-! ## Deleting one entry of a range -/

theorem findPos_spec (idx : List Int) (target : Int) (fuel : Nat) (lo : Int)
    (h : ∃ t : Nat, t < fuel ∧ getI idx (lo + (t : Int)) = target) :
    ∃ t : Nat, t < fuel ∧ findPos idx target fuel lo = lo + (t : Int) ∧
      getI idx (lo + (t : Int)) = target := by
  induction fuel generalizing lo with
  | zero => obtain ⟨t, ht, -⟩ := h; omega
  | succ n ih =>
    unfold findPos
    by_cases h0 : getI idx lo = target
    · rw [if_pos h0]
      exact ⟨0, by omega, by simp, by simpa using h0⟩
    · rw [if_neg h0]
      obtain ⟨t, ht, hte⟩ := h
      have ht0 : t ≠ 0 := by
        intro h; subst h; simp at hte; exact h0 hte
      obtain ⟨u, hu, hfu, hue⟩ := ih (lo + 1) ⟨t - 1, by omega, by
        have : lo + 1 + ((t - 1 : Nat) : Int) = lo + (t : Int) := by omega
        rw [this]; exact hte⟩
      refine ⟨u + 1, by omega, ?_, ?_⟩
      · rw [hfu]; push_cast; omega
      · have : lo + ((u + 1 : Nat) : Int) = lo + 1 + (u : Int) := by push_cast; omega
        rw [this]; exact hue

/-- Deleting the entry labelled `target` from the range `[lo, hi)`, in which the
indices are distinct and `target` occurs. -/
theorem swapDelete_spec (idx : List Int) (val : List ℚ) (lo hi : Int) (target : Int)
    (hlo : 0 ≤ lo) (hhi : hi ≤ sizeI idx) (hsz : sizeI val = sizeI idx)
    (hnd : SegNodup idx lo hi)
    (hpres : ∃ t : Nat, t < (hi - lo).toNat ∧ getI idx (lo + (t : Int)) = target) :
    let f := findPos idx target (hi - 1 + 1 - lo).toNat lo
    (lo ≤ f ∧ f < hi) ∧
    (∀ x v, InSeg (setI idx f (getI idx (hi - 1))) (setI val f (getI val (hi - 1))) lo (hi - 1) x v ↔
      (InSeg idx val lo hi x v ∧ x ≠ target)) ∧
    SegNodup (setI idx f (getI idx (hi - 1))) lo (hi - 1) ∧
    (∀ a : Int, a < lo ∨ hi ≤ a → getI (setI idx f (getI idx (hi - 1))) a = getI idx a ∧
      getI (setI val f (getI val (hi - 1))) a = getI val a) := by
  intro f
  have hfuel : (hi - 1 + 1 - lo).toNat = (hi - lo).toNat := by congr 1; omega
  obtain ⟨tf, htf, hfe, hft⟩ := findPos_spec idx target (hi - 1 + 1 - lo).toNat lo
    (by rw [hfuel]; exact hpres)
  rw [hfuel] at htf
  have hf : f = lo + (tf : Int) := hfe
  have hfr : lo ≤ f ∧ f < hi := by omega
  -- values after the write
  have hgi : ∀ a : Int, getI (setI idx f (getI idx (hi - 1))) a =
      if a = f then getI idx (hi - 1) else getI idx a := by
    intro a
    rw [getI_setI]
    by_cases h : a = f
    · rw [if_pos ⟨h.symm, by omega, by omega⟩, if_pos h]
    · rw [if_neg (fun hh => h hh.1.symm), if_neg h]
  have hgv : ∀ a : Int, getI (setI val f (getI val (hi - 1))) a =
      if a = f then getI val (hi - 1) else getI val a := by
    intro a
    rw [getI_setI]
    by_cases h : a = f
    · rw [if_pos ⟨h.symm, by omega, by omega⟩, if_pos h]
    · rw [if_neg (fun hh => h hh.1.symm), if_neg h]
  have hlast : hi - 1 = lo + (((hi - lo).toNat - 1 : Nat) : Int) := by omega
  refine ⟨hfr, ?_, ?_, ?_⟩
  · intro x v
    constructor
    · rintro ⟨t, ht, hx, hv⟩
      rw [hgi] at hx
      rw [hgv] at hv
      by_cases hta : lo + (t : Int) = f
      · rw [if_pos hta] at hx hv
        refine ⟨⟨(hi - lo).toNat - 1, by omega, by rw [← hlast]; exact hx,
          by rw [← hlast]; exact hv⟩, ?_⟩
        intro hxt
        have := hnd ((hi - lo).toNat - 1) (by omega) tf htf
          (by rw [← hlast, hx, hxt, hft])
        omega
      · rw [if_neg hta] at hx hv
        refine ⟨⟨t, by omega, hx, hv⟩, ?_⟩
        intro hxt
        have := hnd t (by omega) tf htf (by rw [hx, hxt, hft])
        omega
    · rintro ⟨⟨t, ht, hx, hv⟩, hne⟩
      have htf' : t ≠ tf := by
        intro h; subst h; rw [hft] at hx; exact hne hx.symm
      by_cases hl : t = (hi - lo).toNat - 1
      · refine ⟨tf, by omega, ?_, ?_⟩
        · rw [hgi, ← hf, if_pos rfl, hlast, ← hl]; exact hx
        · rw [hgv, ← hf, if_pos rfl, hlast, ← hl]; exact hv
      · refine ⟨t, by omega, ?_, ?_⟩
        · rw [hgi, if_neg (by omega)]; exact hx
        · rw [hgv, if_neg (by omega)]; exact hv
  · intro t ht u hu htu
    rw [hgi, hgi] at htu
    by_cases h1 : lo + (t : Int) = f <;> by_cases h2 : lo + (u : Int) = f
    · omega
    · rw [if_pos h1, if_neg h2, hlast] at htu
      have := hnd ((hi - lo).toNat - 1) (by omega) u (by omega) htu
      omega
    · rw [if_neg h1, if_pos h2, hlast] at htu
      have := hnd t (by omega) ((hi - lo).toNat - 1) (by omega) htu
      omega
    · rw [if_neg h1, if_neg h2] at htu
      exact hnd t (by omega) u (by omega) htu
  · intro a ha
    rw [hgi, hgv, if_neg (by omega), if_neg (by omega)]
    exact ⟨rfl, rfl⟩


theorem InSeg_congr (idx idx' : List Int) (val val' : List ℚ) (lo hi : Int)
    (h : ∀ a : Int, lo ≤ a → a < hi → getI idx' a = getI idx a ∧ getI val' a = getI val a)
    (x : Int) (v : ℚ) : InSeg idx' val' lo hi x v ↔ InSeg idx val lo hi x v := by
  constructor
  · rintro ⟨t, ht, hx, hv⟩
    obtain ⟨h1, h2⟩ := h (lo + (t : Int)) (by omega) (by omega)
    exact ⟨t, ht, by rw [← h1]; exact hx, by rw [← h2]; exact hv⟩
  · rintro ⟨t, ht, hx, hv⟩
    obtain ⟨h1, h2⟩ := h (lo + (t : Int)) (by omega) (by omega)
    exact ⟨t, ht, by rw [h1]; exact hx, by rw [h2]; exact hv⟩

theorem SegNodup_congr (idx idx' : List Int) (lo hi : Int)
    (h : ∀ a : Int, lo ≤ a → a < hi → getI idx' a = getI idx a)
    (hn : SegNodup idx lo hi) : SegNodup idx' lo hi := by
  intro t ht u hu htu
  rw [h _ (by omega) (by omega), h _ (by omega) (by omega)] at htu
  exact hn t ht u hu htu

theorem InSeg_shorter (idx : List Int) (val : List ℚ) (lo hi hi' : Int) (h : hi' ≤ hi)
    (x : Int) (v : ℚ) (hin : InSeg idx val lo hi' x v) : InSeg idx val lo hi x v := by
  obtain ⟨t, ht, hx, hv⟩ := hin
  exact ⟨t, by omega, hx, hv⟩

/-- The state after `k` deletions, each in the range of another slot. -/
theorem segDelete_loop (start : List Int) (target : Int) (seg : Nat → Int) (n : Nat)
    (T : Int → Prop) (lastp0 idx0 : List Int) (val0 : List ℚ)
    (h1 : sizeI val0 = sizeI idx0)
    (h2 : ∀ l, T l → 0 ≤ l ∧ l < sizeI lastp0 ∧ 0 ≤ getI start l ∧
      getI start l ≤ getI lastp0 l ∧ getI lastp0 l ≤ sizeI idx0)
    (h3 : ∀ l l', T l → T l' → l ≠ l' →
      getI lastp0 l ≤ getI start l' ∨ getI lastp0 l' ≤ getI start l)
    (h4 : ∀ l, T l → SegNodup idx0 (getI start l) (getI lastp0 l))
    (h5 : ∀ t, t < n → T (seg t) ∧
      ∃ u : Nat, u < (getI lastp0 (seg t) - getI start (seg t)).toNat ∧
        getI idx0 (getI start (seg t) + (u : Int)) = target)
    (h6 : ∀ t u, t < n → u < n → seg t = seg u → t = u)
    (k : Nat) (hk : k ≤ n) :
    ∀ S, S = loopUp (fun t S => segDelete start target (seg t) S) k (lastp0, idx0, val0) →
    (sizeI S.1 = sizeI lastp0 ∧ sizeI S.2.1 = sizeI idx0 ∧ sizeI S.2.2 = sizeI val0) ∧
    (∀ l, T l → (∃ t, t < k ∧ seg t = l) →
      getI S.1 l = getI lastp0 l - 1 ∧
      (∀ x v, InSeg S.2.1 S.2.2 (getI start l) (getI S.1 l) x v ↔
        (InSeg idx0 val0 (getI start l) (getI lastp0 l) x v ∧ x ≠ target)) ∧
      SegNodup S.2.1 (getI start l) (getI S.1 l)) ∧
    (∀ l, T l → (¬ ∃ t, t < k ∧ seg t = l) →
      ∀ a : Int, getI start l ≤ a → a < getI lastp0 l →
        getI S.2.1 a = getI idx0 a ∧ getI S.2.2 a = getI val0 a) ∧
    (∀ l, (¬ ∃ t, t < k ∧ seg t = l) → getI S.1 l = getI lastp0 l) := by
  induction k with
  | zero =>
    intro S hS
    subst hS
    refine ⟨⟨rfl, rfl, rfl⟩, ?_, ?_, ?_⟩
    · rintro l - ⟨t, ht, -⟩; omega
    · intro l _ _ a _ _; exact ⟨rfl, rfl⟩
    · intro l _; rfl
  | succ k ih =>
    intro S' hS0
    obtain ⟨⟨s1, s2, s3⟩, ihv, ihu, ihl⟩ := ih (by omega) _ rfl
    have hS1 : S' = segDelete start target (seg k)
      (loopUp (fun t S => segDelete start target (seg t) S) k (lastp0, idx0, val0)) := hS0
    clear hS0
    generalize loopUp (fun t S => segDelete start target (seg t) S) k (lastp0, idx0, val0) = S
      at s1 s2 s3 ihv ihu ihl hS1
    obtain ⟨lp, ix, vl⟩ := S
    simp only at s1 s2 s3 ihv ihu ihl
    obtain ⟨hT, hpres⟩ := h5 k (by omega)
    obtain ⟨b0, b1, b2, b3, b4⟩ := h2 (seg k) hT
    have hunv : ¬ ∃ t, t < k ∧ seg t = seg k := by
      rintro ⟨t, ht, he⟩
      have := h6 t k (by omega) (by omega) he
      omega
    have hlp : getI lp (seg k) = getI lastp0 (seg k) := ihl (seg k) hunv
    have hcont := ihu (seg k) hT hunv
    have hnd : SegNodup ix (getI start (seg k)) (getI lastp0 (seg k)) :=
      SegNodup_congr idx0 ix _ _ (fun a ha0 ha1 => (hcont a ha0 ha1).1) (h4 (seg k) hT)
    have hpres' : ∃ u : Nat, u < (getI lastp0 (seg k) - getI start (seg k)).toNat ∧
        getI ix (getI start (seg k) + (u : Int)) = target := by
      obtain ⟨u, hu, hue⟩ := hpres
      exact ⟨u, hu, by rw [(hcont _ (by omega) (by omega)).1]; exact hue⟩
    obtain ⟨hfr, hin, hnd', hout⟩ := swapDelete_spec ix vl (getI start (seg k))
      (getI lastp0 (seg k)) target b2 (by rw [s2]; exact b4) (by rw [s3, s2, h1]) hnd hpres'
    have hS' : S' = (setI lp (seg k) (getI lastp0 (seg k) - 1),
        setI ix (findPos ix target
          (getI lastp0 (seg k) - 1 + 1 - getI start (seg k)).toNat (getI start (seg k)))
          (getI ix (getI lastp0 (seg k) - 1)),
        setI vl (findPos ix target
          (getI lastp0 (seg k) - 1 + 1 - getI start (seg k)).toNat (getI start (seg k)))
          (getI vl (getI lastp0 (seg k) - 1))) := by
      rw [hS1]
      unfold segDelete
      simp only [hlp]
    rw [hS']
    simp only
    have hlpk : getI (setI lp (seg k) (getI lastp0 (seg k) - 1)) (seg k) =
        getI lastp0 (seg k) - 1 := getI_setI_eq _ _ b0 (by rw [s1]; exact b1)
    -- positions of another tracked slot are not touched
    have hother : ∀ l, T l → l ≠ seg k → ∀ a : Int, getI start l ≤ a → a < getI lastp0 l →
        getI (setI ix (findPos ix target
          (getI lastp0 (seg k) - 1 + 1 - getI start (seg k)).toNat (getI start (seg k)))
          (getI ix (getI lastp0 (seg k) - 1))) a = getI ix a ∧
        getI (setI vl (findPos ix target
          (getI lastp0 (seg k) - 1 + 1 - getI start (seg k)).toNat (getI start (seg k)))
          (getI vl (getI lastp0 (seg k) - 1))) a = getI vl a := by
      intro l hl hne a ha0 ha1
      apply hout
      rcases h3 l (seg k) hl hT hne with h | h
      · left; omega
      · right; omega
    refine ⟨⟨by rw [sizeI_setI, s1], by rw [sizeI_setI, s2], by rw [sizeI_setI, s3]⟩,
      ?_, ?_, ?_⟩
    · intro l hl hvis
      by_cases hlk : l = seg k
      · subst hlk
        rw [hlpk]
        refine ⟨rfl, ?_, hnd'⟩
        intro x v
        rw [hin x v, InSeg_congr idx0 ix val0 vl _ _ (fun a ha0 ha1 => hcont a ha0 ha1) x v]
      · have hvis' : ∃ t, t < k ∧ seg t = l := by
          obtain ⟨t, ht, he⟩ := hvis
          rcases Nat.lt_succ_iff_lt_or_eq.mp ht with h | h
          · exact ⟨t, h, he⟩
          · subst h; exact absurd he.symm hlk
        obtain ⟨e1, e2, e3⟩ := ihv l hl hvis'
        obtain ⟨c0, c1, c2, c3, c4⟩ := h2 l hl
        rw [getI_setI_ne _ _ (Ne.symm hlk), e1]
        rw [e1] at e2 e3
        refine ⟨rfl, ?_, ?_⟩
        · intro x v
          rw [InSeg_congr ix _ vl _ _ _
            (fun a ha0 ha1 => hother l hl hlk a ha0 (by omega)) x v]
          exact e2 x v
        · exact SegNodup_congr ix _ _ _
            (fun a ha0 ha1 => (hother l hl hlk a ha0 (by omega)).1) e3
    · intro l hl hunv' a ha0 ha1
      have hlk : l ≠ seg k := fun h => hunv' ⟨k, by omega, h.symm⟩
      have hunv'' : ¬ ∃ t, t < k ∧ seg t = l := by
        rintro ⟨t, ht, he⟩; exact hunv' ⟨t, by omega, he⟩
      obtain ⟨o1, o2⟩ := hother l hl hlk a ha0 ha1
      obtain ⟨p1, p2⟩ := ihu l hl hunv'' a ha0 ha1
      exact ⟨o1.trans p1, o2.trans p2⟩
    · intro l hunv'
      have hlk : l ≠ seg k := fun h => hunv' ⟨k, by omega, h.symm⟩
      have hunv'' : ¬ ∃ t, t < k ∧ seg t = l := by
        rintro ⟨t, ht, he⟩; exact hunv' ⟨t, by omega, he⟩
      rw [getI_setI_ne _ _ (Ne.symm hlk)]
      exact ihl l hunv''


theorem LiveAt_iff (st : HFactor) (l : Int) :
    LiveAt st l ↔ ∃ i : Nat, i < st.UpivotIndex.length ∧ liveSlot st i = true ∧ (i : Int) = l := by
  unfold LiveAt liveSlot sizeI
  constructor
  · rintro ⟨h0, h1, h2⟩
    refine ⟨l.toNat, by omega, ?_, by omega⟩
    rw [Int.toNat_of_nonneg h0]
    simpa using h2
  · rintro ⟨i, hi, hl, rfl⟩
    exact ⟨by omega, by omega, by simpa using hl⟩

theorem UAgree_iff (st : HFactor) :
    UAgree st ↔ ∀ i l : Int, LiveAt st i → LiveAt st l → ∀ v : ℚ,
      (InRow st i (getI st.UpivotIndex l) v ↔ InCol st l (getI st.UpivotIndex i) v) := by
  constructor
  · intro h i l hi hl v
    obtain ⟨i, hi0, hi1, rfl⟩ := (LiveAt_iff st _).mp hi
    obtain ⟨l, hl0, hl1, rfl⟩ := (LiveAt_iff st _).mp hl
    obtain ⟨h1, h2⟩ := h i hi0 hi1 l hl0 hl1
    unfold InRow InCol
    constructor
    · rintro ⟨t, ht, hx, hv⟩
      rw [← hv]
      exact h1 t ht hx
    · rintro ⟨u, hu, hx, hv⟩
      rw [← hv]
      exact h2 u hu hx
  · intro h i hi0 hi1 l hl0 hl1
    have hi : LiveAt st (i : Int) := (LiveAt_iff st _).mpr ⟨i, hi0, hi1, rfl⟩
    have hl : LiveAt st (l : Int) := (LiveAt_iff st _).mpr ⟨l, hl0, hl1, rfl⟩
    constructor
    · intro t ht hx
      exact (h _ _ hi hl _).mp ⟨t, ht, hx, rfl⟩
    · intro u hu hx
      exact (h _ _ hi hl _).mpr ⟨u, hu, hx, rfl⟩

/-- The layout, with the slots as `int`. -/
theorem ULayout_facts (st : HFactor) (h : ULayout st) :
    (∀ i, LiveAt st i → 0 ≤ getI st.UpivotIndex i ∧
      getI st.UpivotIndex i < sizeI st.UpivotLookup ∧
      getI st.UpivotLookup (getI st.UpivotIndex i) = i) ∧
    (∀ i, LiveAt st i →
      (0 ≤ getI st.Ustart i ∧ getI st.Ustart i ≤ getI st.Ulastp i ∧
        getI st.Ulastp i ≤ sizeI st.Uindex) ∧
      (0 ≤ getI st.URstart i ∧ getI st.URstart i ≤ getI st.URlastp i ∧
        0 ≤ getI st.URspace i ∧ getI st.URlastp i + getI st.URspace i ≤ sizeI st.URindex) ∧
      SegNodup st.Uindex (getI st.Ustart i) (getI st.Ulastp i) ∧
      SegNodup st.URindex (getI st.URstart i) (getI st.URlastp i)) ∧
    (∀ i l, LiveAt st i → LiveAt st l → i ≠ l →
      (getI st.Ulastp i ≤ getI st.Ustart l ∨ getI st.Ulastp l ≤ getI st.Ustart i) ∧
      (getI st.URlastp i + getI st.URspace i ≤ getI st.URstart l ∨
       getI st.URlastp l + getI st.URspace l ≤ getI st.URstart i)) ∧
    (∀ i, LiveAt st i → ∀ x v, InCol st i x v →
      ∃ l, LiveAt st l ∧ l ≠ i ∧ getI st.UpivotIndex l = x) ∧
    (∀ i, LiveAt st i → ∀ x v, InRow st i x v →
      ∃ l, LiveAt st l ∧ l ≠ i ∧ getI st.UpivotIndex l = x) := by
  obtain ⟨-, hsl, hdj⟩ := h
  refine ⟨?_, ?_, ?_, ?_, ?_⟩
  · intro i hi
    obtain ⟨i, hi0, hi1, rfl⟩ := (LiveAt_iff st _).mp hi
    exact (hsl i hi0 hi1).1
  · intro i hi
    obtain ⟨i, hi0, hi1, rfl⟩ := (LiveAt_iff st _).mp hi
    exact (hsl i hi0 hi1).2.1
  · intro i l hi hl hne
    obtain ⟨i, hi0, hi1, rfl⟩ := (LiveAt_iff st _).mp hi
    obtain ⟨l, hl0, hl1, rfl⟩ := (LiveAt_iff st _).mp hl
    exact hdj i hi0 hi1 l hl0 hl1 (fun h => hne (by rw [h]))
  · intro i hi x v hin
    obtain ⟨i, hi0, hi1, rfl⟩ := (LiveAt_iff st _).mp hi
    obtain ⟨t, ht, hx, -⟩ := hin
    obtain ⟨l, hl0, hne, hl1, hp⟩ := (hsl i hi0 hi1).2.2.1 t ht
    exact ⟨l, (LiveAt_iff st _).mpr ⟨l, hl0, hl1, rfl⟩, by omega, hp.trans hx⟩
  · intro i hi x v hin
    obtain ⟨i, hi0, hi1, rfl⟩ := (LiveAt_iff st _).mp hi
    obtain ⟨t, ht, hx, -⟩ := hin
    obtain ⟨l, hl0, hne, hl1, hp⟩ := (hsl i hi0 hi1).2.2.2 t ht
    exact ⟨l, (LiveAt_iff st _).mpr ⟨l, hl0, hl1, rfl⟩, by omega, hp.trans hx⟩


/-- The deletions of one phase of the update: the entry labelled `target` is
removed from the range of every slot listed in `seg`, and these are all the
ranges, `P` apart, that hold it. -/
theorem segDelete_phase (start : List Int) (target : Int) (seg : Nat → Int) (n : Nat)
    (T : Int → Prop) (P : Int) (lastp0 idx0 : List Int) (val0 : List ℚ)
    (h1 : sizeI val0 = sizeI idx0)
    (h2 : ∀ l, T l → 0 ≤ l ∧ l < sizeI lastp0 ∧ 0 ≤ getI start l ∧
      getI start l ≤ getI lastp0 l ∧ getI lastp0 l ≤ sizeI idx0)
    (h3 : ∀ l l', T l → T l' → l ≠ l' →
      getI lastp0 l ≤ getI start l' ∨ getI lastp0 l' ≤ getI start l)
    (h4 : ∀ l, T l → SegNodup idx0 (getI start l) (getI lastp0 l))
    (h5 : ∀ t, t < n → T (seg t) ∧
      ∃ u : Nat, u < (getI lastp0 (seg t) - getI start (seg t)).toNat ∧
        getI idx0 (getI start (seg t) + (u : Int)) = target)
    (h6 : ∀ t u, t < n → u < n → seg t = seg u → t = u)
    (h7 : ∀ l, T l → l ≠ P → ∀ v, InSeg idx0 val0 (getI start l) (getI lastp0 l) target v →
      ∃ t, t < n ∧ seg t = l)
    (h8 : ∀ t, t < n → seg t ≠ P) (hP : T P) :
    ∀ S, S = loopUp (fun t S => segDelete start target (seg t) S) n (lastp0, idx0, val0) →
    (sizeI S.1 = sizeI lastp0 ∧ sizeI S.2.1 = sizeI idx0 ∧ sizeI S.2.2 = sizeI val0) ∧
    (∀ l, T l → l ≠ P → ∀ x v, InSeg S.2.1 S.2.2 (getI start l) (getI S.1 l) x v ↔
      (InSeg idx0 val0 (getI start l) (getI lastp0 l) x v ∧ x ≠ target)) ∧
    (getI S.1 P = getI lastp0 P ∧ ∀ a : Int, getI start P ≤ a → a < getI lastp0 P →
      getI S.2.1 a = getI idx0 a ∧ getI S.2.2 a = getI val0 a) ∧
    (∀ l, T l → (∃ t, t < n ∧ seg t = l) →
      getI S.1 l = getI lastp0 l - 1 ∧ getI start l ≤ getI S.1 l) ∧
    (∀ l, (¬ ∃ t, t < n ∧ seg t = l) → getI S.1 l = getI lastp0 l) := by
  intro S hS
  obtain ⟨hsz, hv, hu, hl⟩ :=
    segDelete_loop start target seg n T lastp0 idx0 val0 h1 h2 h3 h4 h5 h6 n (le_refl n) S hS
  have hPn : ¬ ∃ t, t < n ∧ seg t = P := by
    rintro ⟨t, ht, he⟩; exact h8 t ht he
  refine ⟨hsz, ?_, ⟨hl P hPn, hu P hP hPn⟩, ?_, hl⟩
  · intro l hT hne x v
    by_cases hvis : ∃ t, t < n ∧ seg t = l
    · exact (hv l hT hvis).2.1 x v
    · rw [hl l hvis, InSeg_congr idx0 S.2.1 val0 S.2.2 _ _ (hu l hT hvis) x v]
      constructor
      · intro hin
        refine ⟨hin, ?_⟩
        rintro rfl
        exact hvis (h7 l hT hne v hin)
      · exact fun h => h.1
  · intro l hT hvis
    obtain ⟨e1, -, -⟩ := hv l hT hvis
    refine ⟨e1, ?_⟩
    obtain ⟨t, ht, rfl⟩ := hvis
    obtain ⟨-, u, hu', -⟩ := h5 t ht
    omega

theorem deleteRow_loop (iRow lo : Int) (st : HFactor) (k : Nat) :
    loopUp (fun j t => deleteRowStep iRow (lo + (j : Int)) t) k st =
      { st with
        Ulastp := (loopUp (fun t S => segDelete st.Ustart iRow
          (getI st.UpivotLookup (getI st.URindex (lo + (t : Int)))) S) k
          (st.Ulastp, st.Uindex, st.Uvalue)).1,
        Uindex := (loopUp (fun t S => segDelete st.Ustart iRow
          (getI st.UpivotLookup (getI st.URindex (lo + (t : Int)))) S) k
          (st.Ulastp, st.Uindex, st.Uvalue)).2.1,
        Uvalue := (loopUp (fun t S => segDelete st.Ustart iRow
          (getI st.UpivotLookup (getI st.URindex (lo + (t : Int)))) S) k
          (st.Ulastp, st.Uindex, st.Uvalue)).2.2 } := by
  induction k with
  | zero => rfl
  | succ k ih =>
    show deleteRowStep iRow (lo + (k : Int))
      (loopUp (fun j t => deleteRowStep iRow (lo + (j : Int)) t) k st) = _
    rw [ih]
    rfl

theorem deleteCol_loop (iRow lo : Int) (st : HFactor) (k : Nat) :
    loopUp (fun j t => deleteColStep iRow (lo + (j : Int)) t) k st =
      { st with
        URlastp := (loopUp (fun t S => segDelete st.URstart iRow
          (getI st.UpivotLookup (getI st.Uindex (lo + (t : Int)))) S) k
          (st.URlastp, st.URindex, st.URvalue)).1,
        URindex := (loopUp (fun t S => segDelete st.URstart iRow
          (getI st.UpivotLookup (getI st.Uindex (lo + (t : Int)))) S) k
          (st.URlastp, st.URindex, st.URvalue)).2.1,
        URvalue := (loopUp (fun t S => segDelete st.URstart iRow
          (getI st.UpivotLookup (getI st.Uindex (lo + (t : Int)))) S) k
          (st.URlastp, st.URindex, st.URvalue)).2.2,
        URspace := loopUp (fun t sp =>
          setI sp (getI st.UpivotLookup (getI st.Uindex (lo + (t : Int))))
            (getI sp (getI st.UpivotLookup (getI st.Uindex (lo + (t : Int)))) + 1)) k
          st.URspace } := by
  induction k with
  | zero => rfl
  | succ k ih =>
    show deleteColStep iRow (lo + (k : Int))
      (loopUp (fun j t => deleteColStep iRow (lo + (j : Int)) t) k st) = _
    rw [ih]
    rfl

/-- The space counters after the deletions: one more for every slot visited. -/
theorem space_loop (seg : Nat → Int) (n : Nat) (sp0 : List Int)
    (h0 : ∀ t, t < n → 0 ≤ seg t ∧ seg t < sizeI sp0)
    (h6 : ∀ t u, t < n → u < n → seg t = seg u → t = u) (k : Nat) (hk : k ≤ n) :
    ∀ sp, sp = loopUp (fun t sp => setI sp (seg t) (getI sp (seg t) + 1)) k sp0 →
    sizeI sp = sizeI sp0 ∧
    (∀ l, (∃ t, t < k ∧ seg t = l) → getI sp l = getI sp0 l + 1) ∧
    (∀ l, (¬ ∃ t, t < k ∧ seg t = l) → getI sp l = getI sp0 l) := by
  induction k with
  | zero =>
    intro sp hsp
    subst hsp
    refine ⟨rfl, ?_, fun _ _ => rfl⟩
    rintro l ⟨t, ht, -⟩; omega
  | succ k ih =>
    intro sp hsp
    obtain ⟨s1, hv, hu⟩ := ih (by omega) _ rfl
    have hsp1 : sp = setI (loopUp (fun t sp => setI sp (seg t) (getI sp (seg t) + 1)) k sp0)
        (seg k) (getI (loopUp (fun t sp => setI sp (seg t) (getI sp (seg t) + 1)) k sp0)
          (seg k) + 1) := hsp
    clear hsp
    generalize loopUp (fun t sp => setI sp (seg t) (getI sp (seg t) + 1)) k sp0 = q
      at s1 hv hu hsp1
    subst hsp1
    obtain ⟨b0, b1⟩ := h0 k (by omega)
    have hunv : ¬ ∃ t, t < k ∧ seg t = seg k := by
      rintro ⟨t, ht, he⟩
      have := h6 t k (by omega) (by omega) he
      omega
    refine ⟨by rw [sizeI_setI, s1], ?_, ?_⟩
    · rintro l ⟨t, ht, he⟩
      by_cases hlk : l = seg k
      · subst hlk
        rw [getI_setI_eq _ _ b0 (by rw [s1]; exact b1), hu _ hunv]
      · rw [getI_setI_ne _ _ (Ne.symm hlk)]
        apply hv
        rcases Nat.lt_succ_iff_lt_or_eq.mp ht with h | h
        · exact ⟨t, h, he⟩
        · subst h; exact absurd he.symm hlk
    · intro l hunv'
      have hlk : l ≠ seg k := fun h => hunv' ⟨k, by omega, h.symm⟩
      rw [getI_setI_ne _ _ (Ne.symm hlk)]
      apply hu
      rintro ⟨t, ht, he⟩; exact hunv' ⟨t, by omega, he⟩


theorem LiveAt_ne_of_pivot (st : HFactor) (hl : ULayout st) (i l : Int) (hi : LiveAt st i)
    (hl' : LiveAt st l) (h : getI st.UpivotIndex i = getI st.UpivotIndex l) : i = l := by
  obtain ⟨hlk, -⟩ := ULayout_facts st hl
  rw [← (hlk i hi).2.2, ← (hlk l hl').2.2, h]

/-- Lines 291-302: the loop removes the leaving row from the columns that hold
it and touches nothing else. -/
theorem deleteRow_spec (st : HFactor) (rowOut : Int) (hl : ULayout st) (ha : UAgree st)
    (hP : LiveAt st (getI st.UpivotLookup rowOut))
    (hPr : getI st.UpivotIndex (getI st.UpivotLookup rowOut) = rowOut) :
    ∃ (L I : List Int) (V : List ℚ),
      updateFT_deleteRow rowOut (updateFT_mark rowOut st) =
        { updateFT_mark rowOut st with Ulastp := L, Uindex := I, Uvalue := V } ∧
      (sizeI L = sizeI st.Ulastp ∧ sizeI I = sizeI st.Uindex ∧ sizeI V = sizeI st.Uvalue) ∧
      (∀ l, LiveAt st l → l ≠ getI st.UpivotLookup rowOut → ∀ x v,
        InSeg I V (getI st.Ustart l) (getI L l) x v ↔ (InCol st l x v ∧ x ≠ rowOut)) ∧
      (getI L (getI st.UpivotLookup rowOut) = getI st.Ulastp (getI st.UpivotLookup rowOut) ∧
        ∀ a : Int, getI st.Ustart (getI st.UpivotLookup rowOut) ≤ a →
          a < getI st.Ulastp (getI st.UpivotLookup rowOut) →
          getI I a = getI st.Uindex a ∧ getI V a = getI st.Uvalue a) ∧
      (∀ l, LiveAt st l → getI st.Ustart l ≤ getI L l ∧ getI L l ≤ getI st.Ulastp l) := by
  obtain ⟨hlk, hrg, hdj, hcn, hrn⟩ := ULayout_facts st hl
  obtain ⟨⟨z1, z2, z3, z4, z5, z6, z7⟩, -, -⟩ := hl
  have hag := (UAgree_iff st).mp ha
  -- the slot visited at step `t`
  have hseg : ∀ t : Nat, t < (getI st.URlastp (getI st.UpivotLookup rowOut) -
      getI st.URstart (getI st.UpivotLookup rowOut)).toNat →
      LiveAt st (getI st.UpivotLookup (getI st.URindex
        (getI st.URstart (getI st.UpivotLookup rowOut) + (t : Int)))) ∧
      getI st.UpivotLookup (getI st.URindex
        (getI st.URstart (getI st.UpivotLookup rowOut) + (t : Int))) ≠
        getI st.UpivotLookup rowOut ∧
      getI st.UpivotIndex (getI st.UpivotLookup (getI st.URindex
        (getI st.URstart (getI st.UpivotLookup rowOut) + (t : Int)))) =
        getI st.URindex (getI st.URstart (getI st.UpivotLookup rowOut) + (t : Int)) := by
    intro t ht
    obtain ⟨l, hlive, hne, hp⟩ := hrn _ hP _ _ ⟨t, ht, rfl, rfl⟩
    rw [← hp, (hlk l hlive).2.2]
    exact ⟨hlive, hne, rfl⟩
  obtain ⟨S, hS⟩ : ∃ S, S = loopUp (fun t S => segDelete st.Ustart rowOut
      (getI st.UpivotLookup (getI st.URindex
        (getI st.URstart (getI st.UpivotLookup rowOut) + (t : Int)))) S)
      (getI st.URlastp (getI st.UpivotLookup rowOut) -
        getI st.URstart (getI st.UpivotLookup rowOut)).toNat
      (st.Ulastp, st.Uindex, st.Uvalue) := ⟨_, rfl⟩
  obtain ⟨hsz, hcols, hPcol, hvis, hunv⟩ := segDelete_phase st.Ustart rowOut
    (fun t => getI st.UpivotLookup (getI st.URindex
      (getI st.URstart (getI st.UpivotLookup rowOut) + (t : Int))))
    (getI st.URlastp (getI st.UpivotLookup rowOut) -
      getI st.URstart (getI st.UpivotLookup rowOut)).toNat
    (LiveAt st) (getI st.UpivotLookup rowOut) st.Ulastp st.Uindex st.Uvalue z6
    (fun l h => ⟨h.1, by rw [z2]; exact h.2.1, (hrg l h).1⟩)
    (fun l l' h h' hne => (hdj l l' h h' hne).1)
    (fun l h => (hrg l h).2.2.1)
    (by
      intro t ht
      obtain ⟨h1, h2, h3⟩ := hseg t ht
      refine ⟨h1, ?_⟩
      have hin : InRow st (getI st.UpivotLookup rowOut)
          (getI st.UpivotIndex (getI st.UpivotLookup (getI st.URindex
            (getI st.URstart (getI st.UpivotLookup rowOut) + (t : Int)))))
          (getI st.URvalue (getI st.URstart (getI st.UpivotLookup rowOut) + (t : Int))) :=
        ⟨t, ht, h3.symm, rfl⟩
      obtain ⟨u, hu, hx, -⟩ := (hag _ _ hP h1 _).mp hin
      exact ⟨u, hu, hx.trans hPr⟩)
    (by
      intro t u ht hu he
      obtain ⟨-, -, h3⟩ := hseg t ht
      obtain ⟨-, -, h3'⟩ := hseg u hu
      dsimp only at he
      rw [he, h3'] at h3
      exact ((hrg _ hP).2.2.2 t ht u hu h3.symm))
    (by
      intro l hlive hne v hin
      have hin' : InCol st l (getI st.UpivotIndex (getI st.UpivotLookup rowOut)) v := by
        rw [hPr]; exact hin
      obtain ⟨t, ht, hx, -⟩ := (hag _ _ hP hlive _).mpr hin'
      refine ⟨t, ht, ?_⟩
      dsimp only
      rw [hx, (hlk l hlive).2.2])
    (fun t ht => (hseg t ht).2.1) hP S hS
  refine ⟨S.1, S.2.1, S.2.2, ?_, hsz, hcols, hPcol, ?_⟩
  · rw [hS]
    exact deleteRow_loop rowOut _ (updateFT_mark rowOut st) _
  intro l hlive
  by_cases hv : ∃ t, t < (getI st.URlastp (getI st.UpivotLookup rowOut) -
      getI st.URstart (getI st.UpivotLookup rowOut)).toNat ∧
      getI st.UpivotLookup (getI st.URindex
        (getI st.URstart (getI st.UpivotLookup rowOut) + (t : Int))) = l
  · obtain ⟨e1, e2⟩ := hvis l hlive hv
    exact ⟨e2, by omega⟩
  · have e := hunv l hv
    have := (hrg l hlive).1
    exact ⟨by omega, by omega⟩


/-- Lines 304-316: the loop removes the leaving row's label from the rows that
hold it, gives each of them the freed position back as space, and touches
nothing else. -/
theorem deleteCol_spec (st s : HFactor) (rowOut : Int) (hl : ULayout st) (ha : UAgree st)
    (hP : LiveAt st (getI st.UpivotLookup rowOut))
    (hPr : getI st.UpivotIndex (getI st.UpivotLookup rowOut) = rowOut)
    (e1 : s.UpivotLookup = st.UpivotLookup) (e2 : urPart s = urPart st)
    (e3 : s.Ustart = st.Ustart)
    (e4 : getI s.Ulastp (getI st.UpivotLookup rowOut) =
      getI st.Ulastp (getI st.UpivotLookup rowOut))
    (e5 : ∀ a : Int, getI st.Ustart (getI st.UpivotLookup rowOut) ≤ a →
      a < getI st.Ulastp (getI st.UpivotLookup rowOut) → getI s.Uindex a = getI st.Uindex a) :
    ∃ (L Sp I : List Int) (V : List ℚ),
      updateFT_deleteCol rowOut s =
        { s with URlastp := L, URspace := Sp, URindex := I, URvalue := V } ∧
      (sizeI L = sizeI st.URlastp ∧ sizeI I = sizeI st.URindex ∧
        sizeI V = sizeI st.URvalue ∧ sizeI Sp = sizeI st.URspace) ∧
      (∀ l, LiveAt st l → l ≠ getI st.UpivotLookup rowOut → ∀ x v,
        InSeg I V (getI st.URstart l) (getI L l) x v ↔ (InRow st l x v ∧ x ≠ rowOut)) ∧
      (∀ l, LiveAt st l → getI st.URstart l ≤ getI L l ∧
        getI L l + getI Sp l = getI st.URlastp l + getI st.URspace l ∧
        getI st.URspace l ≤ getI Sp l) ∧
      getI L (getI st.UpivotLookup rowOut) = getI st.URlastp (getI st.UpivotLookup rowOut) := by
  obtain ⟨hlk, hrg, hdj, hcn, hrn⟩ := ULayout_facts st hl
  obtain ⟨⟨z1, z2, z3, z4, z5, z6, z7⟩, -, -⟩ := hl
  have hag := (UAgree_iff st).mp ha
  simp only [urPart, Prod.mk.injEq] at e2
  obtain ⟨u1, u2, u3, u4, u5⟩ := e2
  have hseg : ∀ t : Nat, t < (getI st.Ulastp (getI st.UpivotLookup rowOut) -
      getI st.Ustart (getI st.UpivotLookup rowOut)).toNat →
      LiveAt st (getI st.UpivotLookup (getI st.Uindex
        (getI st.Ustart (getI st.UpivotLookup rowOut) + (t : Int)))) ∧
      getI st.UpivotLookup (getI st.Uindex
        (getI st.Ustart (getI st.UpivotLookup rowOut) + (t : Int))) ≠
        getI st.UpivotLookup rowOut ∧
      getI st.UpivotIndex (getI st.UpivotLookup (getI st.Uindex
        (getI st.Ustart (getI st.UpivotLookup rowOut) + (t : Int)))) =
        getI st.Uindex (getI st.Ustart (getI st.UpivotLookup rowOut) + (t : Int)) := by
    intro t ht
    obtain ⟨l, hlive, hne, hp⟩ := hcn _ hP _ _ ⟨t, ht, rfl, rfl⟩
    rw [← hp, (hlk l hlive).2.2]
    exact ⟨hlive, hne, rfl⟩
  have hinj : ∀ t u : Nat, t < (getI st.Ulastp (getI st.UpivotLookup rowOut) -
      getI st.Ustart (getI st.UpivotLookup rowOut)).toNat →
      u < (getI st.Ulastp (getI st.UpivotLookup rowOut) -
      getI st.Ustart (getI st.UpivotLookup rowOut)).toNat →
      getI st.UpivotLookup (getI st.Uindex
        (getI st.Ustart (getI st.UpivotLookup rowOut) + (t : Int))) =
      getI st.UpivotLookup (getI st.Uindex
        (getI st.Ustart (getI st.UpivotLookup rowOut) + (u : Int))) → t = u := by
    intro t u ht hu he
    obtain ⟨-, -, h3⟩ := hseg t ht
    obtain ⟨-, -, h3'⟩ := hseg u hu
    rw [he, h3'] at h3
    exact ((hrg _ hP).2.2.1 t ht u hu h3.symm)
  obtain ⟨S, hS⟩ : ∃ S, S = loopUp (fun t S => segDelete st.URstart rowOut
      (getI st.UpivotLookup (getI st.Uindex
        (getI st.Ustart (getI st.UpivotLookup rowOut) + (t : Int)))) S)
      (getI st.Ulastp (getI st.UpivotLookup rowOut) -
        getI st.Ustart (getI st.UpivotLookup rowOut)).toNat
      (st.URlastp, st.URindex, st.URvalue) := ⟨_, rfl⟩
  obtain ⟨Sp, hSp⟩ : ∃ Sp, Sp = loopUp (fun t sp =>
      setI sp (getI st.UpivotLookup (getI st.Uindex
        (getI st.Ustart (getI st.UpivotLookup rowOut) + (t : Int))))
        (getI sp (getI st.UpivotLookup (getI st.Uindex
          (getI st.Ustart (getI st.UpivotLookup rowOut) + (t : Int)))) + 1))
      (getI st.Ulastp (getI st.UpivotLookup rowOut) -
        getI st.Ustart (getI st.UpivotLookup rowOut)).toNat st.URspace := ⟨_, rfl⟩
  obtain ⟨hsz, hrows, hkeep, hvis, hunv⟩ := segDelete_phase st.URstart rowOut
    (fun t => getI st.UpivotLookup (getI st.Uindex
      (getI st.Ustart (getI st.UpivotLookup rowOut) + (t : Int))))
    (getI st.Ulastp (getI st.UpivotLookup rowOut) -
      getI st.Ustart (getI st.UpivotLookup rowOut)).toNat
    (LiveAt st) (getI st.UpivotLookup rowOut) st.URlastp st.URindex st.URvalue z7
    (fun l h => ⟨h.1, by rw [z4]; exact h.2.1, (hrg l h).2.1.1, (hrg l h).2.1.2.1, by
      have := (hrg l h).2.1; omega⟩)
    (fun l l' h h' hne => by
      have := (hdj l l' h h' hne).2
      have := (hrg l h).2.1
      have := (hrg l' h').2.1
      omega)
    (fun l h => (hrg l h).2.2.2)
    (by
      intro t ht
      obtain ⟨h1, h2, h3⟩ := hseg t ht
      refine ⟨h1, ?_⟩
      have hin : InCol st (getI st.UpivotLookup rowOut)
          (getI st.UpivotIndex (getI st.UpivotLookup (getI st.Uindex
            (getI st.Ustart (getI st.UpivotLookup rowOut) + (t : Int)))))
          (getI st.Uvalue (getI st.Ustart (getI st.UpivotLookup rowOut) + (t : Int))) :=
        ⟨t, ht, h3.symm, rfl⟩
      obtain ⟨u, hu, hx, -⟩ := (hag _ _ h1 hP _).mpr hin
      exact ⟨u, hu, hx.trans hPr⟩)
    hinj
    (by
      intro l hlive hne v hin
      have hin' : InRow st l (getI st.UpivotIndex (getI st.UpivotLookup rowOut)) v := by
        rw [hPr]; exact hin
      obtain ⟨t, ht, hx, -⟩ := (hag _ _ hlive hP _).mp hin'
      refine ⟨t, ht, ?_⟩
      dsimp only
      rw [hx, (hlk l hlive).2.2])
    (fun t ht => (hseg t ht).2.1) hP S hS
  obtain ⟨hspz, hspv, hspu⟩ := space_loop
    (fun t => getI st.UpivotLookup (getI st.Uindex
      (getI st.Ustart (getI st.UpivotLookup rowOut) + (t : Int))))
    (getI st.Ulastp (getI st.UpivotLookup rowOut) -
      getI st.Ustart (getI st.UpivotLookup rowOut)).toNat st.URspace
    (fun t ht => ⟨(hseg t ht).1.1, by rw [z5]; exact (hseg t ht).1.2.1⟩)
    hinj _ (le_refl _) Sp hSp
  refine ⟨S.1, Sp, S.2.1, S.2.2, ?_, ⟨hsz.1, hsz.2.1, hsz.2.2, hspz⟩, hrows, ?_, hkeep.1⟩
  · unfold updateFT_deleteCol forRange
    rw [deleteCol_loop, e1, e3, e4, u1, u2, u3, u4, u5]
    have c1 : loopUp (fun t S => segDelete st.URstart rowOut
        (getI st.UpivotLookup (getI s.Uindex
          (getI st.Ustart (getI st.UpivotLookup rowOut) + (t : Int)))) S)
        (getI st.Ulastp (getI st.UpivotLookup rowOut) -
          getI st.Ustart (getI st.UpivotLookup rowOut)).toNat
        (st.URlastp, st.URindex, st.URvalue) = S := by
      rw [hS]
      apply loopUp_congr
      intro t ht
      rw [e5 _ (by omega) (by omega)]
    have c2 : loopUp (fun t sp =>
        setI sp (getI st.UpivotLookup (getI s.Uindex
          (getI st.Ustart (getI st.UpivotLookup rowOut) + (t : Int))))
          (getI sp (getI st.UpivotLookup (getI s.Uindex
            (getI st.Ustart (getI st.UpivotLookup rowOut) + (t : Int)))) + 1))
        (getI st.Ulastp (getI st.UpivotLookup rowOut) -
          getI st.Ustart (getI st.UpivotLookup rowOut)).toNat st.URspace = Sp := by
      rw [hSp]
      apply loopUp_congr
      intro t ht
      rw [e5 _ (by omega) (by omega)]
    rw [c1, c2]
  · intro l hlive
    have hr := (hrg l hlive).2.1
    by_cases hv : ∃ t, t < (getI st.Ulastp (getI st.UpivotLookup rowOut) -
        getI st.Ustart (getI st.UpivotLookup rowOut)).toNat ∧
        getI st.UpivotLookup (getI st.Uindex
          (getI st.Ustart (getI st.UpivotLookup rowOut) + (t : Int))) = l
    · obtain ⟨e1, e2⟩ := hvis l hlive hv
      have := hspv l hv
      exact ⟨e2, by omega, by omega⟩
    · have e := hunv l hv
      have := hspu l hv
      exact ⟨by omega, by omega, by omega⟩


theorem newSpace_ge (c : Int) (h : 0 ≤ c) : c + 5 ≤ newSpace c := by
  unfold newSpace
  rw [Int.tdiv_eq_ediv (by omega) (by omega)]
  omega

theorem sizeI_resizeI {α : Type} [Zero α] (l : List α) (m : Int) (h : sizeI l ≤ m) :
    sizeI (resizeI l m) = m := by
  unfold resizeI sizeI at *
  split
  · rw [List.length_take]; omega
  · rw [List.length_append, List.length_replicate]; omega

theorem getI_resizeI {α : Type} [Zero α] (l : List α) (m : Int) (h : sizeI l ≤ m) (a : Int) :
    getI (resizeI l m) a = getI l a := by
  by_cases ha : a < sizeI l
  · unfold resizeI
    split
    · have : l.take m.toNat = l := List.take_of_length_le (by unfold sizeI at h; omega)
      rw [this]
    · exact getI_append_left _ _ ha
  · rw [getI_ge l (by omega)]
    by_cases ha' : a < m
    · unfold resizeI
      split
      · have : l.take m.toNat = l := List.take_of_length_le (by unfold sizeI at h; omega)
        rw [this]; exact getI_ge l (by omega)
      · rw [getI_append_right _ _ (by omega)]
        unfold getI
        split
        · rw [List.getD_eq_getElem?_getD, List.getElem?_replicate]
          split <;> rfl
        · rfl
    · exact getI_ge _ (by rw [sizeI_resizeI l m h]; omega)

/-- The copy of lines 347-350 when the destination starts after the source. -/
theorem copyRange_spec {α : Type} [Zero α] (w : List α) (iFrom iEnd iTo : Int)
    (h1 : iFrom + ((iEnd - iFrom).toNat : Int) ≤ iTo) (h0 : 0 ≤ iTo)
    (h2 : iTo + ((iEnd - iFrom).toNat : Int) ≤ sizeI w) :
    sizeI (copyRange w iFrom iEnd iTo) = sizeI w ∧
    ∀ a : Int, getI (copyRange w iFrom iEnd iTo) a =
      if iTo ≤ a ∧ a < iTo + ((iEnd - iFrom).toNat : Int)
      then getI w (iFrom + (a - iTo)) else getI w a := by
  unfold copyRange
  generalize (iEnd - iFrom).toNat = n at h1 h2
  have key : ∀ k : Nat, k ≤ n →
      sizeI (loopUp (fun j w => setI w (iTo + (j : Int)) (getI w (iFrom + (j : Int)))) k w) =
        sizeI w ∧
      ∀ a : Int,
        getI (loopUp (fun j w => setI w (iTo + (j : Int)) (getI w (iFrom + (j : Int)))) k w) a =
        if iTo ≤ a ∧ a < iTo + (k : Int) then getI w (iFrom + (a - iTo)) else getI w a := by
    intro k
    induction k with
    | zero =>
      intro _
      refine ⟨rfl, fun a => ?_⟩
      rw [if_neg (by push_cast; omega)]
      rfl
    | succ k ih =>
      intro hk
      obtain ⟨s1, g1⟩ := ih (by omega)
      show sizeI (setI _ _ _) = _ ∧ ∀ a, getI (setI _ _ _) a = _
      refine ⟨by rw [sizeI_setI, s1], fun a => ?_⟩
      have hv : getI (loopUp (fun j w => setI w (iTo + (j : Int)) (getI w (iFrom + (j : Int))))
          k w) (iFrom + (k : Int)) = getI w (iFrom + (k : Int)) := by
        rw [g1]
        exact if_neg (by omega)
      rw [getI_setI, s1, hv]
      by_cases ha : iTo + (k : Int) = a
      · rw [if_pos (show iTo + (k : Int) = a ∧ 0 ≤ iTo + (k : Int) ∧ iTo + (k : Int) < sizeI w
          from ⟨ha, by omega, by omega⟩),
          if_pos (show iTo ≤ a ∧ a < iTo + ((k + 1 : Nat) : Int) from
            ⟨by omega, by push_cast; omega⟩)]
        congr 1; omega
      · rw [if_neg (show ¬ (iTo + (k : Int) = a ∧ 0 ≤ iTo + (k : Int) ∧
          iTo + (k : Int) < sizeI w) from fun h => ha h.1), g1 a]
        by_cases hb : iTo ≤ a ∧ a < iTo + (k : Int)
        · rw [if_pos hb, if_pos (show iTo ≤ a ∧ a < iTo + ((k + 1 : Nat) : Int) from
            ⟨hb.1, by push_cast; omega⟩)]
        · rw [if_neg hb, if_neg (show ¬ (iTo ≤ a ∧ a < iTo + ((k + 1 : Nat) : Int)) from by
            push_cast; omega)]
  exact key n (le_refl n)


/-- Lines 336-358: the row moves to the end of the row copy, with its entries,
and gets fresh space; the other rows stay. -/
theorem relocateRow_spec (T : Int → Prop) (s : HFactor) (i : Int) (hfit : RowsFit T s)
    (hi : T i) :
    RowsFit T (relocateRow i s) ∧ 0 < getI (relocateRow i s).URspace i ∧
    ∀ l, T l → ∀ x v, InRow (relocateRow i s) l x v ↔ InRow s l x v := by
  obtain ⟨hsz, hin, hdj⟩ := hfit
  obtain ⟨i0, i1, i2, i3, i4, i5, i6, i7⟩ := hin i hi
  have hns := newSpace_ge (getI s.URlastp i - getI s.URstart i) (by omega)
  have hcnt : (((getI s.URstart i + (getI s.URlastp i - getI s.URstart i) - getI s.URstart i).toNat
      : Nat) : Int) = getI s.URlastp i - getI s.URstart i := by omega
  have hrI := sizeI_resizeI s.URindex
    (sizeI s.URindex + newSpace (getI s.URlastp i - getI s.URstart i)) (by omega)
  have hrV := sizeI_resizeI s.URvalue
    (sizeI s.URindex + newSpace (getI s.URlastp i - getI s.URstart i)) (by omega)
  obtain ⟨cI1, cI2⟩ := copyRange_spec
    (resizeI s.URindex (sizeI s.URindex + newSpace (getI s.URlastp i - getI s.URstart i)))
    (getI s.URstart i) (getI s.URstart i + (getI s.URlastp i - getI s.URstart i))
    (sizeI s.URindex) (by rw [hcnt]; omega) (sizeI_nonneg _) (by rw [hcnt, hrI]; omega)
  obtain ⟨cV1, cV2⟩ := copyRange_spec
    (resizeI s.URvalue (sizeI s.URindex + newSpace (getI s.URlastp i - getI s.URstart i)))
    (getI s.URstart i) (getI s.URstart i + (getI s.URlastp i - getI s.URstart i))
    (sizeI s.URindex) (by rw [hcnt]; omega) (sizeI_nonneg _) (by rw [hcnt, hrV]; omega)
  rw [hcnt] at cI2 cV2
  simp only [getI_resizeI s.URindex _ (show sizeI s.URindex ≤ sizeI s.URindex +
    newSpace (getI s.URlastp i - getI s.URstart i) by omega)] at cI2
  simp only [getI_resizeI s.URvalue _ (show sizeI s.URvalue ≤ sizeI s.URindex +
    newSpace (getI s.URlastp i - getI s.URstart i) by omega)] at cV2
  rw [hrI] at cI1
  rw [hrV] at cV1
  -- the members of the new store
  have eS : (relocateRow i s).URstart = setI s.URstart i (sizeI s.URindex) := rfl
  have eL : (relocateRow i s).URlastp =
      setI s.URlastp i (sizeI s.URindex + (getI s.URlastp i - getI s.URstart i)) := rfl
  have eP : (relocateRow i s).URspace =
      setI s.URspace i (newSpace (getI s.URlastp i - getI s.URstart i) -
        (getI s.URlastp i - getI s.URstart i)) := rfl
  have eI : (relocateRow i s).URindex = copyRange
      (resizeI s.URindex (sizeI s.URindex + newSpace (getI s.URlastp i - getI s.URstart i)))
      (getI s.URstart i) (getI s.URstart i + (getI s.URlastp i - getI s.URstart i))
      (sizeI s.URindex) := rfl
  have eV : (relocateRow i s).URvalue = copyRange
      (resizeI s.URvalue (sizeI s.URindex + newSpace (getI s.URlastp i - getI s.URstart i)))
      (getI s.URstart i) (getI s.URstart i + (getI s.URlastp i - getI s.URstart i))
      (sizeI s.URindex) := rfl
  have gS : ∀ l, getI (relocateRow i s).URstart l =
      if l = i then sizeI s.URindex else getI s.URstart l := by
    intro l
    rw [eS, getI_setI]
    by_cases h : i = l
    · rw [if_pos ⟨h, i0, i1⟩, if_pos h.symm]
    · rw [if_neg (fun q => h q.1), if_neg (fun q => h q.symm)]
  have gL : ∀ l, getI (relocateRow i s).URlastp l =
      if l = i then sizeI s.URindex + (getI s.URlastp i - getI s.URstart i)
      else getI s.URlastp l := by
    intro l
    rw [eL, getI_setI]
    by_cases h : i = l
    · rw [if_pos ⟨h, i0, i2⟩, if_pos h.symm]
    · rw [if_neg (fun q => h q.1), if_neg (fun q => h q.symm)]
  have gP : ∀ l, getI (relocateRow i s).URspace l =
      if l = i then newSpace (getI s.URlastp i - getI s.URstart i) -
        (getI s.URlastp i - getI s.URstart i)
      else getI s.URspace l := by
    intro l
    rw [eP, getI_setI]
    by_cases h : i = l
    · rw [if_pos ⟨h, i0, i3⟩, if_pos h.symm]
    · rw [if_neg (fun q => h q.1), if_neg (fun q => h q.symm)]
  refine ⟨⟨by rw [eI, eV, cI1, cV1], ?_, ?_⟩, ?_, ?_⟩
  · intro l hl
    obtain ⟨l0, l1, l2, l3, l4, l5, l6, l7⟩ := hin l hl
    rw [gS, gL, gP, eS, eL, eP, eI, cI1, sizeI_setI, sizeI_setI, sizeI_setI]
    refine ⟨l0, l1, l2, l3, ?_⟩
    by_cases h : l = i
    · simp only [if_pos h]
      have := sizeI_nonneg s.URindex
      exact ⟨by omega, by omega, by omega, by omega⟩
    · simp only [if_neg h]
      exact ⟨l4, l5, l6, by omega⟩
  · intro l l' hl hl' hne
    obtain ⟨l0, l1, l2, l3, l4, l5, l6, l7⟩ := hin l hl
    obtain ⟨m0, m1, m2, m3, m4, m5, m6, m7⟩ := hin l' hl'
    rw [gS, gL, gP, gS, gL, gP]
    by_cases h : l = i
    · have h' : l' ≠ i := fun q => hne (h.trans q.symm)
      simp only [if_pos h, if_neg h']
      right; omega
    · by_cases h' : l' = i
      · simp only [if_neg h, if_pos h']
        left; omega
      · simp only [if_neg h, if_neg h']
        exact hdj l l' hl hl' hne
  · rw [gP, if_pos rfl]; omega
  · intro l hl x v
    obtain ⟨l0, l1, l2, l3, l4, l5, l6, l7⟩ := hin l hl
    unfold InRow
    rw [gS, gL, eI, eV]
    by_cases h : l = i
    · subst h
      simp only [if_true]
      unfold InSeg
      have hc : (sizeI s.URindex + (getI s.URlastp l - getI s.URstart l) -
          sizeI s.URindex).toNat = (getI s.URlastp l - getI s.URstart l).toNat := by
        congr 1; omega
      rw [hc]
      constructor
      · rintro ⟨t, ht, hx, hv⟩
        rw [cI2, if_pos (by omega)] at hx
        rw [cV2, if_pos (by omega)] at hv
        refine ⟨t, ht, ?_, ?_⟩
        · rw [← hx]; congr 1; omega
        · rw [← hv]; congr 1; omega
      · rintro ⟨t, ht, hx, hv⟩
        refine ⟨t, ht, ?_, ?_⟩
        · rw [cI2, if_pos (by omega), ← hx]; congr 1; omega
        · rw [cV2, if_pos (by omega), ← hv]; congr 1; omega
    · simp only [if_neg h]
      apply InSeg_congr
      intro a ha0 ha1
      rw [cI2, cV2, if_neg (by omega), if_neg (by omega)]
      exact ⟨rfl, rfl⟩


/-- Lines 360-364: the entry goes to the first free position of the row. -/
theorem appendRow_spec (T : Int → Prop) (s : HFactor) (i : Int) (iRow : Int) (val : ℚ)
    (hfit : RowsFit T s) (hi : T i) (hsp : 0 < getI s.URspace i) :
    RowsFit T { s with URspace := setI s.URspace i (getI s.URspace i - 1),
                       URlastp := setI s.URlastp i (getI s.URlastp i + 1),
                       URindex := setI s.URindex (getI s.URlastp i) iRow,
                       URvalue := setI s.URvalue (getI s.URlastp i) val } ∧
    ∀ l, T l → ∀ x v,
      InRow { s with URspace := setI s.URspace i (getI s.URspace i - 1),
                     URlastp := setI s.URlastp i (getI s.URlastp i + 1),
                     URindex := setI s.URindex (getI s.URlastp i) iRow,
                     URvalue := setI s.URvalue (getI s.URlastp i) val } l x v ↔
      (InRow s l x v ∨ (l = i ∧ x = iRow ∧ v = val)) := by
  obtain ⟨hsz, hin, hdj⟩ := hfit
  obtain ⟨i0, i1, i2, i3, i4, i5, i6, i7⟩ := hin i hi
  have gL : ∀ l, getI (setI s.URlastp i (getI s.URlastp i + 1)) l =
      if l = i then getI s.URlastp i + 1 else getI s.URlastp l := by
    intro l
    rw [getI_setI]
    by_cases h : i = l
    · rw [if_pos ⟨h, i0, i2⟩, if_pos h.symm]
    · rw [if_neg (fun q => h q.1), if_neg (fun q => h q.symm)]
  have gP : ∀ l, getI (setI s.URspace i (getI s.URspace i - 1)) l =
      if l = i then getI s.URspace i - 1 else getI s.URspace l := by
    intro l
    rw [getI_setI]
    by_cases h : i = l
    · rw [if_pos ⟨h, i0, i3⟩, if_pos h.symm]
    · rw [if_neg (fun q => h q.1), if_neg (fun q => h q.symm)]
  refine ⟨⟨?_, ?_, ?_⟩, ?_⟩
  · show sizeI (setI s.URvalue _ _) = sizeI (setI s.URindex _ _)
    rw [sizeI_setI, sizeI_setI, hsz]
  · intro l hl
    obtain ⟨l0, l1, l2, l3, l4, l5, l6, l7⟩ := hin l hl
    show 0 ≤ l ∧ l < sizeI s.URstart ∧ l < sizeI (setI s.URlastp _ _) ∧
      l < sizeI (setI s.URspace _ _) ∧ 0 ≤ getI s.URstart l ∧
      getI s.URstart l ≤ getI (setI s.URlastp _ _) l ∧ 0 ≤ getI (setI s.URspace _ _) l ∧
      getI (setI s.URlastp _ _) l + getI (setI s.URspace _ _) l ≤ sizeI (setI s.URindex _ _)
    rw [gL, gP, sizeI_setI, sizeI_setI, sizeI_setI]
    refine ⟨l0, l1, l2, l3, l4, ?_⟩
    by_cases h : l = i
    · subst h
      simp only [if_true]
      exact ⟨by omega, by omega, by omega⟩
    · simp only [if_neg h]
      exact ⟨l5, l6, l7⟩
  · intro l l' hl hl' hne
    show getI (setI s.URlastp _ _) l + getI (setI s.URspace _ _) l ≤ getI s.URstart l' ∨
      getI (setI s.URlastp _ _) l' + getI (setI s.URspace _ _) l' ≤ getI s.URstart l
    rw [gL, gP, gL, gP]
    have := hdj l l' hl hl' hne
    by_cases h : l = i
    · have h' : l' ≠ i := fun q => hne (h.trans q.symm)
      subst h
      simp only [if_true, if_neg h']
      omega
    · by_cases h' : l' = i
      · subst h'
        simp only [if_neg h, if_true]
        omega
      · simp only [if_neg h, if_neg h']
        exact this
  · intro l hl x v
    obtain ⟨l0, l1, l2, l3, l4, l5, l6, l7⟩ := hin l hl
    show InSeg (setI s.URindex (getI s.URlastp i) iRow) (setI s.URvalue (getI s.URlastp i) val)
      (getI s.URstart l) (getI (setI s.URlastp i (getI s.URlastp i + 1)) l) x v ↔ _
    rw [gL]
    by_cases h : l = i
    · subst h
      simp only [if_true, true_and]
      unfold InRow InSeg
      constructor
      · rintro ⟨t, ht, hx, hv⟩
        by_cases hlast : getI s.URstart l + (t : Int) = getI s.URlastp l
        · right
          rw [hlast, getI_setI_eq _ _ (by omega) (by omega)] at hx
          rw [hlast, getI_setI_eq _ _ (by omega) (by rw [hsz]; omega)] at hv
          exact ⟨hx.symm, hv.symm⟩
        · left
          rw [getI_setI_ne _ _ (Ne.symm hlast)] at hx hv
          exact ⟨t, by omega, hx, hv⟩
      · rintro (⟨t, ht, hx, hv⟩ | ⟨hx, hv⟩)
        · have hlast : getI s.URlastp l ≠ getI s.URstart l + (t : Int) := by omega
          exact ⟨t, by omega, by rw [getI_setI_ne _ _ hlast]; exact hx,
            by rw [getI_setI_ne _ _ hlast]; exact hv⟩
        · refine ⟨(getI s.URlastp l - getI s.URstart l).toNat, by omega, ?_, ?_⟩
          · have e : getI s.URstart l + ((getI s.URlastp l - getI s.URstart l).toNat : Int) =
                getI s.URlastp l := by omega
            rw [e, getI_setI_eq _ _ (by omega) (by omega), hx]
          · have e : getI s.URstart l + ((getI s.URlastp l - getI s.URstart l).toNat : Int) =
                getI s.URlastp l := by omega
            rw [e, getI_setI_eq _ _ (by omega) (by rw [hsz]; omega), hv]
    · rw [if_neg h]
      simp only [h, false_and, or_false]
      apply InSeg_congr
      intro a ha0 ha1
      have hne : getI s.URlastp i ≠ a := by
        have := hdj l i hl hi h
        omega
      exact ⟨getI_setI_ne _ _ hne, getI_setI_ne _ _ hne⟩

/-- One iteration of the loop of lines 331-365. -/
theorem insertRowStep_spec (T : Int → Prop) (s : HFactor) (iRow k : Int)
    (hfit : RowsFit T s) (hi : T (getI s.UpivotLookup (getI s.Uindex k))) :
    RowsFit T (insertRowStep iRow k s) ∧
    ∀ l, T l → ∀ x v, InRow (insertRowStep iRow k s) l x v ↔
      (InRow s l x v ∨
        (l = getI s.UpivotLookup (getI s.Uindex k) ∧ x = iRow ∧ v = getI s.Uvalue k)) := by
  by_cases hsp : getI s.URspace (getI s.UpivotLookup (getI s.Uindex k)) = 0
  · obtain ⟨r1, r2, r3⟩ := relocateRow_spec T s _ hfit hi
    obtain ⟨a1, a2⟩ := appendRow_spec T (relocateRow (getI s.UpivotLookup (getI s.Uindex k)) s)
      (getI s.UpivotLookup (getI s.Uindex k)) iRow (getI s.Uvalue k) r1 hi r2
    unfold insertRowStep
    simp only [if_pos hsp]
    exact ⟨a1, fun l hl x v => (a2 l hl x v).trans (by rw [r3 l hl x v])⟩
  · have hpos : 0 < getI s.URspace (getI s.UpivotLookup (getI s.Uindex k)) := by
      have := (hfit.2.1 _ hi).2.2.2.2.2.2.1
      omega
    obtain ⟨a1, a2⟩ := appendRow_spec T s
      (getI s.UpivotLookup (getI s.Uindex k)) iRow (getI s.Uvalue k) hfit hi hpos
    unfold insertRowStep
    simp only [if_neg hsp]
    exact ⟨a1, a2⟩


/-- The loop of lines 331-365: every entry of the new column is appended to the
row of the slot of its index, labelled with the leaving row. -/
theorem storeRows_loop (T : Int → Prop) (s : HFactor) (iRow lo : Int) (m : Nat)
    (hfit : RowsFit T s)
    (hT : ∀ u : Nat, u < m → T (getI s.UpivotLookup (getI s.Uindex (lo + (u : Int)))))
    (k : Nat) (hk : k ≤ m) :
    ∀ s', s' = loopUp (fun j t => insertRowStep iRow (lo + (j : Int)) t) k s →
    ucPart s' = ucPart s ∧ pivPart s' = pivPart s ∧ RowsFit T s' ∧
    ∀ l, T l → ∀ x v, InRow s' l x v ↔
      (InRow s l x v ∨ (x = iRow ∧ ∃ u : Nat, u < k ∧
        getI s.UpivotLookup (getI s.Uindex (lo + (u : Int))) = l ∧
        v = getI s.Uvalue (lo + (u : Int)))) := by
  induction k with
  | zero =>
    intro s' hs'
    subst hs'
    refine ⟨rfl, rfl, hfit, fun l _ x v => ?_⟩
    constructor
    · exact fun h => Or.inl h
    · rintro (h | ⟨-, u, hu, -⟩)
      · exact h
      · omega
  | succ k ih =>
    intro s' hs'
    obtain ⟨f1, f2, f3, f4⟩ := ih (by omega) _ rfl
    have hs1 : s' = insertRowStep iRow (lo + (k : Int))
        (loopUp (fun j t => insertRowStep iRow (lo + (j : Int)) t) k s) := hs'
    clear hs'
    generalize loopUp (fun j t => insertRowStep iRow (lo + (j : Int)) t) k s = q
      at f1 f2 f3 f4 hs1
    subst hs1
    have g1 : q.Uindex = s.Uindex := by
      have := f1; simp only [ucPart, Prod.mk.injEq] at this; exact this.2.2.1
    have g2 : q.Uvalue = s.Uvalue := by
      have := f1; simp only [ucPart, Prod.mk.injEq] at this; exact this.2.2.2
    have g3 : q.UpivotLookup = s.UpivotLookup := by
      have := f2; simp only [pivPart, Prod.mk.injEq] at this; exact this.1
    obtain ⟨a1, a2⟩ := insertRowStep_spec T q iRow (lo + (k : Int)) f3
      (by rw [g1, g3]; exact hT k (by omega))
    obtain ⟨-, -, p3, p4, -, -⟩ := insertRowStep_frame iRow (lo + (k : Int)) q
    refine ⟨p4.trans f1, p3.trans f2, a1, fun l hl x v => ?_⟩
    rw [a2 l hl x v, f4 l hl x v, g1, g2, g3]
    constructor
    · rintro ((h | ⟨hx, u, hu, h1, h2⟩) | ⟨h1, hx, h2⟩)
      · exact Or.inl h
      · exact Or.inr ⟨hx, u, by omega, h1, h2⟩
      · exact Or.inr ⟨hx, k, by omega, h1.symm, h2⟩
    · rintro (h | ⟨hx, u, hu, h1, h2⟩)
      · exact Or.inl (Or.inl h)
      · rcases Nat.lt_succ_iff_lt_or_eq.mp hu with h | h
        · exact Or.inl (Or.inr ⟨hx, u, h, h1, h2⟩)
        · subst h
          exact Or.inr ⟨h1.symm, hx, h2⟩


theorem RowsFit_congr (T : Int → Prop) (s s' : HFactor) (h : urPart s' = urPart s)
    (hfit : RowsFit T s) : RowsFit T s' := by
  simp only [urPart, Prod.mk.injEq] at h
  obtain ⟨h1, h2, h3, h4, h5⟩ := h
  unfold RowsFit
  rw [h1, h2, h3, h4, h5]
  exact hfit

theorem InRow_congr (s s' : HFactor) (h : urPart s' = urPart s) (l x : Int) (v : ℚ) :
    InRow s' l x v ↔ InRow s l x v := by
  simp only [urPart, Prod.mk.injEq] at h
  obtain ⟨h1, h2, h3, h4, h5⟩ := h
  unfold InRow
  rw [h1, h2, h4, h5]

theorem InCol_congr (s s' : HFactor) (h : ucPart s' = ucPart s) (l x : Int) (v : ℚ) :
    InCol s' l x v ↔ InCol s l x v := by
  simp only [ucPart, Prod.mk.injEq] at h
  obtain ⟨h1, h2, h3, h4⟩ := h
  unfold InCol
  rw [h1, h2, h3, h4]

theorem packEntries_ne (v : HVector) (r : Int) (n : Nat) (x : Int × ℚ)
    (h : x ∈ packEntries v r n) :
    x.1 ≠ r ∧ ∃ i : Nat, i < n ∧ x.1 = getI v.packIndex (i : Int) := by
  unfold packEntries at h
  rw [List.mem_map] at h
  obtain ⟨i, hi, rfl⟩ := h
  rw [List.mem_filter, List.mem_range] at hi
  exact ⟨by simpa using hi.2, i, hi.1, rfl⟩

theorem insertRowStep_sizes (iRow k : Int) (s : HFactor) :
    sizeI (insertRowStep iRow k s).URstart = sizeI s.URstart ∧
    sizeI (insertRowStep iRow k s).URlastp = sizeI s.URlastp := by
  unfold insertRowStep relocateRow
  dsimp only
  split
  · exact ⟨sizeI_setI _ _ _, by rw [sizeI_setI, sizeI_setI]⟩
  · exact ⟨rfl, sizeI_setI _ _ _⟩

theorem storeRows_sizes (iRow : Int) (s : HFactor) :
    sizeI (updateFT_storeRows iRow s).URstart = sizeI s.URstart ∧
    sizeI (updateFT_storeRows iRow s).URlastp = sizeI s.URlastp := by
  unfold updateFT_storeRows
  exact forRange_inv
    (fun q => sizeI q.URstart = sizeI s.URstart ∧ sizeI q.URlastp = sizeI s.URlastp) _ _ _
    (fun k q hq => ⟨(insertRowStep_sizes iRow k q).1.trans hq.1,
      (insertRowStep_sizes iRow k q).2.trans hq.2⟩) s ⟨rfl, rfl⟩

/-- The store after the two deletion loops (lines 291-316). -/
theorem deletions_spec (st : HFactor) (rowOut : Int) (hl : ULayout st) (ha : UAgree st)
    (hP : LiveAt st (getI st.UpivotLookup rowOut))
    (hPr : getI st.UpivotIndex (getI st.UpivotLookup rowOut) = rowOut) :
    ∀ s3, s3 = updateFT_deleteCol rowOut (updateFT_deleteRow rowOut (updateFT_mark rowOut st)) →
    (s3.UpivotLookup = st.UpivotLookup ∧ s3.Ustart = st.Ustart ∧ s3.URstart = st.URstart) ∧
    (sizeI s3.Ulastp = sizeI st.Ulastp ∧ sizeI s3.Uindex = sizeI st.Uindex ∧
      sizeI s3.Uvalue = sizeI st.Uvalue ∧ sizeI s3.URlastp = sizeI st.URlastp ∧
      sizeI s3.URindex = sizeI st.URindex ∧ sizeI s3.URvalue = sizeI st.URvalue ∧
      sizeI s3.URspace = sizeI st.URspace) ∧
    (∀ l, LiveAt st l → l ≠ getI st.UpivotLookup rowOut → ∀ x v,
      InCol s3 l x v ↔ (InCol st l x v ∧ x ≠ rowOut)) ∧
    (∀ l, LiveAt st l → l ≠ getI st.UpivotLookup rowOut → ∀ x v,
      InRow s3 l x v ↔ (InRow st l x v ∧ x ≠ rowOut)) ∧
    (∀ l, LiveAt st l → getI st.Ustart l ≤ getI s3.Ulastp l ∧
      getI s3.Ulastp l ≤ getI st.Ulastp l) ∧
    (∀ l, LiveAt st l → getI st.URstart l ≤ getI s3.URlastp l ∧
      getI s3.URlastp l + getI s3.URspace l = getI st.URlastp l + getI st.URspace l ∧
      getI st.URspace l ≤ getI s3.URspace l) ∧
    (getI s3.Ulastp (getI st.UpivotLookup rowOut) =
        getI st.Ulastp (getI st.UpivotLookup rowOut) ∧
      getI s3.URlastp (getI st.UpivotLookup rowOut) =
        getI st.URlastp (getI st.UpivotLookup rowOut)) := by
  intro s3 hs3
  obtain ⟨L, I, V, e2, hsz, hcols, hPcol, hcb⟩ := deleteRow_spec st rowOut hl ha hP hPr
  obtain ⟨L', Sp, I', V', e3, hsz', hrows, hrb, hkR⟩ := deleteCol_spec st
    (updateFT_deleteRow rowOut (updateFT_mark rowOut st)) rowOut hl ha hP hPr
    (by rw [e2]; rfl) (by rw [e2]; rfl) (by rw [e2]; rfl)
    (by rw [e2]; exact hPcol.1)
    (by rw [e2]; exact fun a h0 h1 => (hPcol.2 a h0 h1).1)
  rw [e3, e2] at hs3
  subst hs3
  exact ⟨⟨rfl, rfl, rfl⟩, ⟨hsz.1, hsz.2.1, hsz.2.2, hsz'.1, hsz'.2.1, hsz'.2.2.1, hsz'.2.2.2⟩,
    hcols, hrows, hcb, hrb, hPcol.1, hkR⟩


theorem updateFT_tail_ur (ep : HVector) (iRow pLogic : Int) (pivot alpha : ℚ) (s : HFactor) :
    (updateFT_total pLogic (updateFT_storeEta ep iRow pivot
      (updateFT_register iRow pivot alpha s))).URindex = s.URindex ∧
    (updateFT_total pLogic (updateFT_storeEta ep iRow pivot
      (updateFT_register iRow pivot alpha s))).URvalue = s.URvalue ∧
    (updateFT_total pLogic (updateFT_storeEta ep iRow pivot
      (updateFT_register iRow pivot alpha s))).URstart =
        s.URstart ++ [getI s.URstart (getI s.UpivotLookup iRow)] ∧
    (updateFT_total pLogic (updateFT_storeEta ep iRow pivot
      (updateFT_register iRow pivot alpha s))).URlastp =
        s.URlastp ++ [getI (s.URstart ++ [getI s.URstart (getI s.UpivotLookup iRow)])
          (getI s.UpivotLookup iRow)] := ⟨rfl, rfl, rfl, rfl⟩

theorem getI_last_snoc {α : Type} [Zero α] (l : List α) (x : α) :
    getI (l ++ [x]) (sizeI (l ++ [x]) - 1) = x := by
  have : sizeI (l ++ [x]) - 1 = sizeI l := by simp [sizeI]
  rw [this, getI_snoc]

/-- The rows after the two deletion loops are laid out apart. -/
theorem deletions_fit (st s3 : HFactor) (rowOut : Int) (hl : ULayout st) (ha : UAgree st)
    (hP : LiveAt st (getI st.UpivotLookup rowOut))
    (hPr : getI st.UpivotIndex (getI st.UpivotLookup rowOut) = rowOut)
    (hs3 : s3 = updateFT_deleteCol rowOut
      (updateFT_deleteRow rowOut (updateFT_mark rowOut st))) :
    RowsFit (LiveAt st) s3 := by
  obtain ⟨⟨d1, d2, d3⟩, ⟨y1, y2, y3, y4, y5, y6, y7⟩, -, -, -, hrb, -⟩ :=
    deletions_spec st rowOut hl ha hP hPr s3 hs3
  obtain ⟨hlk, hrg, hdj, hcn, hrn⟩ := ULayout_facts st hl
  obtain ⟨⟨z1, z2, z3, z4, z5, z6, z7⟩, -, -⟩ := hl
  refine ⟨by rw [y6, y5, z7], ?_, ?_⟩
  · intro l hlive
    obtain ⟨r1, r2, r3⟩ := hrb l hlive
    obtain ⟨q1, q2, q3, q4⟩ := (hrg l hlive).2.1
    rw [d3, y4, y7, y5, z3, z4, z5]
    exact ⟨hlive.1, hlive.2.1, hlive.2.1, hlive.2.1, q1, r1, by omega, by omega⟩
  · intro l l' hlive hlive' hne
    obtain ⟨r1, r2, r3⟩ := hrb l hlive
    obtain ⟨r1', r2', r3'⟩ := hrb l' hlive'
    rw [d3, r2, r2']
    exact (hdj l l' hlive hlive' hne).2

/-- The store on entry to lines 367-375: the rows hold what they held, the
leaving row's label apart, and the entries of the new column. -/
theorem storeRows_spec (st : HFactor) (aq : HVector) (rowOut : Int) (hl : ULayout st)
    (ha : UAgree st) (hf : ColFits st aq rowOut) :
    ∀ s5, s5 = updateFT_storeRows rowOut (updateFT_upToStoreCol aq rowOut st) →
    (sizeI s5.URstart = sizeI st.UpivotIndex ∧ sizeI s5.URlastp = sizeI st.UpivotIndex ∧
      s5.UpivotLookup = st.UpivotLookup) ∧
    ∀ l, LiveAt st l → l ≠ getI st.UpivotLookup rowOut → ∀ x v, InRow s5 l x v ↔
      ((InRow st l x v ∧ x ≠ rowOut) ∨ (x = rowOut ∧
        ∃ u : Nat, u < (packEntries aq rowOut aq.packCount.toNat).length ∧
          getI st.UpivotLookup
            (getI ((packEntries aq rowOut aq.packCount.toNat).map Prod.fst) (u : Int)) = l ∧
          v = getI ((packEntries aq rowOut aq.packCount.toNat).map Prod.snd) (u : Int))) := by
  intro s5 hs5
  obtain ⟨⟨hr0, hr1, hP0, hP1, hPr⟩, hpn⟩ := hf
  have hP : LiveAt st (getI st.UpivotLookup rowOut) := ⟨hP0, hP1, by rw [hPr]; omega⟩
  obtain ⟨⟨d1, d2, d3⟩, ⟨y1, y2, y3, y4, y5, y6, y7⟩, -, hrows, -, -⟩ :=
    deletions_spec st rowOut hl ha hP hPr _ rfl
  have hfit3 := deletions_fit st _ rowOut hl ha hP hPr rfl
  obtain ⟨hlk, -⟩ := ULayout_facts st hl
  obtain ⟨c1, c2, c3, c4⟩ := updateFT_storeCol_uc aq rowOut
    (updateFT_deleteCol rowOut (updateFT_deleteRow rowOut (updateFT_mark rowOut st)))
  obtain ⟨-, -, f3, f4, -⟩ := updateFT_storeCol_frame aq rowOut
    (updateFT_deleteCol rowOut (updateFT_deleteRow rowOut (updateFT_mark rowOut st)))
  have hfit4 : RowsFit (LiveAt st) (updateFT_upToStoreCol aq rowOut st) :=
    RowsFit_congr _ _ _ f4 hfit3
  have hlk4 : (updateFT_upToStoreCol aq rowOut st).UpivotLookup = st.UpivotLookup := by
    have := f3
    simp only [pivPart, Prod.mk.injEq] at this
    exact this.1.trans d1
  have hlo : getI (updateFT_upToStoreCol aq rowOut st).Ustart
      (sizeI (updateFT_upToStoreCol aq rowOut st).Ustart - 1) =
      sizeI (updateFT_deleteCol rowOut
        (updateFT_deleteRow rowOut (updateFT_mark rowOut st))).Uindex := by
    unfold updateFT_upToStoreCol
    rw [c1, getI_last_snoc]
  have hhi : getI (updateFT_upToStoreCol aq rowOut st).Ulastp
      (sizeI (updateFT_upToStoreCol aq rowOut st).Ulastp - 1) =
      sizeI (updateFT_deleteCol rowOut
        (updateFT_deleteRow rowOut (updateFT_mark rowOut st))).Uindex +
        ((packEntries aq rowOut aq.packCount.toNat).length : Int) := by
    unfold updateFT_upToStoreCol
    rw [c4, getI_last_snoc, sizeI_append]
    simp [sizeI]
  have hix : ∀ u : Nat, getI (updateFT_upToStoreCol aq rowOut st).Uindex
      (sizeI (updateFT_deleteCol rowOut
        (updateFT_deleteRow rowOut (updateFT_mark rowOut st))).Uindex + (u : Int)) =
      getI ((packEntries aq rowOut aq.packCount.toNat).map Prod.fst) (u : Int) := by
    intro u
    unfold updateFT_upToStoreCol
    rw [c2, getI_append_right _ _ (by omega)]
    congr 1; omega
  have hvx : ∀ u : Nat, getI (updateFT_upToStoreCol aq rowOut st).Uvalue
      (sizeI (updateFT_deleteCol rowOut
        (updateFT_deleteRow rowOut (updateFT_mark rowOut st))).Uindex + (u : Int)) =
      getI ((packEntries aq rowOut aq.packCount.toNat).map Prod.snd) (u : Int) := by
    intro u
    unfold updateFT_upToStoreCol
    rw [c3, getI_append_right _ _ (by rw [y3, y2, hl.1.2.2.2.2.2.1]; omega)]
    congr 1
    rw [y3, y2, hl.1.2.2.2.2.2.1]; omega
  have hT : ∀ u : Nat, u < (packEntries aq rowOut aq.packCount.toNat).length →
      LiveAt st (getI (updateFT_upToStoreCol aq rowOut st).UpivotLookup
        (getI (updateFT_upToStoreCol aq rowOut st).Uindex
          (sizeI (updateFT_deleteCol rowOut
            (updateFT_deleteRow rowOut (updateFT_mark rowOut st))).Uindex + (u : Int)))) := by
    intro u hu
    rw [hlk4, hix]
    have hmem := getI_mem ((packEntries aq rowOut aq.packCount.toNat).map Prod.fst) u
      (by rw [List.length_map]; exact hu)
    rw [List.mem_map] at hmem
    obtain ⟨e, he, hex⟩ := hmem
    obtain ⟨hne, i, hi, hei⟩ := packEntries_ne aq rowOut _ e he
    rw [← hex, hei]
    rcases hpn i hi with h | ⟨l, hl0, hl1, hp⟩
    · exact absurd (hei.trans h) hne
    · have hlive : LiveAt st (l : Int) := (LiveAt_iff st _).mpr ⟨l, hl0, hl1, rfl⟩
      rw [← hp, (hlk _ hlive).2.2]
      exact hlive
  have hloop := storeRows_loop (LiveAt st) (updateFT_upToStoreCol aq rowOut st) rowOut
    (sizeI (updateFT_deleteCol rowOut
      (updateFT_deleteRow rowOut (updateFT_mark rowOut st))).Uindex)
    (packEntries aq rowOut aq.packCount.toNat).length hfit4 hT _ (le_refl _) s5
    (by
      rw [hs5]
      unfold updateFT_storeRows forRange
      dsimp only
      rw [hlo, hhi]
      have e : (sizeI (updateFT_deleteCol rowOut
          (updateFT_deleteRow rowOut (updateFT_mark rowOut st))).Uindex +
          ((packEntries aq rowOut aq.packCount.toNat).length : Int) -
          sizeI (updateFT_deleteCol rowOut
            (updateFT_deleteRow rowOut (updateFT_mark rowOut st))).Uindex).toNat =
          (packEntries aq rowOut aq.packCount.toNat).length := by omega
      rw [e])
  obtain ⟨-, g2, -, g4⟩ := hloop
  obtain ⟨w1, w2⟩ := storeRows_sizes rowOut (updateFT_upToStoreCol aq rowOut st)
  have hu4 : urPart (updateFT_upToStoreCol aq rowOut st) =
      urPart (updateFT_deleteCol rowOut
        (updateFT_deleteRow rowOut (updateFT_mark rowOut st))) := f4
  have hu4' := hu4
  simp only [urPart, Prod.mk.injEq] at hu4'
  refine ⟨⟨?_, ?_, ?_⟩, ?_⟩
  · rw [hs5, w1, hu4'.1, d3, hl.1.2.2.1]
  · rw [hs5, w2, hu4'.2.1, y4, hl.1.2.2.2.1]
  · have := g2
    simp only [pivPart, Prod.mk.injEq] at this
    exact this.1.trans hlk4
  · intro l hlive hne x v
    rw [g4 l hlive x v, InRow_congr _ _ hu4 l x v, hrows l hlive hne x v, hlk4]
    simp only [hix, hvx]


/-- The columns after the update: the old ones lose the leaving row, the new
one holds the packed entries of `aq`. -/
theorem updateFT_cols (st : HFactor) (aq ep : HVector) (rowOut : Int) (hl : ULayout st)
    (ha : UAgree st) (hf : ColFits st aq rowOut) :
    (∀ l, LiveAt st l → l ≠ getI st.UpivotLookup rowOut → ∀ x v,
      InCol (updateFT aq ep rowOut st) l x v ↔ (InCol st l x v ∧ x ≠ rowOut)) ∧
    (∀ x v, InCol (updateFT aq ep rowOut st) (sizeI st.UpivotIndex) x v ↔
      ∃ u : Nat, u < (packEntries aq rowOut aq.packCount.toNat).length ∧
        getI ((packEntries aq rowOut aq.packCount.toNat).map Prod.fst) (u : Int) = x ∧
        getI ((packEntries aq rowOut aq.packCount.toNat).map Prod.snd) (u : Int) = v) := by
  obtain ⟨⟨hr0, hr1, hP0, hP1, hPr⟩, hpn⟩ := hf
  have hP : LiveAt st (getI st.UpivotLookup rowOut) := ⟨hP0, hP1, by rw [hPr]; omega⟩
  obtain ⟨⟨d1, d2, d3⟩, ⟨y1, y2, y3, y4, y5, y6, y7⟩, hcols, -, hcb, -⟩ :=
    deletions_spec st rowOut hl ha hP hPr _ rfl
  obtain ⟨-, hrg, -⟩ := ULayout_facts st hl
  obtain ⟨⟨z1, z2, z3, z4, z5, z6, z7⟩, -, -⟩ := hl
  obtain ⟨c1, c2, c3, c4⟩ := updateFT_storeCol_uc aq rowOut
    (updateFT_deleteCol rowOut (updateFT_deleteRow rowOut (updateFT_mark rowOut st)))
  have huc : ucPart (updateFT aq ep rowOut st) = ucPart (updateFT_upToStoreCol aq rowOut st) := by
    rw [updateFT_eq, updateFT_tail_uc]
    exact (updateFT_storeRows_frame rowOut _).2.2.2.1
  constructor
  · intro l hlive hne x v
    rw [InCol_congr _ _ huc l x v, ← hcols l hlive hne x v]
    unfold InCol updateFT_upToStoreCol
    rw [c1, c2, c3, c4, getI_append_left _ _ (by rw [d2, z1]; exact hlive.2.1),
      getI_append_left _ _ (by rw [y1, z2]; exact hlive.2.1)]
    apply InSeg_congr
    intro a ha0 ha1
    have h1 := (hcb l hlive).2
    have h2 := (hrg l hlive).1.2.2
    exact ⟨getI_append_left _ _ (by omega), getI_append_left _ _ (by omega)⟩
  · intro x v
    rw [InCol_congr _ _ huc _ x v]
    unfold InCol updateFT_upToStoreCol
    rw [c1, c2, c3, c4]
    have e1 : sizeI st.UpivotIndex = sizeI (updateFT_deleteCol rowOut
        (updateFT_deleteRow rowOut (updateFT_mark rowOut st))).Ustart := by rw [d2, z1]
    have e2 : sizeI st.UpivotIndex = sizeI (updateFT_deleteCol rowOut
        (updateFT_deleteRow rowOut (updateFT_mark rowOut st))).Ulastp := by rw [y1, z2]
    nth_rewrite 1 [e1]
    rw [getI_snoc, e2, getI_snoc, sizeI_append]
    unfold InSeg
    have e3 : (sizeI (updateFT_deleteCol rowOut
        (updateFT_deleteRow rowOut (updateFT_mark rowOut st))).Uindex +
        sizeI ((packEntries aq rowOut aq.packCount.toNat).map Prod.fst) -
        sizeI (updateFT_deleteCol rowOut
          (updateFT_deleteRow rowOut (updateFT_mark rowOut st))).Uindex).toNat =
        (packEntries aq rowOut aq.packCount.toNat).length := by
      simp [sizeI]
    rw [e3]
    have e4 : ∀ t : Nat, sizeI (updateFT_deleteCol rowOut
        (updateFT_deleteRow rowOut (updateFT_mark rowOut st))).Uindex + (t : Int) -
        sizeI (updateFT_deleteCol rowOut
          (updateFT_deleteRow rowOut (updateFT_mark rowOut st))).Uindex = (t : Int) := by
      intro t; omega
    have e5 : ∀ t : Nat, sizeI (updateFT_deleteCol rowOut
        (updateFT_deleteRow rowOut (updateFT_mark rowOut st))).Uindex + (t : Int) -
        sizeI (updateFT_deleteCol rowOut
          (updateFT_deleteRow rowOut (updateFT_mark rowOut st))).Uvalue = (t : Int) := by
      intro t; rw [y3, y2, z6]; omega
    constructor
    · rintro ⟨t, ht, hx, hv⟩
      rw [getI_append_right _ _ (by omega), e4] at hx
      rw [getI_append_right _ _ (by rw [y3, y2, z6]; omega), e5] at hv
      exact ⟨t, ht, hx, hv⟩
    · rintro ⟨t, ht, hx, hv⟩
      refine ⟨t, ht, ?_, ?_⟩
      · rw [getI_append_right _ _ (by omega), e4]; exact hx
      · rw [getI_append_right _ _ (by rw [y3, y2, z6]; omega), e5]; exact hv

/-- The rows after the update: the old ones lose the label of the leaving row
and gain the entries of the new column; the row of the new slot is empty. -/
theorem updateFT_rows (st : HFactor) (aq ep : HVector) (rowOut : Int) (hl : ULayout st)
    (ha : UAgree st) (hf : ColFits st aq rowOut) :
    (∀ l, LiveAt st l → l ≠ getI st.UpivotLookup rowOut → ∀ x v,
      InRow (updateFT aq ep rowOut st) l x v ↔
      ((InRow st l x v ∧ x ≠ rowOut) ∨ (x = rowOut ∧
        ∃ u : Nat, u < (packEntries aq rowOut aq.packCount.toNat).length ∧
          getI st.UpivotLookup
            (getI ((packEntries aq rowOut aq.packCount.toNat).map Prod.fst) (u : Int)) = l ∧
          v = getI ((packEntries aq rowOut aq.packCount.toNat).map Prod.snd) (u : Int)))) ∧
    (∀ x v, ¬ InRow (updateFT aq ep rowOut st) (sizeI st.UpivotIndex) x v) := by
  obtain ⟨⟨w1, w2, w3⟩, hrows⟩ := storeRows_spec st aq rowOut hl ha hf _ rfl
  obtain ⟨⟨hr0, hr1, hP0, hP1, hPr⟩, hpn⟩ := hf
  obtain ⟨t1, t2, t3, t4⟩ := updateFT_tail_ur ep rowOut (getI st.UpivotLookup rowOut)
    (getI st.UpivotValue (getI st.UpivotLookup rowOut)) (getI aq.array rowOut)
    (updateFT_storeRows rowOut (updateFT_upToStoreCol aq rowOut st))
  rw [← updateFT_eq] at t1 t2 t3 t4
  constructor
  · intro l hlive hne x v
    rw [← hrows l hlive hne x v]
    unfold InRow
    rw [t1, t2, t3, t4, getI_append_left _ _ (by rw [w1]; exact hlive.2.1),
      getI_append_left _ _ (by rw [w2]; exact hlive.2.1)]
  · rintro x v ⟨t, ht, -, -⟩
    have key : ∀ (A : List Int) (a n : Int), sizeI A = n → getI (A ++ [a]) n = a := by
      intro A a n h
      rw [← h, getI_snoc]
    rw [t3, t4, w3, key _ _ _ w1, key _ _ _ w2,
      getI_append_left _ _ (by rw [w1]; exact hP1)] at ht
    omega


/-- The live slots after the update: the old live slots but the one of the
leaving row, with their pivot rows, and the new slot, whose pivot row is the
leaving row. -/
theorem updateFT_live (st : HFactor) (aq ep : HVector) (rowOut : Int)
    (hP0 : 0 ≤ getI st.UpivotLookup rowOut)
    (hP1 : getI st.UpivotLookup rowOut < sizeI st.UpivotIndex) (i : Int)
    (hi : LiveAt (updateFT aq ep rowOut st) i) :
    (LiveAt st i ∧ i ≠ getI st.UpivotLookup rowOut ∧
      getI (updateFT aq ep rowOut st).UpivotIndex i = getI st.UpivotIndex i) ∨
    (i = sizeI st.UpivotIndex ∧ getI (updateFT aq ep rowOut st).UpivotIndex i = rowOut) := by
  obtain ⟨h0, h1, h2⟩ := hi
  have hp := (updateFT_piv aq ep rowOut st).1
  rw [hp] at h1 h2 ⊢
  rw [sizeI_append, sizeI_setI] at h1
  have hone : sizeI [rowOut] = 1 := rfl
  by_cases hn : i = sizeI st.UpivotIndex
  · right
    refine ⟨hn, ?_⟩
    rw [hn]
    have := getI_snoc (setI st.UpivotIndex (getI st.UpivotLookup rowOut) (-1)) rowOut
    rw [sizeI_setI] at this
    exact this
  · left
    have hlt : i < sizeI (setI st.UpivotIndex (getI st.UpivotLookup rowOut) (-1)) := by
      rw [sizeI_setI]; omega
    rw [getI_append_left _ _ hlt] at h2 ⊢
    have hne : i ≠ getI st.UpivotLookup rowOut := by
      rintro rfl
      rw [getI_setI_eq _ _ hP0 hP1] at h2
      exact h2 rfl
    rw [getI_setI_ne _ _ (Ne.symm hne)] at h2 ⊢
    exact ⟨⟨h0, by omega, h2⟩, hne, rfl⟩

/-- C2: UR/U agreement is preserved by the update. If the store is laid out as
the update expects, the arguments fit it, and before `updateFT` the column copy
and the row copy of U describe the same positions with the same values for every
pair of live slots, then they still do so after `updateFT(aq, ep, rowOut)`, for
every pair of live slots, the newly appended one included. -/
theorem C2_updateFT_preserves_agreement (aq ep : HVector) (rowOut : Int) (st : HFactor)
    (hl : ULayout st) (hf : ColFits st aq rowOut) (ha : UAgree st) :
    UAgree (updateFT aq ep rowOut st) := by
  rw [UAgree_iff]
  obtain ⟨hc1, hc2⟩ := updateFT_cols st aq ep rowOut hl ha hf
  obtain ⟨hr1, hr2⟩ := updateFT_rows st aq ep rowOut hl ha hf
  have hag := (UAgree_iff st).mp ha
  obtain ⟨hlk, -⟩ := ULayout_facts st hl
  obtain ⟨⟨hr0, hr1', hP0, hP1, hPr⟩, hpn⟩ := hf
  have hP : LiveAt st (getI st.UpivotLookup rowOut) := ⟨hP0, hP1, by rw [hPr]; omega⟩
  -- the pivot row of an old live slot is not the leaving row
  have hpne : ∀ l, LiveAt st l → l ≠ getI st.UpivotLookup rowOut →
      getI st.UpivotIndex l ≠ rowOut := by
    intro l hlive hne h
    exact hne (LiveAt_ne_of_pivot st hl l _ hlive hP (h.trans hPr.symm))
  -- the entries of the new column
  have hent : ∀ u : Nat, u < (packEntries aq rowOut aq.packCount.toNat).length →
      getI ((packEntries aq rowOut aq.packCount.toNat).map Prod.fst) (u : Int) ≠ rowOut ∧
      ∃ l, LiveAt st l ∧ getI st.UpivotIndex l =
        getI ((packEntries aq rowOut aq.packCount.toNat).map Prod.fst) (u : Int) := by
    intro u hu
    have hmem := getI_mem ((packEntries aq rowOut aq.packCount.toNat).map Prod.fst) u
      (by rw [List.length_map]; exact hu)
    rw [List.mem_map] at hmem
    obtain ⟨e, he, hex⟩ := hmem
    obtain ⟨hne, t, ht, het⟩ := packEntries_ne aq rowOut _ e he
    rw [← hex]
    refine ⟨hne, ?_⟩
    rcases hpn t ht with h | ⟨l, hl0, hl1, hp⟩
    · exact absurd (het.trans h) hne
    · exact ⟨l, (LiveAt_iff st _).mpr ⟨l, hl0, hl1, rfl⟩, hp.trans het.symm⟩
  intro i l hi hl' v
  rcases updateFT_live st aq ep rowOut hP0 hP1 i hi with ⟨hi1, hi2, hi3⟩ | ⟨hi1, hi3⟩ <;>
    rcases updateFT_live st aq ep rowOut hP0 hP1 l hl' with ⟨hl1, hl2, hl3⟩ | ⟨hl1, hl3⟩
  · -- two old slots
    rw [hi3, hl3, hr1 i hi1 hi2, hc1 l hl1 hl2, ← hag i l hi1 hl1 v]
    constructor
    · rintro (⟨h, -⟩ | ⟨h, -⟩)
      · exact ⟨h, hpne i hi1 hi2⟩
      · exact absurd h (hpne l hl1 hl2)
    · rintro ⟨h, -⟩
      exact Or.inl ⟨h, hpne l hl1 hl2⟩
  · -- an old row and the new column
    subst hl1
    rw [hi3, hl3, hr1 i hi1 hi2, hc2]
    constructor
    · rintro (⟨-, h⟩ | ⟨-, u, hu, h1, h2⟩)
      · exact absurd rfl h
      · refine ⟨u, hu, ?_, h2.symm⟩
        obtain ⟨-, l, hlive, hp⟩ := hent u hu
        rw [← hp, (hlk l hlive).2.2] at h1
        rw [← hp, h1]
    · rintro ⟨u, hu, h1, h2⟩
      exact Or.inr ⟨rfl, u, hu, by rw [h1, (hlk i hi1).2.2], h2.symm⟩
  · -- the new row and an old column
    subst hi1
    rw [hi3, hl3, hc1 l hl1 hl2]
    constructor
    · intro h
      exact absurd h (hr2 _ _)
    · rintro ⟨-, h⟩
      exact absurd rfl h
  · -- the new slot twice
    subst hi1
    subst hl1
    rw [hi3, hc2]
    constructor
    · intro h
      exact absurd h (hr2 _ _)
    · rintro ⟨u, hu, h1, -⟩
      exact absurd h1 (hent u hu).1

theorem C2_witness :
    ULayout exStore ∧ ColFits exStore exAq 0 ∧ UAgree exStore ∧
    UAgree (updateFT exAq exEp0 0 exStore) :=
  ⟨by decide!, by decide!, by decide!,
   C2_updateFT_preserves_agreement exAq exEp0 0 exStore (by decide!) (by decide!) (by decide!)⟩


theorem insertRowStep_keep (iRow k P : Int) (s : HFactor)
    (h : getI s.UpivotLookup (getI s.Uindex k) ≠ P) :
    getI (insertRowStep iRow k s).URstart P = getI s.URstart P ∧
    getI (insertRowStep iRow k s).URlastp P = getI s.URlastp P := by
  unfold insertRowStep relocateRow
  dsimp only
  split
  · exact ⟨getI_setI_ne _ _ h, by rw [getI_setI_ne _ _ h, getI_setI_ne _ _ h]⟩
  · exact ⟨rfl, getI_setI_ne _ _ h⟩

/-- The loop of lines 331-365 leaves the row pointers of a slot it does not
visit. -/
theorem storeRows_keep_loop (s : HFactor) (iRow lo P : Int) (m : Nat)
    (hT : ∀ u : Nat, u < m → getI s.UpivotLookup (getI s.Uindex (lo + (u : Int))) ≠ P)
    (k : Nat) (hk : k ≤ m) :
    ∀ s', s' = loopUp (fun j t => insertRowStep iRow (lo + (j : Int)) t) k s →
    ucPart s' = ucPart s ∧ pivPart s' = pivPart s ∧
    getI s'.URstart P = getI s.URstart P ∧ getI s'.URlastp P = getI s.URlastp P := by
  induction k with
  | zero =>
    intro s' hs'
    subst hs'
    exact ⟨rfl, rfl, rfl, rfl⟩
  | succ k ih =>
    intro s' hs'
    obtain ⟨f1, f2, f3, f4⟩ := ih (by omega) _ rfl
    have hs1 : s' = insertRowStep iRow (lo + (k : Int))
        (loopUp (fun j t => insertRowStep iRow (lo + (j : Int)) t) k s) := hs'
    clear hs'
    generalize loopUp (fun j t => insertRowStep iRow (lo + (j : Int)) t) k s = q
      at f1 f2 f3 f4 hs1
    subst hs1
    have g1 : q.Uindex = s.Uindex := by
      have := f1; simp only [ucPart, Prod.mk.injEq] at this; exact this.2.2.1
    have g3 : q.UpivotLookup = s.UpivotLookup := by
      have := f2; simp only [pivPart, Prod.mk.injEq] at this; exact this.1
    obtain ⟨a1, a2⟩ := insertRowStep_keep iRow (lo + (k : Int)) P q
      (by rw [g1, g3]; exact hT k (by omega))
    obtain ⟨-, -, p3, p4, -, -⟩ := insertRowStep_frame iRow (lo + (k : Int)) q
    exact ⟨p4.trans f1, p3.trans f2, a1.trans f3, a2.trans f4⟩

/-- The loop of lines 331-365 runs over the entries of the new column. -/
theorem storeRows_as_loop (st : HFactor) (aq : HVector) (rowOut : Int) :
    updateFT_storeRows rowOut (updateFT_upToStoreCol aq rowOut st) =
      loopUp (fun j t => insertRowStep rowOut
        (sizeI (updateFT_deleteCol rowOut
          (updateFT_deleteRow rowOut (updateFT_mark rowOut st))).Uindex + (j : Int)) t)
        (packEntries aq rowOut aq.packCount.toNat).length
        (updateFT_upToStoreCol aq rowOut st) ∧
    ∀ u : Nat, getI (updateFT_upToStoreCol aq rowOut st).Uindex
      (sizeI (updateFT_deleteCol rowOut
        (updateFT_deleteRow rowOut (updateFT_mark rowOut st))).Uindex + (u : Int)) =
      getI ((packEntries aq rowOut aq.packCount.toNat).map Prod.fst) (u : Int) := by
  obtain ⟨c1, c2, c3, c4⟩ := updateFT_storeCol_uc aq rowOut
    (updateFT_deleteCol rowOut (updateFT_deleteRow rowOut (updateFT_mark rowOut st)))
  have hlo : getI (updateFT_upToStoreCol aq rowOut st).Ustart
      (sizeI (updateFT_upToStoreCol aq rowOut st).Ustart - 1) =
      sizeI (updateFT_deleteCol rowOut
        (updateFT_deleteRow rowOut (updateFT_mark rowOut st))).Uindex := by
    unfold updateFT_upToStoreCol
    rw [c1, getI_last_snoc]
  have hhi : getI (updateFT_upToStoreCol aq rowOut st).Ulastp
      (sizeI (updateFT_upToStoreCol aq rowOut st).Ulastp - 1) =
      sizeI (updateFT_deleteCol rowOut
        (updateFT_deleteRow rowOut (updateFT_mark rowOut st))).Uindex +
        ((packEntries aq rowOut aq.packCount.toNat).length : Int) := by
    unfold updateFT_upToStoreCol
    rw [c4, getI_last_snoc, sizeI_append]
    simp [sizeI]
  constructor
  · unfold updateFT_storeRows forRange
    dsimp only
    rw [hlo, hhi]
    have e : (sizeI (updateFT_deleteCol rowOut
        (updateFT_deleteRow rowOut (updateFT_mark rowOut st))).Uindex +
        ((packEntries aq rowOut aq.packCount.toNat).length : Int) -
        sizeI (updateFT_deleteCol rowOut
          (updateFT_deleteRow rowOut (updateFT_mark rowOut st))).Uindex).toNat =
        (packEntries aq rowOut aq.packCount.toNat).length := by omega
    rw [e]
  · intro u
    unfold updateFT_upToStoreCol
    rw [c2, getI_append_right _ _ (by omega)]
    congr 1; omega

/-- C6 (as the code has it): `updateFT` tombstones the slot `pLogic` of the
leaving row and leaves its four range pointers as they were on entry: the column
range `[Ustart, Ulastp)` and the row range `[URstart, URlastp)` of the deleted
slot are not emptied, so they are empty after the update only if they were empty
before it. -/
theorem C6_tombstone_keeps_ranges (aq ep : HVector) (rowOut : Int) (st : HFactor)
    (hl : ULayout st) (hf : ColFits st aq rowOut) (ha : UAgree st) :
    getI (updateFT aq ep rowOut st).UpivotIndex (getI st.UpivotLookup rowOut) = -1 ∧
    getI (updateFT aq ep rowOut st).Ustart (getI st.UpivotLookup rowOut) =
      getI st.Ustart (getI st.UpivotLookup rowOut) ∧
    getI (updateFT aq ep rowOut st).Ulastp (getI st.UpivotLookup rowOut) =
      getI st.Ulastp (getI st.UpivotLookup rowOut) ∧
    getI (updateFT aq ep rowOut st).URstart (getI st.UpivotLookup rowOut) =
      getI st.URstart (getI st.UpivotLookup rowOut) ∧
    getI (updateFT aq ep rowOut st).URlastp (getI st.UpivotLookup rowOut) =
      getI st.URlastp (getI st.UpivotLookup rowOut) := by
  obtain ⟨⟨w1, w2, w3⟩, -⟩ := storeRows_spec st aq rowOut hl ha hf _ rfl
  obtain ⟨⟨hr0, hr1, hP0, hP1, hPr⟩, hpn⟩ := hf
  have hP : LiveAt st (getI st.UpivotLookup rowOut) := ⟨hP0, hP1, by rw [hPr]; omega⟩
  obtain ⟨⟨d1, d2, d3⟩, ⟨y1, y2, y3, y4, y5, y6, y7⟩, -, -, -, -, k1, k2⟩ :=
    deletions_spec st rowOut hl ha hP hPr _ rfl
  obtain ⟨hlk, -⟩ := ULayout_facts st hl
  obtain ⟨c1, c2, c3, c4⟩ := updateFT_storeCol_uc aq rowOut
    (updateFT_deleteCol rowOut (updateFT_deleteRow rowOut (updateFT_mark rowOut st)))
  obtain ⟨-, -, f3, f4, -⟩ := updateFT_storeCol_frame aq rowOut
    (updateFT_deleteCol rowOut (updateFT_deleteRow rowOut (updateFT_mark rowOut st)))
  have hlk4 : (updateFT_upToStoreCol aq rowOut st).UpivotLookup = st.UpivotLookup := by
    have := f3
    simp only [pivPart, Prod.mk.injEq] at this
    exact this.1.trans d1
  have hu4 : urPart (updateFT_upToStoreCol aq rowOut st) =
      urPart (updateFT_deleteCol rowOut
        (updateFT_deleteRow rowOut (updateFT_mark rowOut st))) := f4
  simp only [urPart, Prod.mk.injEq] at hu4
  obtain ⟨eloop, hix⟩ := storeRows_as_loop st aq rowOut
  -- no entry of the new column belongs to the deleted slot
  have hT : ∀ u : Nat, u < (packEntries aq rowOut aq.packCount.toNat).length →
      getI (updateFT_upToStoreCol aq rowOut st).UpivotLookup
        (getI (updateFT_upToStoreCol aq rowOut st).Uindex
          (sizeI (updateFT_deleteCol rowOut
            (updateFT_deleteRow rowOut (updateFT_mark rowOut st))).Uindex + (u : Int))) ≠
      getI st.UpivotLookup rowOut := by
    intro u hu
    rw [hlk4, hix]
    have hmem := getI_mem ((packEntries aq rowOut aq.packCount.toNat).map Prod.fst) u
      (by rw [List.length_map]; exact hu)
    rw [List.mem_map] at hmem
    obtain ⟨e, he, hex⟩ := hmem
    obtain ⟨hne, i, hi, hei⟩ := packEntries_ne aq rowOut _ e he
    rw [← hex, hei]
    rcases hpn i hi with h | ⟨l, hl0, hl1, hp⟩
    · exact absurd (hei.trans h) hne
    · have hlive : LiveAt st (l : Int) := (LiveAt_iff st _).mpr ⟨l, hl0, hl1, rfl⟩
      rw [← hp, (hlk _ hlive).2.2]
      intro hq
      apply hne
      rw [hei, ← hp, hq, hPr]
  obtain ⟨-, -, q1, q2⟩ := storeRows_keep_loop (updateFT_upToStoreCol aq rowOut st) rowOut _
    (getI st.UpivotLookup rowOut) _ hT _ (le_refl _) _ eloop
  obtain ⟨t1, t2, t3, t4⟩ := updateFT_tail_ur ep rowOut (getI st.UpivotLookup rowOut)
    (getI st.UpivotValue (getI st.UpivotLookup rowOut)) (getI aq.array rowOut)
    (updateFT_storeRows rowOut (updateFT_upToStoreCol aq rowOut st))
  rw [← updateFT_eq] at t1 t2 t3 t4
  have huc : ucPart (updateFT aq ep rowOut st) = ucPart (updateFT_upToStoreCol aq rowOut st) := by
    rw [updateFT_eq, updateFT_tail_uc]
    exact (updateFT_storeRows_frame rowOut _).2.2.2.1
  simp only [ucPart, Prod.mk.injEq] at huc
  obtain ⟨⟨z1, z2, z3, z4, z5, z6, z7⟩, -, -⟩ := hl
  refine ⟨?_, ?_, ?_, ?_, ?_⟩
  · rw [(updateFT_piv aq ep rowOut st).1,
      getI_append_left _ _ (by rw [sizeI_setI]; exact hP1), getI_setI_eq _ _ hP0 hP1]
  · rw [huc.1]
    unfold updateFT_upToStoreCol
    rw [c1, getI_append_left _ _ (by rw [d2, z1]; exact hP1), d2]
  · rw [huc.2.1]
    unfold updateFT_upToStoreCol
    rw [c4, getI_append_left _ _ (by rw [y1, z2]; exact hP1), k1]
  · rw [t3, getI_append_left _ _ (by rw [w1]; exact hP1), q1, hu4.1, d3]
  · rw [t4, getI_append_left _ _ (by rw [w2]; exact hP1), q2, hu4.2.1, k2]

theorem C6_witness :
    ULayout exStore ∧ ColFits exStore exAq 0 ∧ UAgree exStore ∧
    getI (updateFT exAq exEp0 0 exStore).UpivotIndex 0 = -1 ∧
    getI (updateFT exAq exEp0 0 exStore).URstart 0 = 0 ∧
    getI (updateFT exAq exEp0 0 exStore).URlastp 0 = 1 := by
  have h := C6_tombstone_keeps_ranges exAq exEp0 0 exStore (by decide!) (by decide!)
    (by decide!)
  exact ⟨by decide!, by decide!, by decide!, h.1, h.2.2.2.1, h.2.2.2.2⟩

/-- C6 fails as stated: on the two-row store, which has no deleted slot and is
well formed, the update that replaces the pivot of row 0 tombstones slot 0, whose
row range `[URstart, URlastp) = [0, 1)` is not empty afterwards. -/
theorem C6_counterexample :
    StoreWF exStore ∧ ULayout exStore ∧ UAgree exStore ∧
    exAq.packIndex = (ftran exConsts exStore exCol).packIndex ∧
    exAq.packValue = (ftran exConsts exStore exCol).packValue ∧
    getI (updateFT (ftran exConsts exStore exCol)
      (btran exConsts exStore (exUnit 0)) 0 exStore).UpivotIndex 0 = -1 ∧
    getI (updateFT (ftran exConsts exStore exCol)
      (btran exConsts exStore (exUnit 0)) 0 exStore).URstart 0 ≠
    getI (updateFT (ftran exConsts exStore exCol)
      (btran exConsts exStore (exUnit 0)) 0 exStore).URlastp 0 := by decide!


/-- C11: appended U column. `updateFT` leaves the lengths of the old parts of
`Uindex`, `Uvalue` and `Ulastp` and appends to `Uindex`/`Uvalue` exactly the
packed entries of `aq` whose `packIndex` differs from `rowOut`, in pack order and
with their pack values; the range pushed for the new slot, `Ustart` = the old
length of `Uindex` and `Ulastp` = the new length of `Uindex`, delimits exactly
those entries. -/
theorem C11_updateFT_appends_column (aq ep : HVector) (rowOut : Int) (st : HFactor) :
    ∃ (U3 : List Int) (V3 : List ℚ) (L3 : List Int),
      (sizeI U3 = sizeI st.Uindex ∧ sizeI V3 = sizeI st.Uvalue ∧
        sizeI L3 = sizeI st.Ulastp) ∧
      (updateFT aq ep rowOut st).Uindex =
        U3 ++ (packEntries aq rowOut aq.packCount.toNat).map Prod.fst ∧
      (updateFT aq ep rowOut st).Uvalue =
        V3 ++ (packEntries aq rowOut aq.packCount.toNat).map Prod.snd ∧
      (updateFT aq ep rowOut st).Ustart = st.Ustart ++ [sizeI st.Uindex] ∧
      (updateFT aq ep rowOut st).Ulastp =
        L3 ++ [sizeI st.Uindex + ((packEntries aq rowOut aq.packCount.toNat).length : Int)] ∧
      sizeI (updateFT aq ep rowOut st).Uindex =
        sizeI st.Uindex + ((packEntries aq rowOut aq.packCount.toNat).length : Int) ∧
      ∀ t : Nat, t < (packEntries aq rowOut aq.packCount.toNat).length →
        getI (updateFT aq ep rowOut st).Uindex (sizeI st.Uindex + (t : Int)) =
          getI ((packEntries aq rowOut aq.packCount.toNat).map Prod.fst) (t : Int) := by
  obtain ⟨U3, V3, L3, h1, h2, h3, h4, h5, h6, h7⟩ := updateFT_uc aq ep rowOut st
  have hlen : sizeI (U3 ++ (packEntries aq rowOut aq.packCount.toNat).map Prod.fst) =
      sizeI st.Uindex + ((packEntries aq rowOut aq.packCount.toNat).length : Int) := by
    rw [sizeI_append, h1]
    simp [sizeI]
  refine ⟨U3, V3, L3, ⟨h1, h2, h3⟩, h5, h6, ?_, ?_, ?_, ?_⟩
  · rw [h4, h1]
  · rw [h7, hlen]
  · rw [h5, hlen]
  · intro t ht
    rw [h5, getI_append_right _ _ (by omega)]
    congr 1
    omega

/-- C12: appended R eta. `updateFT` appends to the PF buffer one eta: its pivot
row is `rowOut`, its entries are exactly the packed entries of `ep` with
`packIndex ≠ rowOut`, in pack order, each with value `-packValue * pivot` for
`pivot = UpivotValue[UpivotLookup[rowOut]]` read on entry, and `PFstart` gets the
new end; no index of the new eta is `rowOut`, so when the eta file is well shaped
and no eta held its own pivot row before the call, none does after it. -/
theorem C12_updateFT_appends_eta (aq ep : HVector) (rowOut : Int) (st : HFactor) :
    (updateFT aq ep rowOut st).PFpivotIndex = st.PFpivotIndex ++ [rowOut] ∧
    (updateFT aq ep rowOut st).PFindex =
      st.PFindex ++ (packEntries ep rowOut ep.packCount.toNat).map Prod.fst ∧
    (updateFT aq ep rowOut st).PFvalue =
      st.PFvalue ++ (packEntries ep rowOut ep.packCount.toNat).map
        (fun e => -e.2 * getI st.UpivotValue (getI st.UpivotLookup rowOut)) ∧
    (updateFT aq ep rowOut st).PFstart =
      st.PFstart ++ [sizeI (updateFT aq ep rowOut st).PFindex] ∧
    (∀ x ∈ (packEntries ep rowOut ep.packCount.toNat).map Prod.fst, x ≠ rowOut) ∧
    (PFshape st → EtaNoPivot st → EtaNoPivot (updateFT aq ep rowOut st)) := by
  obtain ⟨h1, h2, h3, h4⟩ := updateFT_pf aq ep rowOut st
  have hne : ∀ x ∈ (packEntries ep rowOut ep.packCount.toNat).map Prod.fst, x ≠ rowOut := by
    intro x hx
    rw [List.mem_map] at hx
    obtain ⟨e, he, rfl⟩ := hx
    exact (packEntries_ne ep rowOut _ e he).1
  refine ⟨h1, h2, h3, by rw [h4, h2], hne, ?_⟩
  intro hshape hold
  obtain ⟨hsorted, h0, hsz, hlast⟩ := hshape
  have hlenS : (st.PFstart.length : Int) = (st.PFpivotIndex.length : Int) + 1 := hsz
  intro i hi t ht
  rw [h1, List.length_append, List.length_singleton] at hi
  rw [h4] at ht
  rw [h1, h2, h4]
  by_cases hlt : i < st.PFpivotIndex.length
  · -- an old eta
    have e1 : getI (st.PFstart ++ [sizeI (st.PFindex ++
        (packEntries ep rowOut ep.packCount.toNat).map Prod.fst)]) (i : Int) =
        getI st.PFstart (i : Int) := getI_append_left _ _ (by unfold sizeI; omega)
    have e2 : getI (st.PFstart ++ [sizeI (st.PFindex ++
        (packEntries ep rowOut ep.packCount.toNat).map Prod.fst)]) ((i : Int) + 1) =
        getI st.PFstart ((i : Int) + 1) := getI_append_left _ _ (by unfold sizeI; omega)
    rw [e1, e2] at ht
    have hle : getI st.PFstart ((i : Int) + 1) ≤ sizeI st.PFindex := by
      rw [← hlast]
      have hm := getI_mem st.PFstart (i + 1) (by omega)
      have hs := sorted_le_last st.PFstart hsorted _ hm
      have hc : (((i + 1 : Nat)) : Int) = (i : Int) + 1 := by push_cast; rfl
      rw [hc] at hs
      exact hs
    have e4 : getI (st.PFpivotIndex ++ [rowOut]) (i : Int) = getI st.PFpivotIndex (i : Int) :=
      getI_append_left _ _ (by unfold sizeI; omega)
    have e5 : getI (st.PFindex ++ (packEntries ep rowOut ep.packCount.toNat).map Prod.fst)
        (getI st.PFstart (i : Int) + (t : Int)) =
        getI st.PFindex (getI st.PFstart (i : Int) + (t : Int)) :=
      getI_append_left _ _ (by omega)
    rw [e1, e4, e5]
    exact hold i hlt t ht
  · -- the new eta
    have hi' : i = st.PFpivotIndex.length := by omega
    subst hi'
    have e1 : getI (st.PFstart ++ [sizeI (st.PFindex ++
        (packEntries ep rowOut ep.packCount.toNat).map Prod.fst)])
        ((st.PFpivotIndex.length : Int)) = sizeI st.PFindex := by
      rw [getI_append_left _ _ (by unfold sizeI; omega), ← hlast]
      congr 1
      unfold sizeI; omega
    have e3 : getI (st.PFpivotIndex ++ [rowOut]) (st.PFpivotIndex.length : Int) = rowOut :=
      getI_snoc _ _
    rw [e1, e3, getI_append_right _ _ (by omega)]
    apply hne
    have e2 : getI (st.PFstart ++ [sizeI (st.PFindex ++
        (packEntries ep rowOut ep.packCount.toNat).map Prod.fst)])
        ((st.PFpivotIndex.length : Int) + 1) = sizeI (st.PFindex ++
        (packEntries ep rowOut ep.packCount.toNat).map Prod.fst) := by
      have : ((st.PFpivotIndex.length : Int) + 1) = sizeI st.PFstart := by
        unfold sizeI; omega
      rw [this, getI_snoc]
    rw [e1, e2, sizeI_append] at ht
    have hidx : sizeI st.PFindex + (t : Int) - sizeI st.PFindex = (t : Int) := by omega
    rw [hidx]
    apply getI_mem
    unfold sizeI at ht
    omega

theorem C12_witness :
    PFshape exStore ∧ EtaNoPivot exStore ∧
    (updateFT exAq exEp0 0 exStore).PFpivotIndex = [0] ∧
    (updateFT exAq exEp0 0 exStore).PFindex = [1] ∧
    (updateFT exAq exEp0 0 exStore).PFvalue = [5 / 7] ∧
    EtaNoPivot (updateFT exAq exEp0 0 exStore) :=
  ⟨by decide, by decide, by decide!, by decide!, by decide!,
   (C12_updateFT_appends_eta exAq exEp0 0 exStore).2.2.2.2.2 (by decide) (by decide)⟩


theorem newSpace_floor (c : Int) (h : 0 ≤ c) :
    newSpace c = ⌊(11 / 10 : ℚ) * (c : ℚ)⌋ + 5 := by
  unfold newSpace
  rw [Int.tdiv_eq_ediv (by omega) (by omega)]
  symm
  rw [← Int.floor_add_int, Int.floor_eq_iff]
  constructor
  · have h1 : ((11 * c + 50) / 10 : Int) * 10 ≤ 11 * c + 50 := Int.ediv_mul_le _ (by norm_num)
    have h2 : (((11 * c + 50) / 10 : Int) : ℚ) * 10 ≤ 11 * (c : ℚ) + 50 := by exact_mod_cast h1
    push_cast
    linarith
  · have h1 : 11 * c + 50 < ((11 * c + 50) / 10 + 1) * 10 := by omega
    have h2 : 11 * (c : ℚ) + 50 < ((((11 * c + 50) / 10 : Int) : ℚ) + 1) * 10 := by
      exact_mod_cast h1
    push_cast
    linarith

/-- The members of the row copy after an iteration of the loop of lines 331-365
that relocates the row. -/
theorem insertRowStep_relocated (iRow k : Int) (s : HFactor)
    (hsp : getI s.URspace (getI s.UpivotLookup (getI s.Uindex k)) = 0) :
    (insertRowStep iRow k s).URstart =
      setI s.URstart (getI s.UpivotLookup (getI s.Uindex k)) (sizeI s.URindex) ∧
    (insertRowStep iRow k s).URlastp =
      setI (relocateRow (getI s.UpivotLookup (getI s.Uindex k)) s).URlastp
        (getI s.UpivotLookup (getI s.Uindex k))
        (getI (relocateRow (getI s.UpivotLookup (getI s.Uindex k)) s).URlastp
          (getI s.UpivotLookup (getI s.Uindex k)) + 1) ∧
    (insertRowStep iRow k s).URspace =
      setI (relocateRow (getI s.UpivotLookup (getI s.Uindex k)) s).URspace
        (getI s.UpivotLookup (getI s.Uindex k))
        (getI (relocateRow (getI s.UpivotLookup (getI s.Uindex k)) s).URspace
          (getI s.UpivotLookup (getI s.Uindex k)) - 1) ∧
    (insertRowStep iRow k s).URindex =
      setI (relocateRow (getI s.UpivotLookup (getI s.Uindex k)) s).URindex
        (getI (relocateRow (getI s.UpivotLookup (getI s.Uindex k)) s).URlastp
          (getI s.UpivotLookup (getI s.Uindex k))) iRow ∧
    (insertRowStep iRow k s).URvalue =
      setI (relocateRow (getI s.UpivotLookup (getI s.Uindex k)) s).URvalue
        (getI (relocateRow (getI s.UpivotLookup (getI s.Uindex k)) s).URlastp
          (getI s.UpivotLookup (getI s.Uindex k))) (getI s.Uvalue k) := by
  unfold insertRowStep
  dsimp only
  rw [if_pos hsp]
  exact ⟨rfl, rfl, rfl, rfl, rfl⟩

/-- The members of the row copy after the branch of lines 336-358. -/
theorem relocateRow_fields (i : Int) (s : HFactor) :
    (relocateRow i s).URstart = setI s.URstart i (sizeI s.URindex) ∧
    (relocateRow i s).URlastp =
      setI s.URlastp i (sizeI s.URindex + (getI s.URlastp i - getI s.URstart i)) ∧
    (relocateRow i s).URspace =
      setI s.URspace i (newSpace (getI s.URlastp i - getI s.URstart i) -
        (getI s.URlastp i - getI s.URstart i)) ∧
    (relocateRow i s).URindex = copyRange
      (resizeI s.URindex (sizeI s.URindex + newSpace (getI s.URlastp i - getI s.URstart i)))
      (getI s.URstart i) (getI s.URstart i + (getI s.URlastp i - getI s.URstart i))
      (sizeI s.URindex) ∧
    (relocateRow i s).URvalue = copyRange
      (resizeI s.URvalue (sizeI s.URindex + newSpace (getI s.URlastp i - getI s.URstart i)))
      (getI s.URstart i) (getI s.URstart i + (getI s.URlastp i - getI s.URstart i))
      (sizeI s.URindex) := ⟨rfl, rfl, rfl, rfl, rfl⟩

theorem sizeI_copyRange {α : Type} [Zero α] (w : List α) (iFrom iEnd iTo : Int) :
    sizeI (copyRange w iFrom iEnd iTo) = sizeI w := by
  unfold copyRange
  exact loopUp_inv (fun q => sizeI q = sizeI w) _
    (fun j q hq => by dsimp only at hq ⊢; rw [sizeI_setI]; exact hq) _ w rfl

/-- C13 (as the code has it): when an iteration of the loop of lines 331-365
finds `URspace[iLogic] == 0`, the row is moved to the tail: its new start is the
old length of `URindex`, and `URindex` and `URvalue` grow by exactly
`new_space = ⌊1.1·row_count⌋ + 5` positions, `row_count` being the length of the
row before the insertion; after the insertion the row holds `row_count + 1`
entries and has `new_space - row_count - 1` positions of space. -/
theorem C13_relocation_size (iRow k : Int) (s : HFactor)
    (hsp : getI s.URspace (getI s.UpivotLookup (getI s.Uindex k)) = 0)
    (h0 : 0 ≤ getI s.UpivotLookup (getI s.Uindex k))
    (h1 : getI s.UpivotLookup (getI s.Uindex k) < sizeI s.URstart)
    (h2 : getI s.UpivotLookup (getI s.Uindex k) < sizeI s.URlastp)
    (h3 : getI s.UpivotLookup (getI s.Uindex k) < sizeI s.URspace)
    (hrc : getI s.URstart (getI s.UpivotLookup (getI s.Uindex k)) ≤
      getI s.URlastp (getI s.UpivotLookup (getI s.Uindex k)))
    (hsz : sizeI s.URvalue = sizeI s.URindex) :
    newSpace (getI s.URlastp (getI s.UpivotLookup (getI s.Uindex k)) -
        getI s.URstart (getI s.UpivotLookup (getI s.Uindex k))) =
      ⌊(11 / 10 : ℚ) * ((getI s.URlastp (getI s.UpivotLookup (getI s.Uindex k)) -
        getI s.URstart (getI s.UpivotLookup (getI s.Uindex k)) : Int) : ℚ)⌋ + 5 ∧
    sizeI (insertRowStep iRow k s).URindex = sizeI s.URindex +
      newSpace (getI s.URlastp (getI s.UpivotLookup (getI s.Uindex k)) -
        getI s.URstart (getI s.UpivotLookup (getI s.Uindex k))) ∧
    sizeI (insertRowStep iRow k s).URvalue = sizeI s.URvalue +
      newSpace (getI s.URlastp (getI s.UpivotLookup (getI s.Uindex k)) -
        getI s.URstart (getI s.UpivotLookup (getI s.Uindex k))) ∧
    getI (insertRowStep iRow k s).URstart (getI s.UpivotLookup (getI s.Uindex k)) =
      sizeI s.URindex ∧
    getI (insertRowStep iRow k s).URlastp (getI s.UpivotLookup (getI s.Uindex k)) =
      sizeI s.URindex + (getI s.URlastp (getI s.UpivotLookup (getI s.Uindex k)) -
        getI s.URstart (getI s.UpivotLookup (getI s.Uindex k))) + 1 ∧
    getI (insertRowStep iRow k s).URspace (getI s.UpivotLookup (getI s.Uindex k)) =
      newSpace (getI s.URlastp (getI s.UpivotLookup (getI s.Uindex k)) -
        getI s.URstart (getI s.UpivotLookup (getI s.Uindex k))) -
      (getI s.URlastp (getI s.UpivotLookup (getI s.Uindex k)) -
        getI s.URstart (getI s.UpivotLookup (getI s.Uindex k))) - 1 := by
  obtain ⟨a1, a2, a3, a4, a5⟩ := insertRowStep_relocated iRow k s hsp
  obtain ⟨r1, r2, r3, r4, r5⟩ := relocateRow_fields (getI s.UpivotLookup (getI s.Uindex k)) s
  have hns := newSpace_ge (getI s.URlastp (getI s.UpivotLookup (getI s.Uindex k)) -
    getI s.URstart (getI s.UpivotLookup (getI s.Uindex k))) (by omega)
  refine ⟨newSpace_floor _ (by omega), ?_, ?_, ?_, ?_, ?_⟩
  · rw [a4, sizeI_setI, r4, sizeI_copyRange, sizeI_resizeI _ _ (by omega)]
  · rw [a5, sizeI_setI, r5, sizeI_copyRange, sizeI_resizeI _ _ (by omega), hsz]
  · rw [a1, getI_setI_eq _ _ h0 h1]
  · rw [a2, getI_setI_eq _ _ h0 (by rw [r2, sizeI_setI]; exact h2), r2,
      getI_setI_eq _ _ h0 h2]
  · rw [a3, getI_setI_eq _ _ h0 (by rw [r3, sizeI_setI]; exact h3), r3,
      getI_setI_eq _ _ h0 h3]

theorem C13_witness :
    getI (updateFT_upToStoreCol (ftran exConsts exStore3 exCol3) 2 exStore3).UpivotLookup
      (getI (updateFT_upToStoreCol (ftran exConsts exStore3 exCol3) 2 exStore3).Uindex 1) = 0 ∧
    sizeI (insertRowStep 2 1
      (updateFT_upToStoreCol (ftran exConsts exStore3 exCol3) 2 exStore3)).URindex = 1 + 6 :=
  ⟨by decide!,
   (C13_relocation_size 2 1
      (updateFT_upToStoreCol (ftran exConsts exStore3 exCol3) 2 exStore3)
      (by decide!) (by decide!) (by decide!) (by decide!) (by decide!) (by decide!)
      (by decide!)).2.1.trans (by decide!)⟩

/-- C13 fails as stated: on the three-row store the update that replaces the
pivot of row 2 by the column `(1, 0, 1)` inserts into the row of slot 0, which
holds one entry and has no space; `URindex` grows by `6 = ⌊1.1⌋ + 5` positions,
not by `⌈1.1⌉ + 5 = 7`. -/
theorem C13_counterexample :
    StoreWF exStore3 ∧ ULayout exStore3 ∧ UAgree exStore3 ∧
    getI exStore3.URspace 0 = 0 ∧ getI exStore3.URlastp 0 - getI exStore3.URstart 0 = 1 ∧
    newSpace_spec 1 = 7 ∧
    sizeI (updateFT (ftran exConsts exStore3 exCol3) (btran exConsts exStore3 exUnit3) 2
      exStore3).URindex = sizeI exStore3.URindex + 6 ∧
    sizeI (updateFT (ftran exConsts exStore3 exCol3) (btran exConsts exStore3 exUnit3) 2
      exStore3).URindex ≠ sizeI exStore3.URindex + newSpace_spec 1 := by decide!


/-- C14: relocation moves one row only. When an iteration of the loop of lines
331-365 finds `URspace[iLogic] == 0`, the entries of the row are copied to the
tail in the same order with the same values, followed by the inserted entry
`(iRow, Uvalue[k])`; every position of the old `URindex`/`URvalue` keeps its
content, and `URstart`, `URlastp`, `URspace` of every other slot are unchanged. -/
theorem C14_relocation_moves_one_row (iRow k : Int) (s : HFactor)
    (hsp : getI s.URspace (getI s.UpivotLookup (getI s.Uindex k)) = 0)
    (h0 : 0 ≤ getI s.UpivotLookup (getI s.Uindex k))
    (h2 : getI s.UpivotLookup (getI s.Uindex k) < sizeI s.URlastp)
    (hrc : getI s.URstart (getI s.UpivotLookup (getI s.Uindex k)) ≤
      getI s.URlastp (getI s.UpivotLookup (getI s.Uindex k)))
    (hre : getI s.URlastp (getI s.UpivotLookup (getI s.Uindex k)) ≤ sizeI s.URindex)
    (hsz : sizeI s.URvalue = sizeI s.URindex) :
    (∀ t : Nat, t < (getI s.URlastp (getI s.UpivotLookup (getI s.Uindex k)) -
        getI s.URstart (getI s.UpivotLookup (getI s.Uindex k))).toNat →
      getI (insertRowStep iRow k s).URindex (sizeI s.URindex + (t : Int)) =
        getI s.URindex (getI s.URstart (getI s.UpivotLookup (getI s.Uindex k)) + (t : Int)) ∧
      getI (insertRowStep iRow k s).URvalue (sizeI s.URindex + (t : Int)) =
        getI s.URvalue (getI s.URstart (getI s.UpivotLookup (getI s.Uindex k)) + (t : Int))) ∧
    (getI (insertRowStep iRow k s).URindex (sizeI s.URindex +
        (getI s.URlastp (getI s.UpivotLookup (getI s.Uindex k)) -
          getI s.URstart (getI s.UpivotLookup (getI s.Uindex k)))) = iRow ∧
      getI (insertRowStep iRow k s).URvalue (sizeI s.URindex +
        (getI s.URlastp (getI s.UpivotLookup (getI s.Uindex k)) -
          getI s.URstart (getI s.UpivotLookup (getI s.Uindex k)))) = getI s.Uvalue k) ∧
    (∀ a : Int, a < sizeI s.URindex →
      getI (insertRowStep iRow k s).URindex a = getI s.URindex a ∧
      getI (insertRowStep iRow k s).URvalue a = getI s.URvalue a) ∧
    (∀ l : Int, l ≠ getI s.UpivotLookup (getI s.Uindex k) →
      getI (insertRowStep iRow k s).URstart l = getI s.URstart l ∧
      getI (insertRowStep iRow k s).URlastp l = getI s.URlastp l ∧
      getI (insertRowStep iRow k s).URspace l = getI s.URspace l) := by
  obtain ⟨a1, a2, a3, a4, a5⟩ := insertRowStep_relocated iRow k s hsp
  obtain ⟨r1, r2, r3, r4, r5⟩ := relocateRow_fields (getI s.UpivotLookup (getI s.Uindex k)) s
  have hns := newSpace_ge (getI s.URlastp (getI s.UpivotLookup (getI s.Uindex k)) -
    getI s.URstart (getI s.UpivotLookup (getI s.Uindex k))) (by omega)
  have hcnt : (((getI s.URstart (getI s.UpivotLookup (getI s.Uindex k)) +
      (getI s.URlastp (getI s.UpivotLookup (getI s.Uindex k)) -
        getI s.URstart (getI s.UpivotLookup (getI s.Uindex k))) -
      getI s.URstart (getI s.UpivotLookup (getI s.Uindex k))).toNat : Nat) : Int) =
      getI s.URlastp (getI s.UpivotLookup (getI s.Uindex k)) -
        getI s.URstart (getI s.UpivotLookup (getI s.Uindex k)) := by omega
  have hrI := sizeI_resizeI s.URindex (sizeI s.URindex +
    newSpace (getI s.URlastp (getI s.UpivotLookup (getI s.Uindex k)) -
      getI s.URstart (getI s.UpivotLookup (getI s.Uindex k)))) (by omega)
  have hrV := sizeI_resizeI s.URvalue (sizeI s.URindex +
    newSpace (getI s.URlastp (getI s.UpivotLookup (getI s.Uindex k)) -
      getI s.URstart (getI s.UpivotLookup (getI s.Uindex k)))) (by omega)
  obtain ⟨cI1, cI2⟩ := copyRange_spec
    (resizeI s.URindex (sizeI s.URindex +
      newSpace (getI s.URlastp (getI s.UpivotLookup (getI s.Uindex k)) -
        getI s.URstart (getI s.UpivotLookup (getI s.Uindex k)))))
    (getI s.URstart (getI s.UpivotLookup (getI s.Uindex k)))
    (getI s.URstart (getI s.UpivotLookup (getI s.Uindex k)) +
      (getI s.URlastp (getI s.UpivotLookup (getI s.Uindex k)) -
        getI s.URstart (getI s.UpivotLookup (getI s.Uindex k))))
    (sizeI s.URindex) (by rw [hcnt]; omega) (sizeI_nonneg _) (by rw [hcnt, hrI]; omega)
  obtain ⟨cV1, cV2⟩ := copyRange_spec
    (resizeI s.URvalue (sizeI s.URindex +
      newSpace (getI s.URlastp (getI s.UpivotLookup (getI s.Uindex k)) -
        getI s.URstart (getI s.UpivotLookup (getI s.Uindex k)))))
    (getI s.URstart (getI s.UpivotLookup (getI s.Uindex k)))
    (getI s.URstart (getI s.UpivotLookup (getI s.Uindex k)) +
      (getI s.URlastp (getI s.UpivotLookup (getI s.Uindex k)) -
        getI s.URstart (getI s.UpivotLookup (getI s.Uindex k))))
    (sizeI s.URindex) (by rw [hcnt]; omega) (sizeI_nonneg _) (by rw [hcnt, hrV]; omega)
  rw [hcnt] at cI2 cV2
  simp only [getI_resizeI s.URindex _ (show sizeI s.URindex ≤ sizeI s.URindex +
    newSpace (getI s.URlastp (getI s.UpivotLookup (getI s.Uindex k)) -
      getI s.URstart (getI s.UpivotLookup (getI s.Uindex k))) by omega)] at cI2
  simp only [getI_resizeI s.URvalue _ (show sizeI s.URvalue ≤ sizeI s.URindex +
    newSpace (getI s.URlastp (getI s.UpivotLookup (getI s.Uindex k)) -
      getI s.URstart (getI s.UpivotLookup (getI s.Uindex k))) by omega)] at cV2
  rw [hrI] at cI1
  rw [hrV] at cV1
  rw [← r4] at cI1 cI2
  rw [← r5] at cV1 cV2
  -- the position of the new entry
  have hput : getI (relocateRow (getI s.UpivotLookup (getI s.Uindex k)) s).URlastp
      (getI s.UpivotLookup (getI s.Uindex k)) = sizeI s.URindex +
      (getI s.URlastp (getI s.UpivotLookup (getI s.Uindex k)) -
        getI s.URstart (getI s.UpivotLookup (getI s.Uindex k))) := by
    rw [r2, getI_setI_eq _ _ h0 h2]
  rw [hput] at a4 a5
  refine ⟨?_, ⟨?_, ?_⟩, ?_, ?_⟩
  · intro t ht
    have hne : sizeI s.URindex + (getI s.URlastp (getI s.UpivotLookup (getI s.Uindex k)) -
        getI s.URstart (getI s.UpivotLookup (getI s.Uindex k))) ≠
        sizeI s.URindex + (t : Int) := by omega
    rw [a4, a5, getI_setI_ne _ _ hne, getI_setI_ne _ _ hne, cI2, cV2,
      if_pos (by omega), if_pos (by omega)]
    have e : getI s.URstart (getI s.UpivotLookup (getI s.Uindex k)) +
        (sizeI s.URindex + (t : Int) - sizeI s.URindex) =
        getI s.URstart (getI s.UpivotLookup (getI s.Uindex k)) + (t : Int) := by omega
    rw [e]
    exact ⟨rfl, rfl⟩
  · rw [a4, getI_setI_eq _ _ (by have := sizeI_nonneg s.URindex; omega)
      (by rw [cI1]; omega)]
  · rw [a5, getI_setI_eq _ _ (by have := sizeI_nonneg s.URindex; omega)
      (by rw [cV1]; omega)]
  · intro a ha
    have hne : sizeI s.URindex + (getI s.URlastp (getI s.UpivotLookup (getI s.Uindex k)) -
        getI s.URstart (getI s.UpivotLookup (getI s.Uindex k))) ≠ a := by omega
    rw [a4, a5, getI_setI_ne _ _ hne, getI_setI_ne _ _ hne, cI2, cV2,
      if_neg (by omega), if_neg (by omega)]
    exact ⟨rfl, rfl⟩
  · intro l hl
    rw [a1, a2, a3, getI_setI_ne _ _ (Ne.symm hl), getI_setI_ne _ _ (Ne.symm hl),
      getI_setI_ne _ _ (Ne.symm hl), r2, r3, getI_setI_ne _ _ (Ne.symm hl),
      getI_setI_ne _ _ (Ne.symm hl)]
    exact ⟨rfl, rfl, rfl⟩

theorem C14_witness :
    getI (updateFT_upToStoreCol (ftran exConsts exStore3 exCol3) 2 exStore3).URspace
      (getI (updateFT_upToStoreCol (ftran exConsts exStore3 exCol3) 2 exStore3).UpivotLookup
        (getI (updateFT_upToStoreCol (ftran exConsts exStore3 exCol3) 2 exStore3).Uindex 1)) = 0 ∧
    (∀ a : Int,
      a < sizeI (updateFT_upToStoreCol (ftran exConsts exStore3 exCol3) 2 exStore3).URindex →
      getI (insertRowStep 2 1
        (updateFT_upToStoreCol (ftran exConsts exStore3 exCol3) 2 exStore3)).URindex a =
        getI (updateFT_upToStoreCol (ftran exConsts exStore3 exCol3) 2 exStore3).URindex a ∧
      getI (insertRowStep 2 1
        (updateFT_upToStoreCol (ftran exConsts exStore3 exCol3) 2 exStore3)).URvalue a =
        getI (updateFT_upToStoreCol (ftran exConsts exStore3 exCol3) 2 exStore3).URvalue a) :=
  ⟨by decide!,
   (C14_relocation_moves_one_row 2 1
      (updateFT_upToStoreCol (ftran exConsts exStore3 exCol3) 2 exStore3)
      (by decide!) (by decide!) (by decide!) (by decide!) (by decide!) (by decide!)).2.2.1⟩


/-- A loop of deletions leaves the end pointer of a slot it does not visit. -/
theorem segDelete_loop_keep (start : List Int) (target : Int) (seg : Nat → Int)
    (S0 : List Int × List Int × List ℚ) (l : Int) (k : Nat)
    (h : ∀ t, t < k → seg t ≠ l) :
    getI (loopUp (fun t S => segDelete start target (seg t) S) k S0).1 l = getI S0.1 l := by
  induction k with
  | zero => rfl
  | succ k ih =>
    show getI (segDelete start target (seg k) _).1 l = _
    unfold segDelete
    dsimp only
    rw [getI_setI_ne _ _ (h k (by omega))]
    exact ih (fun t ht => h t (by omega))

/-- The loop of lines 291-302 leaves `Ulastp` of the slots that are not live. -/
theorem deletions_dead (st : HFactor) (rowOut : Int) (hl : ULayout st)
    (hP : LiveAt st (getI st.UpivotLookup rowOut)) (l : Int) (hdead : ¬ LiveAt st l) :
    getI (updateFT_deleteCol rowOut
      (updateFT_deleteRow rowOut (updateFT_mark rowOut st))).Ulastp l = getI st.Ulastp l := by
  obtain ⟨hlk, -, -, -, hrn⟩ := ULayout_facts st hl
  have hfr := (updateFT_deleteCol_frame rowOut
    (updateFT_deleteRow rowOut (updateFT_mark rowOut st))).2.2.2.1
  simp only [ucPart, Prod.mk.injEq] at hfr
  rw [hfr.2.1]
  unfold updateFT_deleteRow forRange
  dsimp only
  rw [deleteRow_loop]
  show getI (loopUp (fun t S => segDelete st.Ustart rowOut
    (getI st.UpivotLookup (getI st.URindex
      (getI st.URstart (getI st.UpivotLookup rowOut) + (t : Int)))) S)
    (getI st.URlastp (getI st.UpivotLookup rowOut) -
      getI st.URstart (getI st.UpivotLookup rowOut)).toNat
    (st.Ulastp, st.Uindex, st.Uvalue)).1 l = _
  rw [segDelete_loop_keep]
  intro t ht heq
  apply hdead
  obtain ⟨l', hlive, hne, hp⟩ := hrn _ hP _ _ ⟨t, ht, rfl, rfl⟩
  rw [← hp, (hlk l' hlive).2.2] at heq
  rw [← heq]
  exact hlive


/-- C16: the column-range invariant is preserved. On a store laid out as the
update expects, with U and UR in agreement, if `Ustart[i] ≤ Ulastp[i]` for every
slot, `Ulastp[i] ≤ Ustart[i+1]` for every slot but the last and
`Ulastp ≤ len(Uindex)` for the last, the same holds after `updateFT`, for every
slot, the appended one included. -/
theorem C16_updateFT_preserves_column_ranges (aq ep : HVector) (rowOut : Int) (st : HFactor)
    (hl : ULayout st) (hf : ColFits st aq rowOut) (ha : UAgree st) (hc : ColChain st) :
    ColChain (updateFT aq ep rowOut st) := by
  obtain ⟨⟨hr0, hr1, hP0, hP1, hPr⟩, hpn⟩ := hf
  have hP : LiveAt st (getI st.UpivotLookup rowOut) := ⟨hP0, hP1, by rw [hPr]; omega⟩
  obtain ⟨⟨d1, d2, d3⟩, ⟨y1, y2, y3, y4, y5, y6, y7⟩, -, -, hcb, -⟩ :=
    deletions_spec st rowOut hl ha hP hPr _ rfl
  have hdead := deletions_dead st rowOut hl hP
  obtain ⟨c1, c2, c3, c4⟩ := updateFT_storeCol_uc aq rowOut
    (updateFT_deleteCol rowOut (updateFT_deleteRow rowOut (updateFT_mark rowOut st)))
  have huc : ucPart (updateFT aq ep rowOut st) = ucPart (updateFT_upToStoreCol aq rowOut st) := by
    rw [updateFT_eq, updateFT_tail_uc]
    exact (updateFT_storeRows_frame rowOut _).2.2.2.1
  simp only [ucPart, Prod.mk.injEq] at huc
  obtain ⟨u1, u2, u3, u4⟩ := huc
  unfold updateFT_upToStoreCol at u1 u2 u3 u4
  rw [c1, d2, y2] at u1
  rw [c4, sizeI_append, y2] at u2
  rw [c2] at u3
  obtain ⟨⟨z1, z2, z3, z4, z5, z6, z7⟩, -, -⟩ := hl
  obtain ⟨g1, g2, g3⟩ := hc
  have hn : (st.Ustart.length : Int) = sizeI st.Ulastp := by
    rw [z2, ← z1]; rfl
  -- the end pointer of an old slot
  have hold : ∀ i : Nat, i < st.Ustart.length →
      getI (updateFT_deleteCol rowOut
        (updateFT_deleteRow rowOut (updateFT_mark rowOut st))).Ulastp (i : Int) ≤
        getI st.Ulastp (i : Int) ∧
      getI st.Ustart (i : Int) ≤ getI (updateFT_deleteCol rowOut
        (updateFT_deleteRow rowOut (updateFT_mark rowOut st))).Ulastp (i : Int) := by
    intro i hi
    by_cases hlive : LiveAt st (i : Int)
    · exact ⟨(hcb _ hlive).2, (hcb _ hlive).1⟩
    · rw [hdead _ hlive]
      exact ⟨le_refl _, g1 i hi⟩
  have eS : ∀ i : Nat, i < st.Ustart.length →
      getI (updateFT aq ep rowOut st).Ustart (i : Int) = getI st.Ustart (i : Int) := by
    intro i hi
    rw [u1, getI_append_left _ _ (by unfold sizeI; omega)]
  have eL : ∀ i : Nat, i < st.Ustart.length →
      getI (updateFT aq ep rowOut st).Ulastp (i : Int) =
      getI (updateFT_deleteCol rowOut
        (updateFT_deleteRow rowOut (updateFT_mark rowOut st))).Ulastp (i : Int) := by
    intro i hi
    rw [u2, getI_append_left _ _ (by rw [y1]; omega)]
  have eSn : getI (updateFT aq ep rowOut st).Ustart (st.Ustart.length : Int) =
      sizeI st.Uindex := by
    rw [u1]; exact getI_snoc _ _
  have eLn : getI (updateFT aq ep rowOut st).Ulastp (st.Ustart.length : Int) =
      sizeI st.Uindex + sizeI ((packEntries aq rowOut aq.packCount.toNat).map Prod.fst) := by
    rw [u2, hn, ← y1]; exact getI_snoc _ _
  have eI : sizeI (updateFT aq ep rowOut st).Uindex =
      sizeI st.Uindex + sizeI ((packEntries aq rowOut aq.packCount.toNat).map Prod.fst) := by
    rw [u3, sizeI_append, y2]
  have hlen : (updateFT aq ep rowOut st).Ustart.length = st.Ustart.length + 1 := by
    rw [u1]; simp
  have hnn := sizeI_nonneg ((packEntries aq rowOut aq.packCount.toNat).map Prod.fst)
  refine ⟨?_, ?_, ?_⟩
  · intro i hi
    rw [hlen] at hi
    by_cases hlt : i < st.Ustart.length
    · rw [eS i hlt, eL i hlt]
      exact (hold i hlt).2
    · have : i = st.Ustart.length := by omega
      subst this
      rw [eSn, eLn]
      omega
  · intro i _ hi
    rw [hlen] at hi
    rw [eL i (by omega)]
    by_cases hlt : i + 1 < st.Ustart.length
    · have hc' : ((i : Int) + 1) = ((i + 1 : Nat) : Int) := by push_cast; rfl
      rw [hc', eS (i + 1) hlt, ← hc']
      exact le_trans (hold i (by omega)).1 (g2 i (by omega) hlt)
    · have h1 : i + 1 = st.Ustart.length := by omega
      have hc' : ((i : Int) + 1) = (st.Ustart.length : Int) := by rw [← h1]; push_cast; rfl
      rw [hc', eSn]
      exact le_trans (hold i (by omega)).1 (g3 i (by omega) h1)
  · intro i _ hi
    rw [hlen] at hi
    have : i = st.Ustart.length := by omega
    subst this
    rw [eLn, eI]

theorem C16_witness :
    ULayout exStore ∧ ColFits exStore exAq 0 ∧ UAgree exStore ∧ ColChain exStore ∧
    ColChain (updateFT exAq exEp0 0 exStore) :=
  ⟨by decide!, by decide!, by decide!, by decide,
   C16_updateFT_preserves_column_ranges exAq exEp0 0 exStore (by decide!) (by decide!)
     (by decide!) (by decide)⟩


theorem updateFT_tail_urspace (ep : HVector) (iRow pLogic : Int) (pivot alpha : ℚ)
    (s : HFactor) :
    (updateFT_total pLogic (updateFT_storeEta ep iRow pivot
      (updateFT_register iRow pivot alpha s))).URspace =
      s.URspace ++ [getI s.URspace (getI s.UpivotLookup iRow) +
        getI (s.URlastp ++ [getI (s.URstart ++ [getI s.URstart (getI s.UpivotLookup iRow)])
          (getI s.UpivotLookup iRow)]) (getI s.UpivotLookup iRow) -
        getI (s.URstart ++ [getI s.URstart (getI s.UpivotLookup iRow)])
          (getI s.UpivotLookup iRow)] := rfl

theorem insertRowStep_space (iRow k P : Int) (s : HFactor) :
    sizeI (insertRowStep iRow k s).URspace = sizeI s.URspace ∧
    (getI s.UpivotLookup (getI s.Uindex k) ≠ P →
      getI (insertRowStep iRow k s).URspace P = getI s.URspace P) := by
  unfold insertRowStep relocateRow
  dsimp only
  split
  · exact ⟨by rw [sizeI_setI, sizeI_setI],
      fun h => by rw [getI_setI_ne _ _ h, getI_setI_ne _ _ h]⟩
  · exact ⟨sizeI_setI _ _ _, fun h => getI_setI_ne _ _ h⟩

/-- The loop of lines 331-365 leaves the space of a slot it does not visit. -/
theorem storeRows_space_loop (s : HFactor) (iRow lo P : Int) (m : Nat)
    (hT : ∀ u : Nat, u < m → getI s.UpivotLookup (getI s.Uindex (lo + (u : Int))) ≠ P)
    (k : Nat) (hk : k ≤ m) :
    ∀ s', s' = loopUp (fun j t => insertRowStep iRow (lo + (j : Int)) t) k s →
    ucPart s' = ucPart s ∧ pivPart s' = pivPart s ∧
    sizeI s'.URspace = sizeI s.URspace ∧ getI s'.URspace P = getI s.URspace P := by
  induction k with
  | zero =>
    intro s' hs'
    subst hs'
    exact ⟨rfl, rfl, rfl, rfl⟩
  | succ k ih =>
    intro s' hs'
    obtain ⟨f1, f2, f3, f4⟩ := ih (by omega) _ rfl
    have hs1 : s' = insertRowStep iRow (lo + (k : Int))
        (loopUp (fun j t => insertRowStep iRow (lo + (j : Int)) t) k s) := hs'
    clear hs'
    generalize loopUp (fun j t => insertRowStep iRow (lo + (j : Int)) t) k s = q
      at f1 f2 f3 f4 hs1
    subst hs1
    have g1 : q.Uindex = s.Uindex := by
      have := f1; simp only [ucPart, Prod.mk.injEq] at this; exact this.2.2.1
    have g3 : q.UpivotLookup = s.UpivotLookup := by
      have := f2; simp only [pivPart, Prod.mk.injEq] at this; exact this.1
    obtain ⟨a1, a2⟩ := insertRowStep_space iRow (lo + (k : Int)) P q
    obtain ⟨-, -, p3, p4, -, -⟩ := insertRowStep_frame iRow (lo + (k : Int)) q
    exact ⟨p4.trans f1, p3.trans f2, a1.trans f3,
      (a2 (by rw [g1, g3]; exact hT k (by omega))).trans f4⟩

/-- The rows on entry to lines 367-375: the reserved ranges of the slots that
were live on entry lie inside `URindex` and apart, and the deleted slot has the
pointers and the space it had on entry. -/
theorem storeRows_fit (st : HFactor) (aq : HVector) (rowOut : Int) (hl : ULayout st)
    (ha : UAgree st) (hf : ColFits st aq rowOut) :
    ∀ s5, s5 = updateFT_storeRows rowOut (updateFT_upToStoreCol aq rowOut st) →
    RowsFit (LiveAt st) s5 ∧ sizeI s5.URspace = sizeI st.UpivotIndex ∧
    getI s5.URstart (getI st.UpivotLookup rowOut) =
      getI st.URstart (getI st.UpivotLookup rowOut) ∧
    getI s5.URlastp (getI st.UpivotLookup rowOut) =
      getI st.URlastp (getI st.UpivotLookup rowOut) ∧
    getI s5.URspace (getI st.UpivotLookup rowOut) =
      getI st.URspace (getI st.UpivotLookup rowOut) := by
  intro s5 hs5
  obtain ⟨⟨hr0, hr1, hP0, hP1, hPr⟩, hpn⟩ := hf
  have hP : LiveAt st (getI st.UpivotLookup rowOut) := ⟨hP0, hP1, by rw [hPr]; omega⟩
  obtain ⟨⟨d1, d2, d3⟩, ⟨y1, y2, y3, y4, y5, y6, y7⟩, -, -, -, hrb, k1, k2⟩ :=
    deletions_spec st rowOut hl ha hP hPr _ rfl
  have hfit3 := deletions_fit st _ rowOut hl ha hP hPr rfl
  obtain ⟨hlk, -⟩ := ULayout_facts st hl
  obtain ⟨-, -, f3, f4, -⟩ := updateFT_storeCol_frame aq rowOut
    (updateFT_deleteCol rowOut (updateFT_deleteRow rowOut (updateFT_mark rowOut st)))
  have hfit4 : RowsFit (LiveAt st) (updateFT_upToStoreCol aq rowOut st) :=
    RowsFit_congr _ _ _ f4 hfit3
  have hlk4 : (updateFT_upToStoreCol aq rowOut st).UpivotLookup = st.UpivotLookup := by
    have := f3
    simp only [pivPart, Prod.mk.injEq] at this
    exact this.1.trans d1
  have hu4 : urPart (updateFT_upToStoreCol aq rowOut st) =
      urPart (updateFT_deleteCol rowOut
        (updateFT_deleteRow rowOut (updateFT_mark rowOut st))) := f4
  simp only [urPart, Prod.mk.injEq] at hu4
  obtain ⟨eloop, hix⟩ := storeRows_as_loop st aq rowOut
  rw [← hs5] at eloop
  -- the slot visited for an entry of the new column
  have hvis : ∀ u : Nat, u < (packEntries aq rowOut aq.packCount.toNat).length →
      LiveAt st (getI (updateFT_upToStoreCol aq rowOut st).UpivotLookup
        (getI (updateFT_upToStoreCol aq rowOut st).Uindex
          (sizeI (updateFT_deleteCol rowOut
            (updateFT_deleteRow rowOut (updateFT_mark rowOut st))).Uindex + (u : Int)))) ∧
      getI (updateFT_upToStoreCol aq rowOut st).UpivotLookup
        (getI (updateFT_upToStoreCol aq rowOut st).Uindex
          (sizeI (updateFT_deleteCol rowOut
            (updateFT_deleteRow rowOut (updateFT_mark rowOut st))).Uindex + (u : Int))) ≠
      getI st.UpivotLookup rowOut := by
    intro u hu
    rw [hlk4, hix]
    have hmem := getI_mem ((packEntries aq rowOut aq.packCount.toNat).map Prod.fst) u
      (by rw [List.length_map]; exact hu)
    rw [List.mem_map] at hmem
    obtain ⟨e, he, hex⟩ := hmem
    obtain ⟨hne, i, hi, hei⟩ := packEntries_ne aq rowOut _ e he
    rw [← hex, hei]
    rcases hpn i hi with h | ⟨l, hl0, hl1, hp⟩
    · exact absurd (hei.trans h) hne
    · have hlive : LiveAt st (l : Int) := (LiveAt_iff st _).mpr ⟨l, hl0, hl1, rfl⟩
      rw [← hp, (hlk _ hlive).2.2]
      refine ⟨hlive, ?_⟩
      intro hq
      apply hne
      rw [hei, ← hp, hq, hPr]
  obtain ⟨-, -, g3, -⟩ := storeRows_loop (LiveAt st) (updateFT_upToStoreCol aq rowOut st)
    rowOut _ _ hfit4 (fun u hu => (hvis u hu).1) _ (le_refl _) s5 eloop
  obtain ⟨-, -, q1, q2⟩ := storeRows_keep_loop (updateFT_upToStoreCol aq rowOut st) rowOut _
    (getI st.UpivotLookup rowOut) _ (fun u hu => (hvis u hu).2) _ (le_refl _) s5 eloop
  obtain ⟨-, -, q3, q4⟩ := storeRows_space_loop (updateFT_upToStoreCol aq rowOut st) rowOut _
    (getI st.UpivotLookup rowOut) _ (fun u hu => (hvis u hu).2) _ (le_refl _) s5 eloop
  obtain ⟨b1, b2, b3⟩ := hrb _ hP
  refine ⟨g3, ?_, ?_, ?_, ?_⟩
  · rw [q3, hu4.2.2.1, y7, hl.1.2.2.2.2.1]
  · rw [q1, hu4.1, d3]
  · rw [q2, hu4.2.1, k2]
  · rw [q4, hu4.2.2.1]
    omega


/-- The reserved row range of a slot that is live after the update is the one a
slot live on entry has before lines 367-375: its own, or, for the new slot, the
one of the deleted slot. -/
theorem updateFT_row_source (st : HFactor) (aq ep : HVector) (rowOut : Int) (hl : ULayout st)
    (ha : UAgree st) (hf : ColFits st aq rowOut) (j : Int)
    (hj : LiveAt (updateFT aq ep rowOut st) j) :
    ∃ q, LiveAt st q ∧
      ((q = j ∧ j ≠ getI st.UpivotLookup rowOut ∧ j < sizeI st.UpivotIndex) ∨
        (j = sizeI st.UpivotIndex ∧ q = getI st.UpivotLookup rowOut)) ∧
      getI (updateFT aq ep rowOut st).URstart j =
        getI (updateFT_storeRows rowOut (updateFT_upToStoreCol aq rowOut st)).URstart q ∧
      getI (updateFT aq ep rowOut st).URlastp j + getI (updateFT aq ep rowOut st).URspace j =
        getI (updateFT_storeRows rowOut (updateFT_upToStoreCol aq rowOut st)).URlastp q +
        getI (updateFT_storeRows rowOut (updateFT_upToStoreCol aq rowOut st)).URspace q ∧
      getI (updateFT aq ep rowOut st).URstart j ≤ getI (updateFT aq ep rowOut st).URlastp j ∧
      0 ≤ getI (updateFT aq ep rowOut st).URspace j := by
  obtain ⟨hfit, w3, p1, p2, p3⟩ := storeRows_fit st aq rowOut hl ha hf _ rfl
  obtain ⟨⟨w1, w2, w4⟩, -⟩ := storeRows_spec st aq rowOut hl ha hf _ rfl
  obtain ⟨⟨hr0, hr1, hP0, hP1, hPr⟩, hpn⟩ := hf
  have hP : LiveAt st (getI st.UpivotLookup rowOut) := ⟨hP0, hP1, by rw [hPr]; omega⟩
  obtain ⟨t1, t2, t3, t4⟩ := updateFT_tail_ur ep rowOut (getI st.UpivotLookup rowOut)
    (getI st.UpivotValue (getI st.UpivotLookup rowOut)) (getI aq.array rowOut)
    (updateFT_storeRows rowOut (updateFT_upToStoreCol aq rowOut st))
  have t5 := updateFT_tail_urspace ep rowOut (getI st.UpivotLookup rowOut)
    (getI st.UpivotValue (getI st.UpivotLookup rowOut)) (getI aq.array rowOut)
    (updateFT_storeRows rowOut (updateFT_upToStoreCol aq rowOut st))
  rw [← updateFT_eq] at t1 t2 t3 t4 t5
  rw [w4] at t3 t4 t5
  have key : ∀ (A : List Int) (a n : Int), sizeI A = n → getI (A ++ [a]) n = a := by
    intro A a n h
    rw [← h, getI_snoc]
  have eP1 : getI ((updateFT_storeRows rowOut (updateFT_upToStoreCol aq rowOut st)).URstart ++
      [getI (updateFT_storeRows rowOut (updateFT_upToStoreCol aq rowOut st)).URstart
        (getI st.UpivotLookup rowOut)]) (getI st.UpivotLookup rowOut) =
      getI (updateFT_storeRows rowOut (updateFT_upToStoreCol aq rowOut st)).URstart
        (getI st.UpivotLookup rowOut) := getI_append_left _ _ (by rw [w1]; exact hP1)
  have eP2 : getI ((updateFT_storeRows rowOut (updateFT_upToStoreCol aq rowOut st)).URlastp ++
      [getI (updateFT_storeRows rowOut (updateFT_upToStoreCol aq rowOut st)).URstart
        (getI st.UpivotLookup rowOut)]) (getI st.UpivotLookup rowOut) =
      getI (updateFT_storeRows rowOut (updateFT_upToStoreCol aq rowOut st)).URlastp
        (getI st.UpivotLookup rowOut) := getI_append_left _ _ (by rw [w2]; exact hP1)
  rw [eP1] at t4 t5
  rw [eP2] at t5
  obtain ⟨-, hin, -⟩ := hfit
  rcases updateFT_live st aq ep rowOut hP0 hP1 j hj with ⟨hj1, hj2, -⟩ | ⟨hj1, -⟩
  · obtain ⟨-, -, -, -, m4, m5, m6, m7⟩ := hin j hj1
    refine ⟨j, hj1, Or.inl ⟨rfl, hj2, hj1.2.1⟩, ?_⟩
    rw [t3, t4, t5, getI_append_left _ _ (by rw [w1]; exact hj1.2.1),
      getI_append_left _ _ (by rw [w2]; exact hj1.2.1),
      getI_append_left _ _ (by rw [w3]; exact hj1.2.1)]
    exact ⟨rfl, rfl, m5, m6⟩
  · obtain ⟨-, -, -, -, m4, m5, m6, m7⟩ := hin _ hP
    refine ⟨getI st.UpivotLookup rowOut, hP, Or.inr ⟨hj1, rfl⟩, ?_⟩
    rw [hj1, t3, t4, t5, key _ _ _ w1, key _ _ _ w2, key _ _ _ w3]
    exact ⟨rfl, by omega, le_refl _, by omega⟩

/-- C15 (as the code has it): the row-slack invariant that `updateFT` keeps is
that the reserved ranges `[URstart[i], URlastp[i] + URspace[i])` of the live
slots lie inside `URindex` and do not overlap; it holds after the call for every
live slot, the relocated rows included, and the appended slot takes over the
reserved range of the deleted slot: its `URstart` and `URlastp` are the old
`URstart[pLogic]` and its `URspace` is the old space plus the old length of the
row of `pLogic`. -/
theorem C15_updateFT_preserves_row_slack (aq ep : HVector) (rowOut : Int) (st : HFactor)
    (hl : ULayout st) (hf : ColFits st aq rowOut) (ha : UAgree st) :
    RowSlack (updateFT aq ep rowOut st) ∧
    getI (updateFT aq ep rowOut st).URstart (sizeI st.UpivotIndex) =
      getI st.URstart (getI st.UpivotLookup rowOut) ∧
    getI (updateFT aq ep rowOut st).URlastp (sizeI st.UpivotIndex) =
      getI st.URstart (getI st.UpivotLookup rowOut) ∧
    getI (updateFT aq ep rowOut st).URspace (sizeI st.UpivotIndex) =
      getI st.URspace (getI st.UpivotLookup rowOut) +
        (getI st.URlastp (getI st.UpivotLookup rowOut) -
          getI st.URstart (getI st.UpivotLookup rowOut)) := by
  have hsrc := updateFT_row_source st aq ep rowOut hl ha hf
  obtain ⟨hfit, w3, p1, p2, p3⟩ := storeRows_fit st aq rowOut hl ha hf _ rfl
  obtain ⟨⟨w1, w2, w4⟩, -⟩ := storeRows_spec st aq rowOut hl ha hf _ rfl
  obtain ⟨-, hin, hdj⟩ := hfit
  have hP1 := hf.1.2.2.2.1
  obtain ⟨t1, t2, t3, t4⟩ := updateFT_tail_ur ep rowOut (getI st.UpivotLookup rowOut)
    (getI st.UpivotValue (getI st.UpivotLookup rowOut)) (getI aq.array rowOut)
    (updateFT_storeRows rowOut (updateFT_upToStoreCol aq rowOut st))
  have t5 := updateFT_tail_urspace ep rowOut (getI st.UpivotLookup rowOut)
    (getI st.UpivotValue (getI st.UpivotLookup rowOut)) (getI aq.array rowOut)
    (updateFT_storeRows rowOut (updateFT_upToStoreCol aq rowOut st))
  rw [← updateFT_eq] at t1 t2 t3 t4 t5
  rw [w4] at t3 t4 t5
  have key : ∀ (A : List Int) (a n : Int), sizeI A = n → getI (A ++ [a]) n = a := by
    intro A a n h
    rw [← h, getI_snoc]
  refine ⟨⟨?_, ?_⟩, ?_, ?_, ?_⟩
  · intro i hi0 hi1
    have hlive : LiveAt (updateFT aq ep rowOut st) (i : Int) :=
      (LiveAt_iff _ _).mpr ⟨i, hi0, hi1, rfl⟩
    obtain ⟨q, hq, -, e1, e2, e3, e4⟩ := hsrc _ hlive
    obtain ⟨-, -, -, -, m4, m5, m6, m7⟩ := hin q hq
    unfold RowSlackAt
    rw [t1] at *
    exact ⟨by omega, e3, e4, by omega⟩
  · intro i hi0 hi1 l hl0 hl1 hne
    have hlivei : LiveAt (updateFT aq ep rowOut st) (i : Int) :=
      (LiveAt_iff _ _).mpr ⟨i, hi0, hi1, rfl⟩
    have hlivel : LiveAt (updateFT aq ep rowOut st) (l : Int) :=
      (LiveAt_iff _ _).mpr ⟨l, hl0, hl1, rfl⟩
    obtain ⟨q, hq, hcase, e1, e2, -, -⟩ := hsrc _ hlivei
    obtain ⟨q', hq', hcase', e1', e2', -, -⟩ := hsrc _ hlivel
    have hqq : q ≠ q' := by
      rcases hcase with ⟨c1, c2, c3⟩ | ⟨c1, c2⟩ <;> rcases hcase' with ⟨c1', c2', c3'⟩ | ⟨c1', c2'⟩
      · rw [c1, c1']; exact fun h => hne (by exact_mod_cast h)
      · rw [c1, c2']; exact c2
      · rw [c2, c1']; exact Ne.symm c2'
      · exact absurd (by exact_mod_cast c1.trans c1'.symm) hne
    unfold RowsApartAt
    rw [e1, e2, e1', e2']
    exact hdj q q' hq hq' hqq
  · rw [t3, key _ _ _ w1, p1]
  · rw [t4, key _ _ _ w2, getI_append_left _ _ (by rw [w1]; exact hP1), p1]
  · rw [t5, key _ _ _ w3, getI_append_left _ _ (by rw [w2]; exact hP1),
      getI_append_left _ _ (by rw [w1]; exact hP1), p1, p2, p3]
    omega

theorem C15_witness :
    ULayout exStore ∧ ColFits exStore exAq 0 ∧ UAgree exStore ∧
    RowSlack (updateFT exAq exEp0 0 exStore) ∧
    getI (updateFT exAq exEp0 0 exStore).URspace 2 = 0 + (1 - 0) :=
  ⟨by decide!, by decide!, by decide!,
   (C15_updateFT_preserves_row_slack exAq exEp0 0 exStore (by decide!) (by decide!)
     (by decide!)).1,
   by decide!⟩

/-- C15 fails as stated: on the two-row store every slot has
`URlastp + URspace` equal to the next `URstart` or to the end of `URindex`; after
the update that replaces the pivot of row 0 the appended slot 2 has
`URlastp + URspace = 1`, which is neither: it is the last slot and `URindex` has
length 6. -/
theorem C15_counterexample :
    StoreWF exStore ∧ ULayout exStore ∧ UAgree exStore ∧ RowAdjacent exStore ∧
    ¬ RowAdjacent (updateFT (ftran exConsts exStore exCol)
      (btran exConsts exStore (exUnit 0)) 0 exStore) ∧
    getI (updateFT (ftran exConsts exStore exCol)
      (btran exConsts exStore (exUnit 0)) 0 exStore).URlastp 2 +
    getI (updateFT (ftran exConsts exStore exCol)
      (btran exConsts exStore (exUnit 0)) 0 exStore).URspace 2 = 1 ∧
    sizeI (updateFT (ftran exConsts exStore exCol)
      (btran exConsts exStore (exUnit 0)) 0 exStore).URindex = 6 := by decide!


theorem ftranL_keptList_succ (c : Consts) (st : HFactor) (rhs : HVector) (k : Nat) :
    ftranL_keptList c st rhs (k + 1) =
      ftranL_keptList c st rhs k ++ (if ftranL_kept c st rhs k then [k] else []) := by
  unfold ftranL_keptList
  rw [List.range_succ, List.filter_append]
  congr 1
  by_cases h : ftranL_kept c st rhs k = true
  · simp [h]
  · simp [h]

theorem ftranL_keptList_length_le (c : Consts) (st : HFactor) (rhs : HVector) (k : Nat) :
    (ftranL_keptList c st rhs k).length ≤ k := by
  unfold ftranL_keptList
  have := List.length_filter_le (ftranL_kept c st rhs) (List.range k)
  rw [List.length_range] at this
  exact this

/-- The count and the index of `ftranL` after `k` iterations. -/
theorem ftranL_after_index (c : Consts) (st : HFactor) (rhs : HVector)
    (hcap : st.numRow ≤ sizeI rhs.index) (k : Nat) (hk : k ≤ st.numRow.toNat) :
    (ftranL_after c st rhs k).count = ((ftranL_keptList c st rhs k).length : Int) ∧
    sizeI (ftranL_after c st rhs k).index = sizeI rhs.index ∧
    ∀ j : Nat, j < (ftranL_keptList c st rhs k).length →
      getI (ftranL_after c st rhs k).index (j : Int) =
        getI ((ftranL_keptList c st rhs k).map (fun (i : Nat) => getI st.LpivotIndex (i : Int)))
          (j : Int) := by
  induction k with
  | zero =>
    refine ⟨rfl, rfl, ?_⟩
    intro j hj
    simp [ftranL_keptList] at hj
  | succ k ih =>
    obtain ⟨ic, isz, ix⟩ := ih (by omega)
    have hstep : ftranL_after c st rhs (k + 1) =
        ftranL_step c st (k : Int) (ftranL_after c st rhs k) :=
      forRange_natCast_succ k _ _
    have hle := ftranL_keptList_length_le c st rhs k
    rw [hstep, ftranL_keptList_succ]
    by_cases hkept : |getI (ftranL_after c st rhs k).array (getI st.LpivotIndex (k : Int))| >
        c.tiny
    · have hk1 : ftranL_kept c st rhs k = true := by
        unfold ftranL_kept; exact decide_eq_true hkept
      have e1 : (ftranL_step c st (k : Int) (ftranL_after c st rhs k)).count =
          (ftranL_after c st rhs k).count + 1 := by
        unfold ftranL_step; dsimp only; rw [if_pos hkept]
      have e2 : (ftranL_step c st (k : Int) (ftranL_after c st rhs k)).index =
          setI (ftranL_after c st rhs k).index (ftranL_after c st rhs k).count
            (getI st.LpivotIndex (k : Int)) := by
        unfold ftranL_step; dsimp only; rw [if_pos hkept]
      rw [e1, e2, ic, hk1, if_pos rfl, sizeI_setI, isz, List.length_append,
        List.length_singleton, List.map_append, List.map_singleton]
      refine ⟨by push_cast; rfl, rfl, ?_⟩
      intro j hj
      by_cases hjl : j < (ftranL_keptList c st rhs k).length
      · rw [getI_setI_ne _ _ (by omega), ix j hjl,
          getI_append_left _ _ (by unfold sizeI; rw [List.length_map]; omega)]
      · have hj' : j = (ftranL_keptList c st rhs k).length := by omega
        subst hj'
        rw [getI_setI_eq _ _ (by omega) (by rw [isz]; omega)]
        have := getI_snoc ((ftranL_keptList c st rhs k).map
          (fun (i : Nat) => getI st.LpivotIndex (i : Int))) (getI st.LpivotIndex (k : Int))
        unfold sizeI at this
        rw [List.length_map] at this
        exact this.symm
    · have hk1 : ftranL_kept c st rhs k = false := by
        unfold ftranL_kept; exact decide_eq_false hkept
      have e1 : (ftranL_step c st (k : Int) (ftranL_after c st rhs k)).count =
          (ftranL_after c st rhs k).count := by
        unfold ftranL_step; dsimp only; rw [if_neg hkept]
      have e2 : (ftranL_step c st (k : Int) (ftranL_after c st rhs k)).index =
          (ftranL_after c st rhs k).index := by
        unfold ftranL_step; dsimp only; rw [if_neg hkept]
      rw [e1, e2, ic, hk1]
      simp only [Bool.false_eq_true, if_false, List.append_nil]
      exact ⟨trivial, isz, ix⟩

/-- C18: the step rule of `ftranL`. The pivots are visited in the order
`i = 0 .. m-1`; when the index buffer has room for `m` rows, after `ftranL`
returns `rhs.count` is the number of pivots whose value at visit time had
magnitude above `tiny`, `rhs.index[0 .. count)` lists the rows of exactly those
pivots in visit order, and the array entry of every other pivot row was set to
0 when it was visited. -/
theorem C18_ftranL_step_rule (c : Consts) (st : HFactor) (rhs : HVector)
    (hcap : st.numRow ≤ sizeI rhs.index) :
    (∀ k : Nat, ftranL_after c st rhs (k + 1) =
      ftranL_step c st (k : Int) (ftranL_after c st rhs k)) ∧
    (ftranL c st rhs).array = (ftranL_after c st rhs st.numRow.toNat).array ∧
    (ftranL c st rhs).count = ((ftranL_keptList c st rhs st.numRow.toNat).length : Int) ∧
    (∀ j : Nat, j < (ftranL_keptList c st rhs st.numRow.toNat).length →
      getI (ftranL c st rhs).index (j : Int) =
        getI ((ftranL_keptList c st rhs st.numRow.toNat).map
          (fun (i : Nat) => getI st.LpivotIndex (i : Int))) (j : Int)) ∧
    (∀ i : Nat, i < st.numRow.toNat → ftranL_kept c st rhs i = false →
      getI (ftranL_after c st rhs (i + 1)).array (getI st.LpivotIndex (i : Int)) = 0) := by
  obtain ⟨ea, ei, ec, -⟩ := ftranL_eq_after c st rhs
  obtain ⟨ic, -, ix⟩ := ftranL_after_index c st rhs hcap st.numRow.toNat (le_refl _)
  refine ⟨fun k => forRange_natCast_succ k _ _, ea, by rw [ec, ic], ?_, ?_⟩
  · intro j hj
    rw [ei]
    exact ix j hj
  · intro i hi hkept
    have hstep : ftranL_after c st rhs (i + 1) =
        ftranL_step c st (i : Int) (ftranL_after c st rhs i) :=
      forRange_natCast_succ i _ _
    have hnk : ¬ |getI (ftranL_after c st rhs i).array (getI st.LpivotIndex (i : Int))| >
        c.tiny := by
      unfold ftranL_kept at hkept
      exact of_decide_eq_false hkept
    rw [hstep, ftranL_step_array, if_neg hnk, getI_setI]
    split
    · rfl
    · rename_i hcond
      by_cases h0 : 0 ≤ getI st.LpivotIndex (i : Int)
      · exact getI_ge _ (by
          have : ¬ getI st.LpivotIndex (i : Int) < sizeI (ftranL_after c st rhs i).array :=
            fun h => hcond ⟨rfl, h0, h⟩
          omega)
      · exact getI_neg _ (by omega)

theorem C18_witness :
    exStore.numRow ≤ sizeI exTinyRhs.index ∧
    (ftranL exConsts exStore exTinyRhs).count = 0 ∧
    getI (ftranL_after exConsts exStore exTinyRhs 1).array 0 = 0 := by
  have h := C18_ftranL_step_rule exConsts exStore exTinyRhs (by decide)
  exact ⟨by decide, h.2.2.1.trans (by decide!), h.2.2.2.2 0 (by decide) (by decide!)⟩


/-- C19 (as the code has it): the step rule of `ftranFT`. The etas are processed
in the order `i = 0 .. p-1`; for the eta `i`, with `r = PFpivotIndex[i]`, `v0` the
current `array[r]` and `v1 = v0 - Σ array[PFindex[k]] * PFvalue[k]` over the eta:
if `v0` and `v1` are both zero nothing changes; otherwise `array[r]` becomes the
sentinel `HIGHS_CONST_ZERO` when `|v1| < tiny` and `v1` otherwise, `r` is appended
to `index` exactly when `v0` was zero, and no array position other than `r` is
written. -/
theorem C19_ftranFT_step_rule (c : Consts) (st : HFactor) (v : HVector) :
    (∀ k : Nat, ftranFT_after c st v (k + 1) =
      ftranFT_step c st (k : Int) (ftranFT_after c st v k)) ∧
    (ftranFT c st v).array = (ftranFT_after c st v st.PFpivotIndex.length).array ∧
    (ftranFT c st v).index = (ftranFT_after c st v st.PFpivotIndex.length).index ∧
    (ftranFT c st v).count = (ftranFT_after c st v st.PFpivotIndex.length).count ∧
    ∀ (i : Int) (w : HVector),
      ftranFT_value1 st i w.array = getI w.array (getI st.PFpivotIndex i) -
        ∑ t ∈ Finset.range (getI st.PFstart (i + 1) - getI st.PFstart i).toNat,
          getI w.array (getI st.PFindex (getI st.PFstart i + (t : Int))) *
            getI st.PFvalue (getI st.PFstart i + (t : Int)) ∧
      (getI w.array (getI st.PFpivotIndex i) = 0 ∧ ftranFT_value1 st i w.array = 0 →
        ftranFT_step c st i w = w) ∧
      (¬ (getI w.array (getI st.PFpivotIndex i) = 0 ∧ ftranFT_value1 st i w.array = 0) →
        (ftranFT_step c st i w).array = setI w.array (getI st.PFpivotIndex i)
          (if |ftranFT_value1 st i w.array| < c.tiny then c.zero
            else ftranFT_value1 st i w.array) ∧
        (getI w.array (getI st.PFpivotIndex i) = 0 →
          (ftranFT_step c st i w).index = setI w.index w.count (getI st.PFpivotIndex i) ∧
          (ftranFT_step c st i w).count = w.count + 1) ∧
        (getI w.array (getI st.PFpivotIndex i) ≠ 0 →
          (ftranFT_step c st i w).index = w.index ∧
          (ftranFT_step c st i w).count = w.count)) ∧
      (∀ j : Int, j ≠ getI st.PFpivotIndex i →
        getI (ftranFT_step c st i w).array j = getI w.array j) := by
  obtain ⟨ea, ei, ec, -⟩ := ftranFT_eq_after c st v
  refine ⟨fun k => forRange_natCast_succ k _ _, ea, ei, ec, ?_⟩
  intro i w
  refine ⟨?_, ?_, ?_, ?_⟩
  · unfold ftranFT_value1
    exact forRange_sub _ _ (fun k => getI w.array (getI st.PFindex k) * getI st.PFvalue k) _
  · rintro ⟨h0, h1⟩
    unfold ftranFT_step
    dsimp only
    rw [if_neg (by rw [h0, h1]; simp)]
  · intro hne
    have hcond : getI w.array (getI st.PFpivotIndex i) ≠ 0 ∨ ftranFT_value1 st i w.array ≠ 0 := by
      by_cases h0 : getI w.array (getI st.PFpivotIndex i) = 0
      · right; exact fun h1 => hne ⟨h0, h1⟩
      · left; exact h0
    refine ⟨?_, ?_, ?_⟩
    · unfold ftranFT_step
      dsimp only
      rw [if_pos hcond]
      split <;> rfl
    · intro h0
      unfold ftranFT_step
      dsimp only
      rw [if_pos hcond, if_pos h0]
      exact ⟨rfl, rfl⟩
    · intro h0
      unfold ftranFT_step
      dsimp only
      rw [if_pos hcond, if_neg h0]
      exact ⟨rfl, rfl⟩
  · intro j hj
    unfold ftranFT_step
    dsimp only
    split
    · split
      · exact getI_setI_ne _ _ (Ne.symm hj)
      · exact getI_setI_ne _ _ (Ne.symm hj)
    · rfl

theorem C19_witness :
    ¬ (getI exEtaVec.array (getI (updateFT exAq exEp0 0 exStore).PFpivotIndex 0) = 0 ∧
      ftranFT_value1 (updateFT exAq exEp0 0 exStore) 0 exEtaVec.array = 0) ∧
    (ftranFT_step exConsts (updateFT exAq exEp0 0 exStore) 0 exEtaVec).array =
      [1 / 10 ^ 50, 7] := by
  have h := ((C19_ftranFT_step_rule exConsts (updateFT exAq exEp0 0 exStore)
    exEtaVec).2.2.2.2 0 exEtaVec).2.2.1 (by decide!)
  exact ⟨by decide!, h.1.trans (by decide!)⟩

/-- C19 fails as stated: on the store obtained from the two-row store by one
update, whose eta has pivot row 0 and the entry `(1, 5/7)`, `ftranFT` on `(5, 7)`
finds `v0 = 5` and `v1 = 5 - 7 * (5/7) = 0`, and stores the sentinel
`HIGHS_CONST_ZERO = 1e-50` in `array[0]`, not 0. -/
theorem C19_counterexample :
    (updateFT exAq exEp0 0 exStore).PFpivotIndex = [0] ∧
    (updateFT exAq exEp0 0 exStore).PFindex = [1] ∧
    (updateFT exAq exEp0 0 exStore).PFvalue = [5 / 7] ∧
    ftranFT_value1 (updateFT exAq exEp0 0 exStore) 0 exEtaVec.array = 0 ∧
    getI (ftranFT exConsts (updateFT exAq exEp0 0 exStore) exEtaVec).array 0 = 1 / 10 ^ 50 ∧
    getI (ftranFT exConsts (updateFT exAq exEp0 0 exStore) exEtaVec).array 0 ≠ 0 := by
  decide!


theorem sum_colEntry (idx : List Int) (val : List ℚ) (lo hi : Int) (f : Int → ℚ) (m : Int)
    (hin : ∀ t : Nat, t < (hi - lo).toNat →
      0 ≤ getI idx (lo + (t : Int)) ∧ getI idx (lo + (t : Int)) < m) :
    ∑ j ∈ Finset.range m.toNat, f (j : Int) * colEntry idx val lo hi (j : Int) =
      ∑ t ∈ Finset.range (hi - lo).toNat,
        f (getI idx (lo + (t : Int))) * getI val (lo + (t : Int)) := by
  unfold colEntry
  simp only [Finset.mul_sum]
  rw [Finset.sum_comm]
  apply Finset.sum_congr rfl
  intro t ht
  rw [Finset.mem_range] at ht
  obtain ⟨h0, h1⟩ := hin t ht
  have e : ∀ j ∈ Finset.range m.toNat,
      f (j : Int) * (if getI idx (lo + (t : Int)) = (j : Int) then getI val (lo + (t : Int))
        else 0) =
      if j = (getI idx (lo + (t : Int))).toNat
      then f (getI idx (lo + (t : Int))) * getI val (lo + (t : Int)) else 0 := by
    intro j _
    by_cases h : j = (getI idx (lo + (t : Int))).toNat
    · have h' : getI idx (lo + (t : Int)) = (j : Int) := by omega
      rw [if_pos h', if_pos h, h']
    · have h' : ¬ getI idx (lo + (t : Int)) = (j : Int) := by omega
      rw [if_neg h', if_neg h, mul_zero]
  rw [Finset.sum_congr rfl e, Finset.sum_ite_eq' (Finset.range m.toNat),
    if_pos (by rw [Finset.mem_range]; omega)]

/-- An eta step and its transpose: `⟨E f, g⟩ = ⟨f, Eᵀ g⟩` for
`(E f)(r) = f(r) - Σ f(idx[k]) val[k]` and `(Eᵀ g)(j) = g(j) - g(r) Σ_{idx[k] = j} val[k]`. -/
theorem dot_eta (idx : List Int) (val : List ℚ) (lo hi : Int) (r m : Int)
    (hr0 : 0 ≤ r) (hr1 : r < m)
    (hin : ∀ t : Nat, t < (hi - lo).toNat →
      0 ≤ getI idx (lo + (t : Int)) ∧ getI idx (lo + (t : Int)) < m)
    (f g f' g' : Int → ℚ)
    (hf' : ∀ j : Int, f' j = if j = r then
      f r - ∑ t ∈ Finset.range (hi - lo).toNat,
        f (getI idx (lo + (t : Int))) * getI val (lo + (t : Int)) else f j)
    (hg' : ∀ j : Int, g' j = g j - g r * colEntry idx val lo hi j) :
    ∑ j ∈ Finset.range m.toNat, f' (j : Int) * g (j : Int) =
      ∑ j ∈ Finset.range m.toNat, f (j : Int) * g' (j : Int) := by
  have e1 : ∀ j ∈ Finset.range m.toNat, f' (j : Int) * g (j : Int) =
      f (j : Int) * g (j : Int) - (if j = r.toNat then
        (∑ t ∈ Finset.range (hi - lo).toNat,
          f (getI idx (lo + (t : Int))) * getI val (lo + (t : Int))) * g r else 0) := by
    intro j _
    rw [hf']
    by_cases h : j = r.toNat
    · have h' : (j : Int) = r := by omega
      rw [if_pos h', if_pos h, h']
      ring
    · have h' : ¬ (j : Int) = r := by omega
      rw [if_neg h', if_neg h, sub_zero]
  have e2 : ∀ j ∈ Finset.range m.toNat, f (j : Int) * g' (j : Int) =
      f (j : Int) * g (j : Int) - g r * (f (j : Int) * colEntry idx val lo hi (j : Int)) := by
    intro j _
    rw [hg']
    ring
  rw [Finset.sum_congr rfl e1, Finset.sum_congr rfl e2, Finset.sum_sub_distrib,
    Finset.sum_sub_distrib, Finset.sum_ite_eq' (Finset.range m.toNat),
    if_pos (by rw [Finset.mem_range]; omega), ← Finset.mul_sum,
    sum_colEntry idx val lo hi f m hin]
  ring


/-- The inner loop of `btranFT` without clamp is a scatter. -/
theorem btranFT_inner_loop (c : Consts) (st : HFactor) (w : Work) (i : Int) (n : Nat)
    (hnc : ∀ u : Nat, u < n → c.tiny ≤ |btranFT_value1 c st w i u|) (k : Nat) (hk : k ≤ n) :
    (loopUp (fun j s => btranFT_inner c st (getI w.array (getI st.PFpivotIndex i))
        (getI st.PFstart i + (j : Int)) s) k
      { w with tick := w.tick + ((getI st.PFstart (i + 1) - getI st.PFstart i : Int) : ℚ) }).array =
    loopUp (fun j b => setI b (getI st.PFindex (getI st.PFstart i + (j : Int)))
        (getI b (getI st.PFindex (getI st.PFstart i + (j : Int))) -
          getI w.array (getI st.PFpivotIndex i) * getI st.PFvalue (getI st.PFstart i + (j : Int))))
      k w.array := by
  induction k with
  | zero => rfl
  | succ k ih =>
    have ih' := ih (by omega)
    have hc := hnc k (by omega)
    unfold btranFT_value1 at hc
    show (btranFT_inner c st _ _ (loopUp _ k _)).array = setI (loopUp _ k _) _ _
    rw [← ih']
    generalize loopUp (fun j s => btranFT_inner c st (getI w.array (getI st.PFpivotIndex i))
        (getI st.PFstart i + (j : Int)) s) k
      { w with tick := w.tick + ((getI st.PFstart (i + 1) - getI st.PFstart i : Int) : ℚ) } = S
      at hc
    unfold btranFT_inner
    dsimp only
    rw [if_neg (not_lt.mpr hc)]
    split <;> rfl

/-- The array after one eta of `btranFT` without clamp. -/
theorem btranFT_step_array (c : Consts) (st : HFactor) (w : Work) (i : Int)
    (hnc : btranFT_noClampAt c st w i)
    (hin : ∀ t : Nat, t < (getI st.PFstart (i + 1) - getI st.PFstart i).toNat →
      0 ≤ getI st.PFindex (getI st.PFstart i + (t : Int)) ∧
      getI st.PFindex (getI st.PFstart i + (t : Int)) < sizeI w.array) :
    sizeI (btranFT_step c st i w).array = sizeI w.array ∧
    ∀ j : Int, getI (btranFT_step c st i w).array j =
      getI w.array j - getI w.array (getI st.PFpivotIndex i) *
        colEntry st.PFindex st.PFvalue (getI st.PFstart i) (getI st.PFstart (i + 1)) j := by
  by_cases hx : getI w.array (getI st.PFpivotIndex i) ≠ 0
  · have e : (btranFT_step c st i w).array =
        loopUp (fun j b => setI b (getI st.PFindex (getI st.PFstart i + (j : Int)))
          (getI b (getI st.PFindex (getI st.PFstart i + (j : Int))) -
            getI w.array (getI st.PFpivotIndex i) *
              getI st.PFvalue (getI st.PFstart i + (j : Int))))
          (getI st.PFstart (i + 1) - getI st.PFstart i).toNat w.array := by
      rw [← btranFT_inner_loop c st w i _ (hnc hx) _ (le_refl _)]
      unfold btranFT_step forRange
      dsimp only
      rw [if_pos hx]
    rw [e]
    refine ⟨(getI_loop_scatter _ _ _ _ _ _ hin 0).1, fun j => ?_⟩
    rw [(getI_loop_scatter _ _ _ _ _ _ hin j).2]
    rfl
  · have e : btranFT_step c st i w = w := by
      unfold btranFT_step
      dsimp only
      rw [if_neg hx]
    rw [e]
    refine ⟨rfl, fun j => ?_⟩
    rw [not_not.mp hx, zero_mul, sub_zero]

/-- The array after one eta of `ftranFT` without clamp. -/
theorem ftranFT_step_getI (c : Consts) (st : HFactor) (i : Int) (v : HVector)
    (hnc : (getI v.array (getI st.PFpivotIndex i) = 0 ∧ ftranFT_value1 st i v.array = 0) ∨
      c.tiny ≤ |ftranFT_value1 st i v.array|)
    (h0 : 0 ≤ getI st.PFpivotIndex i) (h1 : getI st.PFpivotIndex i < sizeI v.array) :
    sizeI (ftranFT_step c st i v).array = sizeI v.array ∧
    ∀ j : Int, getI (ftranFT_step c st i v).array j =
      if j = getI st.PFpivotIndex i then
        getI v.array (getI st.PFpivotIndex i) -
          ∑ t ∈ Finset.range (getI st.PFstart (i + 1) - getI st.PFstart i).toNat,
            getI v.array (getI st.PFindex (getI st.PFstart i + (t : Int))) *
              getI st.PFvalue (getI st.PFstart i + (t : Int))
      else getI v.array j := by
  have hv : ftranFT_value1 st i v.array = getI v.array (getI st.PFpivotIndex i) -
      ∑ t ∈ Finset.range (getI st.PFstart (i + 1) - getI st.PFstart i).toNat,
        getI v.array (getI st.PFindex (getI st.PFstart i + (t : Int))) *
          getI st.PFvalue (getI st.PFstart i + (t : Int)) := by
    unfold ftranFT_value1
    exact forRange_sub _ _ (fun k => getI v.array (getI st.PFindex k) * getI st.PFvalue k) _
  rw [ftranFT_step_array c st i v hnc]
  refine ⟨sizeI_setI _ _ _, fun j => ?_⟩
  rw [getI_setI, hv]
  by_cases h : j = getI st.PFpivotIndex i
  · rw [if_pos ⟨h.symm, h0, h1⟩, if_pos h]
  · rw [if_neg (fun q => h q.1.symm), if_neg h]


theorem btranFT_eq_after (c : Consts) (st : HFactor) (v : HVector) :
    (btranFT c st v).array = (btranFT_after c st v st.PFpivotIndex.length).array := by
  unfold btranFT btranFT_after
  dsimp only
  have e : (sizeI st.PFpivotIndex).toNat = st.PFpivotIndex.length := by
    unfold sizeI; omega
  rw [e, loopDown_eq_loopUp]

/-- The arrays of `ftranFT` and `btranFT` keep their sizes. -/
theorem FT_sizes (c : Consts) (st : HFactor) (v w : HVector) (m : Int)
    (hrows : EtaRows m st) (hw : m ≤ sizeI w.array)
    (hfc : ftranFT_noClamp c st v) (hbc : btranFT_noClamp c st w) (k : Nat)
    (hk : k ≤ st.PFpivotIndex.length) :
    sizeI (ftranFT_after c st v k).array = sizeI v.array ∧
    sizeI (btranFT_after c st w k).array = sizeI w.array := by
  induction k with
  | zero => exact ⟨rfl, rfl⟩
  | succ k ih =>
    obtain ⟨i1, i2⟩ := ih (by omega)
    constructor
    · have hstep : ftranFT_after c st v (k + 1) =
          ftranFT_step c st (k : Int) (ftranFT_after c st v k) :=
        forRange_natCast_succ k _ _
      rw [hstep, ftranFT_step_array c st _ _ (hfc k (by omega)), sizeI_setI, i1]
    · have hstep : btranFT_after c st w (k + 1) =
          btranFT_step c st ((st.PFpivotIndex.length - 1 - k : Nat) : Int)
            (btranFT_after c st w k) := rfl
      rw [hstep, (btranFT_step_array c st _ _ (hbc k (by omega)) (by
        intro t ht
        have := (hrows (st.PFpivotIndex.length - 1 - k) (by omega)).2 t ht
        rw [i2]
        exact ⟨this.1, by omega⟩)).1, i2]

/-- C20: `btranFT` is the transpose of `ftranFT`. For an eta file whose rows are
among `0 .. m-1`, and vectors `v`, `w` with room for these rows on which no
tiny-value clamp fires, `Σ_j ftranFT(v)[j] * w[j] = Σ_j v[j] * btranFT(w)[j]`,
the sums over the rows `0 .. m-1`, in exact arithmetic. -/
theorem C20_btranFT_transpose (c : Consts) (st : HFactor) (v w : HVector) (m : Int)
    (hrows : EtaRows m st) (hv : m ≤ sizeI v.array) (hw : m ≤ sizeI w.array)
    (hfc : ftranFT_noClamp c st v) (hbc : btranFT_noClamp c st w) :
    ∑ j ∈ Finset.range m.toNat,
      getI (ftranFT c st v).array (j : Int) * getI w.array (j : Int) =
    ∑ j ∈ Finset.range m.toNat,
      getI v.array (j : Int) * getI (btranFT c st w).array (j : Int) := by
  have hsz := FT_sizes c st v w m hrows hw hfc hbc
  have key : ∀ k : Nat, k ≤ st.PFpivotIndex.length →
      ∑ j ∈ Finset.range m.toNat,
        getI (ftranFT_after c st v st.PFpivotIndex.length).array (j : Int) *
          getI w.array (j : Int) =
      ∑ j ∈ Finset.range m.toNat,
        getI (ftranFT_after c st v (st.PFpivotIndex.length - k)).array (j : Int) *
          getI (btranFT_after c st w k).array (j : Int) := by
    intro k
    induction k with
    | zero => intro _; rfl
    | succ k ih =>
      intro hk
      rw [ih (by omega)]
      have hi : st.PFpivotIndex.length - 1 - k < st.PFpivotIndex.length := by omega
      obtain ⟨⟨hr0, hr1⟩, hin⟩ := hrows _ hi
      have e1 : st.PFpivotIndex.length - k = (st.PFpivotIndex.length - 1 - k) + 1 := by omega
      have e2 : st.PFpivotIndex.length - (k + 1) = st.PFpivotIndex.length - 1 - k := by omega
      rw [e1, e2]
      have hstepF : ftranFT_after c st v ((st.PFpivotIndex.length - 1 - k) + 1) =
          ftranFT_step c st ((st.PFpivotIndex.length - 1 - k : Nat) : Int)
            (ftranFT_after c st v (st.PFpivotIndex.length - 1 - k)) :=
        forRange_natCast_succ _ _ _
      have hstepB : btranFT_after c st w (k + 1) =
          btranFT_step c st ((st.PFpivotIndex.length - 1 - k : Nat) : Int)
            (btranFT_after c st w k) := rfl
      have sF := (hsz (st.PFpivotIndex.length - 1 - k) (by omega)).1
      have sB := (hsz k (by omega)).2
      obtain ⟨-, gF⟩ := ftranFT_step_getI c st ((st.PFpivotIndex.length - 1 - k : Nat) : Int)
        (ftranFT_after c st v (st.PFpivotIndex.length - 1 - k)) (hfc _ hi) hr0
        (by rw [sF]; omega)
      obtain ⟨-, gB⟩ := btranFT_step_array c st (btranFT_after c st w k)
        ((st.PFpivotIndex.length - 1 - k : Nat) : Int) (hbc k (by omega)) (by
          intro t ht
          have := hin t ht
          rw [sB]
          exact ⟨this.1, by omega⟩)
      rw [hstepF, hstepB]
      exact dot_eta st.PFindex st.PFvalue _ _ _ m hr0 hr1 hin
        (getI (ftranFT_after c st v (st.PFpivotIndex.length - 1 - k)).array)
        (getI (btranFT_after c st w k).array) _ _ gF gB
  have hfin := key st.PFpivotIndex.length (le_refl _)
  rw [Nat.sub_self] at hfin
  rw [(ftranFT_eq_after c st v).1, btranFT_eq_after, hfin]
  rfl

theorem C20_witness :
    EtaRows 2 (updateFT exAq exEp0 0 exStore) ∧
    ftranFT_noClamp exConsts (updateFT exAq exEp0 0 exStore) exCol ∧
    btranFT_noClamp exConsts (updateFT exAq exEp0 0 exStore) (exUnit 0) ∧
    ∑ j ∈ Finset.range (2 : Int).toNat,
      getI (ftranFT exConsts (updateFT exAq exEp0 0 exStore) exCol).array (j : Int) *
        getI (exUnit 0).array (j : Int) =
    ∑ j ∈ Finset.range (2 : Int).toNat,
      getI exCol.array (j : Int) *
        getI (btranFT exConsts (updateFT exAq exEp0 0 exStore) (exUnit 0)).array (j : Int) :=
  ⟨by decide!, by decide!, by decide!,
   C20_btranFT_transpose exConsts (updateFT exAq exEp0 0 exStore) exCol (exUnit 0) 2
     (by decide!) (by decide) (by decide) (by decide!) (by decide!)⟩


theorem getI_setI_at {α : Type} [Zero α] (l : List α) (p : Int) (x : α)
    (h : sizeI l ≤ p → x = 0) (hp : 0 ≤ p) : getI (setI l p x) p = x := by
  rw [getI_setI]
  by_cases hl : p < sizeI l
  · rw [if_pos ⟨rfl, hp, hl⟩]
  · rw [if_neg (fun hh => hl hh.2.2), h (by omega)]
    exact getI_ge l (by omega)

/-- After any number of iterations of the loop of `tight`, every entry listed so
far has magnitude above the tolerance, and the entries not yet read are as
they were. -/
theorem tight_prefix_above (tol : ℚ) (v : HVector) (k : Nat) :
    0 ≤ (forRange 0 (k : Int) (tightStep tol) { v with count := 0 }).count ∧
    (forRange 0 (k : Int) (tightStep tol) { v with count := 0 }).count ≤ k ∧
    sizeI (forRange 0 (k : Int) (tightStep tol) { v with count := 0 }).index = sizeI v.index ∧
    (∀ j : Int, (k : Int) ≤ j →
      getI (forRange 0 (k : Int) (tightStep tol) { v with count := 0 }).index j =
        getI v.index j) ∧
    ∀ i : Nat, (i : Int) < (forRange 0 (k : Int) (tightStep tol) { v with count := 0 }).count →
      tol < |getI (forRange 0 (k : Int) (tightStep tol) { v with count := 0 }).array
        (getI (forRange 0 (k : Int) (tightStep tol) { v with count := 0 }).index (i : Int))| := by
  induction k with
  | zero => exact ⟨le_refl _, le_refl _, rfl, fun _ _ => rfl, fun i hi => by
      exfalso
      have : (i : Int) < 0 := hi
      omega⟩
  | succ k ih =>
    obtain ⟨h0, h1, hs, hi, ha⟩ := ih
    rw [forRange_natCast_succ]
    generalize forRange 0 (k : Int) (tightStep tol) { v with count := 0 } = T at h0 h1 hs hi ha
    unfold tightStep
    dsimp only
    by_cases hv : |getI T.array (getI T.index (k : Int))| > tol
    · rw [if_pos hv]
      dsimp only
      refine ⟨by omega, by push_cast; omega, by rw [sizeI_setI]; exact hs, ?_, ?_⟩
      · intro j hj
        rw [getI_setI_ne _ _ (by push_cast at hj; omega)]
        exact hi j (by push_cast at hj; omega)
      · intro i hic
        by_cases hic' : (i : Int) = T.count
        · rw [hic', getI_setI_at _ _ _ (fun hsz => getI_ge _ (by omega)) h0]
          exact hv
        · rw [getI_setI_ne _ _ (fun hh => hic' hh.symm)]
          exact ha i (by omega)
    · rw [if_neg hv]
      dsimp only
      refine ⟨h0, by push_cast; omega, hs, ?_, ?_⟩
      · intro j hj
        exact hi j (by push_cast at hj; omega)
      · intro i hic
        have hne : getI T.index (k : Int) ≠ getI T.index (i : Int) := by
          intro hh
          apply hv
          rw [hh]
          exact ha i hic
        rw [getI_setI_ne _ _ hne]
        exact ha i hic

/-- C26: `tight()` is idempotent: for every sparse vector and every tolerance, a
second application of `tight` changes nothing, so `count`, `index[0..count)`
and `array` (and every other member) are what the first application left. -/
theorem C26_tight_idempotent (tol : ℚ) (v : HVector) :
    tight tol (tight tol v) = tight tol v ∧
    (tight tol (tight tol v)).count = (tight tol v).count ∧
    (tight tol (tight tol v)).array = (tight tol v).array ∧
    ∀ i : Int, 0 ≤ i → i < (tight tol v).count →
      getI (tight tol (tight tol v)).index i = getI (tight tol v).index i := by
  have hp := tight_prefix_above tol v v.count.toNat
  have he : tight tol v = forRange 0 ((v.count.toNat : Nat) : Int) (tightStep tol)
      { v with count := 0 } := by
    unfold tight
    rw [forRange_toNat]
  rw [← he] at hp
  obtain ⟨h0, -, -, -, ha⟩ := hp
  have key : tight tol (tight tol v) = tight tol v := by
    apply tight_eq_self tol _ h0
    intro i hi
    exact ha i (by omega)
  rw [key]
  exact ⟨rfl, rfl, rfl, fun _ _ _ => rfl⟩


theorem ftranU_step_tomb (c : Consts) (st : HFactor) (pv : List ℚ) (us ul urs url : List Int)
    (i : Int)
    (h : getI st.UpivotIndex i ≠ -1 →
      getI pv i = getI st.UpivotValue i ∧ getI us i = getI st.Ustart i ∧
      getI ul i = getI st.Ulastp i) :
    ftranU_step c (withSlots st pv us ul urs url) i = ftranU_step c st i := by
  funext w
  unfold ftranU_step withSlots
  dsimp only
  by_cases ht : getI st.UpivotIndex i = -1
  · rw [if_pos ht, if_pos ht]
  · obtain ⟨h1, h2, h3⟩ := h ht
    rw [if_neg ht, if_neg ht, h1, h2, h3]

theorem btranU_step_tomb (c : Consts) (st : HFactor) (pv : List ℚ) (us ul urs url : List Int)
    (i : Int)
    (h : getI st.UpivotIndex i ≠ -1 →
      getI pv i = getI st.UpivotValue i ∧ getI urs i = getI st.URstart i ∧
      getI url i = getI st.URlastp i) :
    btranU_step c (withSlots st pv us ul urs url) i = btranU_step c st i := by
  funext w
  unfold btranU_step withSlots
  dsimp only
  by_cases ht : getI st.UpivotIndex i = -1
  · rw [if_pos ht, if_pos ht]
  · obtain ⟨h1, h2, h3⟩ := h ht
    rw [if_neg ht, if_neg ht, h1, h2, h3]

theorem solves_tomb (c : Consts) (st : HFactor) (pv : List ℚ) (us ul urs url : List Int)
    (rhs : HVector)
    (h : ∀ i : Nat, i < st.UpivotIndex.length → getI st.UpivotIndex (i : Int) ≠ -1 →
      getI pv (i : Int) = getI st.UpivotValue (i : Int) ∧
      getI us (i : Int) = getI st.Ustart (i : Int) ∧
      getI ul (i : Int) = getI st.Ulastp (i : Int) ∧
      getI urs (i : Int) = getI st.URstart (i : Int) ∧
      getI url (i : Int) = getI st.URlastp (i : Int)) :
    ftranU c (withSlots st pv us ul urs url) rhs = ftranU c st rhs ∧
    btranU c (withSlots st pv us ul urs url) rhs = btranU c st rhs := by
  constructor
  · have e1 : ftranU_update c (withSlots st pv us ul urs url) rhs =
        ftranU_update c st rhs := rfl
    unfold ftranU
    rw [e1]
    generalize ftranU_update c st rhs = x
    unfold ftranU_regular withSlots
    dsimp only
    have e2 : loopDown (fun j => ftranU_step c (withSlots st pv us ul urs url) (j : Int))
        (sizeI st.UpivotIndex).toNat
        ⟨0, 0, x.index, x.array⟩ =
        loopDown (fun j => ftranU_step c st (j : Int)) (sizeI st.UpivotIndex).toNat
        ⟨0, 0, x.index, x.array⟩ := by
      rw [loopDown_eq_loopUp, loopDown_eq_loopUp]
      apply loopUp_congr
      intro t ht
      have ht' : t < st.UpivotIndex.length := by
        simp only [sizeI, Int.toNat_ofNat] at ht
        exact ht
      have hlt : (sizeI st.UpivotIndex).toNat - 1 - t < st.UpivotIndex.length := by
        simp only [sizeI, Int.toNat_ofNat]
        omega
      exact ftranU_step_tomb c st pv us ul urs url _
        (fun hne => ⟨(h _ hlt hne).1, (h _ hlt hne).2.1, (h _ hlt hne).2.2.1⟩)
    unfold withSlots at e2
    rw [e2]
  · have e1 : ∀ y, btranU_update c (withSlots st pv us ul urs url) y =
        btranU_update c st y := fun _ => rfl
    unfold btranU
    rw [e1]
    congr 1
    unfold btranU_regular withSlots
    dsimp only
    have e2 : forRange 0 (sizeI st.UpivotIndex) (btranU_step c (withSlots st pv us ul urs url))
        ⟨0, 0, rhs.index, rhs.array⟩ =
        forRange 0 (sizeI st.UpivotIndex) (btranU_step c st) ⟨0, 0, rhs.index, rhs.array⟩ := by
      apply forRange_congr
      intro k hk0 hk1
      have hlt : k.toNat < st.UpivotIndex.length := by
        simp only [sizeI] at hk1
        omega
      have hk : ((k.toNat : Nat) : Int) = k := by omega
      have hh := h _ hlt
      rw [hk] at hh
      exact btranU_step_tomb c st pv us ul urs url _
        (fun hne => ⟨(hh hne).1, (hh hne).2.2.2.1, (hh hne).2.2.2.2⟩)
    unfold withSlots at e2
    rw [e2]

/-- C22: tombstones are skipped by the solves. Two stores that differ only in
`UpivotValue[i]`, `Ustart[i]`, `Ulastp[i]`, `URstart[i]` and `URlastp[i]` of slots
`i` with `UpivotIndex[i] == -1` give the same `ftranU` and the same `btranU` on
the same right-hand side: the same `array`, `index` and `count` (the whole
vector, `syntheticTick` included, is the same). -/
theorem C22_tombstones_skipped (c : Consts) (st st2 : HFactor) (rhs : HVector)
    (h : SameOffTombstones st st2) :
    ftranU c st2 rhs = ftranU c st rhs ∧ btranU c st2 rhs = btranU c st rhs ∧
    (ftranU c st2 rhs).array = (ftranU c st rhs).array ∧
    (ftranU c st2 rhs).index = (ftranU c st rhs).index ∧
    (ftranU c st2 rhs).count = (ftranU c st rhs).count ∧
    (btranU c st2 rhs).array = (btranU c st rhs).array ∧
    (btranU c st2 rhs).index = (btranU c st rhs).index ∧
    (btranU c st2 rhs).count = (btranU c st rhs).count := by
  obtain ⟨h1, h2⟩ := h
  have e : st2 = withSlots st st2.UpivotValue st2.Ustart st2.Ulastp st2.URstart st2.URlastp := by
    rw [← h1]
    rfl
  have hs := solves_tomb c st st2.UpivotValue st2.Ustart st2.Ulastp st2.URstart st2.URlastp
    rhs h2
  rw [← e] at hs
  rw [hs.1, hs.2]
  exact ⟨rfl, rfl, rfl, rfl, rfl, rfl, rfl, rfl⟩

/-- C22, at an input: after the first update slot 0 is a tombstone; with other
values in its five members the two solves give the same vectors, here
`ftranU (1, 1)` and `btranU e_0`. -/
theorem C22_witness :
    getI (updateFT exAq exEp0 0 exStore).UpivotIndex 0 = -1 ∧
    exStoreTomb ≠ updateFT exAq exEp0 0 exStore ∧
    ftranU exConsts exStoreTomb exCol = ftranU exConsts (updateFT exAq exEp0 0 exStore) exCol ∧
    btranU exConsts exStoreTomb (exUnit 0) =
      btranU exConsts (updateFT exAq exEp0 0 exStore) (exUnit 0) := by
  have h := C22_tombstones_skipped exConsts (updateFT exAq exEp0 0 exStore) exStoreTomb exCol
    (by decide!)
  have h2 := C22_tombstones_skipped exConsts (updateFT exAq exEp0 0 exStore) exStoreTomb
    (exUnit 0) (by decide!)
  exact ⟨by decide, by decide!, h.1, h2.2.1⟩


theorem ftranU_step_tick (c : Consts) (st : HFactor) (i : Int) (w : Work) :
    (ftranU_step c st i w).tick =
      w.tick + (((if st.numRow ≤ i ∧ (getI st.UpivotIndex i ≠ -1 ∧
          c.tiny < |getI w.array (getI st.UpivotIndex i)|)
        then getI st.Ulastp i - getI st.Ustart i else 0 : Int)) : ℚ) := by
  unfold ftranU_step
  by_cases ht : getI st.UpivotIndex i = -1
  · rw [if_pos ht, if_neg (fun hh => hh.2.1 ht)]
    simp
  · rw [if_neg ht]
    dsimp only
    by_cases hv : |getI w.array (getI st.UpivotIndex i)| > c.tiny
    · rw [if_pos hv]
      dsimp only
      by_cases hr : i ≥ st.numRow
      · rw [if_pos hr, if_pos ⟨hr, ht, hv⟩]
      · rw [if_neg hr, if_neg (fun hh => hr hh.1)]
        simp
    · rw [if_neg hv, if_neg (fun hh => hv hh.2.2)]
      simp

theorem ftranU_after_tick (c : Consts) (st : HFactor) (rhs : HVector) (k : Nat)
    (hk : k ≤ st.UpivotIndex.length) :
    (ftranU_after c st rhs k).tick =
      ((∑ t ∈ Finset.range k,
        if st.numRow ≤ ((st.UpivotIndex.length - 1 - t : Nat) : Int) ∧
          ftranU_kept c st rhs (st.UpivotIndex.length - 1 - t) = true
        then getI st.Ulastp ((st.UpivotIndex.length - 1 - t : Nat) : Int) -
          getI st.Ustart ((st.UpivotIndex.length - 1 - t : Nat) : Int) else 0 : Int) : ℚ) := by
  induction k with
  | zero => simp [ftranU_after, loopUp]
  | succ k ih =>
    have hstep : ftranU_after c st rhs (k + 1) =
        ftranU_step c st ((st.UpivotIndex.length - 1 - k : Nat) : Int)
          (ftranU_after c st rhs k) := rfl
    rw [hstep, ftranU_step_tick, ih (by omega), Finset.sum_range_succ]
    have hkk : st.UpivotIndex.length - 1 - (st.UpivotIndex.length - 1 - k) = k := by omega
    have hiff : (getI st.UpivotIndex ((st.UpivotIndex.length - 1 - k : Nat) : Int) ≠ -1 ∧
        c.tiny < |getI (ftranU_after c st rhs k).array
          (getI st.UpivotIndex ((st.UpivotIndex.length - 1 - k : Nat) : Int))|) ↔
        ftranU_kept c st rhs (st.UpivotIndex.length - 1 - k) = true := by
      unfold ftranU_kept liveSlot
      rw [hkk]
      simp
    simp only [hiff]
    push_cast
    rfl

/-- C21: the work counter of `ftranU`. When the density test of line 95 selects
the loop over `U`, that part of `ftranU` adds to `rhs.syntheticTick` exactly
`15 * W + 10 * (len(UpivotIndex) - numRow)`, where `W` is the sum of the column
lengths `Ulastp[i] - Ustart[i]` over the live slots `i ≥ numRow` whose pivot
value had magnitude above `tiny` when the loop visited them. -/
theorem C21_ftranU_tick (c : Consts) (st : HFactor) (rhs : HVector)
    (hdense : ftranU_dense c st (ftranU_update c st rhs)) :
    (ftranU c st rhs).syntheticTick =
      (ftranU_update c st rhs).syntheticTick +
        (15 * (ftranU_work c st (ftranU_update c st rhs) : ℚ) +
          10 * ((sizeI st.UpivotIndex - st.numRow : Int) : ℚ)) := by
  unfold ftranU
  generalize ftranU_update c st rhs = x at hdense ⊢
  unfold ftranU_regular
  dsimp only
  unfold ftranU_dense at hdense
  rw [if_pos hdense]
  show x.syntheticTick + ((loopDown (fun j => ftranU_step c st (j : Int))
    (sizeI st.UpivotIndex).toNat ⟨0, 0, x.index, x.array⟩).tick * 15 +
      (((sizeI st.UpivotIndex - st.numRow) * 10 : Int) : ℚ)) = _
  rw [loopDown_eq_loopUp]
  have e : loopUp (fun t => ftranU_step c st
      (((sizeI st.UpivotIndex).toNat - 1 - t : Nat) : Int)) (sizeI st.UpivotIndex).toNat
      ⟨0, 0, x.index, x.array⟩ = ftranU_after c st x st.UpivotIndex.length := rfl
  rw [e, ftranU_after_tick c st x _ (le_refl _)]
  have hsum := Finset.sum_range_reflect (fun i : Nat =>
    if st.numRow ≤ (i : Int) ∧ ftranU_kept c st x i = true
    then getI st.Ulastp (i : Int) - getI st.Ustart (i : Int) else 0) st.UpivotIndex.length
  unfold ftranU_work
  rw [← hsum]
  push_cast
  ring

/-- C21, at an input: on the store left by the first update (three slots, two
rows; slot 2 is the FT extension, with one entry in its column) `ftranU` of
`(1, 1)` takes the work counter from 3 to 58: the eta pass adds
`1 * 20 + 1 * 5 + 1 * 5 = 30` and the loop over `U` adds `15 * 1 + 10 * (3 - 2) = 25`. -/
theorem C21_witness :
    ftranU_work exConsts (updateFT exAq exEp0 0 exStore)
      (ftranU_update exConsts (updateFT exAq exEp0 0 exStore) exColTick) = 1 ∧
    (ftranU_update exConsts (updateFT exAq exEp0 0 exStore) exColTick).syntheticTick = 33 ∧
    (ftranU exConsts (updateFT exAq exEp0 0 exStore) exColTick).syntheticTick = 58 := by
  have h := C21_ftranU_tick exConsts (updateFT exAq exEp0 0 exStore) exColTick (by decide!)
  exact ⟨by decide!, by decide!, h.trans (by decide!)⟩


theorem loopUp_inv_lt {σ : Type} (P : σ → Prop) (f : Nat → σ → σ) (n : Nat)
    (hf : ∀ k, k < n → ∀ s, P s → P (f k s)) (s : σ) (h : P s) : P (loopUp f n s) := by
  induction n with
  | zero => exact h
  | succ n ih => exact hf n (by omega) _ (ih (fun k hk => hf k (by omega)))

theorem clamp_ne_zero (c : Consts) (htiny : 0 < c.tiny) (hzero : c.zero ≠ 0) (x : ℚ) :
    (if |x| < c.tiny then c.zero else x) ≠ 0 := by
  split
  · exact hzero
  · rename_i h
    intro h0
    rw [h0, abs_zero] at h
    exact h htiny

/-- One step of `ftranFT` keeps the index exact, whatever it clamps. -/
theorem ftranFT_step_exact_any (c : Consts) (st : HFactor) (i : Int) (v : HVector) (m : Int)
    (htiny : 0 < c.tiny) (hzero : c.zero ≠ 0)
    (hex : IndexExact m v.count v.index v.array)
    (hrow : 0 ≤ getI st.PFpivotIndex i ∧ getI st.PFpivotIndex i < m)
    (hsz : m ≤ sizeI v.array) (hcap : m ≤ sizeI v.index) :
    IndexExact m (ftranFT_step c st i v).count (ftranFT_step c st i v).index
      (ftranFT_step c st i v).array ∧
    sizeI (ftranFT_step c st i v).array = sizeI v.array ∧
    sizeI (ftranFT_step c st i v).index = sizeI v.index := by
  obtain ⟨hA, hB⟩ := IndexExact_write m v.count v.index v.array hex _ hrow.1 hrow.2
    (by omega) hcap _ (clamp_ne_zero c htiny hzero (ftranFT_value1 st i v.array))
  unfold ftranFT_step
  dsimp only
  by_cases hw : getI v.array (getI st.PFpivotIndex i) ≠ 0 ∨ ftranFT_value1 st i v.array ≠ 0
  · rw [if_pos hw]
    by_cases h0 : getI v.array (getI st.PFpivotIndex i) = 0
    · rw [if_pos h0]
      exact ⟨hA h0, sizeI_setI _ _ _, sizeI_setI _ _ _⟩
    · rw [if_neg h0]
      exact ⟨hB h0, sizeI_setI _ _ _, rfl⟩
  · rw [if_neg hw]
    exact ⟨hex, rfl, rfl⟩

/-- One inner step of `btranFT` keeps the index exact. -/
theorem btranFT_inner_exact (c : Consts) (st : HFactor) (pivotX : ℚ) (k : Int) (w : Work)
    (m : Int) (htiny : 0 < c.tiny) (hzero : c.zero ≠ 0)
    (hex : IndexExact m w.count w.index w.array)
    (hrow : 0 ≤ getI st.PFindex k ∧ getI st.PFindex k < m)
    (hsz : m ≤ sizeI w.array) (hcap : m ≤ sizeI w.index) :
    IndexExact m (btranFT_inner c st pivotX k w).count (btranFT_inner c st pivotX k w).index
      (btranFT_inner c st pivotX k w).array ∧
    sizeI (btranFT_inner c st pivotX k w).array = sizeI w.array ∧
    sizeI (btranFT_inner c st pivotX k w).index = sizeI w.index := by
  obtain ⟨hA, hB⟩ := IndexExact_write m w.count w.index w.array hex _ hrow.1 hrow.2
    (by omega) hcap _ (clamp_ne_zero c htiny hzero
      (getI w.array (getI st.PFindex k) - pivotX * getI st.PFvalue k))
  unfold btranFT_inner
  dsimp only
  by_cases h0 : getI w.array (getI st.PFindex k) = 0
  · rw [if_pos h0]
    exact ⟨hA h0, sizeI_setI _ _ _, sizeI_setI _ _ _⟩
  · rw [if_neg h0]
    exact ⟨hB h0, sizeI_setI _ _ _, rfl⟩

/-- One outer step of `btranFT`, for an eta `i` of the file, keeps the index
exact. -/
theorem btranFT_step_exact (c : Consts) (st : HFactor) (i : Nat) (w : Work) (m : Int)
    (htiny : 0 < c.tiny) (hzero : c.zero ≠ 0) (hrows : EtaRows m st)
    (hi : i < st.PFpivotIndex.length)
    (hex : IndexExact m w.count w.index w.array)
    (hsz : m ≤ sizeI w.array) (hcap : m ≤ sizeI w.index) :
    IndexExact m (btranFT_step c st (i : Int) w).count (btranFT_step c st (i : Int) w).index
      (btranFT_step c st (i : Int) w).array ∧
    m ≤ sizeI (btranFT_step c st (i : Int) w).array ∧
    m ≤ sizeI (btranFT_step c st (i : Int) w).index ∧
    sizeI (btranFT_step c st (i : Int) w).array = sizeI w.array := by
  unfold btranFT_step
  dsimp only
  split
  · unfold forRange
    apply loopUp_inv_lt (fun s : Work => IndexExact m s.count s.index s.array ∧
      m ≤ sizeI s.array ∧ m ≤ sizeI s.index ∧ sizeI s.array = sizeI w.array)
    · intro t ht s hs
      obtain ⟨h1, h2, h3, h4⟩ := hs
      obtain ⟨a1, a2, a3⟩ := btranFT_inner_exact c st
        (getI w.array (getI st.PFpivotIndex (i : Int)))
        (getI st.PFstart (i : Int) + (t : Int)) s m htiny hzero h1 ((hrows i hi).2 t ht) h2 h3
      exact ⟨a1, by omega, by omega, by omega⟩
    · exact ⟨hex, hsz, hcap, rfl⟩
  · exact ⟨hex, hsz, hcap, rfl⟩

/-- C23: `ftranFT` and `btranFT` preserve the hyper-sparse index invariant. For
a vector of length `m` whose `index[0..count)` holds no position twice and
holds exactly the positions whose array value is not zero, and an eta file
whose rows are among `0 .. m-1`, the same holds of the vector that `ftranFT`
returns and of the vector that `btranFT` returns, and `count` is at most `m`.
The constants obey `0 < HIGHS_CONST_TINY` and `HIGHS_CONST_ZERO ≠ 0`. -/
theorem C23_eta_passes_keep_index (c : Consts) (st : HFactor) (v : HVector)
    (htiny : 0 < c.tiny) (hzero : c.zero ≠ 0)
    (hrows : EtaRows (sizeI v.array) st)
    (hcap : sizeI v.array ≤ sizeI v.index)
    (hex : IndexExact (sizeI v.array) v.count v.index v.array) :
    IndexExact (sizeI v.array) (ftranFT c st v).count (ftranFT c st v).index
      (ftranFT c st v).array ∧
    sizeI (ftranFT c st v).array = sizeI v.array ∧
    (ftranFT c st v).count ≤ sizeI v.array ∧
    IndexExact (sizeI v.array) (btranFT c st v).count (btranFT c st v).index
      (btranFT c st v).array ∧
    sizeI (btranFT c st v).array = sizeI v.array ∧
    (btranFT c st v).count ≤ sizeI v.array := by
  have hf : IndexExact (sizeI v.array) (ftranFT c st v).count (ftranFT c st v).index
      (ftranFT c st v).array ∧ sizeI (ftranFT c st v).array = sizeI v.array := by
    have hk : ∀ k : Nat, k ≤ st.PFpivotIndex.length →
        IndexExact (sizeI v.array) (ftranFT_after c st v k).count (ftranFT_after c st v k).index
          (ftranFT_after c st v k).array ∧
        sizeI (ftranFT_after c st v k).array = sizeI v.array ∧
        sizeI (ftranFT_after c st v k).index = sizeI v.index := by
      intro k
      induction k with
      | zero => exact fun _ => ⟨hex, rfl, rfl⟩
      | succ k ih =>
        intro hk
        obtain ⟨i1, i2, i3⟩ := ih (by omega)
        have hstep : ftranFT_after c st v (k + 1) =
            ftranFT_step c st (k : Int) (ftranFT_after c st v k) :=
          forRange_natCast_succ k _ _
        rw [hstep]
        obtain ⟨a1, a2, a3⟩ := ftranFT_step_exact_any c st (k : Int) (ftranFT_after c st v k)
          (sizeI v.array) htiny hzero i1 (hrows k (by omega)).1 (by omega) (by omega)
        exact ⟨a1, a2.trans i2, a3.trans i3⟩
    obtain ⟨e1, e2, e3, -⟩ := ftranFT_eq_after c st v
    rw [e1, e2, e3]
    exact ⟨(hk _ (le_refl _)).1, (hk _ (le_refl _)).2.1⟩
  have hb : IndexExact (sizeI v.array) (btranFT c st v).count (btranFT c st v).index
      (btranFT c st v).array ∧ sizeI (btranFT c st v).array = sizeI v.array := by
    unfold btranFT
    dsimp only
    have e : (sizeI st.PFpivotIndex).toNat = st.PFpivotIndex.length := by
      unfold sizeI; omega
    rw [e]
    have hP := loopDown_inv_lt (fun s : Work =>
      IndexExact (sizeI v.array) s.count s.index s.array ∧
      sizeI v.array ≤ sizeI s.array ∧ sizeI v.array ≤ sizeI s.index ∧
      sizeI s.array = sizeI v.array) (fun j => btranFT_step c st (j : Int))
      st.PFpivotIndex.length
      (by
        intro k hk s hs
        obtain ⟨h1, h2, h3, h4⟩ := hs
        obtain ⟨a1, a2, a3, a4⟩ := btranFT_step_exact c st k s (sizeI v.array) htiny hzero
          hrows hk h1 h2 h3
        exact ⟨a1, a2, a3, a4.trans h4⟩)
      ⟨0, v.count, v.index, v.array⟩ ⟨hex, le_refl _, hcap, rfl⟩
    exact ⟨hP.1, hP.2.2.2⟩
  exact ⟨hf.1, hf.2, IndexExact_count_le _ _ _ _ hf.1 (sizeI_nonneg _), hb.1, hb.2,
    IndexExact_count_le _ _ _ _ hb.1 (sizeI_nonneg _)⟩

/-- C23, at an input: the vector `(5, 7)` with both rows listed, on the store left
by the first update, whose eta clamps row 0 in `ftranFT` to the sentinel. -/
theorem C23_witness :
    IndexExact 2 (ftranFT exConsts (updateFT exAq exEp0 0 exStore) exEtaVec).count
      (ftranFT exConsts (updateFT exAq exEp0 0 exStore) exEtaVec).index
      (ftranFT exConsts (updateFT exAq exEp0 0 exStore) exEtaVec).array ∧
    (ftranFT exConsts (updateFT exAq exEp0 0 exStore) exEtaVec).array = [1 / 10 ^ 50, 7] ∧
    IndexExact 2 (btranFT exConsts (updateFT exAq exEp0 0 exStore) exEtaVec).count
      (btranFT exConsts (updateFT exAq exEp0 0 exStore) exEtaVec).index
      (btranFT exConsts (updateFT exAq exEp0 0 exStore) exEtaVec).array := by
  have h := C23_eta_passes_keep_index exConsts (updateFT exAq exEp0 0 exStore) exEtaVec
    (by decide!) (by decide!) (by decide!) (by decide) (by decide!)
  exact ⟨h.1, by decide!, h.2.2.2.1⟩


/-- What one deletion does, seen from the state of the loop just before it: the
search ends on the entry labelled `target` inside the range, the range loses
that entry and keeps the others, and nothing outside the range is written. -/
theorem segDelete_step_spec (start : List Int) (target : Int) (seg : Nat → Int) (n : Nat)
    (T : Int → Prop) (lastp0 idx0 : List Int) (val0 : List ℚ)
    (h1 : sizeI val0 = sizeI idx0)
    (h2 : ∀ l, T l → 0 ≤ l ∧ l < sizeI lastp0 ∧ 0 ≤ getI start l ∧
      getI start l ≤ getI lastp0 l ∧ getI lastp0 l ≤ sizeI idx0)
    (h3 : ∀ l l', T l → T l' → l ≠ l' →
      getI lastp0 l ≤ getI start l' ∨ getI lastp0 l' ≤ getI start l)
    (h4 : ∀ l, T l → SegNodup idx0 (getI start l) (getI lastp0 l))
    (h5 : ∀ t, t < n → T (seg t) ∧
      ∃ u : Nat, u < (getI lastp0 (seg t) - getI start (seg t)).toNat ∧
        getI idx0 (getI start (seg t) + (u : Int)) = target)
    (h6 : ∀ t u, t < n → u < n → seg t = seg u → t = u)
    (k : Nat) (hk : k < n) :
    ∀ S, S = loopUp (fun t S => segDelete start target (seg t) S) k (lastp0, idx0, val0) →
    (getI S.1 (seg k) = getI lastp0 (seg k) ∧
      ∀ a : Int, getI start (seg k) ≤ a → a < getI lastp0 (seg k) →
        getI S.2.1 a = getI idx0 a ∧ getI S.2.2 a = getI val0 a) ∧
    (getI start (seg k) ≤
        findPos S.2.1 target (getI S.1 (seg k) - 1 + 1 - getI start (seg k)).toNat
          (getI start (seg k)) ∧
      findPos S.2.1 target (getI S.1 (seg k) - 1 + 1 - getI start (seg k)).toNat
          (getI start (seg k)) < getI S.1 (seg k) ∧
      getI S.2.1 (findPos S.2.1 target (getI S.1 (seg k) - 1 + 1 - getI start (seg k)).toNat
          (getI start (seg k))) = target) ∧
    (getI (segDelete start target (seg k) S).1 (seg k) = getI S.1 (seg k) - 1 ∧
      ∀ l, l ≠ seg k → getI (segDelete start target (seg k) S).1 l = getI S.1 l) ∧
    (∀ x v, InSeg (segDelete start target (seg k) S).2.1 (segDelete start target (seg k) S).2.2
        (getI start (seg k)) (getI S.1 (seg k) - 1) x v ↔
      (InSeg S.2.1 S.2.2 (getI start (seg k)) (getI S.1 (seg k)) x v ∧ x ≠ target)) ∧
    (∀ a : Int, a < getI start (seg k) ∨ getI S.1 (seg k) ≤ a →
      getI (segDelete start target (seg k) S).2.1 a = getI S.2.1 a ∧
      getI (segDelete start target (seg k) S).2.2 a = getI S.2.2 a) := by
  intro S hS
  obtain ⟨⟨s1, s2, s3⟩, -, ihu, ihl⟩ := segDelete_loop start target seg n T lastp0 idx0 val0
    h1 h2 h3 h4 h5 h6 k (by omega) S hS
  obtain ⟨hT, hpres⟩ := h5 k hk
  obtain ⟨b0, b1, b2, b3, b4⟩ := h2 (seg k) hT
  have hunv : ¬ ∃ t, t < k ∧ seg t = seg k := by
    rintro ⟨t, ht, he⟩
    have := h6 t k (by omega) (by omega) he
    omega
  have hlp : getI S.1 (seg k) = getI lastp0 (seg k) := ihl (seg k) hunv
  have hcont := ihu (seg k) hT hunv
  have hnd : SegNodup S.2.1 (getI start (seg k)) (getI S.1 (seg k)) := by
    rw [hlp]
    exact SegNodup_congr idx0 S.2.1 _ _ (fun a ha0 ha1 => (hcont a ha0 ha1).1) (h4 (seg k) hT)
  have hpres' : ∃ u : Nat, u < (getI S.1 (seg k) - getI start (seg k)).toNat ∧
      getI S.2.1 (getI start (seg k) + (u : Int)) = target := by
    obtain ⟨u, hu, hue⟩ := hpres
    rw [hlp]
    exact ⟨u, hu, by rw [(hcont _ (by omega) (by omega)).1]; exact hue⟩
  obtain ⟨hfr, hin, -, hout⟩ := swapDelete_spec S.2.1 S.2.2 (getI start (seg k))
    (getI S.1 (seg k)) target b2 (by rw [s2, hlp]; exact b4) (by rw [s3, s2, h1]) hnd hpres'
  have hfuel : (getI S.1 (seg k) - 1 + 1 - getI start (seg k)).toNat =
      (getI S.1 (seg k) - getI start (seg k)).toNat := by
    congr 1; omega
  obtain ⟨u, hu, hf, hfu⟩ := findPos_spec S.2.1 target
    (getI S.1 (seg k) - 1 + 1 - getI start (seg k)).toNat (getI start (seg k))
    (by rw [hfuel]; exact hpres')
  refine ⟨⟨hlp, hcont⟩, ⟨hfr.1, hfr.2, by rw [hf]; exact hfu⟩, ⟨?_, ?_⟩, hin, hout⟩
  · exact getI_setI_eq _ _ b0 (by rw [s1]; exact b1)
  · intro l hne
    exact getI_setI_ne _ _ (Ne.symm hne)


/-- What the layout and the agreement give the loop of lines 291-302: the live
columns lie apart inside `Uindex`, hold no index twice, and every column named
by the leaving row is live, is named once, and holds the leaving row. -/
theorem deleteRow_setup (st : HFactor) (rowOut : Int) (hl : ULayout st) (ha : UAgree st)
    (hP : LiveAt st (getI st.UpivotLookup rowOut))
    (hPr : getI st.UpivotIndex (getI st.UpivotLookup rowOut) = rowOut) :
    (∀ l, LiveAt st l → 0 ≤ l ∧ l < sizeI st.Ulastp ∧ 0 ≤ getI st.Ustart l ∧
      getI st.Ustart l ≤ getI st.Ulastp l ∧ getI st.Ulastp l ≤ sizeI st.Uindex) ∧
    (∀ l l', LiveAt st l → LiveAt st l' → l ≠ l' →
      getI st.Ulastp l ≤ getI st.Ustart l' ∨ getI st.Ulastp l' ≤ getI st.Ustart l) ∧
    (∀ l, LiveAt st l → SegNodup st.Uindex (getI st.Ustart l) (getI st.Ulastp l)) ∧
    (∀ t : Nat, t < (getI st.URlastp (getI st.UpivotLookup rowOut) -
        getI st.URstart (getI st.UpivotLookup rowOut)).toNat →
      LiveAt st (getI st.UpivotLookup (getI st.URindex
        (getI st.URstart (getI st.UpivotLookup rowOut) + (t : Int)))) ∧
      ∃ u : Nat, u < (getI st.Ulastp (getI st.UpivotLookup (getI st.URindex
          (getI st.URstart (getI st.UpivotLookup rowOut) + (t : Int)))) -
        getI st.Ustart (getI st.UpivotLookup (getI st.URindex
          (getI st.URstart (getI st.UpivotLookup rowOut) + (t : Int))))).toNat ∧
        getI st.Uindex (getI st.Ustart (getI st.UpivotLookup (getI st.URindex
          (getI st.URstart (getI st.UpivotLookup rowOut) + (t : Int)))) + (u : Int)) = rowOut) ∧
    (∀ t u : Nat, t < (getI st.URlastp (getI st.UpivotLookup rowOut) -
        getI st.URstart (getI st.UpivotLookup rowOut)).toNat →
      u < (getI st.URlastp (getI st.UpivotLookup rowOut) -
        getI st.URstart (getI st.UpivotLookup rowOut)).toNat →
      getI st.UpivotLookup (getI st.URindex
        (getI st.URstart (getI st.UpivotLookup rowOut) + (t : Int))) =
      getI st.UpivotLookup (getI st.URindex
        (getI st.URstart (getI st.UpivotLookup rowOut) + (u : Int))) → t = u) := by
  obtain ⟨hlk, hrg, hdj, hcn, hrn⟩ := ULayout_facts st hl
  obtain ⟨⟨z1, z2, z3, z4, z5, z6, z7⟩, -, -⟩ := hl
  have hag := (UAgree_iff st).mp ha
  have hseg : ∀ t : Nat, t < (getI st.URlastp (getI st.UpivotLookup rowOut) -
      getI st.URstart (getI st.UpivotLookup rowOut)).toNat →
      LiveAt st (getI st.UpivotLookup (getI st.URindex
        (getI st.URstart (getI st.UpivotLookup rowOut) + (t : Int)))) ∧
      getI st.UpivotIndex (getI st.UpivotLookup (getI st.URindex
        (getI st.URstart (getI st.UpivotLookup rowOut) + (t : Int)))) =
        getI st.URindex (getI st.URstart (getI st.UpivotLookup rowOut) + (t : Int)) := by
    intro t ht
    obtain ⟨l, hlive, hne, hp⟩ := hrn _ hP _ _ ⟨t, ht, rfl, rfl⟩
    rw [← hp, (hlk l hlive).2.2]
    exact ⟨hlive, rfl⟩
  refine ⟨fun l h => ⟨h.1, by rw [z2]; exact h.2.1, (hrg l h).1⟩,
    fun l l' h h' hne => (hdj l l' h h' hne).1, fun l h => (hrg l h).2.2.1, ?_, ?_⟩
  · intro t ht
    obtain ⟨h1, h3⟩ := hseg t ht
    refine ⟨h1, ?_⟩
    have hin : InRow st (getI st.UpivotLookup rowOut)
        (getI st.UpivotIndex (getI st.UpivotLookup (getI st.URindex
          (getI st.URstart (getI st.UpivotLookup rowOut) + (t : Int)))))
        (getI st.URvalue (getI st.URstart (getI st.UpivotLookup rowOut) + (t : Int))) :=
      ⟨t, ht, h3.symm, rfl⟩
    obtain ⟨u, hu, hx, -⟩ := (hag _ _ hP h1 _).mp hin
    exact ⟨u, hu, hx.trans hPr⟩
  · intro t u ht hu he
    obtain ⟨-, h3⟩ := hseg t ht
    obtain ⟨-, h3'⟩ := hseg u hu
    rw [he, h3'] at h3
    exact ((hrg _ hP).2.2.2 t ht u hu h3.symm)

/-- What the layout and the agreement give the loop of lines 304-316: the live
rows lie apart inside `URindex`, hold no label twice, and every row named by the
leaving column is live, is named once, and holds the leaving row's label. -/
theorem deleteCol_setup (st : HFactor) (rowOut : Int) (hl : ULayout st) (ha : UAgree st)
    (hP : LiveAt st (getI st.UpivotLookup rowOut))
    (hPr : getI st.UpivotIndex (getI st.UpivotLookup rowOut) = rowOut) :
    (∀ l, LiveAt st l → 0 ≤ l ∧ l < sizeI st.URlastp ∧ 0 ≤ getI st.URstart l ∧
      getI st.URstart l ≤ getI st.URlastp l ∧ getI st.URlastp l ≤ sizeI st.URindex) ∧
    (∀ l l', LiveAt st l → LiveAt st l' → l ≠ l' →
      getI st.URlastp l ≤ getI st.URstart l' ∨ getI st.URlastp l' ≤ getI st.URstart l) ∧
    (∀ l, LiveAt st l → SegNodup st.URindex (getI st.URstart l) (getI st.URlastp l)) ∧
    (∀ t : Nat, t < (getI st.Ulastp (getI st.UpivotLookup rowOut) -
        getI st.Ustart (getI st.UpivotLookup rowOut)).toNat →
      LiveAt st (getI st.UpivotLookup (getI st.Uindex
        (getI st.Ustart (getI st.UpivotLookup rowOut) + (t : Int)))) ∧
      ∃ u : Nat, u < (getI st.URlastp (getI st.UpivotLookup (getI st.Uindex
          (getI st.Ustart (getI st.UpivotLookup rowOut) + (t : Int)))) -
        getI st.URstart (getI st.UpivotLookup (getI st.Uindex
          (getI st.Ustart (getI st.UpivotLookup rowOut) + (t : Int))))).toNat ∧
        getI st.URindex (getI st.URstart (getI st.UpivotLookup (getI st.Uindex
          (getI st.Ustart (getI st.UpivotLookup rowOut) + (t : Int)))) + (u : Int)) = rowOut) ∧
    (∀ t u : Nat, t < (getI st.Ulastp (getI st.UpivotLookup rowOut) -
        getI st.Ustart (getI st.UpivotLookup rowOut)).toNat →
      u < (getI st.Ulastp (getI st.UpivotLookup rowOut) -
        getI st.Ustart (getI st.UpivotLookup rowOut)).toNat →
      getI st.UpivotLookup (getI st.Uindex
        (getI st.Ustart (getI st.UpivotLookup rowOut) + (t : Int))) =
      getI st.UpivotLookup (getI st.Uindex
        (getI st.Ustart (getI st.UpivotLookup rowOut) + (u : Int))) → t = u) ∧
    (∀ l, LiveAt st l → l < sizeI st.URspace) := by
  obtain ⟨hlk, hrg, hdj, hcn, hrn⟩ := ULayout_facts st hl
  obtain ⟨⟨z1, z2, z3, z4, z5, z6, z7⟩, -, -⟩ := hl
  have hag := (UAgree_iff st).mp ha
  have hseg : ∀ t : Nat, t < (getI st.Ulastp (getI st.UpivotLookup rowOut) -
      getI st.Ustart (getI st.UpivotLookup rowOut)).toNat →
      LiveAt st (getI st.UpivotLookup (getI st.Uindex
        (getI st.Ustart (getI st.UpivotLookup rowOut) + (t : Int)))) ∧
      getI st.UpivotIndex (getI st.UpivotLookup (getI st.Uindex
        (getI st.Ustart (getI st.UpivotLookup rowOut) + (t : Int)))) =
        getI st.Uindex (getI st.Ustart (getI st.UpivotLookup rowOut) + (t : Int)) := by
    intro t ht
    obtain ⟨l, hlive, hne, hp⟩ := hcn _ hP _ _ ⟨t, ht, rfl, rfl⟩
    rw [← hp, (hlk l hlive).2.2]
    exact ⟨hlive, rfl⟩
  refine ⟨fun l h => ⟨h.1, by rw [z4]; exact h.2.1, (hrg l h).2.1.1, (hrg l h).2.1.2.1, by
      have := (hrg l h).2.1; omega⟩,
    fun l l' h h' hne => by
      have := (hdj l l' h h' hne).2
      have := (hrg l h).2.1
      have := (hrg l' h').2.1
      omega,
    fun l h => (hrg l h).2.2.2, ?_, ?_, fun l h => by rw [z5]; exact h.2.1⟩
  · intro t ht
    obtain ⟨h1, h3⟩ := hseg t ht
    refine ⟨h1, ?_⟩
    have hin : InCol st (getI st.UpivotLookup rowOut)
        (getI st.UpivotIndex (getI st.UpivotLookup (getI st.Uindex
          (getI st.Ustart (getI st.UpivotLookup rowOut) + (t : Int)))))
        (getI st.Uvalue (getI st.Ustart (getI st.UpivotLookup rowOut) + (t : Int))) :=
      ⟨t, ht, h3.symm, rfl⟩
    obtain ⟨u, hu, hx, -⟩ := (hag _ _ h1 hP _).mpr hin
    exact ⟨u, hu, hx.trans hPr⟩
  · intro t u ht hu he
    obtain ⟨-, h3⟩ := hseg t ht
    obtain ⟨-, h3'⟩ := hseg u hu
    rw [he, h3'] at h3
    exact ((hrg _ hP).2.2.1 t ht u hu h3.symm)


/-- Every iteration of the loop of lines 291-302 is exact. -/
theorem deleteRow_step_exact (st : HFactor) (rowOut : Int) (hl : ULayout st) (ha : UAgree st)
    (hP : LiveAt st (getI st.UpivotLookup rowOut))
    (hPr : getI st.UpivotIndex (getI st.UpivotLookup rowOut) = rowOut)
    (t : Nat) (ht : t < (getI st.URlastp (getI st.UpivotLookup rowOut) -
      getI st.URstart (getI st.UpivotLookup rowOut)).toNat) :
    LiveAt st (deleteRow_iLogic (getI st.URstart (getI st.UpivotLookup rowOut) + (t : Int))
      (deleteRow_after rowOut (updateFT_mark rowOut st) t)) ∧
    RowStepExact rowOut (getI st.URstart (getI st.UpivotLookup rowOut) + (t : Int))
      (deleteRow_after rowOut (updateFT_mark rowOut st) t) := by
  obtain ⟨h2, h3, h4, h5, h6⟩ := deleteRow_setup st rowOut hl ha hP hPr
  have z6 : sizeI st.Uvalue = sizeI st.Uindex := hl.1.2.2.2.2.2.1
  obtain ⟨S, hS⟩ : ∃ S, S = loopUp (fun t S => segDelete st.Ustart rowOut
      (getI st.UpivotLookup (getI st.URindex
        (getI st.URstart (getI st.UpivotLookup rowOut) + (t : Int)))) S) t
      (st.Ulastp, st.Uindex, st.Uvalue) := ⟨_, rfl⟩
  have hs : deleteRow_after rowOut (updateFT_mark rowOut st) t =
      { updateFT_mark rowOut st with Ulastp := S.1, Uindex := S.2.1, Uvalue := S.2.2 } := by
    rw [hS]
    exact deleteRow_loop rowOut _ (updateFT_mark rowOut st) t
  obtain ⟨-, ⟨b1, b2, b3⟩, ⟨c1, c2⟩, d, e⟩ := segDelete_step_spec st.Ustart rowOut
    (fun t => getI st.UpivotLookup (getI st.URindex
      (getI st.URstart (getI st.UpivotLookup rowOut) + (t : Int))))
    _ (LiveAt st) st.Ulastp st.Uindex st.Uvalue z6 h2 h3 h4 h5 h6 t ht S hS
  rw [hs]
  unfold RowStepExact deleteRow_iFind deleteRow_iLogic deleteRowStep InCol updateFT_mark
  unfold segDelete at c1 c2 d e
  dsimp only at b1 b2 b3 c1 c2 d e ⊢
  refine ⟨(h5 t ht).1, ⟨b1, b2, b3⟩, ⟨c1, c2⟩, ?_, e⟩
  rw [c1]
  exact d


/-- Every iteration of the loop of lines 304-316 is exact. -/
theorem deleteCol_step_exact (st : HFactor) (rowOut : Int) (hl : ULayout st) (ha : UAgree st)
    (hP : LiveAt st (getI st.UpivotLookup rowOut))
    (hPr : getI st.UpivotIndex (getI st.UpivotLookup rowOut) = rowOut)
    (t : Nat) (ht : t < (getI st.Ulastp (getI st.UpivotLookup rowOut) -
      getI st.Ustart (getI st.UpivotLookup rowOut)).toNat) :
    LiveAt st (deleteCol_iLogic (getI st.Ustart (getI st.UpivotLookup rowOut) + (t : Int))
      (deleteCol_after rowOut (updateFT_deleteRow rowOut (updateFT_mark rowOut st)) t)) ∧
    ColStepExact rowOut (getI st.Ustart (getI st.UpivotLookup rowOut) + (t : Int))
      (deleteCol_after rowOut (updateFT_deleteRow rowOut (updateFT_mark rowOut st)) t) := by
  obtain ⟨h2, h3, h4, h5, h6, h7⟩ := deleteCol_setup st rowOut hl ha hP hPr
  have z7 : sizeI st.URvalue = sizeI st.URindex := hl.1.2.2.2.2.2.2
  obtain ⟨L, I, V, hs2, -, -, ⟨hLP, hIP⟩, -⟩ := deleteRow_spec st rowOut hl ha hP hPr
  obtain ⟨S, hS⟩ : ∃ S, S = loopUp (fun t S => segDelete st.URstart rowOut
      (getI st.UpivotLookup (getI st.Uindex
        (getI st.Ustart (getI st.UpivotLookup rowOut) + (t : Int)))) S) t
      (st.URlastp, st.URindex, st.URvalue) := ⟨_, rfl⟩
  obtain ⟨Sp, hSp⟩ : ∃ Sp, Sp = loopUp (fun t sp =>
      setI sp (getI st.UpivotLookup (getI st.Uindex
        (getI st.Ustart (getI st.UpivotLookup rowOut) + (t : Int))))
        (getI sp (getI st.UpivotLookup (getI st.Uindex
          (getI st.Ustart (getI st.UpivotLookup rowOut) + (t : Int)))) + 1)) t
      st.URspace := ⟨_, rfl⟩
  have hI : ∀ u : Nat, u < (getI st.Ulastp (getI st.UpivotLookup rowOut) -
      getI st.Ustart (getI st.UpivotLookup rowOut)).toNat →
      getI I (getI st.Ustart (getI st.UpivotLookup rowOut) + (u : Int)) =
        getI st.Uindex (getI st.Ustart (getI st.UpivotLookup rowOut) + (u : Int)) :=
    fun u hu => (hIP _ (by omega) (by omega)).1
  have hs : deleteCol_after rowOut (updateFT_deleteRow rowOut (updateFT_mark rowOut st)) t =
      { updateFT_mark rowOut st with Ulastp := L, Uindex := I, Uvalue := V,
                                     URlastp := S.1, URspace := Sp, URindex := S.2.1,
                                     URvalue := S.2.2 } := by
    rw [hs2]
    unfold deleteCol_after
    rw [deleteCol_loop]
    have c1 : loopUp (fun t S => segDelete st.URstart rowOut
        (getI st.UpivotLookup (getI I
          (getI st.Ustart (getI st.UpivotLookup rowOut) + (t : Int)))) S) t
        (st.URlastp, st.URindex, st.URvalue) = S := by
      rw [hS]
      apply loopUp_congr
      intro u hu
      rw [hI u (by omega)]
    have c2 : loopUp (fun t sp =>
        setI sp (getI st.UpivotLookup (getI I
          (getI st.Ustart (getI st.UpivotLookup rowOut) + (t : Int))))
          (getI sp (getI st.UpivotLookup (getI I
            (getI st.Ustart (getI st.UpivotLookup rowOut) + (t : Int)))) + 1)) t
        st.URspace = Sp := by
      rw [hSp]
      apply loopUp_congr
      intro u hu
      rw [hI u (by omega)]
    unfold updateFT_mark
    dsimp only
    rw [c1, c2]
  obtain ⟨-, ⟨b1, b2, b3⟩, ⟨c1, c2⟩, d, e⟩ := segDelete_step_spec st.URstart rowOut
    (fun t => getI st.UpivotLookup (getI st.Uindex
      (getI st.Ustart (getI st.UpivotLookup rowOut) + (t : Int))))
    _ (LiveAt st) st.URlastp st.URindex st.URvalue z7 h2 h3 h4 h5 h6 t ht S hS
  obtain ⟨hspz, -, -⟩ := space_loop
    (fun t => getI st.UpivotLookup (getI st.Uindex
      (getI st.Ustart (getI st.UpivotLookup rowOut) + (t : Int))))
    (getI st.Ulastp (getI st.UpivotLookup rowOut) -
      getI st.Ustart (getI st.UpivotLookup rowOut)).toNat st.URspace
    (fun u hu => ⟨(h5 u hu).1.1, h7 _ (h5 u hu).1⟩) h6 t (by omega) Sp hSp
  have hlive := (h5 t ht).1
  rw [hs]
  unfold ColStepExact deleteCol_iFind deleteCol_iLogic deleteColStep InRow updateFT_mark
  unfold segDelete at c1 c2 d e
  dsimp only at b1 b2 b3 c1 c2 d e hlive ⊢
  rw [hI t ht]
  refine ⟨hlive, ⟨b1, b2, b3⟩, ⟨c1, ?_, ?_⟩, ?_, e⟩
  · exact getI_setI_eq _ _ hlive.1 (by rw [hspz]; exact h7 _ hlive)
  · intro l hne
    exact ⟨c2 l hne, getI_setI_ne _ _ (Ne.symm hne)⟩
  · rw [c1]
    exact d


/-- C28: the deletion of the pivotal row and column is safe and exact. Under the
layout and the agreement of the two copies of U, for the live slot `pLogic` of
the leaving row `rowOut`: in every iteration of the loop of lines 291-302 the
column being edited is live and the search for the entry `rowOut` ends inside its
live range, on that entry; the swap with the last entry removes exactly that
entry, every other entry of the column is kept, `Ulastp` of the column goes down
by one and nothing outside the live range is written. The same holds in every
iteration of the loop of lines 304-316 for the row being edited, whose `URlastp`
goes down by one while its `URspace` goes up by one. The states after the last
iterations are the results of the two loops. -/
theorem C28_deletion_exact (st : HFactor) (rowOut : Int) (hl : ULayout st) (ha : UAgree st)
    (hP : LiveAt st (getI st.UpivotLookup rowOut))
    (hPr : getI st.UpivotIndex (getI st.UpivotLookup rowOut) = rowOut) :
    (∀ t : Nat, t < (getI st.URlastp (getI st.UpivotLookup rowOut) -
        getI st.URstart (getI st.UpivotLookup rowOut)).toNat →
      LiveAt st (deleteRow_iLogic (getI st.URstart (getI st.UpivotLookup rowOut) + (t : Int))
        (deleteRow_after rowOut (updateFT_mark rowOut st) t)) ∧
      RowStepExact rowOut (getI st.URstart (getI st.UpivotLookup rowOut) + (t : Int))
        (deleteRow_after rowOut (updateFT_mark rowOut st) t)) ∧
    deleteRow_after rowOut (updateFT_mark rowOut st)
        (getI st.URlastp (getI st.UpivotLookup rowOut) -
          getI st.URstart (getI st.UpivotLookup rowOut)).toNat =
      updateFT_deleteRow rowOut (updateFT_mark rowOut st) ∧
    (∀ t : Nat, t < (getI st.Ulastp (getI st.UpivotLookup rowOut) -
        getI st.Ustart (getI st.UpivotLookup rowOut)).toNat →
      LiveAt st (deleteCol_iLogic (getI st.Ustart (getI st.UpivotLookup rowOut) + (t : Int))
        (deleteCol_after rowOut (updateFT_deleteRow rowOut (updateFT_mark rowOut st)) t)) ∧
      ColStepExact rowOut (getI st.Ustart (getI st.UpivotLookup rowOut) + (t : Int))
        (deleteCol_after rowOut (updateFT_deleteRow rowOut (updateFT_mark rowOut st)) t)) ∧
    deleteCol_after rowOut (updateFT_deleteRow rowOut (updateFT_mark rowOut st))
        (getI st.Ulastp (getI st.UpivotLookup rowOut) -
          getI st.Ustart (getI st.UpivotLookup rowOut)).toNat =
      updateFT_deleteCol rowOut (updateFT_deleteRow rowOut (updateFT_mark rowOut st)) := by
  refine ⟨fun t ht => deleteRow_step_exact st rowOut hl ha hP hPr t ht, rfl,
    fun t ht => deleteCol_step_exact st rowOut hl ha hP hPr t ht, ?_⟩
  obtain ⟨L, I, V, hs2, -, -, ⟨hLP, -⟩, -⟩ := deleteRow_spec st rowOut hl ha hP hPr
  rw [hs2]
  unfold deleteCol_after updateFT_deleteCol forRange updateFT_mark
  dsimp only
  rw [hLP]

/-- C28, at an input: on `U = [[1, 2, 3], [0, 1, 4], [0, 0, 1]]` with the leaving
row 1, the row loop edits column 2 (live range `[1, 3)`), finds row 1 at position
2 and shortens the column to `[1, 2)`; the column loop edits row 0 (live range
`[0, 2)`), finds the label 1 at position 0, moves the last entry `(2, 3)` there,
and leaves `URlastp[0] = 1`, `URspace[0] = 1`. -/
theorem C28_witness :
    (ULayout exStoreFull ∧ UAgree exStoreFull) ∧
    RowStepExact 1 2 (deleteRow_after 1 (updateFT_mark 1 exStoreFull) 0) ∧
    ColStepExact 1 0 (deleteCol_after 1 (updateFT_deleteRow 1 (updateFT_mark 1 exStoreFull)) 0) ∧
    deleteRow_iFind 1 2 (updateFT_mark 1 exStoreFull) = 2 ∧
    (updateFT_deleteRow 1 (updateFT_mark 1 exStoreFull)).Ulastp = [0, 1, 2] ∧
    deleteCol_iFind 1 0 (updateFT_deleteRow 1 (updateFT_mark 1 exStoreFull)) = 0 ∧
    (updateFT_deleteCol 1 (updateFT_deleteRow 1 (updateFT_mark 1 exStoreFull))).URindex =
      [2, 2, 2] ∧
    (updateFT_deleteCol 1 (updateFT_deleteRow 1 (updateFT_mark 1 exStoreFull))).URvalue =
      [3, 3, 4] ∧
    (updateFT_deleteCol 1 (updateFT_deleteRow 1 (updateFT_mark 1 exStoreFull))).URlastp =
      [1, 3, 3] ∧
    (updateFT_deleteCol 1 (updateFT_deleteRow 1 (updateFT_mark 1 exStoreFull))).URspace =
      [1, 0, 0] := by
  have h := C28_deletion_exact exStoreFull 1 (by decide!) (by decide!)
    ⟨by decide, by decide, by decide⟩ (by decide)
  exact ⟨by decide!, (h.1 0 (by decide)).2, (h.2.2.1 0 (by decide)).2, by decide, by decide,
    by decide, by decide, by decide!, by decide, by decide⟩


theorem withFactorArrays_has_invert (s : HEkk) :
    s.withFactorArrays.has_invert = s.has_invert := by
  unfold HEkk.withFactorArrays
  split <;> rfl

theorem computeFactor_flags (env : EkkEnv) (s : HEkk) :
    (s.computeFactor env).1 = (env.build s).1 ∧
    ((env.build s).1 ≠ 0 → (s.computeFactor env).2.has_invert = false ∧
      (s.computeFactor env).2.has_fresh_invert = false) ∧
    ((env.build s).1 = 0 → (s.computeFactor env).2.has_invert = true ∧
      (s.computeFactor env).2.has_fresh_invert = true) ∧
    (s.computeFactor env).2.update_count = 0 := by
  unfold HEkk.computeFactor
  dsimp only
  refine ⟨rfl, fun h => ?_, fun h => ?_, rfl⟩
  · rw [if_pos h]
    exact ⟨rfl, rfl⟩
  · rw [if_neg (not_not.mpr h)]
    exact ⟨rfl, rfl⟩

theorem getFactor_spec (env : EkkEnv) (s : HEkk) :
    ((s.getFactor env).1 ≠ 0 ↔
      (s.has_invert = false ∧ (env.build s.withFactorArrays).1 ≠ 0)) ∧
    ((s.getFactor env).1 ≠ 0 → (s.getFactor env).2.has_invert = false ∧
      (s.getFactor env).2.has_fresh_invert = false) := by
  obtain ⟨c1, c2, -, -⟩ := computeFactor_flags env s.withFactorArrays
  unfold HEkk.getFactor
  dsimp only
  rw [withFactorArrays_has_invert]
  by_cases hinv : s.has_invert = false
  · rw [if_pos hinv, c1]
    by_cases hb : (env.build s.withFactorArrays).1 ≠ 0
    · rw [if_pos hb]
      exact ⟨⟨fun _ => ⟨hinv, hb⟩, fun _ => hb⟩, fun _ => c2 hb⟩
    · rw [if_neg hb]
      exact ⟨⟨fun h => absurd rfl h, fun h => absurd h.2 hb⟩, fun h => absurd rfl h⟩
  · rw [if_neg hinv]
    exact ⟨⟨fun h => absurd rfl h, fun h => absurd h.1 hinv⟩, fun h => absurd rfl h⟩

theorem initialiseBasisAndFactor_spec (c : EkkConsts) (env : EkkEnv) (s : HEkk) :
    ((s.initialiseSimplexLpBasisAndFactor c env).1 = HighsStatus.Error ↔
      (s.has_invert = false ∧ (env.build (s.basisSet c)).1 ≠ 0)) ∧
    ((s.initialiseSimplexLpBasisAndFactor c env).1 = HighsStatus.Error →
      (s.initialiseSimplexLpBasisAndFactor c env).2.has_invert = false ∧
      (s.initialiseSimplexLpBasisAndFactor c env).2.has_fresh_invert = false) ∧
    ((s.initialiseSimplexLpBasisAndFactor c env).1 ≠ HighsStatus.Error →
      (s.initialiseSimplexLpBasisAndFactor c env).1 = HighsStatus.OK) := by
  obtain ⟨g1, g2⟩ := getFactor_spec env (s.setSimplexOptions.setBasis c)
  have hinv : (s.setSimplexOptions.setBasis c).has_invert = s.has_invert := rfl
  rw [hinv] at g1
  unfold HEkk.initialiseSimplexLpBasisAndFactor
  dsimp only
  by_cases hr : ((s.setSimplexOptions.setBasis c).getFactor env).1 ≠ 0
  · rw [if_pos hr]
    exact ⟨⟨fun _ => g1.mp hr, fun _ => rfl⟩, fun _ => g2 hr, fun h => absurd rfl h⟩
  · rw [if_neg hr]
    refine ⟨⟨fun h => ?_, fun h => absurd (g1.mpr h) hr⟩, fun h => ?_, fun _ => rfl⟩
    · exact HighsStatus.noConfusion h
    · exact HighsStatus.noConfusion h

/-- C24: rank deficiency is surfaced as an error.
`initialiseSimplexLpBasisAndFactor` returns `HighsStatus::Error` exactly when the
factor build is run (there is no invert on entry) and reports a rank deficiency
that is not zero; then `has_invert` and `has_fresh_invert` are false. Otherwise
it returns `OK`. When it returns `Error`, so do `initialise` and `solve`. -/
theorem C24_rank_deficiency_is_error (c : EkkConsts) (env : EkkEnv) (s : HEkk) :
    ((s.initialiseSimplexLpBasisAndFactor c env).1 = HighsStatus.Error ↔
      (s.has_invert = false ∧ (env.build (s.basisSet c)).1 ≠ 0)) ∧
    ((s.initialiseSimplexLpBasisAndFactor c env).1 = HighsStatus.Error →
      (s.initialiseSimplexLpBasisAndFactor c env).2.has_invert = false ∧
      (s.initialiseSimplexLpBasisAndFactor c env).2.has_fresh_invert = false) ∧
    ((s.initialiseSimplexLpBasisAndFactor c env).1 ≠ HighsStatus.Error →
      (s.initialiseSimplexLpBasisAndFactor c env).1 = HighsStatus.OK) ∧
    ((s.initialiseSimplexLpBasisAndFactor c env).1 = HighsStatus.Error →
      (s.initialise c env).1 = HighsStatus.Error ∧ (s.solve c env).1 = HighsStatus.Error ∧
      (s.solve c env).2.has_invert = false ∧ (s.solve c env).2.has_fresh_invert = false) := by
  obtain ⟨h1, h2, h3⟩ := initialiseBasisAndFactor_spec c env s
  refine ⟨h1, h2, h3, fun he => ?_⟩
  have hi : s.initialise c env =
      (HighsStatus.Error, (s.initialiseSimplexLpBasisAndFactor c env).2) := by
    unfold HEkk.initialise
    rw [if_pos he]
  have hs : s.solve c env = (HighsStatus.Error, (s.initialise c env).2) := by
    unfold HEkk.solve
    rw [if_pos (by rw [hi])]
  rw [hs, hi]
  exact ⟨rfl, rfl, (h2 he).1, (h2 he).2⟩


/-- The driver on the example: a build that reports a rank deficiency of 1 makes
`solve` return `Error`; one that reports 0 makes it return `OK`. -/
theorem solve_examples :
    (exEkk.solve exEkkConsts (exEnv 1)).1 = HighsStatus.Error ∧
    (exEkk.solve exEkkConsts (exEnv 1)).2.has_invert = false ∧
    (exEkk.solve exEkkConsts (exEnv 0)).1 = HighsStatus.OK ∧
    (exEkk.solve exEkkConsts (exEnv 0)).2.has_invert = true := by
  decide

theorem step_update_count (c : EkkConsts) (s : HEkk) (op : EkkOp) :
    (s.step c op).update_count = s.update_count + pivotCount [op] ∧
    (s.step c op).update_limit = s.update_limit := by
  cases op with
  | pivots columnIn rowOut sourceOut => exact ⟨rfl, rfl⟩
  | factor reported => exact ⟨by simp [HEkk.step, HEkk.updateFactor, pivotCount], rfl⟩

theorem pivotCount_cons (op : EkkOp) (ops : List EkkOp) :
    pivotCount (op :: ops) = pivotCount [op] + pivotCount ops := by
  cases op with
  | pivots columnIn rowOut sourceOut =>
    simp only [pivotCount, List.filter_cons_of_pos, List.filter_nil, List.length_cons,
      List.length_nil]
    push_cast
    ring
  | factor reported =>
    simp [pivotCount]

theorem run_update_count (c : EkkConsts) (ops : List EkkOp) (s : HEkk) :
    (s.run c ops).update_count = s.update_count + pivotCount ops ∧
    (s.run c ops).update_limit = s.update_limit := by
  induction ops generalizing s with
  | nil => exact ⟨by simp [HEkk.run, pivotCount], rfl⟩
  | cons op ops ih =>
    have e : s.run c (op :: ops) = (s.step c op).run c ops := rfl
    obtain ⟨h1, h2⟩ := ih (s.step c op)
    obtain ⟨g1, g2⟩ := step_update_count c s op
    rw [e, h1, h2, g1, g2, pivotCount_cons op ops]
    exact ⟨by ring, rfl⟩

/-- C25: the update-limit hint. When `updateFactor` returns, the hint is
`INVERT_HINT_UPDATE_LIMIT_REACHED` if `update_count` is at least `update_limit`,
and otherwise it is what the factor update reported. `update_count` is the number
of calls of `updatePivots` since the last `computeFactor`: `computeFactor` sets
it to 0, `updatePivots` adds 1, `updateFactor` leaves it alone; so after a
refactorization followed by any sequence of calls the hint is the limit hint
exactly when the sequence holds at least `update_limit` calls of
`updatePivots`. -/
theorem C25_update_limit_hint (c : EkkConsts) (env : EkkEnv) (s : HEkk) (reported : Int)
    (ops : List EkkOp) :
    (s.updateFactor c reported).1 =
      (if s.update_limit ≤ s.update_count then c.INVERT_HINT_UPDATE_LIMIT_REACHED
       else reported) ∧
    (s.updateFactor c reported).2.update_count = s.update_count ∧
    (s.computeFactor env).2.update_count = 0 ∧
    (∀ columnIn rowOut sourceOut : Int,
      (s.updatePivots columnIn rowOut sourceOut).update_count = s.update_count + 1) ∧
    ((s.computeFactor env).2.run c ops).update_count = pivotCount ops ∧
    (((s.computeFactor env).2.run c ops).updateFactor c reported).1 =
      (if (s.computeFactor env).2.update_limit ≤ pivotCount ops
       then c.INVERT_HINT_UPDATE_LIMIT_REACHED else reported) := by
  obtain ⟨h1, h2⟩ := run_update_count c ops (s.computeFactor env).2
  have h0 : (s.computeFactor env).2.update_count = 0 := rfl
  rw [h0, zero_add] at h1
  refine ⟨rfl, rfl, rfl, fun _ _ _ => rfl, h1, ?_⟩
  have e : ∀ u : HEkk, (u.updateFactor c reported).1 =
      (if u.update_limit ≤ u.update_count then c.INVERT_HINT_UPDATE_LIMIT_REACHED
       else reported) := fun _ => rfl
  rw [e, h1, h2]

/-- The hint on the example: with `update_limit = 2`, after a refactorization the
first update keeps the reported hint 0 and the second one gets the limit hint. -/
theorem updateFactor_examples :
    ((((exEkk.setBasis exEkkConsts).computeFactor (exEnv 0)).2.run exEkkConsts
      [EkkOp.pivots 0 0 (-1)]).updateFactor exEkkConsts 0).1 = 0 ∧
    ((((exEkk.setBasis exEkkConsts).computeFactor (exEnv 0)).2.run exEkkConsts
      [EkkOp.pivots 0 0 (-1), EkkOp.factor 0, EkkOp.pivots 1 0 (-1)]).updateFactor
        exEkkConsts 0).1 = 2 := by
  decide

theorem sizeI_resizeI_any {α : Type} [Zero α] (l : List α) (m : Int) (h : 0 ≤ m) :
    sizeI (resizeI l m) = m := by
  unfold resizeI sizeI
  split
  · rw [List.length_take]; omega
  · rw [List.length_append, List.length_replicate]; omega

theorem sum_apply_getI_setI (g : Int → Int) (L : List Int) (n : Nat) (r v : Int)
    (h0 : 0 ≤ r) (h1 : r < (n : Int)) (h2 : (n : Int) ≤ sizeI L) :
    ∑ l ∈ Finset.range n, g (getI (setI L r v) (l : Int)) =
      ∑ l ∈ Finset.range n, g (getI L (l : Int)) + (g v - g (getI L r)) := by
  have e : ∀ l ∈ Finset.range n, g (getI (setI L r v) (l : Int)) =
      g (getI L (l : Int)) + (if l = r.toNat then g v - g (getI L r) else 0) := by
    intro l _
    rw [getI_setI]
    by_cases h : l = r.toNat
    · have hs : r = (l : Int) := by omega
      rw [if_pos ⟨hs, h0, by omega⟩, if_pos h, ← hs]
      ring
    · have hs : ¬ r = (l : Int) := by omega
      rw [if_neg (fun q => hs q.1), if_neg h, add_zero]
  rw [Finset.sum_congr rfl e, Finset.sum_add_distrib, Finset.sum_ite_eq' (Finset.range n) r.toNat,
    if_pos (Finset.mem_range.mpr (by omega))]

/-- What `setBasis` leaves: row `iRow` holds the logical `numCol + iRow`. -/
theorem setBasis_spec (c : EkkConsts) (s : HEkk) (hrow : 0 ≤ s.numRow_) :
    (s.setBasis c).numCol_ = s.numCol_ ∧ (s.setBasis c).numRow_ = s.numRow_ ∧
    (s.setBasis c).num_basic_logicals = s.numRow_ ∧
    sizeI (s.setBasis c).basicIndex_ = s.numRow_ ∧
    ∀ i : Nat, (i : Int) < s.numRow_ →
      getI (s.setBasis c).basicIndex_ (i : Int) = s.numCol_ + (i : Int) := by
  have key : ∀ (k : Nat) (p0 : List Int × List Int), sizeI p0.2 = s.numRow_ →
      (k : Int) ≤ s.numRow_ →
      sizeI (loopUp (fun j (p : List Int × List Int) =>
        (setI p.1 (s.numCol_ + (0 + (j : Int))) c.NONBASIC_FLAG_FALSE,
         setI p.2 (0 + (j : Int)) (s.numCol_ + (0 + (j : Int))))) k p0).2 = s.numRow_ ∧
      ∀ i : Nat, i < k →
        getI (loopUp (fun j (p : List Int × List Int) =>
          (setI p.1 (s.numCol_ + (0 + (j : Int))) c.NONBASIC_FLAG_FALSE,
           setI p.2 (0 + (j : Int)) (s.numCol_ + (0 + (j : Int))))) k p0).2 (i : Int) =
          s.numCol_ + (i : Int) := by
    intro k p0 hp0
    induction k with
    | zero => exact fun _ => ⟨hp0, fun i hi => absurd hi (by omega)⟩
    | succ k ih =>
      intro hk
      obtain ⟨i1, i2⟩ := ih (by push_cast at hk; omega)
      simp only [loopUp]
      refine ⟨by rw [sizeI_setI]; exact i1, ?_⟩
      intro i hi
      by_cases hik : i = k
      · subst hik
        rw [zero_add, getI_setI_eq _ _ (by omega) (by rw [i1]; push_cast at hk; omega)]
      · rw [getI_setI_ne _ _ (by omega)]
        exact i2 i (by omega)
  obtain ⟨k1, k2⟩ := key s.numRow_.toNat
    (forRange 0 s.numCol_ (fun iCol f => setI f iCol c.NONBASIC_FLAG_TRUE)
      (resizeI s.nonbasicFlag_ (s.numCol_ + s.numRow_)), resizeI s.basicIndex_ s.numRow_)
    (sizeI_resizeI_any _ _ hrow) (by omega)
  refine ⟨rfl, rfl, rfl, ?_, ?_⟩
  · unfold HEkk.setBasis forRange
    dsimp only
    rw [sub_zero]
    exact k1
  · intro i hi
    unfold HEkk.setBasis forRange
    dsimp only
    rw [sub_zero]
    exact k2 i (by omega)

theorem setBasis_basicLogicals (c : EkkConsts) (s : HEkk) (hrow : 0 ≤ s.numRow_) :
    (s.setBasis c).basicLogicals = s.numRow_ := by
  obtain ⟨e1, e2, -, -, e5⟩ := setBasis_spec c s hrow
  unfold HEkk.basicLogicals
  rw [e1, e2]
  have e : ∀ i ∈ Finset.range s.numRow_.toNat,
      (if s.numCol_ ≤ getI (s.setBasis c).basicIndex_ (i : Int) then (1 : Int) else 0) = 1 := by
    intro i hi
    rw [Finset.mem_range] at hi
    rw [e5 i (by omega), if_pos (by omega)]
  rw [Finset.sum_congr rfl e]
  simp
  omega

/-- The sum of the counter and of the number of basic logicals is kept by every
call. -/
theorem step_logicals (c : EkkConsts) (s : HEkk) (op : EkkOp)
    (hsz : sizeI s.basicIndex_ = s.numRow_) (hop : op.rowInBasis s.numRow_ = true) :
    (s.step c op).numCol_ = s.numCol_ ∧ (s.step c op).numRow_ = s.numRow_ ∧
    sizeI (s.step c op).basicIndex_ = s.numRow_ ∧
    (s.step c op).num_basic_logicals + (s.step c op).basicLogicals =
      s.num_basic_logicals + s.basicLogicals := by
  cases op with
  | factor reported => exact ⟨rfl, rfl, hsz, rfl⟩
  | pivots columnIn rowOut sourceOut =>
    have hr : 0 ≤ rowOut ∧ rowOut < s.numRow_ := by
      simpa [EkkOp.rowInBasis] using hop
    refine ⟨rfl, rfl, ?_, ?_⟩
    · show sizeI (setI s.basicIndex_ rowOut columnIn) = s.numRow_
      rw [sizeI_setI]; exact hsz
    · have hb : (s.updatePivots columnIn rowOut sourceOut).basicLogicals =
          s.basicLogicals + ((if s.numCol_ ≤ columnIn then 1 else 0) -
            (if s.numCol_ ≤ getI s.basicIndex_ rowOut then 1 else 0)) := by
        unfold HEkk.basicLogicals
        exact sum_apply_getI_setI (fun x => if s.numCol_ ≤ x then 1 else 0) s.basicIndex_
          s.numRow_.toNat rowOut columnIn hr.1 (by omega) (by omega)
      have hn : (s.updatePivots columnIn rowOut sourceOut).num_basic_logicals =
          (if columnIn < s.numCol_ then
            (if getI s.basicIndex_ rowOut < s.numCol_ then s.num_basic_logicals - 1
              else s.num_basic_logicals) + 1
          else (if getI s.basicIndex_ rowOut < s.numCol_ then s.num_basic_logicals - 1
              else s.num_basic_logicals)) := rfl
      show (s.updatePivots columnIn rowOut sourceOut).num_basic_logicals +
        (s.updatePivots columnIn rowOut sourceOut).basicLogicals = _
      rw [hb, hn]
      split_ifs <;> omega

theorem run_logicals (c : EkkConsts) (ops : List EkkOp) (s : HEkk)
    (hsz : sizeI s.basicIndex_ = s.numRow_) (hops : rowsInBasis s.numRow_ ops = true) :
    (s.run c ops).num_basic_logicals + (s.run c ops).basicLogicals =
      s.num_basic_logicals + s.basicLogicals := by
  induction ops generalizing s with
  | nil => rfl
  | cons op ops ih =>
    have e : s.run c (op :: ops) = (s.step c op).run c ops := rfl
    have h2 : op.rowInBasis s.numRow_ = true ∧ rowsInBasis s.numRow_ ops = true := by
      simpa [rowsInBasis] using hops
    obtain ⟨g1, g2, g3, g4⟩ := step_logicals c s op hsz h2.1
    rw [e, ih (s.step c op) (by rw [g2]; exact g3) (by rw [g2]; exact h2.2), g4]

/-- C30 (what the code does): after `setBasis` the counter `num_basic_logicals`
is the number of rows `iRow` with `basicIndex_[iRow] ≥ numCol_`, namely `numRow_`;
every later `updatePivots` moves the counter by the opposite of the change of
that number, so after any sequence of calls the counter is
`2 * numRow_` minus the number of basic logicals. -/
theorem C30_num_basic_logicals_mirrored (c : EkkConsts) (s : HEkk) (ops : List EkkOp)
    (hrow : 0 ≤ s.numRow_) (hops : rowsInBasis s.numRow_ ops = true) :
    (s.setBasis c).num_basic_logicals = (s.setBasis c).basicLogicals ∧
    (s.setBasis c).basicLogicals = s.numRow_ ∧
    ((s.setBasis c).run c ops).num_basic_logicals =
      2 * s.numRow_ - ((s.setBasis c).run c ops).basicLogicals := by
  obtain ⟨e1, e2, e3, e4, -⟩ := setBasis_spec c s hrow
  have hb := setBasis_basicLogicals c s hrow
  have hr := run_logicals c ops (s.setBasis c) (by rw [e2]; exact e4) (by rw [e2]; exact hops)
  rw [e3, hb] at hr
  refine ⟨by rw [e3, hb], hb, by omega⟩

/-- C30, at an input: one column, one row. After `setBasis` the basis is the
logical (`basicIndex_ = [1]`) and the counter is 1. `updatePivots(0, 0, -1)`
brings the nonbasic column 0 into the basis: no basic logical is left, and the
counter is 2. -/
theorem C30_witness :
    (exEkk.setBasis exEkkConsts).basicIndex_ = [1] ∧
    (exEkk.setBasis exEkkConsts).nonbasicFlag_ = [1, 0] ∧
    (exEkk.setBasis exEkkConsts).num_basic_logicals = 1 ∧
    ((exEkk.setBasis exEkkConsts).run exEkkConsts [EkkOp.pivots 0 0 (-1)]).basicIndex_ = [0] ∧
    ((exEkk.setBasis exEkkConsts).run exEkkConsts [EkkOp.pivots 0 0 (-1)]).basicLogicals = 0 ∧
    ((exEkk.setBasis exEkkConsts).run exEkkConsts
      [EkkOp.pivots 0 0 (-1)]).num_basic_logicals = 2 := by
  have h := C30_num_basic_logicals_mirrored exEkkConsts exEkk [EkkOp.pivots 0 0 (-1)]
    (by decide) (by decide)
  exact ⟨by decide, by decide, by decide, by decide, by decide, h.2.2.trans (by decide)⟩


/-- C38: the bookkeeping of `computeFactor`. It returns the rank deficiency that
the factor build reports, sets `has_invert` and `has_fresh_invert` to true
exactly when that deficiency is 0 and to false otherwise, and sets `update_count`
to 0 in both cases. -/
theorem C38_computeFactor_bookkeeping (env : EkkEnv) (s : HEkk) :
    (s.computeFactor env).1 = (env.build s).1 ∧
    ((s.computeFactor env).2.has_invert = true ↔ (env.build s).1 = 0) ∧
    ((s.computeFactor env).2.has_fresh_invert = true ↔ (env.build s).1 = 0) ∧
    ((s.computeFactor env).2.has_invert = false ↔ (env.build s).1 ≠ 0) ∧
    ((s.computeFactor env).2.has_fresh_invert = false ↔ (env.build s).1 ≠ 0) ∧
    (s.computeFactor env).2.update_count = 0 := by
  obtain ⟨h1, h2, h3, h4⟩ := computeFactor_flags env s
  by_cases hb : (env.build s).1 = 0
  · obtain ⟨a1, a2⟩ := h3 hb
    rw [a1, a2]
    exact ⟨h1, ⟨fun _ => hb, fun _ => rfl⟩, ⟨fun _ => hb, fun _ => rfl⟩,
      ⟨fun h => Bool.noConfusion h, fun h => absurd hb h⟩,
      ⟨fun h => Bool.noConfusion h, fun h => absurd hb h⟩, h4⟩
  · obtain ⟨a1, a2⟩ := h2 hb
    rw [a1, a2]
    exact ⟨h1, ⟨fun h => Bool.noConfusion h, fun h => absurd h hb⟩,
      ⟨fun h => Bool.noConfusion h, fun h => absurd h hb⟩,
      ⟨fun _ => hb, fun _ => rfl⟩, ⟨fun _ => hb, fun _ => rfl⟩, h4⟩

/-- The bookkeeping on the example: a build that reports 1, then one that
reports 0, entered with an update count of 5. -/
theorem computeFactor_examples :
    (({ exEkk with update_count := 5 } : HEkk).computeFactor (exEnv 1)) =
      (1, { exEkk with update_count := 0 }) ∧
    (({ exEkk with update_count := 5 } : HEkk).computeFactor (exEnv 0)) =
      (0, { exEkk with has_invert := true, has_fresh_invert := true }) := by
  decide

/-- C37: the initial optimality status. When the initial factorization succeeds,
`initialise` returns `OK` and leaves `scaled_model_status_` at `OPTIMAL` exactly
when `num_primal_infeasibilities` and `num_dual_infeasibilities` are both 0 after
the initial computations, and at `NOTSET` otherwise; in the `OPTIMAL` case `solve`
returns `OK` and the state `initialise` left, without calling the primal simplex,
and otherwise it returns what the primal simplex returns. -/
theorem C37_initial_status (c : EkkConsts) (env : EkkEnv) (s : HEkk)
    (hok : (s.initialiseSimplexLpBasisAndFactor c env).1 ≠ HighsStatus.Error) :
    (s.initialise c env).1 = HighsStatus.OK ∧
    ((s.initialise c env).2.scaled_model_status_ = HighsModelStatus.OPTIMAL ↔
      ((env.work (s.initialiseSimplexLpBasisAndFactor c env).2).num_primal_infeasibilities = 0 ∧
       (env.work (s.initialiseSimplexLpBasisAndFactor c env).2).num_dual_infeasibilities = 0)) ∧
    ((s.initialise c env).2.scaled_model_status_ ≠ HighsModelStatus.OPTIMAL →
      (s.initialise c env).2.scaled_model_status_ = HighsModelStatus.NOTSET) ∧
    ((s.initialise c env).2.scaled_model_status_ = HighsModelStatus.OPTIMAL →
      s.solve c env = (HighsStatus.OK, (s.initialise c env).2)) ∧
    ((s.initialise c env).2.scaled_model_status_ ≠ HighsModelStatus.OPTIMAL →
      s.solve c env = env.primal_solve (s.initialise c env).2) := by
  have hi1 : (s.initialise c env).1 = HighsStatus.OK := by
    unfold HEkk.initialise
    rw [if_neg hok]
  have hsolve : s.solve c env =
      if (s.initialise c env).2.scaled_model_status_ = HighsModelStatus.OPTIMAL then
        (HighsStatus.OK, (s.initialise c env).2)
      else env.primal_solve (s.initialise c env).2 := by
    unfold HEkk.solve
    rw [if_neg (by rw [hi1]; exact fun h => HighsStatus.noConfusion h)]
  have hst : (s.initialise c env).2.scaled_model_status_ =
      if (env.work (s.initialiseSimplexLpBasisAndFactor c env).2).num_primal_infeasibilities = 0 ∧
        (env.work (s.initialiseSimplexLpBasisAndFactor c env).2).num_dual_infeasibilities = 0
      then HighsModelStatus.OPTIMAL else HighsModelStatus.NOTSET := by
    unfold HEkk.initialise
    rw [if_neg hok]
    dsimp only
    split <;> rfl
  refine ⟨hi1, ?_, ?_, ?_, ?_⟩
  · rw [hst]
    split
    · rename_i h; exact ⟨fun _ => h, fun _ => rfl⟩
    · rename_i h; exact ⟨fun h' => HighsModelStatus.noConfusion h', fun h' => absurd h' h⟩
  · rw [hst]
    split
    · intro h; exact absurd rfl h
    · intro _; rfl
  · intro h
    rw [hsolve, if_pos h]
  · intro h
    rw [hsolve, if_neg h]

/-- C37, at an input: on the example with a build of full rank the initial
computations leave no infeasibility, the status is `OPTIMAL` and `solve` returns
`OK`; with one primal infeasibility the status is `NOTSET`. -/
theorem C37_witness :
    (exEkk.initialise exEkkConsts (exEnv 0)).2.scaled_model_status_ = HighsModelStatus.OPTIMAL ∧
    (exEkk.solve exEkkConsts (exEnv 0)).1 = HighsStatus.OK ∧
    (({ exEkk with num_primal_infeasibilities := 1 } : HEkk).initialise exEkkConsts
      (exEnv 0)).2.scaled_model_status_ = HighsModelStatus.NOTSET := by
  have h := C37_initial_status exEkkConsts (exEnv 0) exEkk (by decide)
  have h' := C37_initial_status exEkkConsts (exEnv 0)
    ({ exEkk with num_primal_infeasibilities := 1 } : HEkk) (by decide)
  exact ⟨h.2.1.mpr (by decide), by rw [h.2.2.2.1 (h.2.1.mpr (by decide))],
    h'.2.2.1 (fun hh => by
      have := h'.2.1.mp hh
      exact absurd this.1 (by decide))⟩

/-- C36 (what the code does): `choosePriceTechnique` selects column PRICE exactly
when the strategy is `COL`, or the strategy is `ROW_SWITCH_COL_SWITCH` and the
density of `row_ep` is above 0.75, strictly; it selects row PRICE with switch
exactly when the strategy is `ROW_SWITCH` or `ROW_SWITCH_COL_SWITCH`. -/
theorem C36_choosePriceTechnique (k : PriceConsts) (price_strategy : Int)
    (row_ep_density : ℚ) :
    ((choosePriceTechnique k price_strategy row_ep_density).1 = true ↔
      (price_strategy = k.SIMPLEX_PRICE_STRATEGY_COL ∨
        (price_strategy = k.SIMPLEX_PRICE_STRATEGY_ROW_SWITCH_COL_SWITCH ∧
          3 / 4 < row_ep_density))) ∧
    ((choosePriceTechnique k price_strategy row_ep_density).2 = true ↔
      (price_strategy = k.SIMPLEX_PRICE_STRATEGY_ROW_SWITCH ∨
        price_strategy = k.SIMPLEX_PRICE_STRATEGY_ROW_SWITCH_COL_SWITCH)) := by
  unfold choosePriceTechnique
  simp

/-- The failing input of C36: with the strategy `ROW_SWITCH_COL_SWITCH` and a
density of exactly 0.75, column PRICE is not selected. -/
theorem choosePriceTechnique_at_threshold :
    choosePriceTechnique exPriceConsts 3 (3 / 4) = (false, true) ∧
    choosePriceTechnique exPriceConsts 3 (76 / 100) = (true, true) := by
  decide!

/-- C35: the bailout is sticky and justified. `bailoutOnTimeIterations`, entered
with a bailout that has one of the three limit statuses, passes its assertion,
changes nothing and returns true. Entered with no bailout, it sets one with the
status `REACHED_TIME_LIMIT` if the clock is above `time_limit`, else with the
status `REACHED_ITERATION_LIMIT` if `iteration_count_` is at least
`simplex_iteration_limit`, else it changes nothing; it returns the flag it
leaves. In every case the flag is not cleared and the bailout stays justified. -/
theorem C35_bailout_sticky (clock : ℚ) (b : EkkBailout) (hj : b.Justified) :
    ∃ r : Bool × EkkBailout, b.bailoutOnTimeIterations clock = some r ∧
      r.1 = r.2.solve_bailout_ ∧ r.2.Justified ∧
      (b.solve_bailout_ = true → r.2 = b) ∧
      (b.solve_bailout_ = false → clock > b.time_limit →
        r.2 = { b with solve_bailout_ := true,
                       scaled_model_status_ := HighsModelStatus.REACHED_TIME_LIMIT }) ∧
      (b.solve_bailout_ = false → ¬ clock > b.time_limit →
        b.iteration_count_ ≥ b.simplex_iteration_limit →
        r.2 = { b with solve_bailout_ := true,
                       scaled_model_status_ := HighsModelStatus.REACHED_ITERATION_LIMIT }) ∧
      (b.solve_bailout_ = false → ¬ clock > b.time_limit →
        ¬ b.iteration_count_ ≥ b.simplex_iteration_limit → r.2 = b) ∧
      b.bailoutReturn = some (b.solve_bailout_, b) := by
  have hret : b.bailoutReturn = some (b.solve_bailout_, b) := by
    unfold EkkBailout.bailoutReturn
    by_cases h : b.solve_bailout_ = true
    · rw [if_pos h, if_pos (hj h)]
    · rw [if_neg h]
  unfold EkkBailout.bailoutOnTimeIterations
  by_cases h : b.solve_bailout_ = true
  · rw [if_pos h, if_pos (hj h)]
    refine ⟨_, rfl, rfl, hj, fun _ => rfl, ?_, ?_, ?_, hret⟩
    · intro h'; rw [h] at h'; cases h'
    · intro h'; rw [h] at h'; cases h'
    · intro h'; rw [h] at h'; cases h'
  · rw [if_neg h]
    by_cases ht : clock > b.time_limit
    · rw [if_pos ht]
      exact ⟨_, rfl, rfl, fun _ => rfl, fun h' => absurd h' h, fun _ _ => rfl,
        fun _ h' => absurd ht h', fun _ h' => absurd ht h', hret⟩
    · rw [if_neg ht]
      by_cases hi : b.iteration_count_ ≥ b.simplex_iteration_limit
      · rw [if_pos hi]
        exact ⟨_, rfl, rfl, fun _ => rfl, fun h' => absurd h' h,
          fun _ h' => absurd h' ht, fun _ _ _ => rfl, fun _ _ h' => absurd hi h', hret⟩
      · rw [if_neg hi]
        exact ⟨_, rfl, rfl, hj, fun h' => absurd h' h, fun _ h' => absurd h' ht,
          fun _ _ h' => absurd h' hi, fun _ _ _ => rfl, hret⟩

/-- C35, at an input: no bailout, 7 iterations done with a limit of 7. With the
clock at 11 over a time limit of 10 the status is `REACHED_TIME_LIMIT`; with the
clock at 10 it is `REACHED_ITERATION_LIMIT`; a second call changes nothing. -/
theorem C35_witness :
    (exBailout.bailoutOnTimeIterations 11).map Prod.fst = some true ∧
    (exBailout.bailoutOnTimeIterations 11).map (fun r => r.2.scaled_model_status_) =
      some HighsModelStatus.REACHED_TIME_LIMIT ∧
    (exBailout.bailoutOnTimeIterations 10).map (fun r => r.2.scaled_model_status_) =
      some HighsModelStatus.REACHED_ITERATION_LIMIT ∧
    (∃ r : Bool × EkkBailout,
      exBailoutSet.bailoutOnTimeIterations 0 = some r ∧ r.1 = true) := by
  obtain ⟨r, h1, h2, -, h4, -⟩ := C35_bailout_sticky 0 exBailoutSet (by decide)
  exact ⟨by decide!, by decide!, by decide!, r, h1, by rw [h2, h4 rfl]; rfl⟩


/-- What `setBasis` leaves in `nonbasicFlag_`: `NONBASIC_FLAG_TRUE` for the
columns and `NONBASIC_FLAG_FALSE` for the logicals. -/
theorem setBasis_flags (c : EkkConsts) (s : HEkk) (hcol : 0 ≤ s.numCol_)
    (hrow : 0 ≤ s.numRow_) :
    sizeI (s.setBasis c).nonbasicFlag_ = s.numCol_ + s.numRow_ ∧
    (∀ i : Nat, (i : Int) < s.numCol_ →
      getI (s.setBasis c).nonbasicFlag_ (i : Int) = c.NONBASIC_FLAG_TRUE) ∧
    (∀ i : Nat, (i : Int) < s.numRow_ →
      getI (s.setBasis c).nonbasicFlag_ (s.numCol_ + (i : Int)) = c.NONBASIC_FLAG_FALSE) := by
  have k1 : ∀ (k : Nat) (f0 : List Int), sizeI f0 = s.numCol_ + s.numRow_ →
      (k : Int) ≤ s.numCol_ →
      sizeI (loopUp (fun j f => setI f (0 + (j : Int)) c.NONBASIC_FLAG_TRUE) k f0) =
        s.numCol_ + s.numRow_ ∧
      ∀ i : Nat, i < k →
        getI (loopUp (fun j f => setI f (0 + (j : Int)) c.NONBASIC_FLAG_TRUE) k f0) (i : Int) =
          c.NONBASIC_FLAG_TRUE := by
    intro k f0 hf0
    induction k with
    | zero => exact fun _ => ⟨hf0, fun i hi => absurd hi (by omega)⟩
    | succ k ih =>
      intro hk
      obtain ⟨i1, i2⟩ := ih (by push_cast at hk; omega)
      simp only [loopUp]
      refine ⟨by rw [sizeI_setI]; exact i1, ?_⟩
      intro i hi
      by_cases hik : i = k
      · subst hik
        rw [zero_add, getI_setI_eq _ _ (by omega) (by rw [i1]; push_cast at hk; omega)]
      · rw [getI_setI_ne _ _ (by omega)]
        exact i2 i (by omega)
  have k2 : ∀ (k : Nat) (p0 : List Int × List Int), sizeI p0.1 = s.numCol_ + s.numRow_ →
      (k : Int) ≤ s.numRow_ →
      sizeI (loopUp (fun j (p : List Int × List Int) =>
        (setI p.1 (s.numCol_ + (0 + (j : Int))) c.NONBASIC_FLAG_FALSE,
         setI p.2 (0 + (j : Int)) (s.numCol_ + (0 + (j : Int))))) k p0).1 =
        s.numCol_ + s.numRow_ ∧
      (∀ i : Nat, (i : Int) < s.numCol_ →
        getI (loopUp (fun j (p : List Int × List Int) =>
          (setI p.1 (s.numCol_ + (0 + (j : Int))) c.NONBASIC_FLAG_FALSE,
           setI p.2 (0 + (j : Int)) (s.numCol_ + (0 + (j : Int))))) k p0).1 (i : Int) =
          getI p0.1 (i : Int)) ∧
      ∀ i : Nat, i < k →
        getI (loopUp (fun j (p : List Int × List Int) =>
          (setI p.1 (s.numCol_ + (0 + (j : Int))) c.NONBASIC_FLAG_FALSE,
           setI p.2 (0 + (j : Int)) (s.numCol_ + (0 + (j : Int))))) k p0).1
          (s.numCol_ + (i : Int)) = c.NONBASIC_FLAG_FALSE := by
    intro k p0 hp0
    induction k with
    | zero => exact fun _ => ⟨hp0, fun _ _ => rfl, fun i hi => absurd hi (by omega)⟩
    | succ k ih =>
      intro hk
      obtain ⟨i1, i2, i3⟩ := ih (by push_cast at hk; omega)
      simp only [loopUp]
      refine ⟨by rw [sizeI_setI]; exact i1, ?_, ?_⟩
      · intro i hi
        rw [getI_setI_ne _ _ (by omega)]
        exact i2 i hi
      · intro i hi
        by_cases hik : i = k
        · subst hik
          rw [zero_add, getI_setI_eq _ _ (by omega) (by rw [i1]; push_cast at hk; omega)]
        · rw [getI_setI_ne _ _ (by omega)]
          exact i3 i (by omega)
  obtain ⟨a1, a2⟩ := k1 s.numCol_.toNat (resizeI s.nonbasicFlag_ (s.numCol_ + s.numRow_))
    (sizeI_resizeI_any _ _ (by omega)) (by omega)
  obtain ⟨b1, b2, b3⟩ := k2 s.numRow_.toNat
    (loopUp (fun j f => setI f (0 + (j : Int)) c.NONBASIC_FLAG_TRUE) s.numCol_.toNat
      (resizeI s.nonbasicFlag_ (s.numCol_ + s.numRow_)), resizeI s.basicIndex_ s.numRow_)
    a1 (by omega)
  unfold HEkk.setBasis forRange
  dsimp only
  rw [sub_zero, sub_zero]
  refine ⟨b1, ?_, ?_⟩
  · intro i hi
    rw [b2 i hi]
    exact a2 i (by omega)
  · intro i hi
    exact b3 i (by omega)

/-- The basis of the logicals has its bookkeeping right. -/
theorem setBasis_inv (c : EkkConsts) (s : HEkk) (hc0 : c.NONBASIC_FLAG_FALSE = 0)
    (hc1 : c.NONBASIC_FLAG_TRUE ≠ 0) (hcol : 0 ≤ s.numCol_) (hrow : 0 ≤ s.numRow_) :
    BasisInv (s.setBasis c) := by
  obtain ⟨e1, e2, -, e4, e5⟩ := setBasis_spec c s hrow
  obtain ⟨f1, f2, f3⟩ := setBasis_flags c s hcol hrow
  unfold BasisInv
  rw [e1, e2]
  refine ⟨e4, f1, ?_, ?_, ?_⟩
  · intro i hi
    rw [e5 i (by omega)]
    omega
  · intro i hi j hj h
    rw [e5 i (by omega), e5 j (by omega)] at h
    omega
  · intro v hv
    by_cases hvc : (v : Int) < s.numCol_
    · rw [f2 v hvc]
      constructor
      · intro h; exact absurd h hc1
      · rintro ⟨i, hi, h⟩
        rw [e5 i (by omega)] at h
        omega
    · have hv' : (v : Int) = s.numCol_ + ((v - s.numCol_.toNat : Nat) : Int) := by omega
      constructor
      · intro _
        refine ⟨v - s.numCol_.toNat, by omega, ?_⟩
        rw [e5 _ (by omega)]
        omega
      · intro _
        rw [hv', f3 _ (by omega)]
        exact hc0

/-- A pivot that brings a nonbasic variable into the basis keeps the
bookkeeping right. -/
theorem updatePivots_inv (u : HEkk) (columnIn rowOut sourceOut : Int) (hu : BasisInv u)
    (hr : 0 ≤ rowOut ∧ rowOut < u.numRow_)
    (hin : 0 ≤ columnIn ∧ columnIn < u.numCol_ + u.numRow_)
    (hnb : getI u.nonbasicFlag_ columnIn ≠ 0) :
    BasisInv (u.updatePivots columnIn rowOut sourceOut) := by
  obtain ⟨h1, h2, h3, h4, h5⟩ := hu
  have hro : ((rowOut.toNat : Nat) : Int) = rowOut := by omega
  have hci : ((columnIn.toNat : Nat) : Int) = columnIn := by omega
  have hout := h3 rowOut.toNat (by omega)
  rw [hro] at hout
  have hco : ((getI u.basicIndex_ rowOut).toNat : Int) = getI u.basicIndex_ rowOut := by omega
  have hflagout : getI u.nonbasicFlag_ (getI u.basicIndex_ rowOut) = 0 := by
    have := (h5 (getI u.basicIndex_ rowOut).toNat (by omega)).mpr
      ⟨rowOut.toNat, by omega, by rw [hro, hco]⟩
    rw [hco] at this
    exact this
  have hne : columnIn ≠ getI u.basicIndex_ rowOut := by
    intro h
    rw [h] at hnb
    exact hnb hflagout
  have hB : ∀ i : Int, getI (u.updatePivots columnIn rowOut sourceOut).basicIndex_ i =
      if i = rowOut then columnIn else getI u.basicIndex_ i := by
    intro i
    show getI (setI u.basicIndex_ rowOut columnIn) i = _
    rw [getI_setI]
    by_cases hi : i = rowOut
    · rw [if_pos ⟨hi.symm, hr.1, by omega⟩, if_pos hi]
    · rw [if_neg (fun h => hi h.1.symm), if_neg hi]
  have hF : ∀ v : Int, 0 ≤ v → v < u.numCol_ + u.numRow_ →
      getI (u.updatePivots columnIn rowOut sourceOut).nonbasicFlag_ v =
      if v = getI u.basicIndex_ rowOut then 1
      else if v = columnIn then 0 else getI u.nonbasicFlag_ v := by
    intro v hv0 hv1
    show getI (setI (setI u.nonbasicFlag_ columnIn 0) (getI u.basicIndex_ rowOut) 1) v = _
    rw [getI_setI, sizeI_setI, getI_setI]
    by_cases hvo : v = getI u.basicIndex_ rowOut
    · rw [if_pos ⟨hvo.symm, hout.1, by omega⟩, if_pos hvo]
    · rw [if_neg (fun h => hvo h.1.symm), if_neg hvo]
      by_cases hvi : v = columnIn
      · rw [if_pos ⟨hvi.symm, hin.1, by omega⟩, if_pos hvi]
      · rw [if_neg (fun h => hvi h.1.symm), if_neg hvi]
  refine ⟨?_, ?_, ?_, ?_, ?_⟩
  · show sizeI (setI u.basicIndex_ rowOut columnIn) = u.numRow_
    rw [sizeI_setI]; exact h1
  · show sizeI (setI (setI u.nonbasicFlag_ columnIn 0) (getI u.basicIndex_ rowOut) 1) = _
    rw [sizeI_setI, sizeI_setI]; exact h2
  · intro i hi
    have hi' : i < u.numRow_.toNat := hi
    rw [hB]
    split
    · exact hin
    · exact h3 i hi'
  · intro i hi j hj h
    have hi' : i < u.numRow_.toNat := hi
    have hj' : j < u.numRow_.toNat := hj
    rw [hB, hB] at h
    by_cases e1 : (i : Int) = rowOut <;> by_cases e2 : (j : Int) = rowOut
    · omega
    · rw [if_pos e1, if_neg e2] at h
      have := (h5 columnIn.toNat (by omega)).mpr ⟨j, hj', by rw [hci]; exact h.symm⟩
      rw [hci] at this
      exact absurd this hnb
    · rw [if_neg e1, if_pos e2] at h
      have := (h5 columnIn.toNat (by omega)).mpr ⟨i, hi', by rw [hci]; exact h⟩
      rw [hci] at this
      exact absurd this hnb
    · rw [if_neg e1, if_neg e2] at h
      exact h4 i hi' j hj' h
  · intro v hv
    have hv' : v < (u.numCol_ + u.numRow_).toNat := hv
    have hrow' : (u.updatePivots columnIn rowOut sourceOut).numRow_ = u.numRow_ := rfl
    rw [hF v (by omega) (by omega), hrow']
    by_cases hvo : (v : Int) = getI u.basicIndex_ rowOut
    · rw [if_pos hvo]
      constructor
      · intro h; exact absurd h (by decide)
      · rintro ⟨i, hi, h⟩
        exfalso
        rw [hB] at h
        by_cases e1 : (i : Int) = rowOut
        · rw [if_pos e1] at h
          exact hne (h.trans hvo)
        · rw [if_neg e1] at h
          have := h4 i hi rowOut.toNat (by omega) (by rw [hro, h, hvo])
          omega
    · rw [if_neg hvo]
      by_cases hvi : (v : Int) = columnIn
      · rw [if_pos hvi]
        exact ⟨fun _ => ⟨rowOut.toNat, by omega, by rw [hB, hro, if_pos rfl, hvi]⟩,
          fun _ => rfl⟩
      · rw [if_neg hvi, h5 v hv']
        constructor
        · rintro ⟨i, hi, h⟩
          refine ⟨i, hi, ?_⟩
          rw [hB, if_neg, h]
          intro e1
          rw [e1] at h
          exact hvo h.symm
        · rintro ⟨i, hi, h⟩
          refine ⟨i, hi, ?_⟩
          rw [hB] at h
          by_cases e1 : (i : Int) = rowOut
          · rw [if_pos e1] at h
            exact absurd h.symm hvi
          · rw [if_neg e1] at h
            exact h

/-- C31: the bookkeeping of the basis. `setBasis` leaves `basicIndex_` with
`numRow_` pairwise distinct variables and `nonbasicFlag_[v] == 0` exactly for the
variables listed in `basicIndex_`; `updatePivots(columnIn, rowOut, sourceOut)`,
entered in a state `u` with this property and with `columnIn` nonbasic, leaves a
state with this property. The constants obey `NONBASIC_FLAG_FALSE = 0` and
`NONBASIC_FLAG_TRUE ≠ 0`. -/
theorem C31_basis_bookkeeping (c : EkkConsts) (s u : HEkk) (columnIn rowOut sourceOut : Int)
    (hc0 : c.NONBASIC_FLAG_FALSE = 0) (hc1 : c.NONBASIC_FLAG_TRUE ≠ 0)
    (hcol : 0 ≤ s.numCol_) (hrow : 0 ≤ s.numRow_) (hu : BasisInv u)
    (hr : 0 ≤ rowOut ∧ rowOut < u.numRow_)
    (hin : 0 ≤ columnIn ∧ columnIn < u.numCol_ + u.numRow_)
    (hnb : getI u.nonbasicFlag_ columnIn ≠ 0) :
    BasisInv (s.setBasis c) ∧ BasisInv (u.updatePivots columnIn rowOut sourceOut) :=
  ⟨setBasis_inv c s hc0 hc1 hcol hrow,
    updatePivots_inv u columnIn rowOut sourceOut hu hr hin hnb⟩

/-- C31, at an input: one column, one row; `setBasis` leaves `basicIndex_ = [1]`,
`nonbasicFlag_ = [1, 0]`, and the pivot that brings column 0 into row 0 leaves
`basicIndex_ = [0]`, `nonbasicFlag_ = [0, 1]`. -/
theorem C31_witness :
    BasisInv (exEkk.setBasis exEkkConsts) ∧
    BasisInv ((exEkk.setBasis exEkkConsts).updatePivots 0 0 (-1)) ∧
    ((exEkk.setBasis exEkkConsts).updatePivots 0 0 (-1)).basicIndex_ = [0] ∧
    ((exEkk.setBasis exEkkConsts).updatePivots 0 0 (-1)).nonbasicFlag_ = [0, 1] := by
  have h := C31_basis_bookkeeping exEkkConsts exEkk (exEkk.setBasis exEkkConsts) 0 0 (-1)
    (by decide) (by decide) (by decide) (by decide) (by decide) (by decide) (by decide)
    (by decide)
  exact ⟨h.1, h.2, by decide, by decide⟩


theorem deleteCol_ur_sizes (iRow : Int) (st : HFactor) :
    sizeI (updateFT_deleteCol iRow st).URlastp = sizeI st.URlastp ∧
    sizeI (updateFT_deleteCol iRow st).URspace = sizeI st.URspace := by
  unfold updateFT_deleteCol
  exact forRange_inv (fun t : HFactor => sizeI t.URlastp = sizeI st.URlastp ∧
    sizeI t.URspace = sizeI st.URspace) _ _ _
    (fun k t ht => ⟨(sizeI_setI _ _ _).trans ht.1, (sizeI_setI _ _ _).trans ht.2⟩) st
    ⟨rfl, rfl⟩

theorem storeRows_urspace_size (iRow : Int) (st : HFactor) :
    sizeI (updateFT_storeRows iRow st).URspace = sizeI st.URspace := by
  unfold updateFT_storeRows
  exact forRange_inv (fun t : HFactor => sizeI t.URspace = sizeI st.URspace) _ _ _
    (fun k t ht => ((insertRowStep_space iRow k 0 t).1).trans ht) st rfl

/-- The sizes of the three row pointer vectors on entry to the registration of
the new slot (line 367). -/
theorem storeRows_ur_sizes (aq : HVector) (iRow : Int) (st : HFactor) :
    sizeI (updateFT_storeRows iRow (updateFT_upToStoreCol aq iRow st)).URstart =
      sizeI st.URstart ∧
    sizeI (updateFT_storeRows iRow (updateFT_upToStoreCol aq iRow st)).URlastp =
      sizeI st.URlastp ∧
    sizeI (updateFT_storeRows iRow (updateFT_upToStoreCol aq iRow st)).URspace =
      sizeI st.URspace := by
  obtain ⟨w1, w2⟩ := storeRows_sizes iRow (updateFT_upToStoreCol aq iRow st)
  have w3 := storeRows_urspace_size iRow (updateFT_upToStoreCol aq iRow st)
  obtain ⟨-, -, -, f4, -⟩ := updateFT_storeCol_frame aq iRow
    (updateFT_deleteCol iRow (updateFT_deleteRow iRow (updateFT_mark iRow st)))
  have f4' : urPart (updateFT_upToStoreCol aq iRow st) =
      urPart (updateFT_deleteCol iRow (updateFT_deleteRow iRow (updateFT_mark iRow st))) := f4
  simp only [urPart, Prod.mk.injEq] at f4'
  obtain ⟨u1, u2, u3, -, -⟩ := f4'
  obtain ⟨d1, d2⟩ := deleteCol_ur_sizes iRow (updateFT_deleteRow iRow (updateFT_mark iRow st))
  obtain ⟨-, -, -, -, -, d3, -⟩ := updateFT_deleteCol_frame iRow
    (updateFT_deleteRow iRow (updateFT_mark iRow st))
  obtain ⟨-, -, -, r4, -⟩ := updateFT_deleteRow_frame iRow (updateFT_mark iRow st)
  simp only [urPart, Prod.mk.injEq] at r4
  obtain ⟨r1, r2, r3, -, -⟩ := r4
  have m1 : (updateFT_mark iRow st).URstart = st.URstart := rfl
  have m2 : (updateFT_mark iRow st).URlastp = st.URlastp := rfl
  have m3 : (updateFT_mark iRow st).URspace = st.URspace := rfl
  refine ⟨?_, ?_, ?_⟩
  · rw [w1, u1, d3, r1, m1]
  · rw [w2, u2, d1, r2, m2]
  · rw [w3, u3, d2, r3, m3]

/-- C39: the per-slot vectors stay aligned. If `Ustart`, `Ulastp`, `URstart`,
`URlastp`, `URspace`, `UpivotIndex` and `UpivotValue` all have the length `k` on
entry to `updateFT`, each has the length `k + 1` on return, and slot `k` holds the
appended column range (from the old to the new length of `Uindex`), an empty row
(`URstart[k] == URlastp[k]`) and the new pivot `rowOut`. -/
theorem C39_slots_stay_aligned (aq ep : HVector) (rowOut : Int) (st : HFactor) (k : Int)
    (h1 : sizeI st.Ustart = k) (h2 : sizeI st.Ulastp = k) (h3 : sizeI st.URstart = k)
    (h4 : sizeI st.URlastp = k) (h5 : sizeI st.URspace = k) (h6 : sizeI st.UpivotIndex = k)
    (h7 : sizeI st.UpivotValue = k) :
    (sizeI (updateFT aq ep rowOut st).Ustart = k + 1 ∧
      sizeI (updateFT aq ep rowOut st).Ulastp = k + 1 ∧
      sizeI (updateFT aq ep rowOut st).URstart = k + 1 ∧
      sizeI (updateFT aq ep rowOut st).URlastp = k + 1 ∧
      sizeI (updateFT aq ep rowOut st).URspace = k + 1 ∧
      sizeI (updateFT aq ep rowOut st).UpivotIndex = k + 1 ∧
      sizeI (updateFT aq ep rowOut st).UpivotValue = k + 1) ∧
    (getI (updateFT aq ep rowOut st).Ustart k = sizeI st.Uindex ∧
      getI (updateFT aq ep rowOut st).Ulastp k = sizeI (updateFT aq ep rowOut st).Uindex) ∧
    getI (updateFT aq ep rowOut st).URstart k = getI (updateFT aq ep rowOut st).URlastp k ∧
    getI (updateFT aq ep rowOut st).UpivotIndex k = rowOut := by
  obtain ⟨U3, V3, L3, a1, a2, a3, a4, a5, a6, a7⟩ := updateFT_uc aq ep rowOut st
  have hp := updateFT_piv aq ep rowOut st
  dsimp only at hp
  obtain ⟨p1, p2, p3⟩ := hp
  obtain ⟨t1, t2, t3, t4⟩ := updateFT_tail_ur ep rowOut (getI st.UpivotLookup rowOut)
    (getI st.UpivotValue (getI st.UpivotLookup rowOut)) (getI aq.array rowOut)
    (updateFT_storeRows rowOut (updateFT_upToStoreCol aq rowOut st))
  have t5 := updateFT_tail_urspace ep rowOut (getI st.UpivotLookup rowOut)
    (getI st.UpivotValue (getI st.UpivotLookup rowOut)) (getI aq.array rowOut)
    (updateFT_storeRows rowOut (updateFT_upToStoreCol aq rowOut st))
  rw [← updateFT_eq] at t1 t2 t3 t4 t5
  obtain ⟨w1, w2, w3⟩ := storeRows_ur_sizes aq rowOut st
  have key : ∀ (A : List Int) (a n : Int), sizeI A = n → getI (A ++ [a]) n = a := by
    intro A a n h
    rw [← h, getI_snoc]
  have one : ∀ a : Int, sizeI [a] = 1 := fun _ => rfl
  refine ⟨⟨?_, ?_, ?_, ?_, ?_, ?_, ?_⟩, ⟨?_, ?_⟩, ?_, ?_⟩
  · rw [a4, sizeI_append, one, h1]
  · rw [a7, sizeI_append, one, a3, h2]
  · rw [t3, sizeI_append, one, w1, h3]
  · rw [t4, sizeI_append, one, w2, h4]
  · rw [t5, sizeI_append, one, w3, h5]
  · rw [p1, sizeI_append, one, sizeI_setI, h6]
  · rw [p2, sizeI_append]
    show sizeI st.UpivotValue + 1 = k + 1
    rw [h7]
  · rw [a4, key _ _ _ h1, a1]
  · rw [a7, key _ _ _ (a3.trans h2), a5]
  · rw [t3, t4, key _ _ _ (w1.trans h3), key _ _ _ (w2.trans h4)]
    by_cases hlt : getI (updateFT_storeRows rowOut
        (updateFT_upToStoreCol aq rowOut st)).UpivotLookup rowOut < k
    · rw [getI_append_left _ _ (by rw [w1, h3]; exact hlt)]
    · by_cases heq : getI (updateFT_storeRows rowOut
          (updateFT_upToStoreCol aq rowOut st)).UpivotLookup rowOut = k
      · rw [heq, key _ _ _ (w1.trans h3)]
      · rw [getI_ge _ (by rw [w1, h3]; omega),
          getI_ge _ (by rw [sizeI_append, one, w1, h3]; omega)]
  · rw [p1, key _ _ _ ((sizeI_setI _ _ _).trans h6)]

/-- C39, at an input: the first update of the two-row store, with `k = 2`. -/
theorem C39_witness :
    sizeI (updateFT exAq exEp0 0 exStore).Ustart = 3 ∧
    (updateFT exAq exEp0 0 exStore).URstart = [0, 1, 0] ∧
    (updateFT exAq exEp0 0 exStore).URlastp = [1, 2, 0] ∧
    (updateFT exAq exEp0 0 exStore).UpivotIndex = [-1, 1, 0] ∧
    getI (updateFT exAq exEp0 0 exStore).Ustart 2 = 1 ∧
    getI (updateFT exAq exEp0 0 exStore).Ulastp 2 = 2 := by
  have h := C39_slots_stay_aligned exAq exEp0 0 exStore 2 (by decide) (by decide) (by decide)
    (by decide) (by decide) (by decide) (by decide)
  exact ⟨h.1.1, by decide!, by decide!, by decide!, h.2.1.1.trans (by decide),
    h.2.1.2.trans (by decide!)⟩


/-- An iteration of the loop of lines 331-365 leaves every position of the
reserved range of a row it does not extend. -/
theorem insertRowStep_untouched (T : Int → Prop) (s : HFactor) (iRow k : Int)
    (hfit : RowsFit T s) (hi : T (getI s.UpivotLookup (getI s.Uindex k)))
    (l : Int) (hl : T l) (hne : l ≠ getI s.UpivotLookup (getI s.Uindex k)) (p : Int)
    (hp0 : getI s.URstart l ≤ p) (hp1 : p < getI s.URlastp l + getI s.URspace l) :
    getI (insertRowStep iRow k s).URindex p = getI s.URindex p ∧
    getI (insertRowStep iRow k s).URvalue p = getI s.URvalue p := by
  obtain ⟨hsz, hin, hdj⟩ := hfit
  obtain ⟨i0, i1, i2, i3, i4, i5, i6, i7⟩ := hin _ hi
  obtain ⟨l0, l1, l2, l3, l4, l5, l6, l7⟩ := hin _ hl
  have hd := hdj _ _ hl hi hne
  by_cases hsp : getI s.URspace (getI s.UpivotLookup (getI s.Uindex k)) = 0
  · obtain ⟨-, -, -, e4, e5⟩ := insertRowStep_relocated iRow k s hsp
    obtain ⟨-, r2, -, r4, r5⟩ := relocateRow_fields (getI s.UpivotLookup (getI s.Uindex k)) s
    have hns := newSpace_ge (getI s.URlastp (getI s.UpivotLookup (getI s.Uindex k)) -
      getI s.URstart (getI s.UpivotLookup (getI s.Uindex k))) (by omega)
    have hcnt : (((getI s.URstart (getI s.UpivotLookup (getI s.Uindex k)) +
        (getI s.URlastp (getI s.UpivotLookup (getI s.Uindex k)) -
          getI s.URstart (getI s.UpivotLookup (getI s.Uindex k))) -
        getI s.URstart (getI s.UpivotLookup (getI s.Uindex k))).toNat : Nat) : Int) =
        getI s.URlastp (getI s.UpivotLookup (getI s.Uindex k)) -
          getI s.URstart (getI s.UpivotLookup (getI s.Uindex k)) := by omega
    have hrI := sizeI_resizeI s.URindex (sizeI s.URindex +
      newSpace (getI s.URlastp (getI s.UpivotLookup (getI s.Uindex k)) -
        getI s.URstart (getI s.UpivotLookup (getI s.Uindex k)))) (by omega)
    have hrV := sizeI_resizeI s.URvalue (sizeI s.URindex +
      newSpace (getI s.URlastp (getI s.UpivotLookup (getI s.Uindex k)) -
        getI s.URstart (getI s.UpivotLookup (getI s.Uindex k)))) (by omega)
    obtain ⟨-, cI⟩ := copyRange_spec (resizeI s.URindex (sizeI s.URindex +
      newSpace (getI s.URlastp (getI s.UpivotLookup (getI s.Uindex k)) -
        getI s.URstart (getI s.UpivotLookup (getI s.Uindex k)))))
      (getI s.URstart (getI s.UpivotLookup (getI s.Uindex k)))
      (getI s.URstart (getI s.UpivotLookup (getI s.Uindex k)) +
        (getI s.URlastp (getI s.UpivotLookup (getI s.Uindex k)) -
          getI s.URstart (getI s.UpivotLookup (getI s.Uindex k))))
      (sizeI s.URindex) (by rw [hcnt]; omega) (sizeI_nonneg _) (by rw [hcnt, hrI]; omega)
    obtain ⟨-, cV⟩ := copyRange_spec (resizeI s.URvalue (sizeI s.URindex +
      newSpace (getI s.URlastp (getI s.UpivotLookup (getI s.Uindex k)) -
        getI s.URstart (getI s.UpivotLookup (getI s.Uindex k)))))
      (getI s.URstart (getI s.UpivotLookup (getI s.Uindex k)))
      (getI s.URstart (getI s.UpivotLookup (getI s.Uindex k)) +
        (getI s.URlastp (getI s.UpivotLookup (getI s.Uindex k)) -
          getI s.URstart (getI s.UpivotLookup (getI s.Uindex k))))
      (sizeI s.URindex) (by rw [hcnt]; omega) (sizeI_nonneg _) (by rw [hcnt, hrV]; omega)
    have hput : getI (relocateRow (getI s.UpivotLookup (getI s.Uindex k)) s).URlastp
        (getI s.UpivotLookup (getI s.Uindex k)) = sizeI s.URindex +
        (getI s.URlastp (getI s.UpivotLookup (getI s.Uindex k)) -
          getI s.URstart (getI s.UpivotLookup (getI s.Uindex k))) := by
      rw [r2, getI_setI_eq _ _ i0 i2]
    rw [e4, e5, hput, getI_setI_ne _ _ (by omega), getI_setI_ne _ _ (by omega), r4, r5,
      cI p, cV p, if_neg (by omega), if_neg (by omega),
      getI_resizeI _ _ (by omega), getI_resizeI _ _ (by omega)]
    exact ⟨rfl, rfl⟩
  · have hput : getI s.URlastp (getI s.UpivotLookup (getI s.Uindex k)) ≠ p := by omega
    unfold insertRowStep
    simp only [if_neg hsp]
    exact ⟨getI_setI_ne _ _ hput, getI_setI_ne _ _ hput⟩

/-- The bounds `UstartX` and `UendX` of the loop of lines 331-365. -/
theorem storeRows_bounds (st : HFactor) (aq : HVector) (rowOut : Int) :
    getI (updateFT_upToStoreCol aq rowOut st).Ustart
      (sizeI (updateFT_upToStoreCol aq rowOut st).Ustart - 1) =
      sizeI (updateFT_deleteCol rowOut
        (updateFT_deleteRow rowOut (updateFT_mark rowOut st))).Uindex ∧
    updateFT_storeRows_count aq rowOut st = (packEntries aq rowOut aq.packCount.toNat).length := by
  obtain ⟨c1, c2, c3, c4⟩ := updateFT_storeCol_uc aq rowOut
    (updateFT_deleteCol rowOut (updateFT_deleteRow rowOut (updateFT_mark rowOut st)))
  have hlo : getI (updateFT_upToStoreCol aq rowOut st).Ustart
      (sizeI (updateFT_upToStoreCol aq rowOut st).Ustart - 1) =
      sizeI (updateFT_deleteCol rowOut
        (updateFT_deleteRow rowOut (updateFT_mark rowOut st))).Uindex := by
    unfold updateFT_upToStoreCol
    rw [c1, getI_last_snoc]
  have hhi : getI (updateFT_upToStoreCol aq rowOut st).Ulastp
      (sizeI (updateFT_upToStoreCol aq rowOut st).Ulastp - 1) =
      sizeI (updateFT_deleteCol rowOut
        (updateFT_deleteRow rowOut (updateFT_mark rowOut st))).Uindex +
        ((packEntries aq rowOut aq.packCount.toNat).length : Int) := by
    unfold updateFT_upToStoreCol
    rw [c4, getI_last_snoc, sizeI_append]
    simp [sizeI]
  refine ⟨hlo, ?_⟩
  unfold updateFT_storeRows_count
  dsimp only
  rw [hlo, hhi]
  omega

/-- The rows on entry to the loop of lines 331-365 lie apart, and every
iteration extends the row of a slot that was live on entry. -/
theorem storeRows_entry (st : HFactor) (aq : HVector) (rowOut : Int) (hl : ULayout st)
    (ha : UAgree st) (hf : ColFits st aq rowOut) :
    RowsFit (LiveAt st) (updateFT_upToStoreCol aq rowOut st) ∧
    ∀ u : Nat, u < updateFT_storeRows_count aq rowOut st →
      LiveAt st (getI (updateFT_upToStoreCol aq rowOut st).UpivotLookup
        (getI (updateFT_upToStoreCol aq rowOut st).Uindex
          (getI (updateFT_upToStoreCol aq rowOut st).Ustart
            (sizeI (updateFT_upToStoreCol aq rowOut st).Ustart - 1) + (u : Int)))) := by
  obtain ⟨⟨hr0, hr1, hP0, hP1, hPr⟩, hpn⟩ := hf
  have hP : LiveAt st (getI st.UpivotLookup rowOut) := ⟨hP0, hP1, by rw [hPr]; omega⟩
  obtain ⟨⟨d1, d2, d3⟩, -⟩ := deletions_spec st rowOut hl ha hP hPr _ rfl
  have hfit3 := deletions_fit st _ rowOut hl ha hP hPr rfl
  obtain ⟨hlk, -⟩ := ULayout_facts st hl
  obtain ⟨-, -, f3, f4, -⟩ := updateFT_storeCol_frame aq rowOut
    (updateFT_deleteCol rowOut (updateFT_deleteRow rowOut (updateFT_mark rowOut st)))
  have hfit4 : RowsFit (LiveAt st) (updateFT_upToStoreCol aq rowOut st) :=
    RowsFit_congr _ _ _ f4 hfit3
  have hlk4 : (updateFT_upToStoreCol aq rowOut st).UpivotLookup = st.UpivotLookup := by
    have := f3
    simp only [pivPart, Prod.mk.injEq] at this
    exact this.1.trans d1
  obtain ⟨-, hix⟩ := storeRows_as_loop st aq rowOut
  obtain ⟨hlo, hn⟩ := storeRows_bounds st aq rowOut
  refine ⟨hfit4, ?_⟩
  intro u hu
  rw [hn] at hu
  rw [hlo, hlk4, hix]
  have hmem := getI_mem ((packEntries aq rowOut aq.packCount.toNat).map Prod.fst) u
    (by rw [List.length_map]; exact hu)
  rw [List.mem_map] at hmem
  obtain ⟨e, he, hex⟩ := hmem
  obtain ⟨hne, i, hi, hei⟩ := packEntries_ne aq rowOut _ e he
  rw [← hex, hei]
  rcases hpn i hi with h | ⟨l, hl0, hl1, hp⟩
  · exact absurd (hei.trans h) hne
  · have hlive : LiveAt st (l : Int) := (LiveAt_iff st _).mpr ⟨l, hl0, hl1, rfl⟩
    rw [← hp, (hlk _ hlive).2.2]
    exact hlive


/-- The layout of the store includes the separation of the reserved row ranges. -/
theorem ULayout_rowSlack (st : HFactor) (hl : ULayout st) : RowSlack st := by
  obtain ⟨-, hrg, hdj, -⟩ := ULayout_facts st hl
  constructor
  · intro i hi0 hi1
    exact (hrg _ ((LiveAt_iff _ _).mpr ⟨i, hi0, hi1, rfl⟩)).2.1
  · intro i hi0 hi1 l hl0 hl1 hne
    exact (hdj _ _ ((LiveAt_iff _ _).mpr ⟨i, hi0, hi1, rfl⟩)
      ((LiveAt_iff _ _).mpr ⟨l, hl0, hl1, rfl⟩) (fun h => hne (by exact_mod_cast h))).2

/-- C40: UR storage separation. For a store with the layout and the agreement of
section 3 (the layout includes that the reserved ranges
`[URstart[i], URlastp[i] + URspace[i])` of the live slots lie inside `URindex`,
apart from one another, with `URspace[i] ≥ 0`) and arguments that fit it, the
same separation holds on return from `updateFT`; the new slot takes over the
reserved range of the tombstoned slot `pLogic`; and every iteration of the loop
of lines 331-365 leaves the pointers and every position of the reserved range of
each row other than the one it extends, so that no live entry of another row is
overwritten. -/
theorem C40_row_storage_separation (aq ep : HVector) (rowOut : Int) (st : HFactor)
    (hl : ULayout st) (hf : ColFits st aq rowOut) (ha : UAgree st) :
    RowSlack st ∧ RowSlack (updateFT aq ep rowOut st) ∧
    (getI (updateFT aq ep rowOut st).URstart (sizeI st.UpivotIndex) =
        getI st.URstart (getI st.UpivotLookup rowOut) ∧
      getI (updateFT aq ep rowOut st).URlastp (sizeI st.UpivotIndex) +
        getI (updateFT aq ep rowOut st).URspace (sizeI st.UpivotIndex) =
        getI st.URlastp (getI st.UpivotLookup rowOut) +
          getI st.URspace (getI st.UpivotLookup rowOut)) ∧
    updateFT_storeRows rowOut (updateFT_upToStoreCol aq rowOut st) =
      updateFT_storeRows_upTo aq rowOut st (updateFT_storeRows_count aq rowOut st) ∧
    ∀ t : Nat, t < updateFT_storeRows_count aq rowOut st →
      ∀ l : Int, LiveAt st l → l ≠ updateFT_storeRows_slot aq rowOut st t →
        getI (updateFT_storeRows_upTo aq rowOut st (t + 1)).URstart l =
          getI (updateFT_storeRows_upTo aq rowOut st t).URstart l ∧
        getI (updateFT_storeRows_upTo aq rowOut st (t + 1)).URlastp l =
          getI (updateFT_storeRows_upTo aq rowOut st t).URlastp l ∧
        ∀ p : Int, getI (updateFT_storeRows_upTo aq rowOut st t).URstart l ≤ p →
          p < getI (updateFT_storeRows_upTo aq rowOut st t).URlastp l +
            getI (updateFT_storeRows_upTo aq rowOut st t).URspace l →
          getI (updateFT_storeRows_upTo aq rowOut st (t + 1)).URindex p =
            getI (updateFT_storeRows_upTo aq rowOut st t).URindex p ∧
          getI (updateFT_storeRows_upTo aq rowOut st (t + 1)).URvalue p =
            getI (updateFT_storeRows_upTo aq rowOut st t).URvalue p := by
  have hsrc := updateFT_row_source st aq ep rowOut hl ha hf
  obtain ⟨hfit, w3, p1, p2, p3⟩ := storeRows_fit st aq rowOut hl ha hf _ rfl
  obtain ⟨⟨w1, w2, w4⟩, -⟩ := storeRows_spec st aq rowOut hl ha hf _ rfl
  obtain ⟨hfit4, hvis⟩ := storeRows_entry st aq rowOut hl ha hf
  obtain ⟨-, hin, hdj⟩ := hfit
  have hP1 := hf.1.2.2.2.1
  obtain ⟨t1, t2, t3, t4⟩ := updateFT_tail_ur ep rowOut (getI st.UpivotLookup rowOut)
    (getI st.UpivotValue (getI st.UpivotLookup rowOut)) (getI aq.array rowOut)
    (updateFT_storeRows rowOut (updateFT_upToStoreCol aq rowOut st))
  have t5 := updateFT_tail_urspace ep rowOut (getI st.UpivotLookup rowOut)
    (getI st.UpivotValue (getI st.UpivotLookup rowOut)) (getI aq.array rowOut)
    (updateFT_storeRows rowOut (updateFT_upToStoreCol aq rowOut st))
  rw [← updateFT_eq] at t1 t2 t3 t4 t5
  rw [w4] at t3 t4 t5
  have key : ∀ (A : List Int) (a n : Int), sizeI A = n → getI (A ++ [a]) n = a := by
    intro A a n h
    rw [← h, getI_snoc]
  refine ⟨ULayout_rowSlack st hl, ⟨?_, ?_⟩, ⟨?_, ?_⟩, rfl, ?_⟩
  · intro i hi0 hi1
    have hlive : LiveAt (updateFT aq ep rowOut st) (i : Int) :=
      (LiveAt_iff _ _).mpr ⟨i, hi0, hi1, rfl⟩
    obtain ⟨q, hq, -, e1, e2, e3, e4⟩ := hsrc _ hlive
    obtain ⟨-, -, -, -, m4, m5, m6, m7⟩ := hin q hq
    unfold RowSlackAt
    rw [t1] at *
    exact ⟨by omega, e3, e4, by omega⟩
  · intro i hi0 hi1 l hl0 hl1 hne
    have hlivei : LiveAt (updateFT aq ep rowOut st) (i : Int) :=
      (LiveAt_iff _ _).mpr ⟨i, hi0, hi1, rfl⟩
    have hlivel : LiveAt (updateFT aq ep rowOut st) (l : Int) :=
      (LiveAt_iff _ _).mpr ⟨l, hl0, hl1, rfl⟩
    obtain ⟨q, hq, hcase, e1, e2, -, -⟩ := hsrc _ hlivei
    obtain ⟨q', hq', hcase', e1', e2', -, -⟩ := hsrc _ hlivel
    have hqq : q ≠ q' := by
      rcases hcase with ⟨c1, c2, c3⟩ | ⟨c1, c2⟩ <;>
        rcases hcase' with ⟨c1', c2', c3'⟩ | ⟨c1', c2'⟩
      · rw [c1, c1']; exact fun h => hne (by exact_mod_cast h)
      · rw [c1, c2']; exact c2
      · rw [c2, c1']; exact Ne.symm c2'
      · exact absurd (by exact_mod_cast c1.trans c1'.symm) hne
    unfold RowsApartAt
    rw [e1, e2, e1', e2']
    exact hdj q q' hq hq' hqq
  · rw [t3, key _ _ _ w1, p1]
  · have e4 : getI (updateFT aq ep rowOut st).URlastp (sizeI st.UpivotIndex) =
        getI st.URstart (getI st.UpivotLookup rowOut) := by
      rw [t4, key _ _ _ w2, getI_append_left _ _ (by rw [w1]; exact hP1), p1]
    have e5 : getI (updateFT aq ep rowOut st).URspace (sizeI st.UpivotIndex) =
        getI st.URspace (getI st.UpivotLookup rowOut) +
          (getI st.URlastp (getI st.UpivotLookup rowOut) -
            getI st.URstart (getI st.UpivotLookup rowOut)) := by
      rw [t5, key _ _ _ w3, getI_append_left _ _ (by rw [w2]; exact hP1),
        getI_append_left _ _ (by rw [w1]; exact hP1), p1, p2, p3]
      omega
    rw [e4, e5]
    omega
  · intro t ht l hlive hne
    obtain ⟨f1, f2, f3, -⟩ := storeRows_loop (LiveAt st) (updateFT_upToStoreCol aq rowOut st)
      rowOut _ _ hfit4 hvis t (le_of_lt ht) (updateFT_storeRows_upTo aq rowOut st t) rfl
    have g1 : (updateFT_storeRows_upTo aq rowOut st t).Uindex =
        (updateFT_upToStoreCol aq rowOut st).Uindex := by
      have := f1; simp only [ucPart, Prod.mk.injEq] at this; exact this.2.2.1
    have g3 : (updateFT_storeRows_upTo aq rowOut st t).UpivotLookup =
        (updateFT_upToStoreCol aq rowOut st).UpivotLookup := by
      have := f2; simp only [pivPart, Prod.mk.injEq] at this; exact this.1
    have hstep : updateFT_storeRows_upTo aq rowOut st (t + 1) =
        insertRowStep rowOut (getI (updateFT_upToStoreCol aq rowOut st).Ustart
          (sizeI (updateFT_upToStoreCol aq rowOut st).Ustart - 1) + (t : Int))
          (updateFT_storeRows_upTo aq rowOut st t) := rfl
    have hslot : updateFT_storeRows_slot aq rowOut st t =
        getI (updateFT_storeRows_upTo aq rowOut st t).UpivotLookup
          (getI (updateFT_storeRows_upTo aq rowOut st t).Uindex
            (getI (updateFT_upToStoreCol aq rowOut st).Ustart
              (sizeI (updateFT_upToStoreCol aq rowOut st).Ustart - 1) + (t : Int))) := rfl
    have hT := hvis t ht
    rw [← g1, ← g3] at hT
    rw [hslot] at hne
    obtain ⟨k1, k2⟩ := insertRowStep_keep rowOut _ l (updateFT_storeRows_upTo aq rowOut st t)
      (Ne.symm hne)
    rw [hstep]
    exact ⟨k1, k2, fun p hp0 hp1 => insertRowStep_untouched (LiveAt st) _ rowOut _ f3 hT l hlive
      hne p hp0 hp1⟩

/-- C40, at an input: the first update of the two-row store, whose single
insertion relocates the row of slot 1. -/
theorem C40_witness :
    ULayout exStore ∧ ColFits exStore exAq 0 ∧ UAgree exStore ∧
    RowSlack (updateFT exAq exEp0 0 exStore) ∧
    updateFT_storeRows_count exAq 0 exStore = 1 ∧
    updateFT_storeRows_slot exAq 0 exStore 0 = 1 ∧
    getI (updateFT_storeRows_upTo exAq 0 exStore 1).URindex 0 =
      getI (updateFT_storeRows_upTo exAq 0 exStore 0).URindex 0 :=
  ⟨by decide!, by decide!, by decide!,
   (C40_row_storage_separation exAq exEp0 0 exStore (by decide!) (by decide!)
     (by decide!)).2.1,
   by decide!, by decide!, by decide!⟩


theorem sizeI_swapI (v : List Int) (i j : Int) : sizeI (swapI v i j) = sizeI v := by
  unfold swapI
  rw [sizeI_setI, sizeI_setI]

theorem getI_swapI (v : List Int) (i j k : Int) (hi0 : 0 ≤ i) (hi1 : i < sizeI v)
    (hj0 : 0 ≤ j) (hj1 : j < sizeI v) :
    getI (swapI v i j) k = getI v (if k = j then i else if k = i then j else k) := by
  unfold swapI
  rw [getI_setI, getI_setI, sizeI_setI]
  by_cases h1 : k = j
  · rw [if_pos ⟨h1.symm, hj0, hj1⟩, if_pos h1]
  · rw [if_neg (fun h => h1 h.1.symm), if_neg h1]
    by_cases h2 : k = i
    · rw [if_pos ⟨h2.symm, hi0, hi1⟩, if_pos h2]
    · rw [if_neg (fun h => h2 h.1.symm), if_neg h2]

theorem swapI_inv (n : Int) (v : List Int) (i j : Int) (h : PermInv n v)
    (hi0 : 0 ≤ i) (hi1 : i < n) (hj0 : 0 ≤ j) (hj1 : j < n) : PermInv n (swapI v i j) := by
  obtain ⟨hs, hr, hinj⟩ := h
  have hg : ∀ k, getI (swapI v i j) k = getI v (if k = j then i else if k = i then j else k) :=
    fun k => getI_swapI v i j k hi0 (by rw [hs]; exact hi1) hj0 (by rw [hs]; exact hj1)
  have ht : ∀ k : Int, 0 ≤ k → k < n →
      0 ≤ (if k = j then i else if k = i then j else k) ∧
      (if k = j then i else if k = i then j else k) < n := by
    intro k hk0 hk1
    split
    · exact ⟨hi0, hi1⟩
    · split
      · exact ⟨hj0, hj1⟩
      · exact ⟨hk0, hk1⟩
  refine ⟨(sizeI_swapI v i j).trans hs, ?_, ?_⟩
  · intro k hk0 hk1
    rw [hg]
    exact hr _ (ht k hk0 hk1).1 (ht k hk0 hk1).2
  · intro k k' hk0 hk1 hk0' hk1' he
    rw [hg, hg] at he
    have := hinj _ _ (ht k hk0 hk1).1 (ht k hk0 hk1).2 (ht k' hk0' hk1').1 (ht k' hk0' hk1').2 he
    split at this <;> split at this <;> (try split at this) <;> (try split at this) <;> omega

/-- The loop of lines 184 and 199 writes the identity. -/
theorem fill_spec (n : Int) (v : List Int) (hs : sizeI v = n) :
    PermInv n (forRange 0 n (fun i w => setI w i i) v) := by
  unfold forRange
  have key : ∀ m : Nat, (m : Int) ≤ n →
      sizeI (loopUp (fun j w => setI w (0 + (j : Int)) (0 + (j : Int))) m v) = n ∧
      ∀ k : Int, 0 ≤ k → k < (m : Int) →
        getI (loopUp (fun j w => setI w (0 + (j : Int)) (0 + (j : Int))) m v) k = k := by
    intro m
    induction m with
    | zero =>
      intro _
      exact ⟨hs, fun k h0 h1 => by omega⟩
    | succ m ih =>
      intro hm
      obtain ⟨s1, g1⟩ := ih (by omega)
      show sizeI (setI _ _ _) = n ∧ ∀ k, 0 ≤ k → k < _ → getI (setI _ _ _) k = k
      refine ⟨by rw [sizeI_setI, s1], fun k hk0 hk1 => ?_⟩
      rw [getI_setI, s1]
      by_cases hk : 0 + (m : Int) = k
      · rw [if_pos ⟨hk, by omega, by omega⟩]; exact hk
      · rw [if_neg (fun h => hk h.1)]
        exact g1 k hk0 (by push_cast at hk1; omega)
  by_cases hn : 0 ≤ n
  · obtain ⟨s1, g1⟩ := key (n - 0).toNat (by omega)
    refine ⟨s1, fun k hk0 hk1 => ?_, fun k k' hk0 hk1 hk0' hk1' he => ?_⟩
    · rw [g1 k hk0 (by omega)]; exact ⟨hk0, hk1⟩
    · rw [g1 k hk0 (by omega), g1 k' hk0' (by omega)] at he; exact he
  · have := sizeI_nonneg v
    omega

/-- The loops of lines 184-188 and 199-203 keep the entries a rearrangement of the
indices, whatever non-negative values the generator returns. -/
theorem shufflePermutation_inv (random : HighsRandom) (n : Int) (v : List Int)
    (hs : sizeI v = n) (hr : ∀ k, 0 ≤ random.integer k) :
    PermInv n (shufflePermutation random n v) := by
  unfold shufflePermutation
  dsimp only
  have key : ∀ m : Nat, (m : Int) ≤ n - 1 →
      PermInv n (loopUp (fun t w => swapI w (n - 1 - (t : Int))
        (Int.tmod (random.integer t) (n - 1 - (t : Int) + 1))) m
        (forRange 0 n (fun i w => setI w i i) v)) := by
    intro m
    induction m with
    | zero => exact fun _ => fill_spec n v hs
    | succ m ih =>
      intro hm
      have h := ih (by omega)
      show PermInv n (swapI _ _ _)
      have hpos : 0 < n - 1 - (m : Int) + 1 := by push_cast at hm; omega
      have hj0 : 0 ≤ Int.tmod (random.integer m) (n - 1 - (m : Int) + 1) := by
        rw [Int.tmod_eq_emod (hr m) (le_of_lt hpos)]
        exact Int.emod_nonneg _ (by omega)
      have hj1 : Int.tmod (random.integer m) (n - 1 - (m : Int) + 1) < n - 1 - (m : Int) + 1 := by
        rw [Int.tmod_eq_emod (hr m) (le_of_lt hpos)]
        exact Int.emod_lt_of_pos _ hpos
      exact swapI_inv n _ _ _ h (by omega) (by omega) hj0 (by omega)
  by_cases hn : 1 ≤ n
  · exact key (n - 1).toNat (by omega)
  · have e : (n - 1).toNat = 0 := by omega
    rw [e]
    exact fill_spec n v hs


theorem getI_natCast_lt (v : List Int) (k : Nat) (hk : k < v.length) :
    getI v (k : Int) = v[k] := by
  unfold getI
  rw [if_pos (by omega)]
  simp [List.getD_eq_getElem?_getD, hk]

/-- A vector of `n` different indices below `n` holds each index exactly once. -/
theorem PermInv_isPermutation (n : Int) (v : List Int) (h : PermInv n v) :
    IsPermutation v n := by
  obtain ⟨hs, hr, hinj⟩ := h
  have hlen : (v.length : Int) = n := hs
  have hnd : v.Nodup := by
    rw [List.nodup_iff_injective_get]
    intro a b hab
    have ha := a.2
    have hb := b.2
    have e := hinj (a.1 : Int) (b.1 : Int) (by omega) (by omega) (by omega) (by omega)
      (by rw [getI_natCast_lt v a.1 ha, getI_natCast_lt v b.1 hb]; exact hab)
    exact Fin.ext (by exact_mod_cast e)
  have hsub : v ⊆ (List.range n.toNat).map (fun (i : Nat) => (i : Int)) := by
    intro x hx
    obtain ⟨k, hk, rfl⟩ := List.getElem_of_mem hx
    have := hr (k : Int) (by omega) (by omega)
    rw [getI_natCast_lt v k hk] at this
    rw [List.mem_map]
    exact ⟨(v[k]).toNat, List.mem_range.mpr (by omega), by omega⟩
  have hperm : v.Perm ((List.range n.toNat).map (fun (i : Nat) => (i : Int))) :=
    (List.subperm_of_subset hnd hsub).perm_of_length_le
      (by rw [List.length_map, List.length_range]; omega)
  refine ⟨hs, fun i hi => ?_⟩
  apply List.count_eq_one_of_mem hnd
  rw [hperm.mem_iff, List.mem_map]
  exact ⟨i, List.mem_range.mpr hi, rfl⟩


/-- C34 (as the code has it): for a generator that returns non-negative integers
and an LP with `numCol ≥ 0` columns and `numRow ≥ 0` rows,
`initialiseSimplexLpRandomVectors` leaves `numTotPermutation` a permutation of
`0..numTot-1` when `numTot ≠ 0` and `numColPermutation` a permutation of
`0..numCol-1` when `numCol ≠ 0`; with `numCol = 0` it does not touch
`numColPermutation`, and with `numTot = 0` it touches nothing, so that the
entries of an earlier call stay. -/
theorem C34_shuffles_are_permutations (random : HighsRandom) (numCol_ numRow_ : Int)
    (info : RandomVectors) (hc : 0 ≤ numCol_) (hr : 0 ≤ numRow_)
    (hrnd : ∀ k, 0 ≤ random.integer k) :
    (numCol_ + numRow_ ≠ 0 →
      IsPermutation
        (initialiseSimplexLpRandomVectors random numCol_ numRow_ info).numTotPermutation_
        (numCol_ + numRow_)) ∧
    (numCol_ ≠ 0 →
      IsPermutation
        (initialiseSimplexLpRandomVectors random numCol_ numRow_ info).numColPermutation_
        numCol_) ∧
    (numCol_ = 0 →
      (initialiseSimplexLpRandomVectors random numCol_ numRow_ info).numColPermutation_ =
        info.numColPermutation_) ∧
    (numCol_ + numRow_ = 0 →
      initialiseSimplexLpRandomVectors random numCol_ numRow_ info = info) := by
  have hshuf : ∀ (n : Int) (v : List Int), 0 ≤ n →
      IsPermutation (shufflePermutation random n (resizeI v n)) n := fun n v hn =>
    PermInv_isPermutation n _
      (shufflePermutation_inv random n _ (sizeI_resizeI_any v n hn) hrnd)
  refine ⟨fun ht => ?_, fun hn => ?_, fun hn => ?_, fun ht => ?_⟩
  · unfold initialiseSimplexLpRandomVectors
    simp only [if_neg ht]
    exact hshuf _ _ (by omega)
  · have ht : numCol_ + numRow_ ≠ 0 := by omega
    unfold initialiseSimplexLpRandomVectors
    simp only [if_neg ht, if_pos hn]
    exact hshuf _ _ hc
  · unfold initialiseSimplexLpRandomVectors
    by_cases ht : numCol_ + numRow_ = 0
    · simp only [if_pos ht]
    · have hn' : ¬ numCol_ ≠ 0 := fun h => h hn
      simp only [if_neg ht, if_neg hn']
  · unfold initialiseSimplexLpRandomVectors
    simp only [if_pos ht]

/-- C34, at an input: an LP with 3 columns and 2 rows and the generator that
returns `3, 4, 5, ...`. -/
theorem C34_witness :
    (initialiseSimplexLpRandomVectors exRandom 3 2 exRandomVectors).numColPermutation_ =
      [1, 2, 0] ∧
    (initialiseSimplexLpRandomVectors exRandom 3 2 exRandomVectors).numTotPermutation_ =
      [1, 4, 2, 0, 3] ∧
    IsPermutation
      (initialiseSimplexLpRandomVectors exRandom 3 2 exRandomVectors).numColPermutation_ 3 ∧
    IsPermutation
      (initialiseSimplexLpRandomVectors exRandom 3 2 exRandomVectors).numTotPermutation_ (3 + 2) :=
  ⟨by decide!, by decide!,
   (C34_shuffles_are_permutations exRandom 3 2 exRandomVectors (by decide) (by decide)
     (fun k => by show (0 : Int) ≤ (k : Int) + 3; omega)).2.1 (by decide),
   (C34_shuffles_are_permutations exRandom 3 2 exRandomVectors (by decide) (by decide)
     (fun k => by show (0 : Int) ≤ (k : Int) + 3; omega)).1 (by decide)⟩

/-- C34 fails as stated: the generator returns non-negative integers; a first
call for an LP with one column and no row leaves `numColPermutation = [0]`, a
permutation of `0..0`; a second call for an LP with no column and one row skips
lines 180-189 and leaves `numColPermutation = [0]`, which is not a permutation
of the empty range `0..-1`. -/
theorem C34_counterexample :
    (∀ k, 0 ≤ exRandom.integer k) ∧
    IsPermutation
      (initialiseSimplexLpRandomVectors exRandom 1 0 exRandomVectors).numColPermutation_ 1 ∧
    (initialiseSimplexLpRandomVectors exRandom 0 1
      (initialiseSimplexLpRandomVectors exRandom 1 0 exRandomVectors)).numColPermutation_ =
      [0] ∧
    ¬ IsPermutation (initialiseSimplexLpRandomVectors exRandom 0 1
      (initialiseSimplexLpRandomVectors exRandom 1 0 exRandomVectors)).numColPermutation_ 0 :=
  ⟨fun k => by show (0 : Int) ≤ (k : Int) + 3; omega, by decide!, by decide!, by decide!⟩


/-- A loop whose body may fail and never does returns what the loop without the
failure returns. -/
theorem loopUp_bind_some {α : Type} (g : Nat → α → Option α) (h : Nat → α → α) (n : Nat)
    (hg : ∀ j, j < n → ∀ w, g j w = some (h j w)) (w0 : α) :
    loopUp (fun j (m : Option α) => m.bind (g j)) n (some w0) = some (loopUp h n w0) := by
  induction n with
  | zero => rfl
  | succ n ih =>
    show (loopUp (fun j (m : Option α) => m.bind (g j)) n (some w0)).bind (g n) = _
    rw [ih (fun j hj => hg j (by omega))]
    exact hg n (by omega) _

/-- A loop that assigns `w[c + i] = f i` for the `i` it does not skip. -/
theorem forRange_setI_spec {α : Type} [Zero α] (c n : Int) (skip : Int → Bool) (f : Int → α)
    (w : List α) :
    sizeI (forRange 0 n (fun i t => if skip i = true then t else setI t (c + i) (f i)) w) =
      sizeI w ∧
    ∀ k : Int,
      getI (forRange 0 n (fun i t => if skip i = true then t else setI t (c + i) (f i)) w) k =
      if c ≤ k ∧ k < c + n ∧ 0 ≤ k ∧ k < sizeI w ∧ skip (k - c) = false then f (k - c)
      else getI w k := by
  unfold forRange
  have key : ∀ m : Nat,
      sizeI (loopUp (fun j t => if skip (0 + (j : Int)) = true then t
        else setI t (c + (0 + (j : Int))) (f (0 + (j : Int)))) m w) = sizeI w ∧
      ∀ k : Int,
        getI (loopUp (fun j t => if skip (0 + (j : Int)) = true then t
          else setI t (c + (0 + (j : Int))) (f (0 + (j : Int)))) m w) k =
        if c ≤ k ∧ k < c + (m : Int) ∧ 0 ≤ k ∧ k < sizeI w ∧ skip (k - c) = false then f (k - c)
        else getI w k := by
    intro m
    induction m with
    | zero =>
      refine ⟨rfl, fun k => ?_⟩
      rw [if_neg (by push_cast; omega)]
      rfl
    | succ m ih =>
      obtain ⟨s1, g1⟩ := ih
      show sizeI (if skip (0 + (m : Int)) = true then _ else setI _ _ _) = _ ∧
        ∀ k, getI (if skip (0 + (m : Int)) = true then _ else setI _ _ _) k = _
      by_cases hsk : skip (0 + (m : Int)) = true
      · rw [if_pos hsk]
        refine ⟨s1, fun k => ?_⟩
        rw [g1 k]
        by_cases hk : k = c + (m : Int)
        · have e : k - c = 0 + (m : Int) := by omega
          rw [if_neg (by omega), if_neg (by rw [e, hsk]; simp)]
        · by_cases hb : c ≤ k ∧ k < c + (m : Int) ∧ 0 ≤ k ∧ k < sizeI w ∧ skip (k - c) = false
          · rw [if_pos hb, if_pos ⟨hb.1, by push_cast; omega, hb.2.2⟩]
          · rw [if_neg hb, if_neg (fun h => hb ⟨h.1, by
              have := h.2.1; push_cast at this; omega, h.2.2⟩)]
      · rw [if_neg hsk]
        refine ⟨by rw [sizeI_setI, s1], fun k => ?_⟩
        have hsk' : skip (0 + (m : Int)) = false := by
          cases h : skip (0 + (m : Int))
          · rfl
          · exact absurd h hsk
        rw [getI_setI, s1, g1 k]
        by_cases hk : c + (0 + (m : Int)) = k
        · have e : k - c = 0 + (m : Int) := by omega
          by_cases hr : 0 ≤ k ∧ k < sizeI w
          · rw [if_pos ⟨hk, by omega, by omega⟩,
              if_pos ⟨by omega, by push_cast; omega, hr.1, hr.2, by rw [e]; exact hsk'⟩, e]
          · rw [if_neg (fun h => hr ⟨by omega, by omega⟩), if_neg (by omega),
              if_neg (fun h => hr ⟨h.2.2.1, h.2.2.2.1⟩)]
        · rw [if_neg (fun h => hk h.1)]
          by_cases hb : c ≤ k ∧ k < c + (m : Int) ∧ 0 ≤ k ∧ k < sizeI w ∧ skip (k - c) = false
          · rw [if_pos hb, if_pos ⟨hb.1, by push_cast; omega, hb.2.2⟩]
          · rw [if_neg hb, if_neg (fun h => hb ⟨h.1, by
              have := h.2.1; push_cast at this; omega, h.2.2⟩)]
  obtain ⟨s1, g1⟩ := key (n - 0).toNat
  refine ⟨s1, fun k => ?_⟩
  rw [g1 k]
  by_cases hn : 0 ≤ n
  · have e : (((n - 0).toNat : Nat) : Int) = n := by omega
    rw [e]
  · have e : (((n - 0).toNat : Nat) : Int) = 0 := by omega
    rw [e, if_neg (by omega), if_neg (by omega)]

/-- A loop over a pair whose body treats the components apart. -/
theorem forRange_pair {α β : Type} (lo hi : Int) (a : Int → α → α) (b : Int → β → β)
    (x : α) (y : β) :
    forRange lo hi (fun i (w : α × β) => (a i w.1, b i w.2)) (x, y) =
      (forRange lo hi a x, forRange lo hi b y) := by
  unfold forRange
  induction (hi - lo).toNat with
  | zero => rfl
  | succ n ih =>
    show (a _ (loopUp _ n (x, y)).1, b _ (loopUp _ n (x, y)).2) = _
    rw [ih]
    rfl


/-- The value of `move` at the assertion of line 495, with the branch on
`have_solution`, which is `false`, resolved. -/
theorem nonbasicMoveOf_eq (k : MoveConsts) (isInf : ℚ → Bool) (lower upper value : ℚ) :
    nonbasicMoveOf k isInf lower upper value =
      if lower = upper then k.NONBASIC_MOVE_ZE
      else if isInf (-lower) = false then
        if isInf upper = false then
          if |lower| < |upper| then k.NONBASIC_MOVE_UP else k.NONBASIC_MOVE_DN
        else k.NONBASIC_MOVE_UP
      else if isInf upper = false then k.NONBASIC_MOVE_DN
      else k.NONBASIC_MOVE_ZE := by
  unfold nonbasicMoveOf
  simp

theorem nonbasicMoveOf_mem (k : MoveConsts) (isInf : ℚ → Bool) (lower upper value : ℚ) :
    nonbasicMoveOf k isInf lower upper value = k.NONBASIC_MOVE_UP ∨
    nonbasicMoveOf k isInf lower upper value = k.NONBASIC_MOVE_DN ∨
    nonbasicMoveOf k isInf lower upper value = k.NONBASIC_MOVE_ZE := by
  rw [nonbasicMoveOf_eq]
  split
  · exact Or.inr (Or.inr rfl)
  · split
    · split
      · split
        · exact Or.inl rfl
        · exact Or.inr (Or.inl rfl)
      · exact Or.inl rfl
    · split
      · exact Or.inr (Or.inl rfl)
      · exact Or.inr (Or.inr rfl)

/-- What `setNonbasicMove` leaves in `nonbasicMove_`. -/
theorem setNonbasicMove_get (env : EkkEnv) (s : HEkk) (ht : 0 ≤ s.numCol_ + s.numRow_) :
    sizeI (s.setNonbasicMove env).nonbasicMove_ = s.numCol_ + s.numRow_ ∧
    ∀ iVar : Int, 0 ≤ iVar → iVar < s.numCol_ + s.numRow_ →
      getI (s.setNonbasicMove env).nonbasicMove_ iVar =
        if getI s.nonbasicFlag_ iVar = 0 then 0 else env.move iVar := by
  have hbody : ∀ k : Int, 0 ≤ k → k < s.numCol_ + s.numRow_ →
      (fun (iVar : Int) (m : List Int) => if getI s.nonbasicFlag_ iVar = 0 then setI m iVar 0
        else setI m iVar (env.move iVar)) k =
      (fun (i : Int) (t : List Int) => if (fun _ => false) i = true then t
        else setI t (0 + i) ((fun i => if getI s.nonbasicFlag_ i = 0 then 0 else env.move i) i))
        k := by
    intro k _ _
    funext m
    simp only [Bool.false_eq_true, if_false, zero_add]
    split <;> rfl
  obtain ⟨s1, g1⟩ := forRange_setI_spec 0 (s.numCol_ + s.numRow_) (fun _ => false)
    (fun i => if getI s.nonbasicFlag_ i = 0 then 0 else env.move i)
    (resizeI s.nonbasicMove_ (s.numCol_ + s.numRow_))
  have e : (s.setNonbasicMove env).nonbasicMove_ =
      forRange 0 (s.numCol_ + s.numRow_) (fun (i : Int) (t : List Int) =>
        if (fun _ => false) i = true then t
        else setI t (0 + i) ((fun i => if getI s.nonbasicFlag_ i = 0 then 0 else env.move i) i))
        (resizeI s.nonbasicMove_ (s.numCol_ + s.numRow_)) := by
    unfold HEkk.setNonbasicMove
    exact forRange_congr _ _ _ _ _ hbody
  rw [e]
  have hsz := sizeI_resizeI_any s.nonbasicMove_ (s.numCol_ + s.numRow_) ht
  refine ⟨s1.trans hsz, fun iVar h0 h1 => ?_⟩
  rw [g1 iVar, hsz, if_pos ⟨h0, by omega, h0, h1, rfl⟩]
  simp only [sub_zero]

/-- C32: `setNonbasicMove` assigns every variable a legal move and its assertion
holds. With move constants other than the illegal value -99, the function with
the assertion returns, its result is the one of the function without it, and
`nonbasicMove_` gets the size `numTot` and holds for every variable `iVar`: 0 if
it is basic; otherwise, for the bounds `(lower, upper)` of `iVar` (those of a row
being `(-rowUpper, -rowLower)`): ZE if `lower == upper`, else ZE if both bounds
are infinite, UP if only the lower bound is finite, DN if only the upper bound
is finite, and for both finite UP when `|lower| < |upper|` and DN otherwise. -/
theorem C32_setNonbasicMove_legal (k : MoveConsts) (isInf : ℚ → Bool) (lp : LpBounds)
    (env : EkkEnv) (s : HEkk) (hc : 0 ≤ s.numCol_) (hr : 0 ≤ s.numRow_)
    (hU : k.NONBASIC_MOVE_UP ≠ -99) (hD : k.NONBASIC_MOVE_DN ≠ -99)
    (hZ : k.NONBASIC_MOVE_ZE ≠ -99) :
    s.setNonbasicMove_asserted k isInf lp =
      some (s.setNonbasicMove (env.withBounds k isInf lp s)) ∧
    sizeI (s.setNonbasicMove (env.withBounds k isInf lp s)).nonbasicMove_ =
      s.numCol_ + s.numRow_ ∧
    ∀ iVar : Int, 0 ≤ iVar → iVar < s.numCol_ + s.numRow_ →
      (getI s.nonbasicFlag_ iVar = 0 →
        getI (s.setNonbasicMove (env.withBounds k isInf lp s)).nonbasicMove_ iVar = 0) ∧
      (getI s.nonbasicFlag_ iVar ≠ 0 →
        getI (s.setNonbasicMove (env.withBounds k isInf lp s)).nonbasicMove_ iVar ≠ -99 ∧
        getI (s.setNonbasicMove (env.withBounds k isInf lp s)).nonbasicMove_ iVar =
          if (s.lpBounds lp iVar).1 = (s.lpBounds lp iVar).2 then k.NONBASIC_MOVE_ZE
          else if isInf (-(s.lpBounds lp iVar).1) = true ∧ isInf (s.lpBounds lp iVar).2 = true
            then k.NONBASIC_MOVE_ZE
          else if isInf (-(s.lpBounds lp iVar).1) = false ∧ isInf (s.lpBounds lp iVar).2 = true
            then k.NONBASIC_MOVE_UP
          else if isInf (-(s.lpBounds lp iVar).1) = true ∧ isInf (s.lpBounds lp iVar).2 = false
            then k.NONBASIC_MOVE_DN
          else if |(s.lpBounds lp iVar).1| < |(s.lpBounds lp iVar).2| then k.NONBASIC_MOVE_UP
          else k.NONBASIC_MOVE_DN) := by
  obtain ⟨hsz, hget⟩ := setNonbasicMove_get (env.withBounds k isInf lp s) s (by omega)
  have hmove : ∀ iVar, (env.withBounds k isInf lp s).move iVar =
      nonbasicMoveOf k isInf (s.lpBounds lp iVar).1 (s.lpBounds lp iVar).2
        (getI s.workValue_ iVar) := fun _ => rfl
  have hne : ∀ l u v, nonbasicMoveOf k isInf l u v ≠ -99 := by
    intro l u v
    rcases nonbasicMoveOf_mem k isInf l u v with h | h | h <;> rw [h] <;> assumption
  refine ⟨?_, hsz, fun iVar h0 h1 => ⟨fun hf => ?_, fun hf => ⟨?_, ?_⟩⟩⟩
  · unfold HEkk.setNonbasicMove_asserted HEkk.setNonbasicMove forRange
    dsimp only
    rw [loopUp_bind_some _ (fun j mv => if getI s.nonbasicFlag_ (0 + (j : Int)) = 0
        then setI mv (0 + (j : Int)) 0
        else setI mv (0 + (j : Int)) ((env.withBounds k isInf lp s).move (0 + (j : Int))))]
    · rfl
    · intro j _ w
      by_cases hf : getI s.nonbasicFlag_ (0 + (j : Int)) = 0
      · rw [if_pos hf, if_pos hf]
      · rw [if_neg hf, if_neg hf, if_pos (hne _ _ _), hmove]
  · rw [hget iVar h0 h1, if_pos hf]
  · rw [hget iVar h0 h1, if_neg hf, hmove]
    exact hne _ _ _
  · rw [hget iVar h0 h1, if_neg hf, hmove, nonbasicMoveOf_eq]
    by_cases e : (s.lpBounds lp iVar).1 = (s.lpBounds lp iVar).2
    · rw [if_pos e, if_pos e]
    · rw [if_neg e, if_neg e]
      cases isInf (-(s.lpBounds lp iVar).1) <;> cases isInf (s.lpBounds lp iVar).2 <;> simp

/-- C32, at an input: an LP whose four columns are boxed, lower, upper and free
and whose row is fixed. -/
theorem C32_witness :
    (exEkkMoves.setNonbasicMove_asserted exMoveConsts exIsInfinity exLpBounds).map
      (fun s => s.nonbasicMove_) = some [1, 1, -1, 0, 0] ∧
    sizeI (exEkkMoves.setNonbasicMove
      ((exEnv 0).withBounds exMoveConsts exIsInfinity exLpBounds exEkkMoves)).nonbasicMove_ =
      4 + 1 :=
  ⟨by decide!,
   (C32_setNonbasicMove_legal exMoveConsts exIsInfinity exLpBounds (exEnv 0) exEkkMoves
     (by decide) (by decide) (by decide) (by decide) (by decide)).2.1⟩


/-- A loop that assigns `w[c + i] = f i` for `i = 0 .. n-1`. -/
theorem forRange_setI_shift {α : Type} [Zero α] (c n : Int) (f : Int → α) (w : List α) :
    sizeI (forRange 0 n (fun i t => setI t (c + i) (f i)) w) = sizeI w ∧
    ∀ k : Int, getI (forRange 0 n (fun i t => setI t (c + i) (f i)) w) k =
      if c ≤ k ∧ k < c + n ∧ 0 ≤ k ∧ k < sizeI w then f (k - c) else getI w k := by
  obtain ⟨s1, g1⟩ := forRange_setI_spec c n (fun _ => false) f w
  simp only [Bool.false_eq_true, if_false, and_true] at s1 g1
  exact ⟨s1, g1⟩

/-- A loop that assigns `w[i] = f i` for `i = 0 .. n-1`. -/
theorem forRange_setI_plain {α : Type} [Zero α] (n : Int) (f : Int → α) (w : List α) :
    sizeI (forRange 0 n (fun i t => setI t i (f i)) w) = sizeI w ∧
    ∀ k : Int, getI (forRange 0 n (fun i t => setI t i (f i)) w) k =
      if 0 ≤ k ∧ k < n ∧ k < sizeI w then f k else getI w k := by
  obtain ⟨s1, g1⟩ := forRange_setI_shift 0 n f w
  simp only [zero_add, sub_zero] at s1 g1
  refine ⟨s1, fun k => ?_⟩
  rw [g1 k]
  by_cases h : 0 ≤ k ∧ k < n ∧ k < sizeI w
  · rw [if_pos h, if_pos ⟨h.1, h.2.1, h.1, h.2.2⟩]
  · rw [if_neg h, if_neg (fun h' => h ⟨h'.1, h'.2.1, h'.2.2.2⟩)]

/-- The work bounds after `initialisePhase2ColBound` and
`initialisePhase2RowBound`: the bounds of the LP. -/
theorem initialisePhase2_bounds (lp : LpBounds) (s : HEkk)
    (hL : sizeI s.workLower_ = s.numCol_ + s.numRow_)
    (hU : sizeI s.workUpper_ = s.numCol_ + s.numRow_) :
    sizeI ((s.initialisePhase2ColBound lp).initialisePhase2RowBound lp).workLower_ =
      s.numCol_ + s.numRow_ ∧
    sizeI ((s.initialisePhase2ColBound lp).initialisePhase2RowBound lp).workUpper_ =
      s.numCol_ + s.numRow_ ∧
    ∀ iVar : Int, 0 ≤ iVar → iVar < s.numCol_ + s.numRow_ →
      getI ((s.initialisePhase2ColBound lp).initialisePhase2RowBound lp).workLower_ iVar =
        (s.lpBounds lp iVar).1 ∧
      getI ((s.initialisePhase2ColBound lp).initialisePhase2RowBound lp).workUpper_ iVar =
        (s.lpBounds lp iVar).2 := by
  obtain ⟨a1, a2⟩ := forRange_setI_plain s.numCol_ (fun i => getI lp.colLower_ i) s.workLower_
  obtain ⟨b1, b2⟩ := forRange_setI_plain s.numCol_ (fun i => getI lp.colUpper_ i) s.workUpper_
  obtain ⟨c1, c2⟩ := forRange_setI_shift s.numCol_ s.numRow_
    (fun row => -(getI lp.rowUpper_ row))
    (forRange 0 s.numCol_ (fun i t => setI t i (getI lp.colLower_ i)) s.workLower_)
  obtain ⟨d1, d2⟩ := forRange_setI_shift s.numCol_ s.numRow_
    (fun row => -(getI lp.rowLower_ row))
    (forRange 0 s.numCol_ (fun i t => setI t i (getI lp.colUpper_ i)) s.workUpper_)
  have eL : ((s.initialisePhase2ColBound lp).initialisePhase2RowBound lp).workLower_ =
      forRange 0 s.numRow_ (fun i t => setI t (s.numCol_ + i) (-(getI lp.rowUpper_ i)))
        (forRange 0 s.numCol_ (fun i t => setI t i (getI lp.colLower_ i)) s.workLower_) := by
    unfold HEkk.initialisePhase2RowBound HEkk.initialisePhase2ColBound
    dsimp only
    rw [forRange_pair 0 s.numCol_ (fun i t => setI t i (getI lp.colLower_ i))
      (fun i t => setI t i (getI lp.colUpper_ i)) s.workLower_ s.workUpper_]
    dsimp only
    rw [forRange_pair 0 s.numRow_ (fun i t => setI t (s.numCol_ + i) (-(getI lp.rowUpper_ i)))
      (fun i t => setI t (s.numCol_ + i) (-(getI lp.rowLower_ i)))]
  have eU : ((s.initialisePhase2ColBound lp).initialisePhase2RowBound lp).workUpper_ =
      forRange 0 s.numRow_ (fun i t => setI t (s.numCol_ + i) (-(getI lp.rowLower_ i)))
        (forRange 0 s.numCol_ (fun i t => setI t i (getI lp.colUpper_ i)) s.workUpper_) := by
    unfold HEkk.initialisePhase2RowBound HEkk.initialisePhase2ColBound
    dsimp only
    rw [forRange_pair 0 s.numCol_ (fun i t => setI t i (getI lp.colLower_ i))
      (fun i t => setI t i (getI lp.colUpper_ i)) s.workLower_ s.workUpper_]
    dsimp only
    rw [forRange_pair 0 s.numRow_ (fun i t => setI t (s.numCol_ + i) (-(getI lp.rowUpper_ i)))
      (fun i t => setI t (s.numCol_ + i) (-(getI lp.rowLower_ i)))]
  rw [eL, eU]
  refine ⟨by rw [c1, a1, hL], by rw [d1, b1, hU], fun iVar h0 h1 => ⟨?_, ?_⟩⟩
  · rw [c2 iVar, a2 iVar, a1, hL]
    unfold HEkk.lpBounds
    by_cases hv : iVar < s.numCol_
    · rw [if_neg (fun h => absurd h.1 (by omega)), if_pos ⟨h0, hv, h1⟩, if_pos hv]
    · rw [if_pos ⟨by omega, h1, h0, h1⟩, if_neg hv]
  · rw [d2 iVar, b2 iVar, b1, hU]
    unfold HEkk.lpBounds
    by_cases hv : iVar < s.numCol_
    · rw [if_neg (fun h => absurd h.1 (by omega)), if_pos ⟨h0, hv, h1⟩, if_pos hv]
    · rw [if_pos ⟨by omega, h1, h0, h1⟩, if_neg hv]

/-- The loop of lines 555-578: the bounds of dual phase 1, position by
position. -/
theorem initialiseBound_loop (inf : ℚ) (numCol : Int) (n : Int) (L U : List ℚ)
    (hL : sizeI L = n) (hU : sizeI U = n) :
    sizeI (forRange 0 n (initialiseBound_step inf numCol) (L, U)).1 = n ∧
    sizeI (forRange 0 n (initialiseBound_step inf numCol) (L, U)).2 = n ∧
    ∀ k : Int, 0 ≤ k → k < n →
      (getI (forRange 0 n (initialiseBound_step inf numCol) (L, U)).1 k,
        getI (forRange 0 n (initialiseBound_step inf numCol) (L, U)).2 k) =
      if getI L k = -inf ∧ getI U k = inf then
        if k ≥ numCol then (getI L k, getI U k) else (-1000, 1000)
      else if getI L k = -inf then (-1, 0)
      else if getI U k = inf then (0, 1)
      else (0, 0) := by
  unfold forRange
  have key : ∀ m : Nat, (m : Int) ≤ n →
      sizeI (loopUp (fun j t => initialiseBound_step inf numCol (0 + (j : Int)) t) m (L, U)).1
        = n ∧
      sizeI (loopUp (fun j t => initialiseBound_step inf numCol (0 + (j : Int)) t) m (L, U)).2
        = n ∧
      (∀ k : Int, (m : Int) ≤ k →
        getI (loopUp (fun j t => initialiseBound_step inf numCol (0 + (j : Int)) t) m (L, U)).1
          k = getI L k ∧
        getI (loopUp (fun j t => initialiseBound_step inf numCol (0 + (j : Int)) t) m (L, U)).2
          k = getI U k) ∧
      ∀ k : Int, 0 ≤ k → k < (m : Int) →
        (getI (loopUp (fun j t => initialiseBound_step inf numCol (0 + (j : Int)) t) m (L, U)).1
            k,
          getI (loopUp (fun j t => initialiseBound_step inf numCol (0 + (j : Int)) t) m (L, U)).2
            k) =
        if getI L k = -inf ∧ getI U k = inf then
          if k ≥ numCol then (getI L k, getI U k) else (-1000, 1000)
        else if getI L k = -inf then (-1, 0)
        else if getI U k = inf then (0, 1)
        else (0, 0) := by
    intro m
    induction m with
    | zero =>
      intro _
      exact ⟨hL, hU, fun k _ => ⟨rfl, rfl⟩, fun k h0 h1 => by omega⟩
    | succ m ih =>
      intro hm
      obtain ⟨s1, s2, keep, done⟩ := ih (by omega)
      have hs : loopUp (fun j t => initialiseBound_step inf numCol (0 + (j : Int)) t) (m + 1)
          (L, U) = initialiseBound_step inf numCol (0 + (m : Int))
          (loopUp (fun j t => initialiseBound_step inf numCol (0 + (j : Int)) t) m (L, U)) := rfl
      rw [hs]
      generalize loopUp (fun j t => initialiseBound_step inf numCol (0 + (j : Int)) t) m (L, U)
        = q at s1 s2 keep done ⊢
      obtain ⟨kL, kU⟩ := keep (0 + (m : Int)) (by omega)
      have hin1 : 0 ≤ 0 + (m : Int) ∧ 0 + (m : Int) < sizeI q.1 := by
        rw [s1]; push_cast at hm; omega
      have hin2 : 0 ≤ 0 + (m : Int) ∧ 0 + (m : Int) < sizeI q.2 := by
        rw [s2]; push_cast at hm; omega
      -- the step writes a pair that depends on the entries at its own position
      have hstep : ∀ (x y : ℚ),
          (sizeI (setI q.1 (0 + (m : Int)) x) = n ∧ sizeI (setI q.2 (0 + (m : Int)) y) = n) ∧
          (∀ k : Int, ((m + 1 : Nat) : Int) ≤ k →
            getI (setI q.1 (0 + (m : Int)) x) k = getI L k ∧
            getI (setI q.2 (0 + (m : Int)) y) k = getI U k) ∧
          ∀ k : Int, 0 ≤ k → k < ((m + 1 : Nat) : Int) →
            (getI (setI q.1 (0 + (m : Int)) x) k, getI (setI q.2 (0 + (m : Int)) y) k) =
            if k = 0 + (m : Int) then (x, y) else (getI q.1 k, getI q.2 k) := by
        intro x y
        refine ⟨⟨by rw [sizeI_setI, s1], by rw [sizeI_setI, s2]⟩, fun k hk => ?_,
          fun k h0 h1 => ?_⟩
        · have hne : 0 + (m : Int) ≠ k := by push_cast at hk; omega
          rw [getI_setI_ne _ _ hne, getI_setI_ne _ _ hne]
          exact keep k (by push_cast at hk; omega)
        · by_cases hk : k = 0 + (m : Int)
          · rw [if_pos hk, hk, getI_setI_eq _ _ hin1.1 hin1.2, getI_setI_eq _ _ hin2.1 hin2.2]
          · rw [if_neg hk, getI_setI_ne _ _ (Ne.symm hk), getI_setI_ne _ _ (Ne.symm hk)]
      have hfin : ∀ (x y : ℚ) (r : List ℚ × List ℚ),
          (r = (setI q.1 (0 + (m : Int)) x, setI q.2 (0 + (m : Int)) y) ∨
            (r = q ∧ x = getI L (0 + (m : Int)) ∧ y = getI U (0 + (m : Int)))) →
          (x, y) = (if getI L (0 + (m : Int)) = -inf ∧ getI U (0 + (m : Int)) = inf then
              if 0 + (m : Int) ≥ numCol then (getI L (0 + (m : Int)), getI U (0 + (m : Int)))
              else (-1000, 1000)
            else if getI L (0 + (m : Int)) = -inf then (-1, 0)
            else if getI U (0 + (m : Int)) = inf then (0, 1)
            else (0, 0)) →
          sizeI r.1 = n ∧ sizeI r.2 = n ∧
          (∀ k : Int, ((m + 1 : Nat) : Int) ≤ k →
            getI r.1 k = getI L k ∧ getI r.2 k = getI U k) ∧
          ∀ k : Int, 0 ≤ k → k < ((m + 1 : Nat) : Int) →
            (getI r.1 k, getI r.2 k) =
            if getI L k = -inf ∧ getI U k = inf then
              if k ≥ numCol then (getI L k, getI U k) else (-1000, 1000)
            else if getI L k = -inf then (-1, 0)
            else if getI U k = inf then (0, 1)
            else (0, 0) := by
        intro x y r hr hxy
        rcases hr with hr | ⟨hr, hx, hy⟩
        · obtain ⟨⟨z1, z2⟩, z3, z4⟩ := hstep x y
          rw [hr]
          refine ⟨z1, z2, z3, fun k h0 h1 => ?_⟩
          rw [z4 k h0 h1]
          by_cases hk : k = 0 + (m : Int)
          · rw [if_pos hk, hk]; exact hxy
          · rw [if_neg hk]; exact done k h0 (by push_cast at h1; omega)
        · rw [hr]
          refine ⟨s1, s2, fun k hk => keep k (by push_cast at hk; omega), fun k h0 h1 => ?_⟩
          by_cases hk : k = 0 + (m : Int)
          · rw [hx, hy] at hxy
            rw [hk, kL, kU]; exact hxy
          · exact done k h0 (by push_cast at h1; omega)
      unfold initialiseBound_step
      rw [kL, kU]
      by_cases c1 : getI L (0 + (m : Int)) = -inf ∧ getI U (0 + (m : Int)) = inf
      · rw [if_pos c1]
        by_cases c2 : 0 + (m : Int) ≥ numCol
        · rw [if_pos c2]
          exact hfin _ _ q (Or.inr ⟨rfl, rfl, rfl⟩) (by rw [if_pos c1, if_pos c2])
        · rw [if_neg c2]
          exact hfin (-1000) 1000 _ (Or.inl rfl) (by rw [if_pos c1, if_neg c2])
      · rw [if_neg c1]
        by_cases c3 : getI L (0 + (m : Int)) = -inf
        · rw [if_pos c3]
          exact hfin (-1) 0 _ (Or.inl rfl) (by rw [if_neg c1, if_pos c3])
        · rw [if_neg c3]
          by_cases c4 : getI U (0 + (m : Int)) = inf
          · rw [if_pos c4]
            exact hfin 0 1 _ (Or.inl rfl) (by rw [if_neg c1, if_neg c3, if_pos c4])
          · rw [if_neg c4]
            exact hfin 0 0 _ (Or.inl rfl) (by rw [if_neg c1, if_neg c3, if_neg c4])
  have hn : 0 ≤ n := by rw [← hL]; exact sizeI_nonneg L
  obtain ⟨s1, s2, -, done⟩ := key (n - 0).toNat (by omega)
  exact ⟨s1, s2, fun k h0 h1 => done k h0 (by omega)⟩


/-- What `initialiseBound` leaves: the bounds of the LP in phase 2, the bounds of
dual phase 1 otherwise, at every position; the other members stay. -/
theorem initialiseBound_spec (inf : ℚ) (lp : LpBounds) (phase : Int) (s : HEkk)
    (hL : sizeI s.workLower_ = s.numCol_ + s.numRow_)
    (hU : sizeI s.workUpper_ = s.numCol_ + s.numRow_) :
    ((s.initialiseBound inf lp phase).numCol_ = s.numCol_ ∧
      (s.initialiseBound inf lp phase).numRow_ = s.numRow_ ∧
      (s.initialiseBound inf lp phase).nonbasicFlag_ = s.nonbasicFlag_ ∧
      (s.initialiseBound inf lp phase).nonbasicMove_ = s.nonbasicMove_ ∧
      (s.initialiseBound inf lp phase).workValue_ = s.workValue_) ∧
    ∀ iVar : Int, 0 ≤ iVar → iVar < s.numCol_ + s.numRow_ →
      (getI (s.initialiseBound inf lp phase).workLower_ iVar,
        getI (s.initialiseBound inf lp phase).workUpper_ iVar) =
      if phase = 2 then ((s.lpBounds lp iVar).1, (s.lpBounds lp iVar).2)
      else if (s.lpBounds lp iVar).1 = -inf ∧ (s.lpBounds lp iVar).2 = inf then
        if iVar ≥ s.numCol_ then ((s.lpBounds lp iVar).1, (s.lpBounds lp iVar).2)
        else (-1000, 1000)
      else if (s.lpBounds lp iVar).1 = -inf then (-1, 0)
      else if (s.lpBounds lp iVar).2 = inf then (0, 1)
      else (0, 0) := by
  obtain ⟨z1, z2, z3⟩ := initialisePhase2_bounds lp s hL hU
  by_cases hp : phase = 2
  · have e : s.initialiseBound inf lp phase =
        (s.initialisePhase2ColBound lp).initialisePhase2RowBound lp := by
      unfold HEkk.initialiseBound
      simp only [if_pos hp]
    rw [e]
    refine ⟨⟨rfl, rfl, rfl, rfl, rfl⟩, fun iVar h0 h1 => ?_⟩
    rw [if_pos hp, (z3 iVar h0 h1).1, (z3 iVar h0 h1).2]
  · obtain ⟨q1, q2, q3⟩ := initialiseBound_loop inf s.numCol_ (s.numCol_ + s.numRow_)
      ((s.initialisePhase2ColBound lp).initialisePhase2RowBound lp).workLower_
      ((s.initialisePhase2ColBound lp).initialisePhase2RowBound lp).workUpper_ z1 z2
    have eL : (s.initialiseBound inf lp phase).workLower_ =
        (forRange 0 (s.numCol_ + s.numRow_) (initialiseBound_step inf s.numCol_)
          (((s.initialisePhase2ColBound lp).initialisePhase2RowBound lp).workLower_,
            ((s.initialisePhase2ColBound lp).initialisePhase2RowBound lp).workUpper_)).1 := by
      unfold HEkk.initialiseBound
      simp only [if_neg hp]
      rfl
    have eU : (s.initialiseBound inf lp phase).workUpper_ =
        (forRange 0 (s.numCol_ + s.numRow_) (initialiseBound_step inf s.numCol_)
          (((s.initialisePhase2ColBound lp).initialisePhase2RowBound lp).workLower_,
            ((s.initialisePhase2ColBound lp).initialisePhase2RowBound lp).workUpper_)).2 := by
      unfold HEkk.initialiseBound
      simp only [if_neg hp]
      rfl
    refine ⟨⟨?_, ?_, ?_, ?_, ?_⟩, fun iVar h0 h1 => ?_⟩
    · unfold HEkk.initialiseBound; simp only [if_neg hp]; rfl
    · unfold HEkk.initialiseBound; simp only [if_neg hp]; rfl
    · unfold HEkk.initialiseBound; simp only [if_neg hp]; rfl
    · unfold HEkk.initialiseBound; simp only [if_neg hp]; rfl
    · unfold HEkk.initialiseBound; simp only [if_neg hp]; rfl
    · rw [eL, eU, q3 iVar h0 h1, if_neg hp, (z3 iVar h0 h1).1, (z3 iVar h0 h1).2]

/-- What `initialiseNonbasicWorkValue` leaves when the move of every nonbasic
variable whose bounds differ is UP, DN or ZE: it returns, and the value of a
nonbasic variable is the one lines 716-725 choose. -/
theorem initialiseNonbasicWorkValue_spec (k : MoveConsts) (t : HEkk)
    (hV : sizeI t.workValue_ = t.numCol_ + t.numRow_)
    (hmove : ∀ iVar : Int, 0 ≤ iVar → iVar < t.numCol_ + t.numRow_ →
      getI t.nonbasicFlag_ iVar ≠ 0 → getI t.workLower_ iVar ≠ getI t.workUpper_ iVar →
      getI t.nonbasicMove_ iVar ≠ k.NONBASIC_MOVE_UP →
      getI t.nonbasicMove_ iVar ≠ k.NONBASIC_MOVE_DN →
      getI t.nonbasicMove_ iVar = k.NONBASIC_MOVE_ZE) :
    ∃ t', t.initialiseNonbasicWorkValue k = some t' ∧
      t'.workLower_ = t.workLower_ ∧ t'.workUpper_ = t.workUpper_ ∧
      ∀ iVar : Int, 0 ≤ iVar → iVar < t.numCol_ + t.numRow_ →
        getI t.nonbasicFlag_ iVar ≠ 0 →
        getI t'.workValue_ iVar =
          if getI t.workLower_ iVar = getI t.workUpper_ iVar then getI t.workLower_ iVar
          else if getI t.nonbasicMove_ iVar = k.NONBASIC_MOVE_UP then getI t.workLower_ iVar
          else if getI t.nonbasicMove_ iVar = k.NONBASIC_MOVE_DN then getI t.workUpper_ iVar
          else 0 := by
  obtain ⟨s1, g1⟩ := forRange_setI_spec 0 (t.numCol_ + t.numRow_)
    (fun i => decide (getI t.nonbasicFlag_ i = 0))
    (fun i => if getI t.workLower_ i = getI t.workUpper_ i then getI t.workLower_ i
      else if getI t.nonbasicMove_ i = k.NONBASIC_MOVE_UP then getI t.workLower_ i
      else if getI t.nonbasicMove_ i = k.NONBASIC_MOVE_DN then getI t.workUpper_ i
      else 0) t.workValue_
  have hloop : forRange 0 (t.numCol_ + t.numRow_)
      (fun iVar (w : Option (List ℚ)) => w.bind (fun wv =>
        if getI t.nonbasicFlag_ iVar = 0 then some wv
        else
          if getI t.workLower_ iVar = getI t.workUpper_ iVar then
            some (setI wv iVar (getI t.workLower_ iVar))
          else if getI t.nonbasicMove_ iVar = k.NONBASIC_MOVE_UP then
            some (setI wv iVar (getI t.workLower_ iVar))
          else if getI t.nonbasicMove_ iVar = k.NONBASIC_MOVE_DN then
            some (setI wv iVar (getI t.workUpper_ iVar))
          else if getI t.nonbasicMove_ iVar = k.NONBASIC_MOVE_ZE then some (setI wv iVar 0)
          else none))
      (some t.workValue_) =
      some (forRange 0 (t.numCol_ + t.numRow_)
        (fun i w => if (fun i => decide (getI t.nonbasicFlag_ i = 0)) i = true then w
          else setI w (0 + i)
            ((fun i => if getI t.workLower_ i = getI t.workUpper_ i then getI t.workLower_ i
              else if getI t.nonbasicMove_ i = k.NONBASIC_MOVE_UP then getI t.workLower_ i
              else if getI t.nonbasicMove_ i = k.NONBASIC_MOVE_DN then getI t.workUpper_ i
              else 0) i)) t.workValue_) := by
    unfold forRange
    apply loopUp_bind_some
    intro j hj w
    have h0 : (0 : Int) ≤ 0 + (j : Int) := by omega
    have h1 : 0 + (j : Int) < t.numCol_ + t.numRow_ := by omega
    simp only [decide_eq_true_eq, zero_add]
    by_cases hf : getI t.nonbasicFlag_ (j : Int) = 0
    · rw [if_pos hf, if_pos hf]
    · rw [if_neg hf, if_neg hf]
      by_cases c1 : getI t.workLower_ (j : Int) = getI t.workUpper_ (j : Int)
      · rw [if_pos c1, if_pos c1]
      · rw [if_neg c1, if_neg c1]
        by_cases c2 : getI t.nonbasicMove_ (j : Int) = k.NONBASIC_MOVE_UP
        · rw [if_pos c2, if_pos c2]
        · rw [if_neg c2, if_neg c2]
          by_cases c3 : getI t.nonbasicMove_ (j : Int) = k.NONBASIC_MOVE_DN
          · rw [if_pos c3, if_pos c3]
          · rw [if_neg c3, if_neg c3]
            have hz := hmove (j : Int) (by omega) (by omega) hf c1 c2 c3
            rw [if_pos hz]
  generalize forRange 0 (t.numCol_ + t.numRow_)
    (fun i w => if (fun i => decide (getI t.nonbasicFlag_ i = 0)) i = true then w
      else setI w (0 + i)
        ((fun i => if getI t.workLower_ i = getI t.workUpper_ i then getI t.workLower_ i
          else if getI t.nonbasicMove_ i = k.NONBASIC_MOVE_UP then getI t.workLower_ i
          else if getI t.nonbasicMove_ i = k.NONBASIC_MOVE_DN then getI t.workUpper_ i
          else 0) i)) t.workValue_ = W at s1 g1 hloop
  refine ⟨{ t with workValue_ := W }, ?_, rfl, rfl, ?_⟩
  · unfold HEkk.initialiseNonbasicWorkValue
    dsimp only
    rw [hloop]
    rfl
  · intro iVar h0 h1 hf
    show getI W iVar = _
    rw [g1 iVar, hV, if_pos ⟨h0, by omega, h0, h1, by simpa using hf⟩]
    simp only [sub_zero]


/-- C33: nonbasic variables start on their bounds. After `setNonbasicMove`,
`allocateWorkAndBaseArrays`, `initialiseBound` (either phase) and
`initialiseNonbasicWorkValue`, the last call returns (its assertion holds) and
the work value of every nonbasic variable is its work lower bound, its work
upper bound, or 0 for a free variable (both bounds of the LP infinite), and lies
between the work bounds when the bounds of the LP satisfy `lower ≤ upper`. The
constant `HIGHS_CONST_INF` is positive and `highs_isInfinity` holds of no
negative value. -/
theorem C33_nonbasic_start_on_bounds (k : MoveConsts) (isInf : ℚ → Bool) (inf : ℚ)
    (lp : LpBounds) (phase : Int) (env : EkkEnv) (s : HEkk)
    (hc : 0 ≤ s.numCol_) (hr : 0 ≤ s.numRow_) (hinf : 0 < inf)
    (hpos : ∀ x, isInf x = true → 0 ≤ x) :
    ∃ s4, (((s.setNonbasicMove (env.withBounds k isInf lp s)).allocateWorkAndBaseArrays
        ).initialiseBound inf lp phase).initialiseNonbasicWorkValue k = some s4 ∧
      ∀ iVar : Int, 0 ≤ iVar → iVar < s.numCol_ + s.numRow_ →
        getI s.nonbasicFlag_ iVar ≠ 0 →
        (getI s4.workValue_ iVar = getI s4.workLower_ iVar ∨
          getI s4.workValue_ iVar = getI s4.workUpper_ iVar ∨
          (getI s4.workValue_ iVar = 0 ∧ isInf (-(s.lpBounds lp iVar).1) = true ∧
            isInf (s.lpBounds lp iVar).2 = true)) ∧
        ((s.lpBounds lp iVar).1 ≤ (s.lpBounds lp iVar).2 →
          getI s4.workLower_ iVar ≤ getI s4.workValue_ iVar ∧
          getI s4.workValue_ iVar ≤ getI s4.workUpper_ iVar) := by
  have ht : 0 ≤ s.numCol_ + s.numRow_ := by omega
  obtain ⟨-, hget⟩ := setNonbasicMove_get (env.withBounds k isInf lp s) s ht
  have hmv : ∀ iVar : Int, 0 ≤ iVar → iVar < s.numCol_ + s.numRow_ →
      getI s.nonbasicFlag_ iVar ≠ 0 →
      getI (s.setNonbasicMove (env.withBounds k isInf lp s)).nonbasicMove_ iVar =
        nonbasicMoveOf k isInf (s.lpBounds lp iVar).1 (s.lpBounds lp iVar).2
          (getI s.workValue_ iVar) := by
    intro iVar h0 h1 hf
    rw [hget iVar h0 h1, if_neg hf]
    rfl
  obtain ⟨⟨e1, e2, e3, e4, e5⟩, hb⟩ := initialiseBound_spec inf lp phase
    (s.setNonbasicMove (env.withBounds k isInf lp s)).allocateWorkAndBaseArrays
    (sizeI_resizeI_any _ _ ht) (sizeI_resizeI_any _ _ ht)
  generalize ((s.setNonbasicMove (env.withBounds k isInf lp s)).allocateWorkAndBaseArrays
    ).initialiseBound inf lp phase = C at e1 e2 e3 e4 e5 hb
  have e1' : C.numCol_ = s.numCol_ := e1
  have e2' : C.numRow_ = s.numRow_ := e2
  have e3' : C.nonbasicFlag_ = s.nonbasicFlag_ := e3
  have e4' : C.nonbasicMove_ =
      (s.setNonbasicMove (env.withBounds k isInf lp s)).nonbasicMove_ := e4
  have hb' : ∀ iVar : Int, 0 ≤ iVar → iVar < s.numCol_ + s.numRow_ →
      (getI C.workLower_ iVar, getI C.workUpper_ iVar) =
      if phase = 2 then ((s.lpBounds lp iVar).1, (s.lpBounds lp iVar).2)
      else if (s.lpBounds lp iVar).1 = -inf ∧ (s.lpBounds lp iVar).2 = inf then
        if iVar ≥ s.numCol_ then ((s.lpBounds lp iVar).1, (s.lpBounds lp iVar).2)
        else (-1000, 1000)
      else if (s.lpBounds lp iVar).1 = -inf then (-1, 0)
      else if (s.lpBounds lp iVar).2 = inf then (0, 1)
      else (0, 0) := hb
  have hV : sizeI C.workValue_ = C.numCol_ + C.numRow_ := by
    rw [e5, e1', e2']
    exact sizeI_resizeI_any _ _ ht
  obtain ⟨s4, r1, r2, r3, r4⟩ := initialiseNonbasicWorkValue_spec k C hV (by
    intro iVar h0 h1 hf _ c2 c3
    rw [e1', e2'] at h1
    rw [e3'] at hf
    rw [e4', hmv iVar h0 h1 hf] at c2 c3 ⊢
    rcases nonbasicMoveOf_mem k isInf (s.lpBounds lp iVar).1 (s.lpBounds lp iVar).2
      (getI s.workValue_ iVar) with h | h | h
    · exact absurd h c2
    · exact absurd h c3
    · exact h)
  refine ⟨s4, r1, fun iVar h0 h1 hf => ?_⟩
  have hv := r4 iVar h0 (by rw [e1', e2']; exact h1) (by rw [e3']; exact hf)
  rw [r2, r3, hv, e4', hmv iVar h0 h1 hf]
  have hlu := hb' iVar h0 h1
  generalize getI C.workLower_ iVar = l at hlu ⊢
  generalize getI C.workUpper_ iVar = u at hlu ⊢
  generalize (s.lpBounds lp iVar).1 = lower at hlu ⊢
  generalize (s.lpBounds lp iVar).2 = upper at hlu ⊢
  generalize hm : nonbasicMoveOf k isInf lower upper (getI s.workValue_ iVar) = mv
  rw [nonbasicMoveOf_eq] at hm
  -- the bounds of dual phase 1 enclose 0
  have hph1 : phase ≠ 2 → l ≤ 0 ∧ 0 ≤ u := by
    intro hp
    rw [if_neg hp] at hlu
    split at hlu
    · rename_i hfree
      split at hlu
      · simp only [Prod.mk.injEq] at hlu
        rw [hlu.1, hlu.2, hfree.1, hfree.2]
        constructor <;> linarith
      · simp only [Prod.mk.injEq] at hlu
        rw [hlu.1, hlu.2]
        constructor <;> norm_num
    · split at hlu
      · simp only [Prod.mk.injEq] at hlu
        rw [hlu.1, hlu.2]
        constructor <;> norm_num
      · split at hlu <;>
        · simp only [Prod.mk.injEq] at hlu
          rw [hlu.1, hlu.2]
          constructor <;> norm_num
  by_cases c1 : l = u
  · rw [if_pos c1]
    exact ⟨Or.inl rfl, fun _ => ⟨le_refl _, le_of_eq c1⟩⟩
  rw [if_neg c1]
  by_cases c2 : mv = k.NONBASIC_MOVE_UP
  · rw [if_pos c2]
    refine ⟨Or.inl rfl, fun hle => ⟨le_refl _, ?_⟩⟩
    by_cases hp : phase = 2
    · rw [if_pos hp] at hlu
      simp only [Prod.mk.injEq] at hlu
      rw [hlu.1, hlu.2]; exact hle
    · exact le_trans (hph1 hp).1 (hph1 hp).2
  rw [if_neg c2]
  by_cases c3 : mv = k.NONBASIC_MOVE_DN
  · rw [if_pos c3]
    refine ⟨Or.inr (Or.inl rfl), fun hle => ⟨?_, le_refl _⟩⟩
    by_cases hp : phase = 2
    · rw [if_pos hp] at hlu
      simp only [Prod.mk.injEq] at hlu
      rw [hlu.1, hlu.2]; exact hle
    · exact le_trans (hph1 hp).1 (hph1 hp).2
  rw [if_neg c3]
  -- the move is ZE: the variable is fixed or free
  by_cases hfix : lower = upper
  · have hp : phase ≠ 2 := by
      intro hp
      rw [if_pos hp] at hlu
      simp only [Prod.mk.injEq] at hlu
      exact c1 (by rw [hlu.1, hlu.2, hfix])
    have h01 := hph1 hp
    rw [if_neg hp] at hlu
    refine ⟨?_, fun _ => h01⟩
    split at hlu
    · rename_i hfree
      exfalso
      have : inf = 0 := by
        have h1 := hfree.1
        have h2 := hfree.2
        rw [hfix] at h1
        linarith
      linarith
    · split at hlu
      · simp only [Prod.mk.injEq] at hlu
        exact Or.inr (Or.inl hlu.2.symm)
      · split at hlu
        · simp only [Prod.mk.injEq] at hlu
          exact Or.inl hlu.1.symm
        · simp only [Prod.mk.injEq] at hlu
          exact absurd (hlu.1.trans hlu.2.symm) c1
  · rw [if_neg hfix] at hm
    have hfree : isInf (-lower) = true ∧ isInf upper = true := by
      cases h1 : isInf (-lower) <;> cases h2 : isInf upper <;> rw [h1, h2] at hm <;>
        simp at hm
      · split at hm
        · exact absurd hm.symm c2
        · exact absurd hm.symm c3
      · exact absurd hm.symm c2
      · exact absurd hm.symm c3
      · exact ⟨rfl, rfl⟩
    refine ⟨Or.inr (Or.inr ⟨rfl, hfree⟩), fun _ => ?_⟩
    by_cases hp : phase = 2
    · rw [if_pos hp] at hlu
      simp only [Prod.mk.injEq] at hlu
      have a1 := hpos _ hfree.1
      have a2 := hpos _ hfree.2
      rw [hlu.1, hlu.2]
      constructor <;> linarith
    · exact hph1 hp


/-- C33, at an input: the LP with a boxed, a lower-bounded, an upper-bounded and
a free column and a fixed row, all nonbasic, in phase 2 and in phase 1. -/
theorem C33_witness :
    ((((exEkkMoves.setNonbasicMove
        ((exEnv 0).withBounds exMoveConsts exIsInfinity exLpBounds exEkkMoves)
        ).allocateWorkAndBaseArrays).initialiseBound 100000000000000000000 exLpBounds
        2).initialiseNonbasicWorkValue exMoveConsts).map (fun s => s.workValue_) =
      some [-1, 3, 5, 0, -4] ∧
    ((((exEkkMoves.setNonbasicMove
        ((exEnv 0).withBounds exMoveConsts exIsInfinity exLpBounds exEkkMoves)
        ).allocateWorkAndBaseArrays).initialiseBound 100000000000000000000 exLpBounds
        1).initialiseNonbasicWorkValue exMoveConsts).map
        (fun s => (s.workLower_, s.workUpper_, s.workValue_)) =
      some ([0, 0, -1, -1000, 0], [0, 1, 0, 1000, 0], [0, 0, 0, 0, 0]) ∧
    ∃ s4, (((exEkkMoves.setNonbasicMove
        ((exEnv 0).withBounds exMoveConsts exIsInfinity exLpBounds exEkkMoves)
        ).allocateWorkAndBaseArrays).initialiseBound 100000000000000000000 exLpBounds
        1).initialiseNonbasicWorkValue exMoveConsts = some s4 ∧
      ∀ iVar : Int, 0 ≤ iVar → iVar < exEkkMoves.numCol_ + exEkkMoves.numRow_ →
        getI exEkkMoves.nonbasicFlag_ iVar ≠ 0 →
        (getI s4.workValue_ iVar = getI s4.workLower_ iVar ∨
          getI s4.workValue_ iVar = getI s4.workUpper_ iVar ∨
          (getI s4.workValue_ iVar = 0 ∧
            exIsInfinity (-(exEkkMoves.lpBounds exLpBounds iVar).1) = true ∧
            exIsInfinity (exEkkMoves.lpBounds exLpBounds iVar).2 = true)) ∧
        ((exEkkMoves.lpBounds exLpBounds iVar).1 ≤ (exEkkMoves.lpBounds exLpBounds iVar).2 →
          getI s4.workLower_ iVar ≤ getI s4.workValue_ iVar ∧
          getI s4.workValue_ iVar ≤ getI s4.workUpper_ iVar) :=
  ⟨by decide!, by decide!,
   C33_nonbasic_start_on_bounds exMoveConsts exIsInfinity 100000000000000000000 exLpBounds 1
     (exEnv 0) exEkkMoves (by decide) (by decide) (by norm_num)
     (fun x hx => le_trans (by norm_num) (of_decide_eq_true hx))⟩


end HFactorFT
